import Mathlib

/-!
# beecask: a log-structured key-value store

A shallow embedding of the Go package `beecask` (files `items.go`, `file.go`,
`activefile.go`, `datafile.go`, `hintfile.go`, `keydir.go`, `beecask.go`) and
theorems about it.

Conventions of the embedding.

* A byte is a `Fin 256`; a Go `[]byte` or `string` is a `List Byte`.
* `uint32` values are natural numbers kept below `2^32` by an explicit
  `% 2^32` at every conversion the source performs (`uint32(len(key))`,
  `uint32(offset)`, the `uint32` sum in `Record.Size`).  `int64` quantities
  that are sizes or offsets are natural numbers; `expiration`, the clock and
  `MaxFileSize` are integers.  File ids (`uint64`, incremented once per
  rotation) are natural numbers.
* The directory `dirPath` is a list of `(name, content)` pairs in listing
  order; a file name is kept in parsed form (`%08d.data` is `FileName.data id`,
  `%08d.hint` is `FileName.hint id`).
* An `*os.File` opened for appending is an `OsFile`: its bytes and the room
  left on the device (`none`: unbounded).  The engine opens its files with
  unbounded room.
* Mutation is explicit state passing; a Go `(value, error)` pair is a pair
  with an `Option Error`, or an `Except`.
* The engine is modelled sequentially: the hint-file goroutine started by
  a rotation runs to completion inside the rotation.
-/

namespace beecask

/-! ## Bytes, little-endian integers, CRC-32 -/

abbrev Byte := Fin 256

/-- Error values: the three of `beecask.go`, `io.EOF`, the three operating-system
errors the model can produce, and `hang` for a loop that never returns. -/
inductive Error where
  | ErrInvalid
  | ErrDataCorruption
  | ErrDataNotExist
  | EOF
  | ENOENT
  | ENOSPC
  | negativeOffset
  | hang
  deriving DecidableEq, Repr

/-- Little-endian encoding of the low `w` bytes of `v`
(`binary.LittleEndian.PutUint32` for `w = 4`, `PutUint64` for `w = 8`). -/
def putLE : Nat → Nat → List Byte
  | 0, _ => []
  | w + 1, v => Fin.ofNat v :: putLE w (v / 256)

/-- Little-endian decoding (`binary.LittleEndian.Uint32`, `Uint64`). -/
def getLE : List Byte → Nat
  | [] => 0
  | b :: bs => b.val + 256 * getLE bs

/-- Go slice expression `s[lo:hi]`. -/
def slice (s : List Byte) (lo hi : Nat) : List Byte := (s.take hi).drop lo

/-- Conversion `uint32(x)`. -/
def toUint32 (x : Nat) : Nat := x % 2 ^ 32

/-- Conversion `uint64(x)` of an `int64`. -/
def int64ToUint64 (x : Int) : Nat := (x % 2 ^ 64).toNat

/-- Conversion `int64(x)` of a `uint64`. -/
def uint64ToInt64 (x : Nat) : Int := if x < 2 ^ 63 then (x : Int) else (x : Int) - 2 ^ 64

/-- One bit of the reflected CRC-32 register update, polynomial `0xEDB88320`. -/
def crcBit (c : Nat) : Nat := if c % 2 = 1 then (c / 2) ^^^ 0xEDB88320 else c / 2

/-- One byte of the register update. -/
def crcByte (c : Nat) (b : Byte) : Nat :=
  crcBit (crcBit (crcBit (crcBit (crcBit (crcBit (crcBit (crcBit (c ^^^ b.val))))))))

/-- Standard library `crc32.Update(crc, crc32.IEEETable, p)`. -/
def crc32Update (crc : Nat) (p : List Byte) : Nat :=
  (p.foldl crcByte (crc ^^^ 0xFFFFFFFF)) ^^^ 0xFFFFFFFF

/-- Standard library `crc32.ChecksumIEEE(p)`. -/
def ChecksumIEEE (p : List Byte) : Nat := crc32Update 0 p

/-! ## items.go -/

def DATA_ITEM_HEADER_SIZE : Nat := 24

def RECORD_FLAG_BIT_DELETE : Nat := 1

structure Record where
  crc : Nat
  flag : Nat
  expiration : Int
  keySize : Nat
  valueSize : Nat
  key : List Byte
  value : List Byte
  deriving DecidableEq, Repr

/-- Go `Record.Size`: the sum is computed in `uint32` and then widened. -/
def Record.Size (r : Record) : Nat := toUint32 (DATA_ITEM_HEADER_SIZE + r.keySize + r.valueSize)

/-! ## file.go -/

structure OsFile where
  bytes : List Byte
  room : Option Nat
  deriving DecidableEq, Repr

/-- Go `os.File.Write` on an append-mode descriptor: all of `data` is written,
or the device fills up, the part that fits is written and an error is returned. -/
def OsFile.Write (f : OsFile) (data : List Byte) : OsFile × Nat × Option Error :=
  match f.room with
  | none => ({ f with bytes := f.bytes ++ data }, data.length, none)
  | some m =>
    if data.length ≤ m then
      ({ bytes := f.bytes ++ data, room := some (m - data.length) }, data.length, none)
    else
      ({ bytes := f.bytes ++ data.take m, room := some 0 }, m, some Error.ENOSPC)

/-- Go `os.File.ReadAt(b, off)` with `len(b) = len`: the bytes read, and `io.EOF`
when fewer than `len` were available. -/
def OsFile.ReadAt (f : OsFile) (len off : Nat) : List Byte × Option Error :=
  let d := (f.bytes.drop off).take len
  (d, if d.length < len then some Error.EOF else none)

structure MmapFile where
  mmapedRegion : List Byte
  deriving DecidableEq, Repr

def MmapFile.Size (file : MmapFile) : Nat := file.mmapedRegion.length

def MmapFile.ReadAt (file : MmapFile) (offset len : Nat) : List Byte × Option Error :=
  if offset > file.Size then
    ([], some Error.ErrInvalid)
  else if offset + len > file.Size then
    (file.mmapedRegion.drop offset, some Error.EOF)
  else
    (slice file.mmapedRegion offset (offset + len), none)

structure FileWithBuffer where
  f : OsFile
  size : Nat
  wbuf : List Byte
  n : Nat
  deriving DecidableEq, Repr

def NewFileWithBuffer (f : OsFile) (size wbufSize : Nat) : FileWithBuffer :=
  { f := f, size := size, wbuf := List.replicate wbufSize 0, n := 0 }

/-- Go `copy(buf[lo:hi], src)`: the updated `buf` and the number of bytes copied. -/
def copySlice (buf : List Byte) (lo hi : Nat) (src : List Byte) : List Byte × Nat :=
  let k := min (hi - lo) src.length
  (buf.take lo ++ src.take k ++ buf.drop (lo + k), k)

/-- Go `FileWithBuffer.ReadAt` for an offset and a length that are not negative and
small enough for `make([]byte, size)` and the sum `offset+size` to succeed, as in
the calls of `ReadRecordAt`, whose lengths are below `2^32`.
`FileWithBuffer.ReadAtInt64` is the same function on `int64` arguments, with the
panics. -/
def FileWithBuffer.ReadAt (file : FileWithBuffer) (offset size : Nat) :
    List Byte × Option Error :=
  if offset > file.size then
    ([], some Error.ErrInvalid)
  else
    let fsize := file.size - file.n
    if offset ≥ fsize then
      -- data all from buffer
      let data := (slice file.wbuf (offset - fsize) file.n).take size
      (data, if data.length < size then some Error.EOF else none)
    else if offset + size ≤ fsize then
      -- data all from file.f
      file.f.ReadAt size offset
    else
      -- data from both file.f and buffer
      match file.f.ReadAt (fsize - offset) offset with
      | (d, some e) => (d, some e)
      | (d, none) =>
        let data := d ++ (slice file.wbuf 0 file.n).take (size - (fsize - offset))
        (data, if data.length < size then some Error.EOF else none)

def FileWithBuffer.Flush (file : FileWithBuffer) : FileWithBuffer × Option Error :=
  if file.n = 0 then
    (file, none)
  else
    match file.f.Write (slice file.wbuf 0 file.n) with
    | (f1, n, some e) =>
      let wbuf1 :=
        if 0 < n ∧ n < file.n then
          (copySlice file.wbuf 0 (file.n - n) (slice file.wbuf n file.n)).1
        else file.wbuf
      ({ file with f := f1, wbuf := wbuf1, n := file.n - n }, some e)
    | (f1, _, none) => ({ file with f := f1, n := 0 }, none)

/-- The loop of `FileWithBuffer.Write`; the result is the file, the data left,
`nn` and `err` at loop exit.  The loop body runs at most twice (a direct write
ends it, a flush empties the buffer so that the next pass is a direct write or
the exit), so the fuel `3` given by `Write` is never used up. -/
def FileWithBuffer.writeLoop :
    Nat → FileWithBuffer → List Byte → Nat → FileWithBuffer × List Byte × Nat × Option Error
  | 0, file, data, nn => (file, data, nn, some Error.hang)
  | fuel + 1, file, data, nn =>
    if data.length > file.wbuf.length - file.n then
      if file.n = 0 then
        -- Large write, empty buffer: write directly
        match file.f.Write data with
        | (f1, n, some e) => ({ file with f := f1 }, data.drop n, nn + n, some e)
        | (f1, n, none) => writeLoop fuel { file with f := f1 } (data.drop n) (nn + n)
      else
        let c := copySlice file.wbuf file.n file.wbuf.length data
        match ({ file with wbuf := c.1, n := file.n + c.2 } : FileWithBuffer).Flush with
        | (file1, some e) => (file1, data.drop c.2, nn + c.2, some e)
        | (file1, none) => writeLoop fuel file1 (data.drop c.2) (nn + c.2)
    else
      (file, data, nn, none)

def FileWithBuffer.Write (file : FileWithBuffer) (data : List Byte) :
    FileWithBuffer × Nat × Option Error :=
  match file.writeLoop 3 data 0 with
  | (file1, _, nn, some e) => ({ file1 with size := file1.size + nn }, nn, some e)
  | (file1, data1, nn, none) =>
    let c := copySlice file1.wbuf file1.n file1.wbuf.length data1
    ({ file1 with wbuf := c.1, n := file1.n + c.2, size := file1.size + (nn + c.2) },
      nn + c.2, none)

def FileWithBuffer.Size (file : FileWithBuffer) : Nat := file.size

/-- Go `FileWithBuffer.Close`: flush, ignoring the error, then close the descriptor. -/
def FileWithBuffer.Close (file : FileWithBuffer) : FileWithBuffer := file.Flush.1

/-- Go `FileWithBuffer.Sync`: flush, ignoring the error, then `fsync`. -/
def FileWithBuffer.Sync (file : FileWithBuffer) : FileWithBuffer := file.Flush.1

/-! ## Finite maps as association lists (Go maps, the directory) -/

/-- Map lookup. -/
def alookup {α β : Type} [DecidableEq α] (k : α) : List (α × β) → Option β
  | [] => none
  | (a, b) :: t => if a = k then some b else alookup k t

/-- Map assignment: overwrite in place, or add at the end. -/
def aset {α β : Type} [DecidableEq α] (k : α) (v : β) : List (α × β) → List (α × β)
  | [] => [(k, v)]
  | (a, b) :: t => if a = k then (k, v) :: t else (a, b) :: aset k v t

/-- Map deletion. -/
def aerase {α β : Type} [DecidableEq α] (k : α) : List (α × β) → List (α × β)
  | [] => []
  | (a, b) :: t => if a = k then aerase k t else (a, b) :: aerase k t

inductive FileName where
  | data (fileId : Nat)
  | hint (fileId : Nat)
  deriving DecidableEq, Repr

/-- The directory `dirPath`: file names with their contents, in listing order. -/
abbrev Dir := List (FileName × List Byte)

/-- Go `ReadDir`. -/
def ReadDir (dir : Dir) : List FileName := dir.map Prod.fst

/-! ## activefile.go -/

structure ActiveFile where
  file : FileWithBuffer
  fileId : Nat
  deriving DecidableEq, Repr

/-- Go `NewActiveFile`: open `getDataFilePath(dir, fileId)` with
`O_CREATE|O_RDWR|O_APPEND`; the file is created empty when absent. -/
def NewActiveFile (dir : Dir) (fileId wbufSize : Nat) : Dir × ActiveFile :=
  let content := (alookup (FileName.data fileId) dir).getD []
  (aset (FileName.data fileId) content dir,
   { file := NewFileWithBuffer { bytes := content, room := none } content.length wbufSize,
     fileId := fileId })

/-- The header fields decoded from the 24 header bytes, key and value not yet read
(shared by `ActiveFile.ReadRecordAt` and `DataFile.ReadRecordAt`). -/
def decodeHeader (data : List Byte) : Record :=
  { crc := getLE (slice data 0 4)
    flag := getLE (slice data 4 8)
    expiration := uint64ToInt64 (getLE (slice data 8 16))
    keySize := getLE (slice data 16 20)
    valueSize := getLE (slice data 20 24)
    key := []
    value := [] }

def ActiveFile.ReadRecordAt (af : ActiveFile) (offset : Nat) : Except Error Record :=
  match af.file.ReadAt offset DATA_ITEM_HEADER_SIZE with
  | (_, some e) => Except.error e
  | (data, none) =>
    let r := decodeHeader data
    match af.file.ReadAt (offset + DATA_ITEM_HEADER_SIZE) r.keySize with
    | (_, some e) => Except.error e
    | (key, none) =>
      match af.file.ReadAt (offset + DATA_ITEM_HEADER_SIZE + r.keySize) r.valueSize with
      | (_, some e) => Except.error e
      | (value, none) =>
        -- check crc
        let crc := crc32Update (crc32Update (ChecksumIEEE (data.drop 4)) key) value
        if crc ≠ r.crc then Except.error Error.ErrDataCorruption
        else Except.ok { r with key := key, value := value }

/-- The bytes `header[4:24]` that `WriteRecord` builds. -/
def headerTail (r : Record) : List Byte :=
  putLE 4 r.flag ++ putLE 8 (int64ToUint64 r.expiration) ++ putLE 4 r.keySize ++
    putLE 4 r.valueSize

/-- The checksum `WriteRecord` stores in `r.crc` and in `header[0:4]`. -/
def recordCrc (r : Record) : Nat :=
  crc32Update (crc32Update (ChecksumIEEE (headerTail r)) r.key) r.value

/-- Go `ActiveFile.WriteRecord`: the segment afterwards and the offset or the error
(the assignment to `r.crc` is not returned; the checksum is in the header). -/
def ActiveFile.WriteRecord (af : ActiveFile) (r : Record) : ActiveFile × Except Error Nat :=
  if r.keySize ≠ toUint32 r.key.length ∨ r.valueSize ≠ toUint32 r.value.length then
    (af, Except.error Error.ErrInvalid)
  else
    let header := putLE 4 (recordCrc r) ++ headerTail r
    let offset := af.file.Size
    match af.file.Write header with
    | (f1, _, some e) => ({ af with file := f1 }, Except.error e)
    | (f1, _, none) =>
      match f1.Write r.key with
      | (f2, _, some e) => ({ af with file := f2 }, Except.error e)
      | (f2, _, none) =>
        match f2.Write r.value with
        | (f3, _, some e) => ({ af with file := f3 }, Except.error e)
        | (f3, _, none) => ({ af with file := f3 }, Except.ok offset)

def ActiveFile.FileId (af : ActiveFile) : Nat := af.fileId

/-! ## datafile.go -/

def defaultCacheCapacity : Int := 512

structure DataFile where
  file : MmapFile
  fileId : Nat
  deriving DecidableEq, Repr

/-- Go `NewDataFile`: open read-only and map the whole content. -/
def NewDataFile (dir : Dir) (fileId : Nat) : Except Error DataFile :=
  match alookup (FileName.data fileId) dir with
  | none => Except.error Error.ENOENT
  | some content => Except.ok { file := { mmapedRegion := content }, fileId := fileId }

def DataFile.ReadRecordAt (df : DataFile) (offset : Nat) : Except Error Record :=
  match df.file.ReadAt offset DATA_ITEM_HEADER_SIZE with
  | (_, some e) => Except.error e
  | (buff, none) =>
    let r := decodeHeader buff
    match df.file.ReadAt (offset + DATA_ITEM_HEADER_SIZE) r.keySize with
    | (_, some e) => Except.error e
    | (key, none) =>
      match df.file.ReadAt (offset + DATA_ITEM_HEADER_SIZE + r.keySize) r.valueSize with
      | (_, some e) => Except.error e
      | (value, none) =>
        let crc := crc32Update (crc32Update (ChecksumIEEE (buff.drop 4)) key) value
        if crc ≠ r.crc then Except.error Error.ErrDataCorruption
        else Except.ok { r with key := key, value := value }

/-- The loop of `DataFile.ForEachRecord`, from `offset`, with the state `s` the
callback works on.  Fuel `0` stands for an iteration that never ends. -/
def DataFile.forEachLoop {σ : Type} (df : DataFile)
    (fn : Record → Nat → Nat → σ → σ × Option Error) : Nat → Nat → σ → σ × Option Error
  | 0, _, s => (s, some Error.hang)
  | fuel + 1, offset, s =>
    match df.ReadRecordAt offset with
    | Except.error e => if e = Error.EOF then (s, none) else (s, some e)
    | Except.ok r =>
      match fn r df.fileId offset s with
      | (s1, some e) => (s1, some e)
      | (s1, none) => df.forEachLoop fn fuel (offset + r.Size) s1

/-- Go `DataFile.ForEachRecord`.  A pass that reads a record moves the offset
forward unless `Record.Size` wraps to `0`; `len + 2` passes therefore suffice
whenever the Go loop ends. -/
def DataFile.ForEachRecord {σ : Type} (df : DataFile)
    (fn : Record → Nat → Nat → σ → σ × Option Error) (s : σ) : σ × Option Error :=
  df.forEachLoop fn (df.file.Size + 2) 0 s

def DataFile.Size (df : DataFile) : Nat := df.file.Size

/-- Go `CacheEntry`.  `refCount` holds the value of the `int32` field.  `unref`,
`Ref`, `Evict` and `Close` below count in exact integers, which is the `int32`
arithmetic of the source as long as fewer than `2^31 - 1` references of an entry are
outstanding (the engine holds at most one at a time); `unrefInt32`, `RefInt32`,
`EvictInt32` and `CloseInt32` are the same functions with the wrap-around. -/
structure CacheEntry where
  df : DataFile
  refCount : Int
  inList : Bool
  deriving DecidableEq, Repr

/-- Go `DataFileCache`: `l` is the LRU list, front first, each element named by the
file id of its entry; `hash` is the index from file id to entry. -/
structure DataFileCache where
  l : List Nat
  hash : List (Nat × CacheEntry)
  capacity : Int
  deriving DecidableEq, Repr

def NewDataFileCache (capacity : Int) : DataFileCache :=
  { l := [], hash := [], capacity := if capacity ≤ 0 then defaultCacheCapacity else capacity }

/-- Go `DataFileCache.unref`, on the entry indexed under `fileId`. -/
def DataFileCache.unref (cache : DataFileCache) (fileId : Nat) : DataFileCache :=
  match alookup fileId cache.hash with
  | none => cache
  | some entry =>
    let entry1 := { entry with refCount := entry.refCount - 1 }
    if entry1.refCount = 0 ∧ entry1.inList = false then
      -- No reference and not in cache: close the associated file
      { cache with hash := aerase fileId cache.hash }
    else
      { cache with hash := aset fileId entry1 cache.hash }

/-- Mark the entry indexed under `fileId` as out of the list (`e.inList = false`). -/
def DataFileCache.markOut (cache : DataFileCache) (fileId : Nat) : DataFileCache :=
  match alookup fileId cache.hash with
  | none => cache
  | some entry => { cache with hash := aset fileId { entry with inList := false } cache.hash }

/-- The loop `for cache.l.Len() > cache.capacity` of `Ref`. -/
def DataFileCache.shrink : Nat → DataFileCache → DataFileCache
  | 0, cache => cache
  | fuel + 1, cache =>
    if (cache.l.length : Int) > cache.capacity then
      match cache.l.getLast? with
      | none => cache
      | some back =>
        shrink fuel ((({ cache with l := cache.l.dropLast } : DataFileCache).markOut back).unref back)
    else cache

/-- The part of `Ref` after the entry is known: count the reference, move the
entry to the front when it is in the list, enforce the capacity. -/
def DataFileCache.refEntry (cache : DataFileCache) (fileId : Nat) (entry : CacheEntry) :
    DataFileCache × Except Error DataFile :=
  let entry1 := { entry with refCount := entry.refCount + 1 }
  let cache1 : DataFileCache :=
    { cache with
      hash := aset fileId entry1 cache.hash
      l := if entry1.inList then fileId :: cache.l.erase fileId else cache.l }
  (cache1.shrink cache1.l.length, Except.ok entry1.df)

/-- Go `DataFileCache.Ref`: the cache afterwards and the data file of the entry. -/
def DataFileCache.Ref (cache : DataFileCache) (dir : Dir) (fileId : Nat) :
    DataFileCache × Except Error DataFile :=
  match alookup fileId cache.hash with
  | none =>
    -- Create a new cache entry when not in cache
    match NewDataFile dir fileId with
    | Except.error e => (cache, Except.error e)
    | Except.ok df =>
      let entry : CacheEntry := { df := df, refCount := 1, inList := true }
      ({ cache with l := fileId :: cache.l, hash := aset fileId entry cache.hash } :
        DataFileCache).refEntry fileId entry
  | some entry => cache.refEntry fileId entry

def DataFileCache.Unref (cache : DataFileCache) (fileId : Nat) : DataFileCache :=
  cache.unref fileId

def DataFileCache.Evict (cache : DataFileCache) (fileId : Nat) : DataFileCache :=
  match alookup fileId cache.hash with
  | none => cache
  | some entry =>
    if entry.inList then
      (({ cache with l := cache.l.erase fileId } : DataFileCache).markOut fileId).unref fileId
    else cache

/-- The loop of `DataFileCache.Close`. -/
def DataFileCache.drain : Nat → DataFileCache → DataFileCache
  | 0, cache => cache
  | fuel + 1, cache =>
    match cache.l.getLast? with
    | none => cache
    | some back =>
      drain fuel ((({ cache with l := cache.l.dropLast } : DataFileCache).markOut back).unref back)

def DataFileCache.Close (cache : DataFileCache) : DataFileCache :=
  cache.drain cache.l.length

/-! ## hintfile.go -/

def HINT_ITEM_HEADER_SIZE : Nat := 24

structure HintItem where
  flag : Nat
  expiration : Int
  keySize : Nat
  valueSize : Nat
  valuePos : Nat
  key : List Byte
  deriving DecidableEq, Repr

def HintItem.Encode (item : HintItem) : List Byte :=
  putLE 4 item.flag ++ putLE 8 (int64ToUint64 item.expiration) ++ putLE 4 item.keySize ++
    putLE 4 item.valueSize ++ putLE 4 item.valuePos ++
    (copySlice (List.replicate item.keySize 0) 0 item.keySize item.key).1

structure ReadableHintFile where
  file : MmapFile
  deriving DecidableEq, Repr

def NewReadableHintFile (dir : Dir) (fileId : Nat) : Except Error ReadableHintFile :=
  match alookup (FileName.hint fileId) dir with
  | none => Except.error Error.ENOENT
  | some content => Except.ok { file := { mmapedRegion := content } }

def ReadableHintFile.readItemAt (rhf : ReadableHintFile) (offset : Nat) :
    Except Error HintItem :=
  match rhf.file.ReadAt offset HINT_ITEM_HEADER_SIZE with
  | (_, some e) => Except.error e
  | (buff, none) =>
    let keySize := getLE (slice buff 12 16)
    match rhf.file.ReadAt (offset + HINT_ITEM_HEADER_SIZE) keySize with
    | (_, some e) => Except.error e
    | (key, none) =>
      Except.ok
        { flag := getLE (slice buff 0 4)
          expiration := uint64ToInt64 (getLE (slice buff 4 12))
          keySize := keySize
          valueSize := getLE (slice buff 16 20)
          valuePos := getLE (slice buff 20 24)
          key := key }

/-- The loop of `ReadableHintFile.ForEachItem`; every pass that reads an item
moves the offset forward by at least the header size. -/
def ReadableHintFile.forEachLoop {σ : Type} (rhf : ReadableHintFile)
    (fn : HintItem → σ → σ × Option Error) : Nat → Nat → σ → σ × Option Error
  | 0, _, s => (s, some Error.hang)
  | fuel + 1, offset, s =>
    match rhf.readItemAt offset with
    | Except.error e => if e = Error.EOF then (s, none) else (s, some e)
    | Except.ok item =>
      match fn item s with
      | (s1, some e) => (s1, some e)
      | (s1, none) =>
        rhf.forEachLoop fn fuel (offset + HINT_ITEM_HEADER_SIZE + item.keySize) s1

def ReadableHintFile.ForEachItem {σ : Type} (rhf : ReadableHintFile)
    (fn : HintItem → σ → σ × Option Error) (s : σ) : σ × Option Error :=
  rhf.forEachLoop fn (rhf.file.Size + 2) 0 s

/-- Go `WritableHintFile`: the hint file opened with `O_CREATE|O_WRONLY|O_APPEND`
behind a `bufio.Writer`, whose buffering `Close` undoes by flushing. -/
structure WritableHintFile where
  fileId : Nat
  bytes : List Byte
  deriving DecidableEq, Repr

def NewWritableHintFile (dir : Dir) (fileId : Nat) : WritableHintFile :=
  { fileId := fileId, bytes := (alookup (FileName.hint fileId) dir).getD [] }

def WritableHintFile.Append (whf : WritableHintFile) (buff : List Byte) : WritableHintFile :=
  { whf with bytes := whf.bytes ++ buff }

def WritableHintFile.Close (whf : WritableHintFile) (dir : Dir) : Dir :=
  aset (FileName.hint whf.fileId) whf.bytes dir

/-! ## keydir.go -/

structure KDItem where
  fileId : Nat
  valuePos : Nat
  valueSize : Nat
  flag : Nat
  deriving DecidableEq, Repr

structure KeyDir where
  dict : List (List Byte × KDItem)
  deriving DecidableEq, Repr

def NewKeyDir : KeyDir := { dict := [] }

def KeyDir.Get (kd : KeyDir) (key : List Byte) : Option KDItem := alookup key kd.dict

def KeyDir.Set (kd : KeyDir) (key : List Byte) (item : KDItem) : KeyDir :=
  { dict := aset key item kd.dict }

def KeyDir.Delete (kd : KeyDir) (key : List Byte) : KeyDir := { dict := aerase key kd.dict }

def KeyDir.Keys (kd : KeyDir) : List (List Byte) :=
  (kd.dict.filter (fun kv => kv.2.flag &&& RECORD_FLAG_BIT_DELETE = 0)).map Prod.fst

/-! ## options.go -/

structure Options where
  WriteBufferSize : Nat
  MaxFileSize : Int
  MaxOpenFiles : Int
  deriving DecidableEq, Repr

def NewOptions : Options :=
  { WriteBufferSize := 4 <<< 20, MaxFileSize := 32 <<< 20, MaxOpenFiles := 1000 }

/-! ## beecask.go -/

structure Beecask where
  options : Options
  dir : Dir
  minDataFileId : Nat
  maxDataFileId : Nat
  keydir : KeyDir
  activeKeydir : KeyDir
  activeFile : ActiveFile
  dataFileCache : DataFileCache
  isMerging : Nat
  deriving DecidableEq, Repr

/-- The fields of `Beecask` that `scan` fills before the active file is opened. -/
structure Recovery where
  dir : Dir
  minDataFileId : Nat
  maxDataFileId : Nat
  keydir : KeyDir
  dataFileCache : DataFileCache
  deriving DecidableEq, Repr

/-- The callback of `restoreFromHintFile`; the state is the directory and the
shared `item`, whose `flag` the callback never assigns. -/
def restoreHintItem (fileId : Nat) (hitem : HintItem) (s : KeyDir × KDItem) :
    (KeyDir × KDItem) × Option Error :=
  let key := hitem.key
  let take : Bool :=
    match s.1.Get key with
    | none => true
    | some kdItem =>
      decide (fileId > kdItem.fileId ∨
        (fileId = kdItem.fileId ∧ hitem.valuePos > kdItem.valuePos))
  if take then
    let item := { s.2 with fileId := fileId, valueSize := hitem.valueSize,
                           valuePos := hitem.valuePos }
    ((s.1.Set key item, item), none)
  else (s, none)

def Recovery.restoreFromHintFile (bc : Recovery) (fileId : Nat) : Recovery × Option Error :=
  match NewReadableHintFile bc.dir fileId with
  | Except.error e => (bc, some e)
  | Except.ok rhf =>
    let item : KDItem := { fileId := 0, valuePos := 0, valueSize := 0, flag := 0 }
    match rhf.ForEachItem (restoreHintItem fileId) (bc.keydir, item) with
    | (s, err) => ({ bc with keydir := s.1 }, err)

/-- The callback of `restoreFromDataFile`; `dfId` is `entry.df.fileId`. -/
def restoreRecord (dfId : Nat) (r : Record) (fileId offset : Nat) (s : KeyDir × KDItem) :
    (KeyDir × KDItem) × Option Error :=
  let key := r.key
  let take : Bool :=
    match s.1.Get key with
    | none => true
    | some kdItem =>
      decide (fileId > kdItem.fileId ∨
        (fileId = kdItem.fileId ∧ toUint32 offset > kdItem.valuePos))
  if take then
    let item : KDItem := { fileId := dfId, valuePos := toUint32 offset,
                           valueSize := r.valueSize, flag := r.flag }
    ((s.1.Set key item, item), none)
  else (s, none)

def Recovery.restoreFromDataFile (bc : Recovery) (fileId : Nat) : Recovery × Option Error :=
  match bc.dataFileCache.Ref bc.dir fileId with
  | (cache1, Except.error e) => ({ bc with dataFileCache := cache1 }, some e)
  | (cache1, Except.ok df) =>
    let item : KDItem := { fileId := 0, valuePos := 0, valueSize := 0, flag := 0 }
    match df.ForEachRecord (restoreRecord df.fileId) (bc.keydir, item) with
    | (s, err) => ({ bc with keydir := s.1, dataFileCache := cache1.Unref fileId }, err)

def Recovery.restore (bc : Recovery) (fileId : Nat) : Recovery × Option Error :=
  -- try to restore data from hint file
  let fromHint : Option (Recovery × Option Error) :=
    match alookup (FileName.hint fileId) bc.dir with
    | some _ => some (bc.restoreFromHintFile fileId)
    | none => none
  match fromHint with
  | some (bc1, none) => (bc1, none)
  | some (bc1, some _) => bc1.restoreFromDataFile fileId
  | none => bc.restoreFromDataFile fileId

/-- The loop of `scan` over the directory listing. -/
def Recovery.scanLoop : List FileName → Recovery → Recovery × Option Error
  | [], bc => (bc, none)
  | FileName.hint _ :: names, bc => scanLoop names bc
  | FileName.data fileId :: names, bc =>
    match bc.restore fileId with
    | (bc1, some e) => (bc1, some e)
    | (bc1, none) =>
      let min1 := if bc1.minDataFileId = 0 ∨ bc1.minDataFileId > fileId then fileId
                  else bc1.minDataFileId
      let max1 := if bc1.maxDataFileId = 0 ∨ bc1.maxDataFileId < fileId then fileId
                  else bc1.maxDataFileId
      scanLoop names { bc1 with minDataFileId := min1, maxDataFileId := max1 }

/-- Go `NewBeecask` with `scan` inlined after the construction of the fields. -/
def NewBeecask (options : Options) (dirPath : Dir) : Except Error Beecask :=
  let bc0 : Recovery :=
    { dir := dirPath, minDataFileId := 0, maxDataFileId := 0, keydir := NewKeyDir,
      dataFileCache := NewDataFileCache options.MaxOpenFiles }
  match bc0.scanLoop (ReadDir dirPath) with
  | (_, some e) => Except.error e
  | (bc1, none) =>
    -- open active file
    let bc2 : Recovery :=
      if bc1.maxDataFileId = 0 then
        { bc1 with minDataFileId := bc1.minDataFileId + 1,
                   maxDataFileId := bc1.maxDataFileId + 1 }
      else bc1
    let fileId := bc2.maxDataFileId
    -- Evict datafile from cache if exist to prevent opening active-file twice
    let cache := bc2.dataFileCache.Evict fileId
    let opened := NewActiveFile bc2.dir fileId options.WriteBufferSize
    Except.ok
      { options := options
        dir := opened.1
        minDataFileId := bc2.minDataFileId
        maxDataFileId := bc2.maxDataFileId
        keydir := bc2.keydir
        activeKeydir := NewKeyDir
        activeFile := opened.2
        dataFileCache := cache
        isMerging := 0 }

/-- The end of `Get`, from the record read at the directory entry. -/
def checkRecord (key : List Byte) (now : Int) (read : Except Error Record) :
    Except Error (List Byte) :=
  match read with
  | Except.error e => Except.error e
  | Except.ok r =>
    -- check data valid
    if r.key ≠ key then Except.error Error.ErrDataCorruption
    -- check data expiration
    else if r.expiration > 0 ∧ r.expiration ≤ now then Except.error Error.ErrDataNotExist
    else Except.ok r.value

/-- Go `Beecask.Get`, with `now` the value of `time.Now().Unix()`; the engine
afterwards differs in its segment cache only. -/
def Beecask.Get (bc : Beecask) (key : List Byte) (now : Int) :
    Beecask × Except Error (List Byte) :=
  match bc.keydir.Get key with
  | none => (bc, Except.error Error.ErrDataNotExist)
  | some kdItem =>
    if kdItem.flag &&& RECORD_FLAG_BIT_DELETE > 0 then
      -- Record has been deleted
      (bc, Except.error Error.ErrDataNotExist)
    else if kdItem.fileId = bc.activeFile.fileId then
      -- Data on active file
      (bc, checkRecord key now (bc.activeFile.ReadRecordAt kdItem.valuePos))
    else
      -- Data on data file
      match bc.dataFileCache.Ref bc.dir kdItem.fileId with
      | (cache1, Except.error e) => ({ bc with dataFileCache := cache1 }, Except.error e)
      | (cache1, Except.ok df) =>
        ({ bc with dataFileCache := cache1.Unref kdItem.fileId },
          checkRecord key now (df.ReadRecordAt kdItem.valuePos))

def Beecask.Keys (bc : Beecask) : List (List Byte) := bc.keydir.Keys

/-- Go `Beecask.generateHintFile`, which touches the directory only. -/
def generateHintFile (dir : Dir) (keydir : KeyDir) (fileId : Nat) : Dir :=
  let whf := keydir.dict.foldl
    (fun (whf : WritableHintFile) (kv : List Byte × KDItem) =>
      whf.Append (HintItem.Encode
        { flag := kv.2.flag, expiration := 0, keySize := toUint32 kv.1.length,
          valueSize := kv.2.valueSize, valuePos := kv.2.valuePos, key := kv.1 }))
    (NewWritableHintFile dir fileId)
  whf.Close dir

def Beecask.rotateActiveFile (bc : Beecask) : Beecask :=
  -- generate hint file in another goroutine
  let dir1 := generateHintFile bc.dir bc.activeKeydir bc.activeFile.FileId
  let closed := bc.activeFile.file.Close
  let dir2 := aset (FileName.data bc.activeFile.fileId) closed.f.bytes dir1
  let fileId := bc.maxDataFileId + 1
  let opened := NewActiveFile dir2 fileId bc.options.WriteBufferSize
  { bc with dir := opened.1, maxDataFileId := fileId, activeKeydir := NewKeyDir,
            activeFile := opened.2 }

/-- Go `Beecask.setRecord`.  A failed append is fatal in the source
(`ylog.Fatalf`): the model stops there and returns the error. -/
def Beecask.setRecord (bc : Beecask) (r : Record) : Beecask × Option Error :=
  -- rotate active file
  let bc1 :=
    if ((bc.activeFile.file.Size + r.Size : Nat) : Int) ≥ bc.options.MaxFileSize then
      bc.rotateActiveFile
    else bc
  -- write record to active file
  match bc1.activeFile.WriteRecord r with
  | (af, Except.error e) =>
    ({ bc1 with activeFile := af,
                dir := aset (FileName.data af.fileId) af.file.f.bytes bc1.dir }, some e)
  | (af, Except.ok offset) =>
    -- update key dir
    let kdItem : KDItem :=
      { fileId := af.FileId, valuePos := toUint32 offset, valueSize := r.valueSize,
        flag := r.flag }
    ({ bc1 with activeFile := af
                dir := aset (FileName.data af.fileId) af.file.f.bytes bc1.dir
                keydir := bc1.keydir.Set r.key kdItem
                activeKeydir := bc1.activeKeydir.Set r.key kdItem }, none)

def Beecask.set (bc : Beecask) (key value : List Byte) (delete : Bool) (expiration : Int) :
    Beecask × Option Error :=
  let item : Record :=
    { crc := 0, flag := 0, expiration := expiration, keySize := toUint32 key.length,
      valueSize := toUint32 value.length, key := key, value := value }
  let item := if delete then { item with flag := item.flag ||| RECORD_FLAG_BIT_DELETE } else item
  bc.setRecord item

def Beecask.SetWithExpiration (bc : Beecask) (key value : List Byte) (expiration : Int) :
    Beecask × Option Error :=
  bc.set key value false expiration

def Beecask.Set (bc : Beecask) (key value : List Byte) : Beecask × Option Error :=
  bc.SetWithExpiration key value 0

def Beecask.Delete (bc : Beecask) (key : List Byte) : Beecask × Option Error :=
  bc.set key [] true 0

/-- The callback of `mergeDataFile`, with `begin` the value of `begin.Unix()`. -/
def mergeRecord (begin : Int) (r : Record) (fileId offset : Nat) (bc : Beecask) :
    Beecask × Option Error :=
  let key := r.key
  match bc.keydir.Get key with
  | none => (bc, none)
  | some kdItem =>
    if fileId = kdItem.fileId ∧ toUint32 offset = kdItem.valuePos then
      -- deleted or expired
      if r.flag &&& RECORD_FLAG_BIT_DELETE > 0 ∨ (r.expiration > 0 ∧ r.expiration ≤ begin) then
        ({ bc with keydir := bc.keydir.Delete key }, none)
      else bc.setRecord r
    else (bc, none)

/-- Go `Beecask.mergeDataFile`, with `begin` the clock read before the iteration. -/
def Beecask.mergeDataFile (bc : Beecask) (fileId : Nat) (begin : Int) :
    Beecask × Option Error :=
  match bc.dataFileCache.Ref bc.dir fileId with
  | (cache1, Except.error e) => ({ bc with dataFileCache := cache1 }, some e)
  | (cache1, Except.ok df) =>
    match df.ForEachRecord (mergeRecord begin) { bc with dataFileCache := cache1 } with
    | (bc2, some e) => ({ bc2 with dataFileCache := bc2.dataFileCache.Unref fileId }, some e)
    | (bc2, none) =>
      -- Remove data file and hint file
      ({ bc2 with dataFileCache := bc2.dataFileCache.Unref fileId
                  dir := aerase (FileName.hint fileId) (aerase (FileName.data fileId) bc2.dir) },
        none)

/-- The loop of `merge`: `for begin := &bc.minDataFileId; *begin < end; *begin++`.
It runs at most `end - minDataFileId` times; `clock fileId` is the time read when
the merge of segment `fileId` begins. -/
def Beecask.mergeLoop (clock : Nat → Int) (stop : Nat) : Nat → Beecask → Beecask
  | 0, bc => bc
  | fuel + 1, bc =>
    if bc.minDataFileId < stop then
      match bc.mergeDataFile bc.minDataFileId (clock bc.minDataFileId) with
      | (bc1, some _) => bc1
      | (bc1, none) => mergeLoop clock stop fuel { bc1 with minDataFileId := bc1.minDataFileId + 1 }
    else bc

def Beecask.merge (bc : Beecask) (clock : Nat → Int) : Beecask :=
  -- make sure only one merge running
  if bc.isMerging ≠ 0 then bc
  else
    let bc1 := { bc with isMerging := 1 }
    let stop := bc1.activeFile.fileId
    let bc2 := bc1.mergeLoop clock stop (stop - bc1.minDataFileId)
    { bc2 with isMerging := if bc2.isMerging = 1 then 0 else bc2.isMerging }

def Beecask.Merge (bc : Beecask) (clock : Nat → Int) : Beecask := bc.merge clock

def Beecask.Sync (bc : Beecask) : Beecask :=
  let af := { bc.activeFile with file := bc.activeFile.file.Sync }
  { bc with activeFile := af, dir := aset (FileName.data af.fileId) af.file.f.bytes bc.dir }

def Beecask.Close (bc : Beecask) : Beecask :=
  let af := { bc.activeFile with file := bc.activeFile.file.Close }
  { bc with activeFile := af
            dir := aset (FileName.data af.fileId) af.file.f.bytes bc.dir
            dataFileCache := bc.dataFileCache.Close }

/-- Decidable equality of results, for evaluating the model on concrete inputs. -/
instance instDecidableEqExcept {ε α : Type} [DecidableEq ε] [DecidableEq α] :
    DecidableEq (Except ε α)
  | Except.ok a, Except.ok b =>
    if h : a = b then isTrue (congrArg _ h) else isFalse (fun h1 => h (Except.ok.inj h1))
  | Except.error a, Except.error b =>
    if h : a = b then isTrue (congrArg _ h) else isFalse (fun h1 => h (Except.error.inj h1))
  | Except.ok _, Except.error _ => isFalse (fun h => Except.noConfusion h)
  | Except.error _, Except.ok _ => isFalse (fun h => Except.noConfusion h)

/-! ## Vocabulary of the theorems -/

/-- The apparent content of a buffered append file: the bytes on disk followed by
the bytes still in the buffer. -/
def FileWithBuffer.content (file : FileWithBuffer) : List Byte :=
  file.f.bytes ++ slice file.wbuf 0 file.n

/-- Consistency of a buffered append file: the buffered count fits the buffer and
the apparent size is the on-disk size plus the buffered count. -/
def FileWithBuffer.WF (file : FileWithBuffer) : Prop :=
  file.n ≤ file.wbuf.length ∧ file.size = file.f.bytes.length + file.n

/-- The bytes `WriteRecord` appends for `r`: header with checksum, key, value. -/
def encodeRecord (r : Record) : List Byte :=
  putLE 4 (recordCrc r) ++ headerTail r ++ r.key ++ r.value

/-- The ranges the Go field types give (`uint32` flag, `int64` expiration) together
with sizes that are the lengths of key and value. -/
def Record.Valid (r : Record) : Prop :=
  r.flag < 2 ^ 32 ∧ -2 ^ 63 ≤ r.expiration ∧ r.expiration < 2 ^ 63 ∧
    r.keySize = r.key.length ∧ r.valueSize = r.value.length ∧
    r.key.length < 2 ^ 32 ∧ r.value.length < 2 ^ 32

/-- A key or value of `2^32` zero bytes, the shortest whose length does not fit
a `uint32`. -/
def bigBytes : List Byte := List.replicate (2 ^ 32) 0

/-- A small active segment on an empty directory, for concrete evaluations. -/
def demoActiveFile : ActiveFile := (NewActiveFile [] 1 8).2

/-- A record with a one-byte key and a two-byte value. -/
def demoRecord : Record :=
  { crc := 0, flag := 0, expiration := 0, keySize := 1, valueSize := 2, key := [0x6b],
    value := [0x76, 0x77] }

/-- A record whose `keySize` is `0` and whose key has `2^32` bytes. -/
def bigKeyRecord : Record :=
  { crc := 0, flag := 0, expiration := 0, keySize := 0, valueSize := 0, key := bigBytes,
    value := [] }

/-- Every entry of the cache index satisfies `P`, a property of the file id and the
data file of the entry. -/
def DataFileCache.AllDf (cache : DataFileCache) (P : Nat → DataFile → Prop) : Prop :=
  ∀ id e, alookup id cache.hash = some e → P id e.df

/-- The content of segment `id` as the engine reads it: the apparent content of the
active segment, the file on disk for any other id. -/
def Beecask.segment (bc : Beecask) (id : Nat) : Option (List Byte) :=
  if id = bc.activeFile.fileId then some bc.activeFile.file.content
  else alookup (FileName.data id) bc.dir

/-- The bytes `c` hold the encoding of `r` at offset `p`. -/
def RecordAt (c : List Byte) (p : Nat) (r : Record) : Prop :=
  ∃ pre post, c = pre ++ encodeRecord r ++ post ∧ pre.length = p

/-- The directory entry of `k` points at a complete encoding of the valid record
`r`, whose key is `k`, and carries its flag and value size. -/
def Beecask.Holds (bc : Beecask) (k : List Byte) (r : Record) : Prop :=
  ∃ e c, bc.keydir.Get k = some e ∧ bc.segment e.fileId = some c ∧
    RecordAt c e.valuePos r ∧ e.flag = r.flag ∧ e.valueSize = r.valueSize ∧ r.key = k ∧
    r.Valid

/-- Coherence of the segment cache: a cached data file belongs to a sealed segment
and, while that segment is on disk, maps exactly its bytes. -/
def CacheOK (dir : Dir) (maxId : Nat) (cache : DataFileCache) : Prop :=
  cache.AllDf (fun id df => id < maxId ∧ df.fileId = id ∧
    ∀ c, alookup (FileName.data id) dir = some c → df.file.mmapedRegion = c)

/-- The engine invariant kept by `NewBeecask`, `Get`, `Set`, `SetWithExpiration` and
`Delete`: the active segment is consistent, has the largest file id, its on-disk
bytes are in the directory, no data file has a larger id, the cache is coherent
and no directory entry names a segment beyond the active one. -/
def Beecask.Inv (bc : Beecask) : Prop :=
  bc.activeFile.file.WF ∧ bc.activeFile.file.f.room = none ∧
  bc.activeFile.fileId = bc.maxDataFileId ∧
  alookup (FileName.data bc.maxDataFileId) bc.dir = some bc.activeFile.file.f.bytes ∧
  (∀ id, bc.maxDataFileId < id → alookup (FileName.data id) bc.dir = none) ∧
  CacheOK bc.dir bc.maxDataFileId bc.dataFileCache ∧
  (∀ k e, bc.keydir.Get k = some e → e.fileId ≤ bc.maxDataFileId)

/-- The outcome `Get` owes to the last record written for a key. -/
def expected (r : Record) (now : Int) : Except Error (List Byte) :=
  if r.flag &&& RECORD_FLAG_BIT_DELETE > 0 then Except.error Error.ErrDataNotExist
  else if r.expiration > 0 ∧ r.expiration ≤ now then Except.error Error.ErrDataNotExist
  else Except.ok r.value

/-- The calls of the public interface that the theorems sequence. -/
inductive Op where
  | set (key value : List Byte)
  | setWithExpiration (key value : List Byte) (expiration : Int)
  | delete (key : List Byte)
  | get (key : List Byte) (now : Int)
  deriving DecidableEq, Repr

/-- The record `Beecask.set` builds for a write, `none` for a read. -/
def Op.record : Op → Option Record
  | Op.set k v =>
    some { crc := 0, flag := 0, expiration := 0, keySize := toUint32 k.length,
           valueSize := toUint32 v.length, key := k, value := v }
  | Op.setWithExpiration k v e =>
    some { crc := 0, flag := 0, expiration := e, keySize := toUint32 k.length,
           valueSize := toUint32 v.length, key := k, value := v }
  | Op.delete k =>
    some { crc := 0, flag := 0 ||| RECORD_FLAG_BIT_DELETE, expiration := 0,
           keySize := toUint32 k.length, valueSize := toUint32 ([] : List Byte).length,
           key := k, value := [] }
  | Op.get _ _ => none

/-- The engine after one call. -/
def Beecask.step (bc : Beecask) : Op → Beecask
  | Op.set k v => (bc.Set k v).1
  | Op.setWithExpiration k v e => (bc.SetWithExpiration k v e).1
  | Op.delete k => (bc.Delete k).1
  | Op.get k now => (bc.Get k now).1

/-- The engine after a sequence of calls. -/
def Beecask.run (bc : Beecask) (ops : List Op) : Beecask := ops.foldl Beecask.step bc

/-- The record of the last write to `k` in a sequence of calls. -/
def lastWrite (k : List Byte) : List Op → Option Record
  | [] => none
  | op :: ops =>
    match lastWrite k ops with
    | some r => some r
    | none =>
      match op.record with
      | some r => if r.key = k then some r else none
      | none => none

/-- The cache between two uses: the list has no repetition, and every indexed entry
is in the list and is referenced by the list alone. -/
def DataFileCache.Idle (cache : DataFileCache) : Prop :=
  cache.l.Nodup ∧ 1 ≤ cache.capacity ∧
  (∀ id, id ∈ cache.l → ∃ e, alookup id cache.hash = some e) ∧
  ∀ id e, alookup id cache.hash = some e → e.refCount = 1 ∧ e.inList = true ∧ id ∈ cache.l

/-- The cache while one caller holds the entry of `fileId`, which is at the front
of the list. -/
def DataFileCache.Held (cache : DataFileCache) (fileId : Nat) : Prop :=
  cache.l.Nodup ∧ 1 ≤ cache.capacity ∧ cache.l.head? = some fileId ∧
  (∀ id, id ∈ cache.l → ∃ e, alookup id cache.hash = some e) ∧
  ∀ id e, alookup id cache.hash = some e →
    e.inList = true ∧ id ∈ cache.l ∧ e.refCount = if id = fileId then 2 else 1

/-- The state of `scan` between two segments of the listing of `dir0`: the
directory is untouched, the cache is idle and maps the bytes of listed data files,
and every directory entry names a listed data file. -/
def Recovery.Good (dir0 : Dir) (bc : Recovery) : Prop :=
  bc.dir = dir0 ∧ bc.dataFileCache.Idle ∧
  bc.dataFileCache.AllDf (fun id df => df.fileId = id ∧
    alookup (FileName.data id) dir0 = some df.file.mmapedRegion) ∧
  (∀ k e, bc.keydir.Get k = some e → FileName.data e.fileId ∈ ReadDir dir0)

/-- Small options for concrete evaluations: a 32-byte buffer, rotation at 64 bytes,
two cached segments. -/
def demoOptions : Options := { WriteBufferSize := 32, MaxFileSize := 64, MaxOpenFiles := 2 }

/-- The engine `NewBeecask` returns on the empty directory. -/
def emptyEngine (opts : Options) : Beecask :=
  { options := opts
    dir := [(FileName.data 1, [])]
    minDataFileId := 1
    maxDataFileId := 1
    keydir := NewKeyDir
    activeKeydir := NewKeyDir
    activeFile := { file := NewFileWithBuffer { bytes := [], room := none } 0 opts.WriteBufferSize,
                    fileId := 1 }
    dataFileCache := NewDataFileCache opts.MaxOpenFiles
    isMerging := 0 }

/-- The keys `a`, `b`, `k`, `x` of the scenarios. -/
def keyA : List Byte := [0x61]

def keyB : List Byte := [0x62]

def keyK : List Byte := [0x6b]

def keyX : List Byte := [0x78]

/-- The record `Beecask.set` builds from a key, a value, the flag and the
expiration. -/
def mkRecord (k v : List Byte) (flag : Nat) (e : Int) : Record :=
  { crc := 0, flag := flag, expiration := e, keySize := toUint32 k.length,
    valueSize := toUint32 v.length, key := k, value := v }

/-- No key occurs twice in the key directory (a Go map has one entry per key). -/
def KeyDir.Nodup (kd : KeyDir) : Prop := (kd.dict.map Prod.fst).Nodup

def keyC : List Byte := [0x63]

/-- The file ids of the `.data` files of a directory, in listing order. -/
def dataIds (dir : Dir) : List Nat :=
  dir.filterMap (fun p =>
    match p.1 with
    | FileName.data id => some id
    | FileName.hint _ => none)

/-- The call makes `setRecord` rotate the active segment: the rotation test of
`setRecord` on the record the call writes. -/
def Beecask.rotates (bc : Beecask) (op : Op) : Bool :=
  match op.record with
  | some r => decide (((bc.activeFile.file.Size + r.Size : Nat) : Int) ≥ bc.options.MaxFileSize)
  | none => false

/-- The number of rotations a sequence of calls triggers. -/
def rotationCount : Beecask → List Op → Nat
  | _, [] => 0
  | bc, op :: ops => (if bc.rotates op then 1 else 0) + rotationCount (bc.step op) ops

/-- The directory left by a session on the empty directory that sets `a`, deletes
`a` and sets `b`, the last write rotating the active segment, and is then closed. -/
def tombstoneDir : Dir :=
  ((emptyEngine demoOptions).run
    [Op.set keyA [0x31], Op.delete keyA, Op.set keyB [0x32]]).Close.dir

/-- The directory left by a first session that sets `a` and is closed. -/
def firstSessionDir : Dir := ((emptyEngine demoOptions).run [Op.set keyA [0x31]]).Close.dir

/-- The directory left by a second session on `firstSessionDir` that sets `b` and
`c`, the last write rotating the active segment, and is closed. -/
def secondSessionDir : Except Error Dir :=
  (NewBeecask demoOptions firstSessionDir).map
    (fun (bc : Beecask) => (bc.run [Op.set keyB [0x32], Op.set keyC [0x33]]).Close.dir)

/-- Open a directory, when there is one, and read a key. -/
def openAndGet (opts : Options) (dir : Except Error Dir) (k : List Byte) (now : Int) :
    Except Error (Except Error (List Byte) × List (List Byte)) :=
  match dir with
  | Except.error e => Except.error e
  | Except.ok d => (NewBeecask opts d).map (fun (bc : Beecask) => ((bc.Get k now).2, bc.Keys))

/-- Five writes of 26-byte records, which rotate a 64-byte segment twice. -/
def demoWrites : List Op :=
  [Op.set keyA [0x31], Op.set keyB [0x32], Op.set keyA [0x33], Op.set keyC [0x34],
   Op.set keyB [0x35]]

/-- The content of a segment to which the records `rs` were appended in order. -/
def encodeAll : List Record → List Byte
  | [] => []
  | r :: rs => encodeRecord r ++ encodeAll rs

/-- A valid record whose encoded size fits a `uint32`, so that `Record.Size` is the
number of bytes the record occupies. -/
def Record.Sized (r : Record) : Prop :=
  r.Valid ∧ 24 + r.key.length + r.value.length < 2 ^ 32

/-- The iteration `ForEachRecord` performs on a segment that holds the records `rs`
from offset `o` on: the callback is applied to each record as it is read back (with
its checksum) and its offset, until it fails. -/
def foldRecords {σ : Type} (fn : Record → Nat → Nat → σ → σ × Option Error) (fileId : Nat) :
    Nat → List Record → σ → σ × Option Error
  | _, [], s => (s, none)
  | o, r :: rs, s =>
    match fn { r with crc := recordCrc r } fileId o s with
    | (s1, some e) => (s1, some e)
    | (s1, none) => foldRecords fn fileId (o + (24 + r.key.length + r.value.length)) rs s1

/-- Options under which the scenarios do not rotate. -/
def wideOptions : Options := { WriteBufferSize := 32, MaxFileSize := 1000, MaxOpenFiles := 2 }

/-- The directory of scenario S1 after close: one unrotated segment that holds
`Set(a, "1")`, `Set(b, "2")`, `Delete(a)`. -/
def s1Dir : Dir :=
  ((emptyEngine wideOptions).run
    [Op.set keyA [0x31], Op.set keyB [0x32], Op.delete keyA]).Close.dir

/-- The directory with the byte at `pos` of data file `fileId` replaced by `b`. -/
def corruptAt (dir : Dir) (fileId pos : Nat) (b : Byte) : Dir :=
  dir.map (fun p => if p.1 = FileName.data fileId then (p.1, p.2.set pos b) else p)

/-- A call on a buffered append file. -/
inductive FileOp where
  | write (data : List Byte)
  | flush
  deriving DecidableEq, Repr

/-- The bytes a call appends. -/
def FileOp.data : FileOp → List Byte
  | FileOp.write d => d
  | FileOp.flush => []

/-- The file and the error after one call. -/
def FileWithBuffer.apply (file : FileWithBuffer) : FileOp → FileWithBuffer × Option Error
  | FileOp.write d => ((file.Write d).1, (file.Write d).2.2)
  | FileOp.flush => file.Flush

/-- One more call: the file after it and the errors returned so far, last first. -/
def FileWithBuffer.applyStep (st : FileWithBuffer × List Error) (op : FileOp) :
    FileWithBuffer × List Error :=
  match st.1.apply op with
  | (file1, none) => (file1, st.2)
  | (file1, some e) => (file1, e :: st.2)

/-- The file after a sequence of calls, whatever each returned, and the errors the
calls returned, last call first. -/
def FileWithBuffer.applyAll (file : FileWithBuffer) (ops : List FileOp) :
    FileWithBuffer × List Error :=
  ops.foldl FileWithBuffer.applyStep (file, [])

/-- The bytes a sequence of calls appends. -/
def appended (ops : List FileOp) : List Byte := (ops.map FileOp.data).flatten

/-- The contract of a positional read on the byte string `c`: 'invalid' beyond the
end, the available bytes with end-of-data when the range is cut short, the
requested bytes otherwise. -/
def readSpec (c : List Byte) (o m : Nat) : List Byte × Option Error :=
  if o > c.length then ([], some Error.ErrInvalid)
  else if c.length < o + m then (slice c o c.length, some Error.EOF)
  else (slice c o (o + m), none)

/-- The contract of `ReadRecordAt` on the segment bytes `c`: end-of-data when the
header, the key or the value extends past the end, 'data corruption' when the stored
checksum differs from the one of the bytes after it, the decoded record otherwise. -/
def readRecordSpec (c : List Byte) (o : Nat) : Except Error Record :=
  if c.length < o + 24 then Except.error Error.EOF
  else
    let h := decodeHeader (slice c o (o + 24))
    if c.length < o + 24 + h.keySize + h.valueSize then Except.error Error.EOF
    else if getLE (slice c o (o + 4)) ≠
        ChecksumIEEE (slice c (o + 4) (o + 24 + h.keySize + h.valueSize)) then
      Except.error Error.ErrDataCorruption
    else
      Except.ok { h with key := slice c (o + 24) (o + 24 + h.keySize)
                         value := slice c (o + 24 + h.keySize)
                           (o + 24 + h.keySize + h.valueSize) }

/-- A buffered file with four bytes in an eight-byte buffer. -/
def halfFullFile : FileWithBuffer :=
  { f := { bytes := [], room := none }, size := 4, wbuf := [1, 2, 3, 4, 0, 0, 0, 0], n := 4 }

/-- Nine bytes, more than the buffer of `halfFullFile` holds. -/
def nineBytes : List Byte := [11, 12, 13, 14, 15, 16, 17, 18, 19]

/-- The value an `int64` holds after an addition whose exact result is `x`. -/
def wrapInt64 (x : Int) : Int := (x + 2 ^ 63) % 2 ^ 64 - 2 ^ 63

/-- Go `MmapFile.ReadAt` on `int64` arguments, with the sum `offset+len` computed in
`int64` and `none` for a slice expression that panics (bounds out of range).  It
agrees with `MmapFile.ReadAt` whenever the arguments are not negative and their sum
fits an `int64`, which is how the segment readers call it. -/
def MmapFile.ReadAtInt64 (file : MmapFile) (offset len : Int) :
    Option (List Byte × Option Error) :=
  if offset > (file.Size : Int) then
    some ([], some Error.ErrInvalid)
  else if wrapInt64 (offset + len) > (file.Size : Int) then
    if offset < 0 then none
    else some (file.mmapedRegion.drop offset.toNat, some Error.EOF)
  else
    if 0 ≤ offset ∧ offset ≤ wrapInt64 (offset + len) then
      some (slice file.mmapedRegion offset.toNat (wrapInt64 (offset + len)).toNat, none)
    else none

/-- A buffered file with four bytes in an eight-byte buffer, on a device with room
for two more bytes. -/
def shortRoomFile : FileWithBuffer :=
  { f := { bytes := [], room := some 2 }, size := 4, wbuf := [1, 2, 3, 4, 0, 0, 0, 0], n := 4 }

/-- A record of `2^32` bytes: an empty key and a value of `2^32 - 24` zero bytes,
for which `Record.Size` wraps to `0`. -/
def hugeRecord : Record :=
  { crc := 0, flag := 0, expiration := 0, keySize := 0, valueSize := 2 ^ 32 - 24, key := [],
    value := List.replicate (2 ^ 32 - 24) 0 }

/-- A callback that counts the records it is given. -/
def countRecord (_ : Record) (_ _ : Nat) (n : Nat) : Nat × Option Error := (n + 1, none)

/-- A call on the segment cache. -/
inductive CacheOp where
  | ref (fileId : Nat)
  | unref (fileId : Nat)
  | evict (fileId : Nat)
  | close
  deriving DecidableEq, Repr

/-- One call on the cache of the segments of `dir`, together with the count, per
file id, of the references handed out by `Ref` and not yet given back by `Unref`. -/
def cacheStep (dir : Dir) (st : DataFileCache × (Nat → Nat)) :
    CacheOp → DataFileCache × (Nat → Nat)
  | CacheOp.ref id =>
    match st.1.Ref dir id with
    | (c, Except.ok _) => (c, Function.update st.2 id (st.2 id + 1))
    | (c, Except.error _) => (c, st.2)
  | CacheOp.unref id => (st.1.Unref id, Function.update st.2 id (st.2 id - 1))
  | CacheOp.evict id => (st.1.Evict id, st.2)
  | CacheOp.close => (st.1.Close, st.2)

/-- The cache and the outstanding references after a sequence of calls. -/
def cacheRun (dir : Dir) (st : DataFileCache × (Nat → Nat)) (ops : List CacheOp) :
    DataFileCache × (Nat → Nat) :=
  ops.foldl (cacheStep dir) st

/-- An `Unref` is allowed when it gives back an outstanding reference. -/
def CacheOp.allowed (ext : Nat → Nat) : CacheOp → Prop
  | CacheOp.unref id => 1 ≤ ext id
  | _ => True

/-- Each `Unref` of the sequence matches one earlier `Ref` not yet released. -/
def cacheTraceOK (dir : Dir) (st : DataFileCache × (Nat → Nat)) : List CacheOp → Prop
  | [] => True
  | op :: ops => op.allowed st.2 ∧ cacheTraceOK dir (cacheStep dir st op) ops

/-- The reference accounting of the cache against the outstanding references `ext`:
the list and the index have no repetition, a listed id is indexed and marked in the
list, the count of an indexed entry is its outstanding references plus one for the
list, an entry out of the list is held by someone, and an id that is not indexed
(never opened, or closed) has no outstanding reference. -/
def DataFileCache.Counted (cache : DataFileCache) (ext : Nat → Nat) : Prop :=
  cache.l.Nodup ∧ 1 ≤ cache.capacity ∧ (cache.hash.map Prod.fst).Nodup ∧
  (∀ id, id ∈ cache.l → ∃ e, alookup id cache.hash = some e ∧ e.inList = true) ∧
  (∀ id e, alookup id cache.hash = some e →
    e.refCount = (ext id : Int) + (if e.inList = true then 1 else 0) ∧
    (e.inList = true → id ∈ cache.l) ∧ (e.inList = false → 1 ≤ ext id)) ∧
  (∀ id, alookup id cache.hash = none → ext id = 0)

/-- The number of indexed entries that are out of the list. -/
def DataFileCache.outOfList (cache : DataFileCache) : Nat :=
  (cache.hash.filter (fun p => !p.2.inList)).length

/-- A directory with three small data files. -/
def threeFiles : Dir := [(FileName.data 1, [1]), (FileName.data 2, [2]), (FileName.data 3, [3])]

/-- The calls of `mergeDataFile` the loop of `merge` makes, in order, each with its
result: the file id merged and the error returned, if any. -/
def Beecask.mergeTrace (clock : Nat → Int) (stop : Nat) :
    Nat → Beecask → List (Nat × Option Error)
  | 0, _ => []
  | fuel + 1, bc =>
    if bc.minDataFileId < stop then
      match bc.mergeDataFile bc.minDataFileId (clock bc.minDataFileId) with
      | (_, some e) => [(bc.minDataFileId, some e)]
      | (bc1, none) =>
        (bc.minDataFileId, none) ::
          mergeTrace clock stop fuel { bc1 with minDataFileId := bc1.minDataFileId + 1 }
    else []

/-- The calls of `mergeDataFile` made by `Merge`. -/
def Beecask.MergeCalls (bc : Beecask) (clock : Nat → Int) : List (Nat × Option Error) :=
  if bc.isMerging ≠ 0 then []
  else
    ({ bc with isMerging := 1 } : Beecask).mergeTrace clock bc.activeFile.fileId
      (bc.activeFile.fileId - bc.minDataFileId)

/-- Where a caller of `merge` stands: before the compare-and-swap of `isMerging`;
inside the merge, the swap having succeeded, before `end` is read, in the loop with
its `end`, or after the loop with the deferred swap still to run; returned. -/
inductive MergePc where
  | calling
  | entered
  | merging (stop : Nat)
  | leaving
  | returned
  deriving DecidableEq, Repr

/-- The caller is inside the merge: its compare-and-swap succeeded and its deferred
swap has not run yet. -/
def MergePc.inside : MergePc → Bool
  | MergePc.entered => true
  | MergePc.merging _ => true
  | MergePc.leaving => true
  | _ => false

/-- The engine shared by the callers of `merge`, where each caller stands, and the
number of merges that have returned. -/
structure MergeGuard where
  bc : Beecask
  callers : List MergePc
  merges : Nat

/-- The deferred `CompareAndSwapInt32(&bc.isMerging, 1, 0)` of `merge`. -/
def Beecask.endMerge (bc : Beecask) : Beecask :=
  { bc with isMerging := if bc.isMerging = 1 then 0 else bc.isMerging }

/-- One step of caller `i` of `merge` on the shared engine:
`CompareAndSwapInt32(&isMerging, 0, 1)` on entry, which makes the caller return at
once when it fails; the read of `end`; one pass of the loop, a call of
`mergeDataFile` that ends the loop when it fails; the deferred swap. -/
def MergeGuard.step (clock : Nat → Int) (g : MergeGuard) (i : Nat) : MergeGuard :=
  match g.callers.get? i with
  | some MergePc.calling =>
    if g.bc.isMerging = 0 then
      { g with bc := { g.bc with isMerging := 1 }, callers := g.callers.set i MergePc.entered }
    else { g with callers := g.callers.set i MergePc.returned }
  | some MergePc.entered =>
    { g with callers := g.callers.set i (MergePc.merging g.bc.activeFile.fileId) }
  | some (MergePc.merging stop) =>
    if g.bc.minDataFileId < stop then
      match g.bc.mergeDataFile g.bc.minDataFileId (clock g.bc.minDataFileId) with
      | (bc1, some _) => { g with bc := bc1, callers := g.callers.set i MergePc.leaving }
      | (bc1, none) => { g with bc := { bc1 with minDataFileId := bc1.minDataFileId + 1 } }
    else { g with callers := g.callers.set i MergePc.leaving }
  | some MergePc.leaving =>
    { bc := g.bc.endMerge, callers := g.callers.set i MergePc.returned,
      merges := g.merges + 1 }
  | _ => g

/-- The shared engine and the callers after a schedule of steps. -/
def MergeGuard.run (clock : Nat → Int) (g : MergeGuard) (schedule : List Nat) : MergeGuard :=
  schedule.foldl (MergeGuard.step clock) g

/-- The number of callers inside the merge. -/
def MergeGuard.active (g : MergeGuard) : Nat := g.callers.countP MergePc.inside

/-- What the re-appends of a merge keep of the engine `bc0`, for the bound `stop` of
the merge: the counters of the merge loop, an active segment with the largest file
id, at least `stop`; the files of the segments below `stop`; and every file that was
there. -/
def MergeFrame (stop : Nat) (bc0 bc : Beecask) : Prop :=
  bc.minDataFileId = bc0.minDataFileId ∧ bc.isMerging = bc0.isMerging ∧
  bc.activeFile.fileId = bc.maxDataFileId ∧ stop ≤ bc.activeFile.fileId ∧
  (∀ id, id < stop →
    alookup (FileName.data id) bc.dir = alookup (FileName.data id) bc0.dir ∧
    alookup (FileName.hint id) bc.dir = alookup (FileName.hint id) bc0.dir) ∧
  (∀ name c, alookup name bc0.dir = some c → ∃ c1, alookup name bc.dir = some c1)

/-- An engine with two sealed segments while a merge is running. -/
def busyEngine : Beecask := { (emptyEngine demoOptions).run demoWrites with isMerging := 1 }

/-- A call of the public interface, `Merge` included (with the clock it reads). -/
inductive Call where
  | op (o : Op)
  | merge (clock : Nat → Int)

/-- The record a call writes, if any. -/
def Call.record : Call → Option Record
  | Call.op o => o.record
  | Call.merge _ => none

/-- The limit of the Go runtime on the size of one allocation, `2^48` bytes on
64-bit Linux: `make([]byte, n)` panics for a negative `n` and for `n` above it. -/
def maxAlloc : Int := 2 ^ 48

/-- Go `FileWithBuffer.ReadAt` on `int64` arguments, with `none` where the Go code
panics: `make([]byte, size)` with a length out of range and a slice expression out of
range.  The sum `offset+size` is computed in `int64`, and `os.File.ReadAt` answers a
negative offset with an error.  It agrees with `FileWithBuffer.ReadAt` on a
consistent file when the arguments are not negative, the length is at most
`maxAlloc` and the sum fits an `int64`, which is how the segment readers call it. -/
def FileWithBuffer.ReadAtInt64 (file : FileWithBuffer) (offset size : Int) :
    Option (List Byte × Option Error) :=
  if offset > (file.size : Int) then
    some ([], some Error.ErrInvalid)
  else if size < 0 ∨ size > maxAlloc then
    -- make([]byte, size) panics
    none
  else
    let fsize : Int := (file.size : Int) - (file.n : Int)
    -- data all from buffer
    if offset ≥ fsize then
      if file.n ≤ file.wbuf.length then
        let data := (slice file.wbuf (offset - fsize).toNat file.n).take size.toNat
        some (data, if (data.length : Int) < size then some Error.EOF else none)
      else none
    -- data all from file.f
    else if wrapInt64 (offset + size) ≤ fsize then
      if offset < 0 then some ([], some Error.negativeOffset)
      else some (file.f.ReadAt size.toNat offset.toNat)
    -- data from both file.f and buffer
    else if fsize - offset > size then
      -- data[:fsize-offset] panics
      none
    else if offset < 0 then some ([], some Error.negativeOffset)
    else
      match file.f.ReadAt (fsize - offset).toNat offset.toNat with
      | (d, some e) => some (d, some e)
      | (d, none) =>
        if file.n ≤ file.wbuf.length then
          let data := d ++ (slice file.wbuf 0 file.n).take (size - (fsize - offset)).toNat
          some (data, if (data.length : Int) < size then some Error.EOF else none)
        else none

/-- A buffered file of five bytes on disk, three of them still in the buffer. -/
def fiveByteFile : FileWithBuffer :=
  { f := { bytes := [1, 2], room := none }, size := 5, wbuf := [3, 4, 5, 0], n := 3 }

/-- What a caller inside the merge still owes: running its merge to the end from
the shared engine gives the engine `target`. -/
def MergePc.owes (clock : Nat → Int) (bc target : Beecask) : MergePc → Prop
  | MergePc.entered =>
    (bc.mergeLoop clock bc.activeFile.fileId
      (bc.activeFile.fileId - bc.minDataFileId)).endMerge = target
  | MergePc.merging stop =>
    (bc.mergeLoop clock stop (stop - bc.minDataFileId)).endMerge = target
  | MergePc.leaving => bc.endMerge = target
  | _ => True

/-- The invariant of the callers of `merge` on the engine that started as `bc0`: the
callers inside are as many as the flag says, at most one; when none is inside the
engine is `bc0` after as many sequential merges as have returned; and the caller
inside owes the next one. -/
def MergeGuard.Inv (clock : Nat → Int) (bc0 : Beecask) (g : MergeGuard) : Prop :=
  g.active = g.bc.isMerging ∧ g.active ≤ 1 ∧
  (g.active = 0 → g.bc = (fun b : Beecask => b.Merge clock)^[g.merges] bc0) ∧
  (∀ j pc, g.callers.get? j = some pc →
    pc.owes clock g.bc ((fun b : Beecask => b.Merge clock)^[g.merges + 1] bc0))

/-- The items of the hint file with the bytes `h` can be read to the end:
`ForEachItem` with a callback that never fails returns no error. -/
def HintReadable (h : List Byte) : Prop :=
  (ReadableHintFile.ForEachItem { file := { mmapedRegion := h } }
    (fun (_ : HintItem) (u : Unit) => (u, (none : Option Error))) ()).2 = none

/-- A closed store with a sealed segment: `Set(a, "1")`, `Set(b, "2")`, `Set(c, "3")`
with rotation at 64 bytes leave `a` and `b` in segment 1, which has a hint file, and
`c` in segment 2. -/
def hintedDir : Dir :=
  ((emptyEngine demoOptions).run
    [Op.set keyA [0x31], Op.set keyB [0x32], Op.set keyC [0x33]]).Close.dir

/-- The engine opened on a directory, the empty engine when opening fails. -/
def openOr (opts : Options) (dir : Dir) : Beecask :=
  match NewBeecask opts dir with
  | Except.ok bc => bc
  | Except.error _ => emptyEngine opts

/-- The value an `int32` holds after an operation whose exact result is `x`. -/
def wrapInt32 (x : Int) : Int := (x + 2 ^ 31) % 2 ^ 32 - 2 ^ 31

/-- Go `DataFileCache.unref` with `entry.refCount--` computed in `int32`. -/
def DataFileCache.unrefInt32 (cache : DataFileCache) (fileId : Nat) : DataFileCache :=
  match alookup fileId cache.hash with
  | none => cache
  | some entry =>
    let entry1 := { entry with refCount := wrapInt32 (entry.refCount - 1) }
    if entry1.refCount = 0 ∧ entry1.inList = false then
      -- No reference and not in cache: close the associated file
      { cache with hash := aerase fileId cache.hash }
    else
      { cache with hash := aset fileId entry1 cache.hash }

/-- The loop `for cache.l.Len() > cache.capacity` of `Ref`, with `unrefInt32`. -/
def DataFileCache.shrinkInt32 : Nat → DataFileCache → DataFileCache
  | 0, cache => cache
  | fuel + 1, cache =>
    if (cache.l.length : Int) > cache.capacity then
      match cache.l.getLast? with
      | none => cache
      | some back =>
        shrinkInt32 fuel
          ((({ cache with l := cache.l.dropLast } : DataFileCache).markOut back).unrefInt32 back)
    else cache

/-- The part of `Ref` after the entry is known, with `entry.refCount++` computed in
`int32`. -/
def DataFileCache.refEntryInt32 (cache : DataFileCache) (fileId : Nat) (entry : CacheEntry) :
    DataFileCache × Except Error DataFile :=
  let entry1 := { entry with refCount := wrapInt32 (entry.refCount + 1) }
  let cache1 : DataFileCache :=
    { cache with
      hash := aset fileId entry1 cache.hash
      l := if entry1.inList then fileId :: cache.l.erase fileId else cache.l }
  (cache1.shrinkInt32 cache1.l.length, Except.ok entry1.df)

/-- Go `DataFileCache.Ref` with the reference count computed in `int32`. -/
def DataFileCache.RefInt32 (cache : DataFileCache) (dir : Dir) (fileId : Nat) :
    DataFileCache × Except Error DataFile :=
  match alookup fileId cache.hash with
  | none =>
    -- Create a new cache entry when not in cache
    match NewDataFile dir fileId with
    | Except.error e => (cache, Except.error e)
    | Except.ok df =>
      let entry : CacheEntry := { df := df, refCount := 1, inList := true }
      ({ cache with l := fileId :: cache.l, hash := aset fileId entry cache.hash } :
        DataFileCache).refEntryInt32 fileId entry
  | some entry => cache.refEntryInt32 fileId entry

/-- Go `DataFileCache.Unref` with the reference count computed in `int32`. -/
def DataFileCache.UnrefInt32 (cache : DataFileCache) (fileId : Nat) : DataFileCache :=
  cache.unrefInt32 fileId

/-- Go `DataFileCache.Evict` with the reference count computed in `int32`. -/
def DataFileCache.EvictInt32 (cache : DataFileCache) (fileId : Nat) : DataFileCache :=
  match alookup fileId cache.hash with
  | none => cache
  | some entry =>
    if entry.inList then
      (({ cache with l := cache.l.erase fileId } : DataFileCache).markOut fileId).unrefInt32
        fileId
    else cache

/-- The loop of `DataFileCache.Close`, with `unrefInt32`. -/
def DataFileCache.drainInt32 : Nat → DataFileCache → DataFileCache
  | 0, cache => cache
  | fuel + 1, cache =>
    match cache.l.getLast? with
    | none => cache
    | some back =>
      drainInt32 fuel
        ((({ cache with l := cache.l.dropLast } : DataFileCache).markOut back).unrefInt32 back)

/-- Go `DataFileCache.Close` with the reference count computed in `int32`. -/
def DataFileCache.CloseInt32 (cache : DataFileCache) : DataFileCache :=
  cache.drainInt32 cache.l.length

/-- One call on the cache of the segments of `dir`, with the reference counts
computed in `int32`, together with the count, per file id, of the references handed
out by `Ref` and not yet given back by `Unref`. -/
def cacheStepInt32 (dir : Dir) (st : DataFileCache × (Nat → Nat)) :
    CacheOp → DataFileCache × (Nat → Nat)
  | CacheOp.ref id =>
    match st.1.RefInt32 dir id with
    | (c, Except.ok _) => (c, Function.update st.2 id (st.2 id + 1))
    | (c, Except.error _) => (c, st.2)
  | CacheOp.unref id => (st.1.UnrefInt32 id, Function.update st.2 id (st.2 id - 1))
  | CacheOp.evict id => (st.1.EvictInt32 id, st.2)
  | CacheOp.close => (st.1.CloseInt32, st.2)

/-- The cache and the outstanding references after a sequence of calls, with the
reference counts computed in `int32`. -/
def cacheRunInt32 (dir : Dir) (st : DataFileCache × (Nat → Nat)) (ops : List CacheOp) :
    DataFileCache × (Nat → Nat) :=
  ops.foldl (cacheStepInt32 dir) st

/-- An `Unref` is allowed when it gives back an outstanding reference, a `Ref` when
it leaves fewer than `2^31 - 1` references of the entry outstanding. -/
def CacheOp.allowedInt32 (ext : Nat → Nat) : CacheOp → Prop
  | CacheOp.unref id => 1 ≤ ext id
  | CacheOp.ref id => ext id + 2 < 2 ^ 31
  | _ => True

/-- Each `Unref` of the sequence matches one earlier `Ref` not yet released, and no
entry ever has `2^31 - 1` or more references outstanding. -/
def cacheTraceInt32 (dir : Dir) (st : DataFileCache × (Nat → Nat)) : List CacheOp → Prop
  | [] => True
  | op :: ops => op.allowedInt32 st.2 ∧ cacheTraceInt32 dir (cacheStepInt32 dir st op) ops

/-- No file id has `2^31 - 1` or more references outstanding. -/
def RefsBounded (ext : Nat → Nat) : Prop := ∀ id, ext id + 1 < 2 ^ 31

/-- The cache of `threeFiles` with capacity 2 that holds segment 1 alone, in the
list, with the count `r`. -/
def oneEntryCache (r : Int) : DataFileCache :=
  { l := [1],
    hash := [(1, { df := { file := { mmapedRegion := [1] }, fileId := 1 }, refCount := r,
                   inList := true })],
    capacity := 2 }

/-- Whether a call is allowed can be computed. -/
instance CacheOp.decAllowedInt32 (ext : Nat → Nat) (op : CacheOp) :
    Decidable (op.allowedInt32 ext) :=
  match op with
  | CacheOp.unref id => inferInstanceAs (Decidable (1 ≤ ext id))
  | CacheOp.ref id => inferInstanceAs (Decidable (ext id + 2 < 2 ^ 31))
  | CacheOp.evict _ => isTrue trivial
  | CacheOp.close => isTrue trivial

/-- No condition on the flags: an entry recovered from a hint file carries the flag
0 whatever the flag of its record. -/
def anyFlag : Nat → Nat → Prop := fun _ _ => True

instance anyFlag_isRefl : IsRefl Nat anyFlag := ⟨fun _ => trivial⟩

theorem putLE_length (w v : Nat) : (putLE w v).length = w := by
  induction w generalizing v with
  | zero => rfl
  | succ w ih => simp [putLE, ih]

theorem getLE_putLE (w v : Nat) : getLE (putLE w v) = v % 256 ^ w := by
  induction w generalizing v with
  | zero => simp [putLE, getLE, Nat.mod_one]
  | succ w ih =>
    simp only [putLE, getLE, ih]
    rw [pow_succ', Nat.mod_mul]
    simp [Fin.ofNat]

theorem getLE_putLE4 (v : Nat) (h : v < 2 ^ 32) : getLE (putLE 4 v) = v := by
  rw [getLE_putLE]; exact Nat.mod_eq_of_lt (by simpa using h)

theorem getLE_putLE8 (v : Nat) (h : v < 2 ^ 64) : getLE (putLE 8 v) = v := by
  rw [getLE_putLE]; exact Nat.mod_eq_of_lt (by simpa using h)

theorem uint64_int64_roundtrip (x : Int) (h1 : -2 ^ 63 ≤ x) (h2 : x < 2 ^ 63) :
    uint64ToInt64 (int64ToUint64 x) = x := by
  unfold uint64ToInt64 int64ToUint64
  split <;> omega

theorem int64ToUint64_lt (x : Int) : int64ToUint64 x < 2 ^ 64 := by
  unfold int64ToUint64
  omega

theorem crcBit_lt (c : Nat) (h : c < 2 ^ 32) : crcBit c < 2 ^ 32 := by
  unfold crcBit
  split
  · exact Nat.xor_lt_two_pow (by omega) (by norm_num)
  · omega

theorem crcByte_lt (c : Nat) (b : Byte) (h : c < 2 ^ 32) : crcByte c b < 2 ^ 32 := by
  unfold crcByte
  have hb : b.val < 2 ^ 32 := lt_of_lt_of_le b.isLt (by norm_num)
  have h0 : c ^^^ b.val < 2 ^ 32 := Nat.xor_lt_two_pow h hb
  exact crcBit_lt _ (crcBit_lt _ (crcBit_lt _ (crcBit_lt _ (crcBit_lt _ (crcBit_lt _
    (crcBit_lt _ (crcBit_lt _ h0)))))))

theorem foldl_crcByte_lt (p : List Byte) (c : Nat) (h : c < 2 ^ 32) :
    p.foldl crcByte c < 2 ^ 32 := by
  induction p generalizing c with
  | nil => simpa using h
  | cons b t ih => exact ih _ (crcByte_lt c b h)

theorem crc32Update_lt (c : Nat) (p : List Byte) (h : c < 2 ^ 32) :
    crc32Update c p < 2 ^ 32 := by
  unfold crc32Update
  exact Nat.xor_lt_two_pow (foldl_crcByte_lt p _ (Nat.xor_lt_two_pow h (by norm_num)))
    (by norm_num)

theorem ChecksumIEEE_lt (p : List Byte) : ChecksumIEEE p < 2 ^ 32 :=
  crc32Update_lt 0 p (by norm_num)

theorem crc32Update_append (c : Nat) (a b : List Byte) :
    crc32Update (crc32Update c a) b = crc32Update c (a ++ b) := by
  unfold crc32Update
  rw [List.foldl_append, Nat.xor_assoc, Nat.xor_self, Nat.xor_zero]

theorem slice_zero (s : List Byte) (n : Nat) : slice s 0 n = s.take n := by
  simp [slice]

theorem content_length (file : FileWithBuffer) (h : file.WF) :
    file.content.length = file.size := by
  obtain ⟨h1, h2⟩ := h
  simp [FileWithBuffer.content, slice, h2, Nat.min_eq_left h1]

theorem ReadAt_eq_mmap (file : FileWithBuffer) (h : file.WF) (o m : Nat) :
    file.ReadAt o m = MmapFile.ReadAt { mmapedRegion := file.content } o m := by
  have hlen := content_length file h
  obtain ⟨h1, h2⟩ := h
  unfold FileWithBuffer.ReadAt MmapFile.ReadAt MmapFile.Size
  simp only [hlen]
  by_cases c0 : o > file.size
  · simp [c0]
  · simp only [c0, if_false]
    have hfs : file.size - file.n = file.f.bytes.length := by omega
    simp only [hfs]
    by_cases c1 : o ≥ file.f.bytes.length
    · simp only [c1, if_true]
      have hd : file.content.drop o = slice file.wbuf (o - file.f.bytes.length) file.n := by
        simp [FileWithBuffer.content, slice, List.drop_append_eq_append_drop,
          List.drop_eq_nil_of_le c1]
      by_cases c2 : o + m > file.size
      · simp only [c2, if_true, hd]
        have hl : (slice file.wbuf (o - file.f.bytes.length) file.n).length < m := by
          simp [slice, Nat.min_eq_left h1]; omega
        simp [List.take_of_length_le (le_of_lt hl), hl, List.length_take]
      · simp only [c2, if_false]
        have : slice file.content o (o + m)
            = (slice file.wbuf (o - file.f.bytes.length) file.n).take m := by
          rw [← hd]
          simp only [slice]
          rw [List.drop_take]
          congr 1
          omega
        rw [this]
        have hl : ((slice file.wbuf (o - file.f.bytes.length) file.n).take m).length = m := by
          simp [slice, Nat.min_eq_left h1]; omega
        simp [hl]
    · simp only [c1, if_false]
      by_cases c3 : o + m ≤ file.f.bytes.length
      · simp only [c3, if_true]
        have c2 : ¬ (o + m > file.size) := by omega
        simp only [c2, if_false, OsFile.ReadAt]
        have : slice file.content o (o + m) = (file.f.bytes.drop o).take m := by
          simp only [slice, FileWithBuffer.content]
          rw [List.take_append_of_le_length c3, List.drop_take]
          congr 1
          omega
        rw [this]
        have hl : ((file.f.bytes.drop o).take m).length = m := by
          simp; omega
        simp [hl]
      · simp only [c3, if_false, OsFile.ReadAt]
        have hl0 : ((file.f.bytes.drop o).take (file.f.bytes.length - o)).length
            = file.f.bytes.length - o := by simp
        have ht : (file.f.bytes.drop o).take (file.f.bytes.length - o) = file.f.bytes.drop o :=
          List.take_of_length_le (by simp)
        simp only [ht, List.length_drop, lt_irrefl, if_false]
        by_cases c2 : o + m > file.size
        · simp only [c2, if_true]
          have : file.f.bytes.drop o ++ (slice file.wbuf 0 file.n).take
              (m - (file.f.bytes.length - o)) = file.content.drop o := by
            simp only [FileWithBuffer.content]
            rw [List.drop_append_of_le_length (by omega)]
            congr 1
            apply List.take_of_length_le
            simp [slice, Nat.min_eq_left h1]; omega
          rw [this]
          have hl : (file.content.drop o).length < m := by
            simp [hlen]; omega
          simp only [hl, if_true]
        · simp only [c2, if_false]
          have : file.f.bytes.drop o ++ (slice file.wbuf 0 file.n).take
              (m - (file.f.bytes.length - o)) = slice file.content o (o + m) := by
            simp only [FileWithBuffer.content, slice]
            rw [List.take_append_eq_append_take, List.drop_append_of_le_length (by simp; omega)]
            congr 1
            · rw [List.take_of_length_le (by omega)]
            · congr 1; omega
          rw [this]
          have hl : (slice file.content o (o + m)).length = m := by
            simp [slice, hlen]; omega
          simp [hl]

theorem OsFile_Write_none (f : OsFile) (h : f.room = none) (d : List Byte) :
    f.Write d = ({ bytes := f.bytes ++ d, room := none }, d.length, none) := by
  cases f with
  | mk bytes room =>
    simp only at h
    subst h
    rfl

theorem Flush_spec (file : FileWithBuffer) (hr : file.f.room = none) :
    file.Flush = ({ file with f := { bytes := file.content, room := none }, n := 0 }, none) := by
  unfold FileWithBuffer.Flush
  by_cases h0 : file.n = 0
  · cases file with
    | mk f size wbuf n =>
      cases f with
      | mk bytes room =>
        simp only at h0 hr
        subst h0; subst hr
        simp [FileWithBuffer.content, slice]
  · simp only [h0, if_false, OsFile_Write_none file.f hr]
    rfl

theorem writeLoop_empty (fuel : Nat) (file : FileWithBuffer) (hr : file.f.room = none)
    (hn : file.n = 0) (d : List Byte) (nn : Nat) :
    file.writeLoop (fuel + 2) d nn =
      if d.length > file.wbuf.length then
        ({ file with f := { bytes := file.f.bytes ++ d, room := none } }, [], nn + d.length, none)
      else (file, d, nn, none) := by
  rw [FileWithBuffer.writeLoop]
  simp only [hn, Nat.sub_zero, if_true]
  by_cases h : d.length > file.wbuf.length
  · simp only [h, if_true, OsFile_Write_none file.f hr]
    rw [FileWithBuffer.writeLoop]
    simp
  · simp only [h, if_false]

theorem Write_spec (file : FileWithBuffer) (hw : file.WF) (hr : file.f.room = none)
    (d : List Byte) :
    ∃ file1, file.Write d = (file1, d.length, none) ∧ file1.content = file.content ++ d ∧
      file1.WF ∧ file1.f.room = none ∧ file1.wbuf.length = file.wbuf.length ∧
      file1.size = file.size + d.length ∧ ∃ t, file1.f.bytes = file.f.bytes ++ t := by
  obtain ⟨h1, h2⟩ := hw
  unfold FileWithBuffer.Write
  by_cases hn : file.n = 0
  · rw [writeLoop_empty 1 file hr hn]
    by_cases h : d.length > file.wbuf.length
    · simp only [h, if_true]
      refine ⟨_, Prod.ext rfl (Prod.ext ?_ rfl), ?_, ?_, ?_, ?_, ?_, ?_⟩
      · simp [copySlice]
      · simp [FileWithBuffer.content, copySlice, slice, hn]
      · simp [FileWithBuffer.WF, copySlice, hn, h2]
      · simp
      · simp [copySlice, hn]
      · simp [copySlice]
      · exact ⟨d, by simp⟩
    · simp only [h, if_false]
      have hk : min (file.wbuf.length - file.n) d.length = d.length := by omega
      refine ⟨_, Prod.ext rfl (Prod.ext ?_ rfl), ?_, ?_, ?_, ?_, ?_, ?_⟩
      · simp [copySlice, hk]
      · simp [FileWithBuffer.content, copySlice, slice, hn, hk]
        omega
      · simp only [FileWithBuffer.WF, copySlice, hk]
        constructor
        · simp; omega
        · simp; omega
      · simpa using hr
      · simp [copySlice, hk, hn]
      · simp [copySlice, hk]
      · exact ⟨[], by simp⟩
  · by_cases h : d.length > file.wbuf.length - file.n
    · -- fill the buffer, flush, then write the rest
      rw [FileWithBuffer.writeLoop]
      simp only [h, if_true, hn, if_false]
      have hk : min (file.wbuf.length - file.n) d.length = file.wbuf.length - file.n := by omega
      have hc2 : (copySlice file.wbuf file.n file.wbuf.length d).2
          = file.wbuf.length - file.n := by simp [copySlice, hk]
      have hc1 : (copySlice file.wbuf file.n file.wbuf.length d).1
          = file.wbuf.take file.n ++ d.take (file.wbuf.length - file.n) := by
        simp [copySlice, hk]
        omega
      rw [Flush_spec _ (by simpa using hr)]
      simp only [hc1, hc2]
      rw [writeLoop_empty 0 _ (by simp) (by simp)]
      simp only [FileWithBuffer.content, zero_add]
      have hfull : file.n + (file.wbuf.length - file.n) = file.wbuf.length := by omega
      have hl1 : (file.wbuf.take file.n ++ d.take (file.wbuf.length - file.n)).length
          = file.wbuf.length := by simp; omega
      have hs : slice (file.wbuf.take file.n ++ d.take (file.wbuf.length - file.n)) 0
          (file.n + (file.wbuf.length - file.n))
          = file.wbuf.take file.n ++ d.take (file.wbuf.length - file.n) := by
        simp only [slice, List.drop_zero]
        exact List.take_of_length_le (by omega)
      simp only [hs, hl1]
      by_cases h3 : (d.drop (file.wbuf.length - file.n)).length > file.wbuf.length
      · simp only [h3, if_true]
        refine ⟨_, Prod.ext rfl (Prod.ext ?_ rfl), ?_, ?_, ?_, ?_, ?_, ?_⟩
        · simp [copySlice]; omega
        · simp [FileWithBuffer.content, copySlice, slice]
        · simp [FileWithBuffer.WF, copySlice, h2]; omega
        · simp
        · simp [copySlice, hl1]
        · simp [copySlice]; omega
        · exact ⟨_, by simp [List.append_assoc]; rfl⟩
      · simp only [h3, if_false]
        have hk2 : min (file.wbuf.length - 0) (d.drop (file.wbuf.length - file.n)).length
            = (d.drop (file.wbuf.length - file.n)).length := by omega
        have hk3 : min file.wbuf.length (d.length - (file.wbuf.length - file.n))
            = d.length - (file.wbuf.length - file.n) := by
          simp at h3; omega
        refine ⟨_, Prod.ext rfl (Prod.ext ?_ rfl), ?_, ?_, ?_, ?_, ?_, ?_⟩
        · simp [copySlice, hl1, hk3]; omega
        · simp [FileWithBuffer.content, copySlice, slice, hl1, hk3]
          have e1 : List.take (d.length - (file.wbuf.length - file.n))
              (List.drop (file.wbuf.length - file.n) d) = List.drop (file.wbuf.length - file.n) d :=
            List.take_of_length_le (by simp)
          rw [e1, List.take_append_drop]
        · simp [FileWithBuffer.WF, copySlice, hl1, hk3, h2]
          simp at h3
          omega
        · simp
        · simp [copySlice, hl1, hk3]; simp at h3; omega
        · simp [copySlice, hl1, hk3]; omega
        · exact ⟨_, by simp; rfl⟩
    · -- the data fits in the buffer
      rw [FileWithBuffer.writeLoop]
      simp only [h, if_false]
      have hk : min (file.wbuf.length - file.n) d.length = d.length := by omega
      refine ⟨_, Prod.ext rfl (Prod.ext ?_ rfl), ?_, ?_, ?_, ?_, ?_, ?_⟩
      · simp [copySlice, hk]
      · simp [FileWithBuffer.content, copySlice, slice, hk]
        rw [List.take_append_eq_append_take]
        simp [Nat.min_eq_left h1]
      · simp only [FileWithBuffer.WF, copySlice, hk]
        constructor
        · simp; omega
        · simp; omega
      · simpa using hr
      · simp [copySlice, hk]; omega
      · simp [copySlice, hk]
      · exact ⟨[], by simp⟩


theorem slice_mid (a b c : List Byte) :
    slice (a ++ b ++ c) a.length (a.length + b.length) = b := by
  simp [slice, List.take_append_eq_append_take]

theorem mmap_ReadAt_mid (a b c : List Byte) :
    MmapFile.ReadAt { mmapedRegion := a ++ b ++ c } a.length b.length = (b, none) := by
  unfold MmapFile.ReadAt MmapFile.Size
  have h1 : ¬ (a.length > (a ++ b ++ c).length) := by simp
  have h2 : ¬ (a.length + b.length > (a ++ b ++ c).length) := by simp
  simp only [h1, h2, if_false, slice_mid]

theorem headerTail_length (r : Record) : (headerTail r).length = 20 := by
  simp [headerTail, putLE_length]

theorem recordCrc_lt (r : Record) : recordCrc r < 2 ^ 32 :=
  crc32Update_lt _ _ (crc32Update_lt _ _ (ChecksumIEEE_lt _))

theorem recordCrc_eq (r : Record) :
    recordCrc r = ChecksumIEEE (headerTail r ++ r.key ++ r.value) := by
  unfold recordCrc ChecksumIEEE
  rw [crc32Update_append, crc32Update_append, List.append_assoc]

theorem encodeRecord_length (r : Record) :
    (encodeRecord r).length = 24 + r.key.length + r.value.length := by
  simp [encodeRecord, putLE_length, headerTail_length]
  omega

theorem decodeHeader_header (r : Record) (h : r.Valid) :
    decodeHeader (putLE 4 (recordCrc r) ++ headerTail r) =
      { crc := recordCrc r, flag := r.flag, expiration := r.expiration, keySize := r.keySize,
        valueSize := r.valueSize, key := [], value := [] } := by
  obtain ⟨hf, he1, he2, hk, hv, hkl, hvl⟩ := h
  have e0 : slice (putLE 4 (recordCrc r) ++ headerTail r) 0 4 = putLE 4 (recordCrc r) := by
    have := slice_mid [] (putLE 4 (recordCrc r)) (headerTail r)
    simpa [putLE_length] using this
  have e1 : slice (putLE 4 (recordCrc r) ++ headerTail r) 4 8 = putLE 4 r.flag := by
    have := slice_mid (putLE 4 (recordCrc r)) (putLE 4 r.flag)
      (putLE 8 (int64ToUint64 r.expiration) ++ putLE 4 r.keySize ++ putLE 4 r.valueSize)
    simpa [putLE_length, headerTail, List.append_assoc] using this
  have e2 : slice (putLE 4 (recordCrc r) ++ headerTail r) 8 16
      = putLE 8 (int64ToUint64 r.expiration) := by
    have := slice_mid (putLE 4 (recordCrc r) ++ putLE 4 r.flag)
      (putLE 8 (int64ToUint64 r.expiration)) (putLE 4 r.keySize ++ putLE 4 r.valueSize)
    simpa [putLE_length, headerTail, List.append_assoc] using this
  have e3 : slice (putLE 4 (recordCrc r) ++ headerTail r) 16 20 = putLE 4 r.keySize := by
    have := slice_mid (putLE 4 (recordCrc r) ++ putLE 4 r.flag ++
      putLE 8 (int64ToUint64 r.expiration)) (putLE 4 r.keySize) (putLE 4 r.valueSize)
    simpa [putLE_length, headerTail, List.append_assoc] using this
  have e4 : slice (putLE 4 (recordCrc r) ++ headerTail r) 20 24 = putLE 4 r.valueSize := by
    have := slice_mid (putLE 4 (recordCrc r) ++ putLE 4 r.flag ++
      putLE 8 (int64ToUint64 r.expiration) ++ putLE 4 r.keySize) (putLE 4 r.valueSize) []
    simpa [putLE_length, headerTail, List.append_assoc] using this
  unfold decodeHeader
  rw [e0, e1, e2, e3, e4, getLE_putLE4 _ (recordCrc_lt r), getLE_putLE4 _ hf,
    getLE_putLE8 _ (int64ToUint64_lt _), getLE_putLE4 _ (by omega), getLE_putLE4 _ (by omega),
    uint64_int64_roundtrip _ he1 he2]

/-- A data file that holds the encoding of a valid record at `pre.length` reads it back. -/
theorem DataFile_ReadRecordAt_encoded (fileId : Nat) (pre post : List Byte) (r : Record)
    (h : r.Valid) :
    DataFile.ReadRecordAt
        { file := { mmapedRegion := pre ++ encodeRecord r ++ post }, fileId := fileId } pre.length
      = Except.ok { r with crc := recordCrc r } := by
  have hv := h
  obtain ⟨hf, he1, he2, hk, hvs, hkl, hvl⟩ := h
  unfold DataFile.ReadRecordAt
  have r1 : MmapFile.ReadAt { mmapedRegion := pre ++ encodeRecord r ++ post } pre.length
      DATA_ITEM_HEADER_SIZE = (putLE 4 (recordCrc r) ++ headerTail r, none) := by
    have := mmap_ReadAt_mid pre (putLE 4 (recordCrc r) ++ headerTail r)
      (r.key ++ r.value ++ post)
    simpa [encodeRecord, putLE_length, headerTail_length, DATA_ITEM_HEADER_SIZE,
      List.append_assoc] using this
  have r2 : MmapFile.ReadAt { mmapedRegion := pre ++ encodeRecord r ++ post }
      (pre.length + DATA_ITEM_HEADER_SIZE) r.keySize = (r.key, none) := by
    have := mmap_ReadAt_mid (pre ++ (putLE 4 (recordCrc r) ++ headerTail r)) r.key
      (r.value ++ post)
    simpa [encodeRecord, putLE_length, headerTail_length, DATA_ITEM_HEADER_SIZE,
      List.append_assoc, hk] using this
  have r3 : MmapFile.ReadAt { mmapedRegion := pre ++ encodeRecord r ++ post }
      (pre.length + DATA_ITEM_HEADER_SIZE + r.keySize) r.valueSize = (r.value, none) := by
    have := mmap_ReadAt_mid (pre ++ (putLE 4 (recordCrc r) ++ headerTail r) ++ r.key) r.value
      post
    have e : pre.length + DATA_ITEM_HEADER_SIZE + r.keySize
        = (pre ++ (putLE 4 (recordCrc r) ++ headerTail r) ++ r.key).length := by
      simp [putLE_length, headerTail_length, DATA_ITEM_HEADER_SIZE, hk]; omega
    rw [e, hvs]
    simpa [encodeRecord, List.append_assoc] using this
  simp only [r1, decodeHeader_header r hv, r2, r3]
  have hd : (putLE 4 (recordCrc r) ++ headerTail r).drop 4 = headerTail r := by
    have := List.drop_left (putLE 4 (recordCrc r)) (headerTail r)
    rwa [putLE_length] at this
  have hc : crc32Update (crc32Update (ChecksumIEEE (headerTail r)) r.key) r.value
      = recordCrc r := rfl
  simp only [hd, hc, ne_eq, not_true_eq_false, if_false]

theorem ActiveFile_ReadRecordAt_eq (af : ActiveFile) (h : af.file.WF) (o : Nat) :
    af.ReadRecordAt o =
      DataFile.ReadRecordAt { file := { mmapedRegion := af.file.content }, fileId := af.fileId }
        o := by
  unfold ActiveFile.ReadRecordAt DataFile.ReadRecordAt
  simp only [ReadAt_eq_mmap af.file h]

theorem WriteRecord_spec (af : ActiveFile) (hw : af.file.WF) (hr : af.file.f.room = none)
    (r : Record) (hk : r.keySize = toUint32 r.key.length)
    (hv : r.valueSize = toUint32 r.value.length) :
    ∃ af1, af.WriteRecord r = (af1, Except.ok af.file.size) ∧
      af1.file.content = af.file.content ++ encodeRecord r ∧ af1.file.WF ∧
      af1.file.f.room = none ∧ af1.fileId = af.fileId ∧
      af1.file.wbuf.length = af.file.wbuf.length ∧
      af1.file.size = af.file.size + (24 + r.key.length + r.value.length) ∧
      ∃ t, af1.file.f.bytes = af.file.f.bytes ++ t := by
  unfold ActiveFile.WriteRecord
  have hc : ¬ (r.keySize ≠ toUint32 r.key.length ∨ r.valueSize ≠ toUint32 r.value.length) := by
    simp [hk, hv]
  simp only [hc, if_false]
  obtain ⟨f1, e1, c1, w1, ro1, l1, s1, t1, b1⟩ :=
    Write_spec af.file hw hr (putLE 4 (recordCrc r) ++ headerTail r)
  obtain ⟨f2, e2, c2, w2, ro2, l2, s2, t2, b2⟩ := Write_spec f1 w1 ro1 r.key
  obtain ⟨f3, e3, c3, w3, ro3, l3, s3, t3, b3⟩ := Write_spec f2 w2 ro2 r.value
  simp only [e1, e2, e3]
  refine ⟨_, rfl, ?_, w3, ro3, rfl, ?_, ?_, ?_⟩
  · simp [c3, c2, c1, encodeRecord, List.append_assoc]
  · simp [l3, l2, l1]
  · simp [s3, s2, s1, putLE_length, headerTail_length, FileWithBuffer.Size]
    omega
  · exact ⟨t1 ++ t2 ++ t3, by simp [b3, b2, b1, List.append_assoc]⟩


theorem OsFile_Write_err (f : OsFile) (d : List Byte) :
    (f.Write d).2.2 = none ∨ (f.Write d).2.2 = some Error.ENOSPC := by
  unfold OsFile.Write
  split
  · simp
  · split <;> simp

theorem Flush_err (file : FileWithBuffer) :
    file.Flush.2 = none ∨ file.Flush.2 = some Error.ENOSPC := by
  unfold FileWithBuffer.Flush
  split
  · simp
  · have := OsFile_Write_err file.f (slice file.wbuf 0 file.n)
    split
    · next f1 n e he => rw [he] at this; simpa using this
    · simp

theorem writeLoop_err (fuel : Nat) (file : FileWithBuffer) (d : List Byte) (nn : Nat) :
    (file.writeLoop fuel d nn).2.2.2 ≠ some Error.ErrInvalid := by
  induction fuel generalizing file d nn with
  | zero => simp [FileWithBuffer.writeLoop]
  | succ fuel ih =>
    rw [FileWithBuffer.writeLoop]
    split
    · split
      · have := OsFile_Write_err file.f d
        split
        · next f1 n e he =>
          rw [he] at this
          rcases this with h | h <;> simp at h
          simp [h]
        · exact ih _ _ _
      · dsimp only
        split
        · next file1 e he =>
          have := Flush_err ({ file with
            wbuf := (copySlice file.wbuf file.n file.wbuf.length d).1,
            n := file.n + (copySlice file.wbuf file.n file.wbuf.length d).2 } : FileWithBuffer)
          rw [he] at this
          rcases this with h | h <;> simp at h
          simp [h]
        · exact ih _ _ _
    · simp

theorem Write_err (file : FileWithBuffer) (d : List Byte) :
    (file.Write d).2.2 ≠ some Error.ErrInvalid := by
  unfold FileWithBuffer.Write
  have := writeLoop_err 3 file d 0
  split
  · next file1 x nn e he => rw [he] at this; simpa using this
  · simp

theorem bigBytes_length : bigBytes.length = 2 ^ 32 := List.length_replicate _ _

theorem demoActiveFile_WF : demoActiveFile.file.WF := by
  simp [demoActiveFile, NewActiveFile, NewFileWithBuffer, FileWithBuffer.WF, alookup]

theorem demoActiveFile_room : demoActiveFile.file.f.room = none := rfl

theorem demoRecord_Valid : demoRecord.Valid := by
  simp [Record.Valid, demoRecord]

/-- C9. Record write/read round trip: on a consistent active segment whose device
accepts the writes, `WriteRecord` of a record whose sizes are the lengths of its key
and value returns the apparent size `s` before the write as offset, grows the
apparent size by exactly `24 + len(key) + len(value)`, stores at `s` the IEEE CRC-32
of `header[4:24] ++ key ++ value`, and `ReadRecordAt(s)` on that segment, or on any
later state of it whose content extends it, returns the record with the same flag,
expiration, keySize, valueSize, key and value. -/
theorem C9_write_read_round_trip (af : ActiveFile) (r : Record) (hw : af.file.WF)
    (hr : af.file.f.room = none) (hv : r.Valid) :
    (af.WriteRecord r).2 = Except.ok af.file.Size ∧
    (af.WriteRecord r).1.file.Size = af.file.Size + (24 + r.key.length + r.value.length) ∧
    slice (af.WriteRecord r).1.file.content af.file.Size (af.file.Size + 4)
      = putLE 4 (ChecksumIEEE (headerTail r ++ r.key ++ r.value)) ∧
    ∀ later : ActiveFile, later.file.WF →
      (∃ t, later.file.content = (af.WriteRecord r).1.file.content ++ t) →
      later.ReadRecordAt af.file.Size =
        Except.ok { crc := ChecksumIEEE (headerTail r ++ r.key ++ r.value), flag := r.flag,
                    expiration := r.expiration, keySize := r.keySize,
                    valueSize := r.valueSize, key := r.key, value := r.value } := by
  obtain ⟨hf, he1, he2, hk, hvs, hkl, hvl⟩ := hv
  have hk1 : r.keySize = toUint32 r.key.length := by
    rw [hk]; exact (Nat.mod_eq_of_lt hkl).symm
  have hv1 : r.valueSize = toUint32 r.value.length := by
    rw [hvs]; exact (Nat.mod_eq_of_lt hvl).symm
  obtain ⟨af1, e, c, w, ro, fid, wl, sz, t, b⟩ := WriteRecord_spec af hw hr r hk1 hv1
  have hlen := content_length af.file hw
  rw [e]
  refine ⟨rfl, sz, ?_, ?_⟩
  · simp only [c, FileWithBuffer.Size, ← hlen, ← recordCrc_eq]
    have := slice_mid af.file.content (putLE 4 (recordCrc r))
      (headerTail r ++ r.key ++ r.value)
    simpa [encodeRecord, putLE_length, List.append_assoc] using this
  · rintro later lw ⟨t, lt⟩
    rw [ActiveFile_ReadRecordAt_eq later lw, lt]
    simp only [c, FileWithBuffer.Size, ← hlen, ← recordCrc_eq]
    exact DataFile_ReadRecordAt_encoded later.fileId af.file.content t r
      ⟨hf, he1, he2, hk, hvs, hkl, hvl⟩

/-- Witness of C9: the theorem applied to a one-byte key and a two-byte value
written to a fresh segment. -/
theorem C9_write_read_round_trip_witness :
    demoActiveFile.file.WF ∧ demoActiveFile.file.f.room = none ∧ demoRecord.Valid ∧
    (demoActiveFile.WriteRecord demoRecord).2 = Except.ok 0 ∧
    (demoActiveFile.WriteRecord demoRecord).1.file.Size = 27 :=
  ⟨demoActiveFile_WF, demoActiveFile_room, demoRecord_Valid,
    (C9_write_read_round_trip demoActiveFile demoRecord demoActiveFile_WF demoActiveFile_room
      demoRecord_Valid).1,
    (C9_write_read_round_trip demoActiveFile demoRecord demoActiveFile_WF demoActiveFile_room
      demoRecord_Valid).2.1⟩

/-- C10, as stated, fails: a record with `keySize = 0` and a key of `2^32` bytes has
`keySize != len(key)`, yet `WriteRecord` does not reject it with `ErrInvalid`,
because the comparison is made after `uint32(len(r.key))`. -/
theorem C10_counterexample :
    bigKeyRecord.keySize ≠ bigKeyRecord.key.length ∧
    (demoActiveFile.WriteRecord bigKeyRecord).2 ≠ Except.error Error.ErrInvalid := by
  constructor
  · show 0 ≠ bigBytes.length
    rw [bigBytes_length]; norm_num
  · have hk : bigKeyRecord.keySize = toUint32 bigKeyRecord.key.length := by
      show 0 = toUint32 bigBytes.length
      rw [bigBytes_length]; rfl
    have hv : bigKeyRecord.valueSize = toUint32 bigKeyRecord.value.length := rfl
    obtain ⟨af1, e, _⟩ :=
      WriteRecord_spec demoActiveFile demoActiveFile_WF demoActiveFile_room bigKeyRecord hk hv
    rw [e]
    simp

/-- C10, amended. `WriteRecord(r)` fails with `ErrInvalid` if and only if
`r.keySize != uint32(len(r.key))` or `r.valueSize != uint32(len(r.value))` (the
lengths taken modulo `2^32`); when it rejects, the segment is unchanged: apparent
size, buffer and on-disk bytes. -/
theorem C10_write_record_validation (af : ActiveFile) (r : Record) :
    ((af.WriteRecord r).2 = Except.error Error.ErrInvalid ↔
      (r.keySize ≠ r.key.length % 2 ^ 32 ∨ r.valueSize ≠ r.value.length % 2 ^ 32)) ∧
    ((af.WriteRecord r).2 = Except.error Error.ErrInvalid → (af.WriteRecord r).1 = af) := by
  unfold ActiveFile.WriteRecord
  by_cases hc : r.keySize ≠ toUint32 r.key.length ∨ r.valueSize ≠ toUint32 r.value.length
  · simp only [hc, if_true]
    refine ⟨⟨fun _ => hc, fun _ => ?_⟩, fun _ => ?_⟩ <;> first | rfl | trivial
  · simp only [hc, if_false]
    have key : ∀ x : ActiveFile × Except Error Nat,
        x.2 ≠ Except.error Error.ErrInvalid →
        ((x.2 = Except.error Error.ErrInvalid ↔
          (r.keySize ≠ r.key.length % 2 ^ 32 ∨ r.valueSize ≠ r.value.length % 2 ^ 32)) ∧
        (x.2 = Except.error Error.ErrInvalid → x.1 = af)) := by
      intro x hx
      exact ⟨⟨fun h => absurd h hx, fun h => absurd h hc⟩, fun h => absurd h hx⟩
    apply key
    have w1 := Write_err af.file (putLE 4 (recordCrc r) ++ headerTail r)
    split
    · next f1 n e he => rw [he] at w1; simpa using w1
    · next f1 n he =>
      have w2 := Write_err f1 r.key
      split
      · next f2 n2 e2 he2 => rw [he2] at w2; simpa using w2
      · next f2 n2 he2 =>
        have w3 := Write_err f2 r.value
        split
        · next f3 n3 e3 he3 => rw [he3] at w3; simpa using w3
        · simp

section assoc
variable {α β : Type} [DecidableEq α]

theorem alookup_aset_eq (k : α) (v : β) (l : List (α × β)) :
    alookup k (aset k v l) = some v := by
  induction l with
  | nil => simp [aset, alookup]
  | cons h t ih =>
    obtain ⟨a, b⟩ := h
    by_cases e : a = k
    · simp [aset, alookup, e]
    · simp [aset, alookup, e, ih]

theorem alookup_aset_ne (k k1 : α) (v : β) (l : List (α × β)) (h : k1 ≠ k) :
    alookup k1 (aset k v l) = alookup k1 l := by
  induction l with
  | nil => simp [aset, alookup, Ne.symm h]
  | cons hd t ih =>
    obtain ⟨a, b⟩ := hd
    by_cases e : a = k
    · subst e
      simp [aset, alookup, Ne.symm h]
    · by_cases e1 : a = k1
      · subst e1
        simp [aset, alookup, e]
      · simp [aset, alookup, e, e1, ih]

theorem alookup_aerase_eq (k : α) (l : List (α × β)) : alookup k (aerase k l) = none := by
  induction l with
  | nil => simp [aerase, alookup]
  | cons hd t ih =>
    obtain ⟨a, b⟩ := hd
    by_cases e : a = k
    · simp [aerase, e, ih]
    · simp [aerase, alookup, e, ih]

theorem alookup_aerase_ne (k k1 : α) (l : List (α × β)) (h : k1 ≠ k) :
    alookup k1 (aerase k l) = alookup k1 l := by
  induction l with
  | nil => simp [aerase, alookup]
  | cons hd t ih =>
    obtain ⟨a, b⟩ := hd
    by_cases e : a = k
    · subst e
      simp [aerase, alookup, Ne.symm h, ih]
    · by_cases e1 : a = k1
      · subst e1
        simp [aerase, alookup, e]
      · simp [aerase, alookup, e, e1, ih]

theorem alookup_aset (k k1 : α) (v : β) (l : List (α × β)) :
    alookup k1 (aset k v l) = if k1 = k then some v else alookup k1 l := by
  by_cases h : k1 = k
  · subst h; simp [alookup_aset_eq]
  · simp [h, alookup_aset_ne k k1 v l h]

theorem alookup_aerase (k k1 : α) (l : List (α × β)) :
    alookup k1 (aerase k l) = if k1 = k then none else alookup k1 l := by
  by_cases h : k1 = k
  · subst h; simp [alookup_aerase_eq]
  · simp [h, alookup_aerase_ne k k1 l h]

end assoc

theorem unref_AllDf (cache : DataFileCache) (P : Nat → DataFile → Prop) (fileId : Nat)
    (h : cache.AllDf P) : (cache.unref fileId).AllDf P := by
  unfold DataFileCache.unref
  split
  · exact h
  · next entry he =>
    dsimp only
    split
    · intro id e hl
      rw [alookup_aerase] at hl
      split at hl
      · simp at hl
      · exact h id e hl
    · intro id e hl
      rw [alookup_aset] at hl
      split at hl
      · next hid =>
        subst hid
        simp only [Option.some.injEq] at hl
        subst hl
        exact h _ entry he
      · exact h id e hl

theorem markOut_AllDf (cache : DataFileCache) (P : Nat → DataFile → Prop) (fileId : Nat)
    (h : cache.AllDf P) : (cache.markOut fileId).AllDf P := by
  unfold DataFileCache.markOut
  split
  · exact h
  · next entry he =>
    intro id e hl
    rw [alookup_aset] at hl
    split at hl
    · next hid =>
      subst hid
      simp only [Option.some.injEq] at hl
      subst hl
      exact h _ entry he
    · exact h id e hl

theorem AllDf_of_hash_eq (c1 c2 : DataFileCache) (P : Nat → DataFile → Prop)
    (h : c1.hash = c2.hash) (h1 : c1.AllDf P) : c2.AllDf P := by
  intro id e hl
  exact h1 id e (h ▸ hl)

theorem shrink_AllDf (fuel : Nat) (cache : DataFileCache) (P : Nat → DataFile → Prop)
    (h : cache.AllDf P) : (cache.shrink fuel).AllDf P := by
  induction fuel generalizing cache with
  | zero => exact h
  | succ fuel ih =>
    rw [DataFileCache.shrink]
    split
    · split
      · exact h
      · exact ih _ (unref_AllDf _ P _ (markOut_AllDf _ P _
          (AllDf_of_hash_eq cache _ P rfl h)))
    · exact h

theorem drain_AllDf (fuel : Nat) (cache : DataFileCache) (P : Nat → DataFile → Prop)
    (h : cache.AllDf P) : (cache.drain fuel).AllDf P := by
  induction fuel generalizing cache with
  | zero => exact h
  | succ fuel ih =>
    rw [DataFileCache.drain]
    split
    · exact h
    · exact ih _ (unref_AllDf _ P _ (markOut_AllDf _ P _
        (AllDf_of_hash_eq cache _ P rfl h)))

theorem Evict_AllDf (cache : DataFileCache) (P : Nat → DataFile → Prop) (fileId : Nat)
    (h : cache.AllDf P) : (cache.Evict fileId).AllDf P := by
  unfold DataFileCache.Evict
  split
  · exact h
  · split
    · exact unref_AllDf _ P _ (markOut_AllDf _ P _ (AllDf_of_hash_eq cache _ P rfl h))
    · exact h

theorem refEntry_AllDf (cache : DataFileCache) (P : Nat → DataFile → Prop) (fileId : Nat)
    (entry : CacheEntry) (h : cache.AllDf P) (hp : P fileId entry.df) :
    (cache.refEntry fileId entry).1.AllDf P ∧
      (cache.refEntry fileId entry).2 = Except.ok entry.df := by
  unfold DataFileCache.refEntry
  refine ⟨shrink_AllDf _ _ P ?_, rfl⟩
  intro id e hl
  simp only at hl
  rw [alookup_aset] at hl
  split at hl
  · next hid =>
    subst hid
    simp only [Option.some.injEq] at hl
    subst hl
    exact hp
  · exact h id e hl

/-- `Ref` keeps a property of all cached data files when a freshly opened file has
it, and the data file it returns has the property. -/
theorem Ref_AllDf (cache : DataFileCache) (P : Nat → DataFile → Prop) (dir : Dir)
    (fileId : Nat) (h : cache.AllDf P)
    (hnew : ∀ df, NewDataFile dir fileId = Except.ok df → P fileId df) :
    (cache.Ref dir fileId).1.AllDf P ∧
      ∀ df, (cache.Ref dir fileId).2 = Except.ok df → P fileId df := by
  unfold DataFileCache.Ref
  split
  · next hnone =>
    split
    · next e he => exact ⟨h, fun df hdf => by simp at hdf⟩
    · next df hdf =>
      have hp := hnew df hdf
      have h1 : DataFileCache.AllDf
          { l := fileId :: cache.l,
            hash := aset fileId { df := df, refCount := 1, inList := true } cache.hash,
            capacity := cache.capacity } P := by
        intro id e hl
        simp only at hl
        rw [alookup_aset] at hl
        split at hl
        · next hid =>
          subst hid
          simp only [Option.some.injEq] at hl
          subst hl
          exact hp
        · exact h id e hl
      obtain ⟨a, b⟩ := refEntry_AllDf _ P fileId { df := df, refCount := 1, inList := true }
        h1 hp
      refine ⟨a, fun df1 hdf1 => ?_⟩
      rw [b] at hdf1
      simp only [Except.ok.injEq] at hdf1
      subst hdf1
      exact hp
  · next entry he =>
    have hp := h _ _ he
    obtain ⟨a, b⟩ := refEntry_AllDf cache P fileId entry h hp
    refine ⟨a, fun df1 hdf1 => ?_⟩
    rw [b] at hdf1
    simp only [Except.ok.injEq] at hdf1
    subst hdf1
    exact hp

/-- `Ref` succeeds when the entry is cached or the data file exists. -/
theorem Ref_ok (cache : DataFileCache) (dir : Dir) (fileId : Nat) (c : List Byte)
    (h : alookup (FileName.data fileId) dir = some c) :
    ∃ df, (cache.Ref dir fileId).2 = Except.ok df := by
  unfold DataFileCache.Ref
  split
  · simp only [NewDataFile, h]
    exact ⟨_, rfl⟩
  · exact ⟨_, rfl⟩

theorem checkRecord_encoded (k : List Byte) (now : Int) (r : Record) (hk : r.key = k)
    (hf : ¬ (r.flag &&& RECORD_FLAG_BIT_DELETE > 0)) :
    checkRecord k now (Except.ok { r with crc := recordCrc r }) = expected r now := by
  unfold checkRecord expected
  simp only [hk, ne_eq, not_true_eq_false, if_false, hf]

theorem Get_cache_only (bc : Beecask) (k : List Byte) (now : Int) :
    ∃ c, (bc.Get k now).1 = { bc with dataFileCache := c } := by
  unfold Beecask.Get
  split
  · exact ⟨bc.dataFileCache, rfl⟩
  · split
    · exact ⟨bc.dataFileCache, rfl⟩
    · split
      · exact ⟨bc.dataFileCache, rfl⟩
      · split
        · exact ⟨_, rfl⟩
        · exact ⟨_, rfl⟩

theorem NewDataFile_ok (dir : Dir) (fileId : Nat) (df : DataFile)
    (h : NewDataFile dir fileId = Except.ok df) :
    df.fileId = fileId ∧ alookup (FileName.data fileId) dir = some df.file.mmapedRegion := by
  unfold NewDataFile at h
  split at h
  · simp at h
  · next c hc =>
    simp only [Except.ok.injEq] at h
    subst h
    exact ⟨rfl, hc⟩

theorem CacheOK_Ref (dir : Dir) (maxId : Nat) (cache : DataFileCache) (fileId : Nat)
    (h : CacheOK dir maxId cache) (hlt : fileId < maxId) :
    CacheOK dir maxId (cache.Ref dir fileId).1 ∧
      ∀ df, (cache.Ref dir fileId).2 = Except.ok df → df.fileId = fileId ∧
        ∀ c, alookup (FileName.data fileId) dir = some c → df.file.mmapedRegion = c := by
  have := Ref_AllDf cache _ dir fileId h (fun df hdf => by
    obtain ⟨a, b⟩ := NewDataFile_ok dir fileId df hdf
    exact ⟨hlt, a, fun c hc => by rw [b] at hc; exact (Option.some.inj hc)⟩)
  exact ⟨this.1, fun df hdf => (this.2 df hdf).2⟩

/-- `Get` keeps the invariant and returns what the record the directory entry
points at prescribes. -/
theorem Get_spec (bc : Beecask) (k : List Byte) (now : Int) (r : Record) (hi : bc.Inv)
    (hh : bc.Holds k r) : (bc.Get k now).2 = expected r now := by
  obtain ⟨hw, hr, hid, hm, hab, hc, hkd⟩ := hi
  obtain ⟨e, c, hg, hs, ⟨pre, post, hcp, hpl⟩, hfl, hvs, hkey, hv⟩ := hh
  unfold Beecask.Get
  simp only [hg]
  by_cases hf : e.flag &&& RECORD_FLAG_BIT_DELETE > 0
  · simp only [hf, if_true]
    unfold expected
    rw [← hfl]; simp only [hf, if_true]
  · simp only [hf, if_false]
    have hf1 : ¬ (r.flag &&& RECORD_FLAG_BIT_DELETE > 0) := by rw [← hfl]; exact hf
    by_cases ha : e.fileId = bc.activeFile.fileId
    · simp only [ha, if_true]
      unfold Beecask.segment at hs
      simp only [ha, if_true, Option.some.injEq] at hs
      rw [ActiveFile_ReadRecordAt_eq _ hw, hs, hcp, ← hpl,
        DataFile_ReadRecordAt_encoded _ pre post r hv]
      exact checkRecord_encoded k now r hkey hf1
    · simp only [ha, if_false]
      unfold Beecask.segment at hs
      simp only [ha, if_false] at hs
      have hlt : e.fileId < bc.maxDataFileId := by
        have := hkd k e hg
        rw [hid] at ha
        omega
      obtain ⟨df, hdf⟩ := Ref_ok bc.dataFileCache bc.dir e.fileId c hs
      obtain ⟨_, h2⟩ := CacheOK_Ref bc.dir bc.maxDataFileId bc.dataFileCache e.fileId hc hlt
      obtain ⟨hfid, hco⟩ := h2 df hdf
      have hreg := hco c hs
      have hdfeq : df = { file := { mmapedRegion := c }, fileId := e.fileId } := by
        cases df with
        | mk file fileId =>
          cases file with
          | mk region =>
            simp only at hfid hreg
            subst hfid; subst hreg
            rfl
      split
      · next cache1 err heq => rw [heq] at hdf; simp at hdf
      · next cache1 df1 heq =>
        rw [heq] at hdf
        simp only [Except.ok.injEq] at hdf
        subst hdf
        simp only
        rw [hdfeq, hcp, ← hpl, DataFile_ReadRecordAt_encoded _ pre post r hv]
        exact checkRecord_encoded k now r hkey hf1

theorem unref_CacheOK (dir : Dir) (maxId : Nat) (cache : DataFileCache) (fileId : Nat)
    (h : CacheOK dir maxId cache) : CacheOK dir maxId (cache.unref fileId) :=
  unref_AllDf cache _ fileId h

theorem Get_Inv (bc : Beecask) (k : List Byte) (now : Int) (hi : bc.Inv) :
    (bc.Get k now).1.Inv := by
  obtain ⟨hw, hr, hid, hm, hab, hc, hkd⟩ := hi
  unfold Beecask.Get
  split
  · exact ⟨hw, hr, hid, hm, hab, hc, hkd⟩
  · next e hg =>
    split
    · exact ⟨hw, hr, hid, hm, hab, hc, hkd⟩
    · split
      · exact ⟨hw, hr, hid, hm, hab, hc, hkd⟩
      · next ha =>
        have hlt : e.fileId < bc.maxDataFileId := by
          have := hkd k e hg
          rw [hid] at ha
          omega
        obtain ⟨h1, _⟩ := CacheOK_Ref bc.dir bc.maxDataFileId bc.dataFileCache e.fileId hc hlt
        split
        · next cache1 err heq =>
          rw [heq] at h1
          exact ⟨hw, hr, hid, hm, hab, h1, hkd⟩
        · next cache1 df1 heq =>
          rw [heq] at h1
          exact ⟨hw, hr, hid, hm, hab, unref_CacheOK _ _ _ _ h1, hkd⟩

theorem Get_Holds (bc : Beecask) (k : List Byte) (now : Int) (k1 : List Byte) (r : Record)
    (h : bc.Holds k1 r) : (bc.Get k now).1.Holds k1 r := by
  obtain ⟨c, hc⟩ := Get_cache_only bc k now
  rw [hc]
  exact h

theorem generateHintFile_data (dir : Dir) (kd : KeyDir) (fileId id : Nat) :
    alookup (FileName.data id) (generateHintFile dir kd fileId) =
      alookup (FileName.data id) dir := by
  unfold generateHintFile WritableHintFile.Close
  exact alookup_aset_ne _ _ _ _ (by simp)

theorem NewFileWithBuffer_WF (bytes : List Byte) (w : Nat) :
    (NewFileWithBuffer { bytes := bytes, room := none } bytes.length w).WF := by
  simp [NewFileWithBuffer, FileWithBuffer.WF]

theorem NewFileWithBuffer_content (bytes : List Byte) (w : Nat) :
    (NewFileWithBuffer { bytes := bytes, room := none } bytes.length w).content = bytes := by
  simp [NewFileWithBuffer, FileWithBuffer.content, slice]

theorem CacheOK_mono (dir dir1 : Dir) (m m1 : Nat) (cache : DataFileCache)
    (h : CacheOK dir m cache) (hm : m ≤ m1)
    (hd : ∀ id, id < m → ∀ c, alookup (FileName.data id) dir1 = some c →
      alookup (FileName.data id) dir = some c) :
    CacheOK dir1 m1 cache := by
  intro id e he
  obtain ⟨a, b, c⟩ := h id e he
  exact ⟨by omega, b, fun c1 hc1 => c c1 (hd id a c1 hc1)⟩

/-- A rotation keeps the invariant, opens an empty active segment with the next id
and leaves every earlier segment readable with the same content. -/
theorem rotate_spec (bc : Beecask) (hi : bc.Inv) :
    bc.rotateActiveFile.Inv ∧ bc.rotateActiveFile.activeFile.file.size = 0 ∧
    bc.rotateActiveFile.keydir = bc.keydir ∧ bc.rotateActiveFile.options = bc.options ∧
    bc.rotateActiveFile.maxDataFileId = bc.maxDataFileId + 1 ∧
    bc.rotateActiveFile.minDataFileId = bc.minDataFileId ∧
    (∀ id, id ≤ bc.maxDataFileId → bc.rotateActiveFile.segment id = bc.segment id) := by
  obtain ⟨hw, hr, hid, hm, hab, hc, hkd⟩ := hi
  have hflush := Flush_spec bc.activeFile.file hr
  have hnone : alookup (FileName.data (bc.maxDataFileId + 1))
      (aset (FileName.data bc.activeFile.fileId) bc.activeFile.file.Close.f.bytes
        (generateHintFile bc.dir bc.activeKeydir bc.activeFile.FileId)) = none := by
    rw [alookup_aset_ne _ _ _ _ (by simp [hid]), generateHintFile_data]
    exact hab _ (by omega)
  have hdir : ∀ id, alookup (FileName.data id) bc.rotateActiveFile.dir =
      if id = bc.maxDataFileId + 1 then some []
      else if id = bc.maxDataFileId then some bc.activeFile.file.content
      else alookup (FileName.data id) bc.dir := by
    intro id
    simp only [Beecask.rotateActiveFile, NewActiveFile, hnone, Option.getD_none]
    rw [alookup_aset]
    by_cases h1 : id = bc.maxDataFileId + 1
    · simp [h1]
    · simp only [h1, FileName.data.injEq, if_false]
      rw [alookup_aset]
      by_cases h2 : id = bc.maxDataFileId
      · simp [h2, hid, FileWithBuffer.Close, hflush]
      · simp only [h2, hid, FileName.data.injEq, if_false]
        exact generateHintFile_data _ _ _ _
  have haf : bc.rotateActiveFile.activeFile =
      { file := NewFileWithBuffer { bytes := [], room := none } 0 bc.options.WriteBufferSize,
        fileId := bc.maxDataFileId + 1 } := by
    simp only [Beecask.rotateActiveFile, NewActiveFile, hnone, Option.getD_none]
    rfl
  refine ⟨⟨?_, ?_, ?_, ?_, ?_, ?_, ?_⟩, ?_, rfl, rfl, rfl, rfl, ?_⟩
  · rw [haf]; exact NewFileWithBuffer_WF [] _
  · rw [haf]; rfl
  · rw [haf]; rfl
  · rw [haf, hdir]; simp [NewFileWithBuffer, Beecask.rotateActiveFile]
  · intro id hlt
    rw [hdir]
    have h0 : bc.rotateActiveFile.maxDataFileId = bc.maxDataFileId + 1 := rfl
    rw [h0] at hlt
    have h1 : id ≠ bc.maxDataFileId + 1 := by omega
    have h2 : id ≠ bc.maxDataFileId := by omega
    simp only [h1, h2, if_false]
    exact hab id (by omega)
  · apply CacheOK_mono bc.dir _ bc.maxDataFileId _ _ hc (by simp [Beecask.rotateActiveFile])
    intro id hlt c hcd
    rw [hdir] at hcd
    have h1 : id ≠ bc.maxDataFileId + 1 := by omega
    have h2 : id ≠ bc.maxDataFileId := by omega
    simpa only [h1, h2, if_false] using hcd
  · intro k e he
    have := hkd k e he
    show e.fileId ≤ bc.maxDataFileId + 1
    omega
  · rw [haf]; rfl
  · intro id hle
    unfold Beecask.segment
    rw [haf, hdir]
    have h1 : id ≠ bc.maxDataFileId + 1 := by omega
    simp only [h1, if_false, hid]

theorem RecordAt_append (c : List Byte) (p : Nat) (r : Record) (t : List Byte)
    (h : RecordAt c p r) : RecordAt (c ++ t) p r := by
  obtain ⟨pre, post, h1, h2⟩ := h
  exact ⟨pre, post ++ t, by simp [h1, List.append_assoc], h2⟩

/-- The effect of `setRecord` on a state that satisfies the invariant, for a record
whose size fields are the `uint32` lengths of its key and value. -/
theorem setRecord_spec (bc : Beecask) (r : Record) (hi : bc.Inv)
    (hk : r.keySize = toUint32 r.key.length) (hv : r.valueSize = toUint32 r.value.length) :
    (bc.setRecord r).2 = none ∧ (bc.setRecord r).1.Inv ∧
    (bc.setRecord r).1.options = bc.options ∧
    (∀ k r0, k ≠ r.key → bc.Holds k r0 → (bc.setRecord r).1.Holds k r0) ∧
    (r.Valid → bc.options.MaxFileSize ≤ 2 ^ 32 → (bc.setRecord r).1.Holds r.key r) := by
  unfold Beecask.setRecord
  generalize hb : (if ((bc.activeFile.file.Size + r.Size : Nat) : Int) ≥ bc.options.MaxFileSize
    then bc.rotateActiveFile else bc) = bc1
  have hfacts : bc1.Inv ∧ bc1.options = bc.options ∧ bc1.keydir = bc.keydir ∧
      bc.maxDataFileId ≤ bc1.maxDataFileId ∧
      (∀ id, id ≤ bc.maxDataFileId → bc1.segment id = bc.segment id) ∧
      (bc.options.MaxFileSize ≤ 2 ^ 32 → bc1.activeFile.file.size < 2 ^ 32) := by
    by_cases hcnd : ((bc.activeFile.file.Size + r.Size : Nat) : Int) ≥ bc.options.MaxFileSize
    · simp only [hcnd, if_true] at hb
      subst hb
      obtain ⟨a, b, c, d, e, _, g⟩ := rotate_spec bc hi
      exact ⟨a, d, c, by omega, g, fun _ => by rw [b]; norm_num⟩
    · simp only [hcnd, if_false] at hb
      subst hb
      refine ⟨hi, rfl, rfl, le_refl _, fun _ _ => rfl, fun hmax => ?_⟩
      simp only [FileWithBuffer.Size] at hcnd
      have : ((bc.activeFile.file.size + r.Size : Nat) : Int) < 2 ^ 32 := by omega
      have h2 : ((bc.activeFile.file.size + r.Size : Nat) : Int)
          = (bc.activeFile.file.size : Int) + (r.Size : Int) := by push_cast; rfl
      omega
  obtain ⟨hi1, hopt, hkd1, hmax1, hseg1, hsz1⟩ := hfacts
  obtain ⟨hw, hr, hid, hm, hab, hc, hkd⟩ := hi1
  obtain ⟨hiw, hir, hiid, him, hiab, hic, hikd⟩ := hi
  obtain ⟨af1, e, c, w, ro, fid, wl, sz, t, b⟩ := WriteRecord_spec bc1.activeFile hw hr r hk hv
  simp only [e]
  have hseg2 : ∀ id c0, bc1.segment id = some c0 →
      ∃ t, Beecask.segment
        { bc1 with activeFile := af1,
                   dir := aset (FileName.data af1.fileId) af1.file.f.bytes bc1.dir,
                   keydir := bc1.keydir.Set r.key
                     { fileId := af1.FileId, valuePos := toUint32 bc1.activeFile.file.size,
                       valueSize := r.valueSize, flag := r.flag },
                   activeKeydir := bc1.activeKeydir.Set r.key
                     { fileId := af1.FileId, valuePos := toUint32 bc1.activeFile.file.size,
                       valueSize := r.valueSize, flag := r.flag } } id = some (c0 ++ t) := by
    intro id c0 h0
    unfold Beecask.segment at h0 ⊢
    simp only [fid] at h0 ⊢
    by_cases h1 : id = bc1.activeFile.fileId
    · simp only [h1, if_true, Option.some.injEq] at h0 ⊢
      exact ⟨encodeRecord r, by rw [c, h0]⟩
    · simp only [h1, if_false] at h0 ⊢
      rw [alookup_aset_ne _ _ _ _ (by simpa using h1)]
      exact ⟨[], by simp [h0]⟩
  refine ⟨by first | rfl | trivial, ⟨w, ro, ?_, ?_, ?_, ?_, ?_⟩, hopt, ?_, ?_⟩
  · simp only [fid, hid]
  · simp only [fid, hid]; exact alookup_aset_eq _ _ _
  · intro id hlt
    simp only at hlt
    simp only [fid, hid]
    rw [alookup_aset_ne _ _ _ _ (by simp; omega)]
    exact hab id hlt
  · apply CacheOK_mono bc1.dir _ _ _ _ hc (le_refl _)
    intro id hlt c0 hc0
    simp only [fid, hid] at hc0
    rwa [alookup_aset_ne _ _ _ _ (by simp; omega)] at hc0
  · intro k e1 he1
    simp only [KeyDir.Get, KeyDir.Set] at he1
    rw [alookup_aset] at he1
    split at he1
    · simp only [Option.some.injEq] at he1
      subst he1
      simp only [ActiveFile.FileId, fid, hid, le_refl]
    · exact hkd k e1 he1
  · rintro k r0 hne ⟨e0, c0, hg, hs, hra, hfl, hvs, hkey, hval⟩
    have hle : e0.fileId ≤ bc.maxDataFileId := hikd k e0 hg
    obtain ⟨t0, ht0⟩ := hseg2 e0.fileId c0 (by rw [hseg1 _ hle]; exact hs)
    refine ⟨e0, c0 ++ t0, ?_, ht0, RecordAt_append _ _ _ _ hra, hfl, hvs, hkey, hval⟩
    simp only [KeyDir.Get, KeyDir.Set]
    rw [alookup_aset_ne _ _ _ _ hne, hkd1]
    exact hg
  · intro hval hmaxsz
    have hlt := hsz1 hmaxsz
    refine ⟨{ fileId := af1.FileId, valuePos := toUint32 bc1.activeFile.file.size,
              valueSize := r.valueSize, flag := r.flag },
      bc1.activeFile.file.content ++ encodeRecord r, ?_, ?_, ?_, rfl, rfl, rfl, hval⟩
    · simp only [KeyDir.Get, KeyDir.Set]
      exact alookup_aset_eq _ _ _
    · unfold Beecask.segment
      simp only [ActiveFile.FileId, if_true, c]
    · refine ⟨bc1.activeFile.file.content, [], by simp, ?_⟩
      simp only [toUint32, Nat.mod_eq_of_lt hlt]
      exact content_length _ hw

theorem step_write (bc : Beecask) (op : Op) (r : Record) (h : op.record = some r) :
    bc.step op = (bc.setRecord r).1 ∧ r.keySize = toUint32 r.key.length ∧
      r.valueSize = toUint32 r.value.length := by
  cases op with
  | set k v =>
    simp only [Op.record, Option.some.injEq] at h
    subst h
    exact ⟨rfl, rfl, rfl⟩
  | setWithExpiration k v e =>
    simp only [Op.record, Option.some.injEq] at h
    subst h
    exact ⟨rfl, rfl, rfl⟩
  | delete k =>
    simp only [Op.record, Option.some.injEq] at h
    subst h
    exact ⟨rfl, rfl, rfl⟩
  | get k now => simp [Op.record] at h

theorem step_read (bc : Beecask) (op : Op) (h : op.record = none) :
    ∃ k now, bc.step op = (bc.Get k now).1 := by
  cases op with
  | set k v => simp [Op.record] at h
  | setWithExpiration k v e => simp [Op.record] at h
  | delete k => simp [Op.record] at h
  | get k now => exact ⟨k, now, rfl⟩

theorem Get_options (bc : Beecask) (k : List Byte) (now : Int) :
    (bc.Get k now).1.options = bc.options := by
  obtain ⟨c, hc⟩ := Get_cache_only bc k now
  rw [hc]

/-- One call keeps the invariant and the options, keeps what the directory holds
for the keys it does not write, and makes the directory hold the record it writes. -/
theorem step_spec (bc : Beecask) (op : Op) (hi : bc.Inv) :
    (bc.step op).Inv ∧ (bc.step op).options = bc.options ∧
    (∀ k r0, (∀ r, op.record = some r → r.key ≠ k) → bc.Holds k r0 →
      (bc.step op).Holds k r0) ∧
    (∀ r, op.record = some r → r.Valid → bc.options.MaxFileSize ≤ 2 ^ 32 →
      (bc.step op).Holds r.key r) := by
  cases hrec : op.record with
  | none =>
    obtain ⟨k, now, e⟩ := step_read bc op hrec
    rw [e]
    exact ⟨Get_Inv bc k now hi, Get_options bc k now,
      fun k1 r0 _ hh => Get_Holds bc k now k1 r0 hh, fun r hr => by simp at hr⟩
  | some r =>
    obtain ⟨e, hk, hv⟩ := step_write bc op r hrec
    rw [e]
    obtain ⟨_, a, b, c, d⟩ := setRecord_spec bc r hi hk hv
    refine ⟨a, b, fun k r0 hne hh => c k r0 (Ne.symm (hne r rfl)) hh, fun r1 hr1 => ?_⟩
    simp only [Option.some.injEq] at hr1
    subst hr1
    exact d

theorem run_cons (bc : Beecask) (op : Op) (ops : List Op) :
    bc.run (op :: ops) = (bc.step op).run ops := rfl

theorem run_append (bc : Beecask) (ops1 ops2 : List Op) :
    bc.run (ops1 ++ ops2) = (bc.run ops1).run ops2 := by
  simp [Beecask.run, List.foldl_append]

/-- A sequence of calls keeps the invariant and the options; afterwards the
directory holds, for every key, the last record written for it by the sequence when
that record is valid and `MaxFileSize` fits 32 bits, and what it held before for a
key the sequence does not write. -/
theorem run_spec (ops : List Op) (bc : Beecask) (hi : bc.Inv) :
    (bc.run ops).Inv ∧ (bc.run ops).options = bc.options ∧
    ∀ k, (∀ r, lastWrite k ops = some r → r.Valid → bc.options.MaxFileSize ≤ 2 ^ 32 →
        (bc.run ops).Holds k r) ∧
      (lastWrite k ops = none → ∀ r0, bc.Holds k r0 → (bc.run ops).Holds k r0) := by
  induction ops generalizing bc with
  | nil => exact ⟨hi, rfl, fun k => ⟨fun r hr => by simp [lastWrite] at hr, fun _ r0 h => h⟩⟩
  | cons op ops ih =>
    obtain ⟨s1, s2, s3, s4⟩ := step_spec bc op hi
    obtain ⟨i1, i2, i3⟩ := ih (bc.step op) s1
    rw [run_cons]
    refine ⟨i1, by rw [i2, s2], fun k => ⟨fun r hr hv hm => ?_, fun hn r0 h0 => ?_⟩⟩
    · rw [← s2] at hm
      unfold lastWrite at hr
      cases hl : lastWrite k ops with
      | some r1 =>
        simp only [hl, Option.some.injEq] at hr
        subst hr
        exact (i3 k).1 r1 hl hv hm
      | none =>
        simp only [hl] at hr
        cases hrec : op.record with
        | none => simp [hrec] at hr
        | some r2 =>
          simp only [hrec] at hr
          split at hr
          · next hkey =>
            simp only [Option.some.injEq] at hr
            subst hr
            subst hkey
            rw [s2] at hm
            exact (i3 r2.key).2 hl r2 (s4 r2 hrec hv hm)
          · simp at hr
    · unfold lastWrite at hn
      cases hl : lastWrite k ops with
      | some r1 => simp [hl] at hn
      | none =>
        simp only [hl] at hn
        apply (i3 k).2 hl r0
        apply s3 k r0 _ h0
        intro r hrec
        simp only [hrec] at hn
        intro hkey
        simp [hkey] at hn

@[simp] theorem unref_l (c : DataFileCache) (id : Nat) : (c.unref id).l = c.l := by
  unfold DataFileCache.unref
  split
  · rfl
  · dsimp only; split <;> rfl

@[simp] theorem unref_capacity (c : DataFileCache) (id : Nat) :
    (c.unref id).capacity = c.capacity := by
  unfold DataFileCache.unref
  split
  · rfl
  · dsimp only; split <;> rfl

@[simp] theorem markOut_l (c : DataFileCache) (id : Nat) : (c.markOut id).l = c.l := by
  unfold DataFileCache.markOut
  split <;> rfl

@[simp] theorem markOut_capacity (c : DataFileCache) (id : Nat) :
    (c.markOut id).capacity = c.capacity := by
  unfold DataFileCache.markOut
  split <;> rfl

theorem evictBack_lookup (c : DataFileCache) (back id : Nat)
    (h : ∀ e, alookup back c.hash = some e → e.refCount = 1) :
    alookup id ((c.markOut back).unref back).hash =
      if id = back then none else alookup id c.hash := by
  unfold DataFileCache.markOut
  cases hb : alookup back c.hash with
  | none =>
    simp only [DataFileCache.unref, hb]
    split
    · next e => subst e; exact hb
    · rfl
  | some eb =>
    have h1 := h eb hb
    simp only [DataFileCache.unref, alookup_aset_eq, h1, sub_self, and_self, if_true]
    rw [alookup_aerase, alookup_aset]
    split <;> rfl

theorem shrink_Held (fuel : Nat) (cache : DataFileCache) (f : Nat) (h : cache.Held f) :
    (cache.shrink fuel).Held f := by
  induction fuel generalizing cache with
  | zero => exact h
  | succ fuel ih =>
    rw [DataFileCache.shrink]
    split
    · next hlen =>
      split
      · exact h
      · next back hback =>
        apply ih
        obtain ⟨hnd, hcap, hhead, hsub, hent⟩ := h
        have hl : cache.l.dropLast ++ [back] = cache.l :=
          List.dropLast_append_getLast? back hback
        have hlen2 : 2 ≤ cache.l.length := by
          have : (1 : Int) < (cache.l.length : Int) := by omega
          omega
        have hdl : cache.l.dropLast ≠ [] := by
          intro h0
          have := congrArg List.length hl
          simp [h0] at this
          omega
        have hhead2 : cache.l.dropLast.head? = some f := by
          rw [← hl] at hhead
          cases hd : cache.l.dropLast with
          | nil => exact absurd hd hdl
          | cons a t => simpa [hd] using hhead
        have hnd2 : (cache.l.dropLast ++ [back]).Nodup := by rw [hl]; exact hnd
        have hbnot : back ∉ cache.l.dropLast := by
          intro hmem
          have := List.nodup_append.mp hnd2
          exact this.2.2 hmem (List.mem_singleton_self back)
        have hfmem : f ∈ cache.l.dropLast := List.mem_of_mem_head? hhead2
        have hbf : back ≠ f := fun e => hbnot (e ▸ hfmem)
        have hlook := fun id => evictBack_lookup
          ({ cache with l := cache.l.dropLast } : DataFileCache) back id (fun e he => by
            have := (hent back e he).2.2
            simpa [hbf] using this)
        refine ⟨?_, by simpa using hcap, by simpa using hhead2, ?_, ?_⟩
        · simpa using (List.nodup_append.mp hnd2).1
        · intro id hid
          simp only [unref_l, markOut_l] at hid
          rw [hlook id]
          have hne : id ≠ back := fun e => hbnot (e ▸ hid)
          simp only [hne, if_false]
          exact hsub id (by rw [← hl]; exact List.mem_append_left _ hid)
        · intro id e he
          rw [hlook id] at he
          split at he
          · simp at he
          · next hne =>
            obtain ⟨a, b, c⟩ := hent id e he
            refine ⟨a, ?_, c⟩
            simp only [unref_l, markOut_l]
            rw [← hl] at b
            rcases List.mem_append.mp b with hb | hb
            · exact hb
            · exact absurd (List.mem_singleton.mp hb) hne
    · exact h

theorem refEntry_Held (cache : DataFileCache) (f : Nat) (entry : CacheEntry)
    (hnd : cache.l.Nodup) (hcap : 1 ≤ cache.capacity)
    (he : entry.refCount = 1 ∧ entry.inList = true)
    (hsub : ∀ id, id ∈ cache.l → id ≠ f → ∃ e, alookup id cache.hash = some e)
    (hent : ∀ id e, id ≠ f → alookup id cache.hash = some e →
      e.refCount = 1 ∧ e.inList = true ∧ id ∈ cache.l) :
    (cache.refEntry f entry).1.Held f := by
  unfold DataFileCache.refEntry
  apply shrink_Held
  simp only [he.2, if_true]
  refine ⟨?_, hcap, rfl, ?_, ?_⟩
  · exact List.nodup_cons.mpr ⟨fun hm => ((List.Nodup.mem_erase_iff hnd).mp hm).1 rfl,
      hnd.erase f⟩
  · intro id hid
    simp only at hid ⊢
    rw [alookup_aset]
    by_cases hf : id = f
    · simp [hf]
    · simp only [hf, if_false]
      rcases List.mem_cons.mp hid with h1 | h1
      · exact absurd h1 hf
      · exact hsub id (List.mem_of_mem_erase h1) hf
  · intro id e hl
    simp only at hl
    rw [alookup_aset] at hl
    split at hl
    · next hid =>
      simp only [Option.some.injEq] at hl
      subst hl
      subst hid
      simp [he.1, he.2]
    · next hid =>
      obtain ⟨a, b, c⟩ := hent id e hid hl
      refine ⟨b, ?_, by simp [hid, a]⟩
      exact List.mem_cons_of_mem _ ((List.Nodup.mem_erase_iff hnd).mpr ⟨hid, c⟩)

theorem Ref_Held (cache : DataFileCache) (dir : Dir) (f : Nat) (h : cache.Idle) (df : DataFile)
    (hok : (cache.Ref dir f).2 = Except.ok df) : (cache.Ref dir f).1.Held f := by
  obtain ⟨hnd, hcap, hsub, hent⟩ := h
  unfold DataFileCache.Ref at hok ⊢
  split at hok
  · next hnone =>
    split at hok
    · simp at hok
    · next df1 hdf1 =>
      have hfl : f ∉ cache.l := by
        intro hm
        obtain ⟨e, he⟩ := hsub f hm
        rw [hnone] at he
        simp at he
      dsimp only
      refine refEntry_Held
        { l := f :: cache.l,
          hash := aset f { df := df1, refCount := 1, inList := true } cache.hash,
          capacity := cache.capacity }
        f { df := df1, refCount := 1, inList := true } ?_ hcap ⟨rfl, rfl⟩ ?_ ?_
      rotate_left
      · intro id hid hne
        simp only at hid ⊢
        rw [alookup_aset_ne _ _ _ _ hne]
        rcases List.mem_cons.mp hid with h1 | h1
        · exact absurd h1 hne
        · exact hsub id h1
      · intro id e hne hl
        simp only at hl ⊢
        rw [alookup_aset_ne _ _ _ _ hne] at hl
        obtain ⟨a, b, c⟩ := hent id e hl
        exact ⟨a, b, List.mem_cons_of_mem _ c⟩
      · exact List.nodup_cons.mpr ⟨hfl, hnd⟩
  · next entry he =>
    obtain ⟨a, b, c⟩ := hent f entry he
    exact refEntry_Held cache f entry hnd hcap ⟨a, b⟩ (fun id hid _ => hsub id hid)
      (fun id e _ hl => hent id e hl)

theorem Unref_Idle (cache : DataFileCache) (f : Nat) (h : cache.Held f) :
    (cache.Unref f).Idle := by
  obtain ⟨hnd, hcap, hhead, hsub, hent⟩ := h
  unfold DataFileCache.Unref DataFileCache.unref
  cases hf : alookup f cache.hash with
  | none =>
    simp only
    refine ⟨hnd, hcap, hsub, fun id e he => ?_⟩
    obtain ⟨a, b, c⟩ := hent id e he
    have hne : id ≠ f := by
      intro e1; subst e1; rw [hf] at he; simp at he
    exact ⟨by simpa [hne] using c, a, b⟩
  | some ef =>
    obtain ⟨a, b, c⟩ := hent f ef hf
    simp only [if_true] at c
    have hcnd : ¬ (ef.refCount - 1 = 0 ∧ ef.inList = false) := by
      rw [c]; simp
    simp only [hcnd, if_false]
    refine ⟨hnd, hcap, fun id hid => ?_, fun id e he => ?_⟩
    · rw [alookup_aset]
      split
      · exact ⟨_, rfl⟩
      · exact hsub id hid
    · simp only at he
      rw [alookup_aset] at he
      split at he
      · next hid =>
        simp only [Option.some.injEq] at he
        subst he; subst hid
        exact ⟨by simp [c], a, b⟩
      · next hid =>
        obtain ⟨a1, b1, c1⟩ := hent id e he
        exact ⟨by simpa [hid] using c1, a1, b1⟩

theorem Evict_absent (cache : DataFileCache) (f : Nat) (h : cache.Idle) :
    alookup f (cache.Evict f).hash = none := by
  obtain ⟨hnd, hcap, hsub, hent⟩ := h
  unfold DataFileCache.Evict
  cases hf : alookup f cache.hash with
  | none => simpa using hf
  | some ef =>
    obtain ⟨a, b, c⟩ := hent f ef hf
    simp only [b, if_true]
    rw [evictBack_lookup _ f f (fun e he => by
      simp only at he; rw [hf] at he; simp only [Option.some.injEq] at he; subst he; exact a)]
    simp

theorem NewDataFileCache_Idle (capacity : Int) : (NewDataFileCache capacity).Idle := by
  unfold NewDataFileCache DataFileCache.Idle
  refine ⟨List.nodup_nil, ?_, fun id hid => by simp at hid, fun id e he => by
    simp [alookup] at he⟩
  simp only
  split
  · simp [defaultCacheCapacity]
  · omega

theorem mem_ReadDir_of_alookup (dir : Dir) (n : FileName) (c : List Byte)
    (h : alookup n dir = some c) : n ∈ ReadDir dir := by
  induction dir with
  | nil => simp [alookup] at h
  | cons hd t ih =>
    obtain ⟨a, b⟩ := hd
    unfold alookup at h
    split at h
    · next e => subst e; simp [ReadDir]
    · have := ih h
      simp only [ReadDir, List.map_cons, List.mem_cons] at this ⊢
      exact Or.inr this

theorem alookup_of_mem_ReadDir (dir : Dir) (n : FileName) (h : n ∈ ReadDir dir) :
    ∃ c, alookup n dir = some c := by
  induction dir with
  | nil => simp [ReadDir] at h
  | cons hd t ih =>
    obtain ⟨a, b⟩ := hd
    unfold alookup
    by_cases e : a = n
    · exact ⟨b, by simp [e]⟩
    · simp only [e, if_false]
      apply ih
      simp only [ReadDir, List.map_cons, List.mem_cons] at h ⊢
      rcases h with h | h
      · exact absurd h.symm e
      · exact h

theorem DataFile_forEachLoop_inv {σ : Type} (df : DataFile)
    (fn : Record → Nat → Nat → σ → σ × Option Error) (P : σ → Prop)
    (h : ∀ r id o s, P s → P (fn r id o s).1) (fuel o : Nat) (s : σ) (hs : P s) :
    P (df.forEachLoop fn fuel o s).1 := by
  induction fuel generalizing o s with
  | zero => exact hs
  | succ fuel ih =>
    rw [DataFile.forEachLoop]
    split
    · split <;> exact hs
    · next r hr =>
      have := h r df.fileId o s hs
      split
      · next s1 e he => rw [he] at this; exact this
      · next s1 he => rw [he] at this; exact ih _ _ this

theorem Hint_forEachLoop_inv {σ : Type} (rhf : ReadableHintFile)
    (fn : HintItem → σ → σ × Option Error) (P : σ → Prop)
    (h : ∀ item s, P s → P (fn item s).1) (fuel o : Nat) (s : σ) (hs : P s) :
    P (rhf.forEachLoop fn fuel o s).1 := by
  induction fuel generalizing o s with
  | zero => exact hs
  | succ fuel ih =>
    rw [ReadableHintFile.forEachLoop]
    split
    · split <;> exact hs
    · next item hr =>
      have := h item s hs
      split
      · next s1 e he => rw [he] at this; exact this
      · next s1 he => rw [he] at this; exact ih _ _ this

theorem restoreHintItem_inv (dir0 : Dir) (fileId : Nat)
    (hl : FileName.data fileId ∈ ReadDir dir0) (item : HintItem) (s : KeyDir × KDItem)
    (hs : ∀ k e, s.1.Get k = some e → FileName.data e.fileId ∈ ReadDir dir0) :
    ∀ k e, (restoreHintItem fileId item s).1.1.Get k = some e →
      FileName.data e.fileId ∈ ReadDir dir0 := by
  unfold restoreHintItem
  dsimp only
  split
  · intro k e he
    simp only [KeyDir.Get, KeyDir.Set] at he
    rw [alookup_aset] at he
    split at he
    · simp only [Option.some.injEq] at he
      subst he
      exact hl
    · exact hs k e he
  · exact hs

theorem restoreRecord_inv (dir0 : Dir) (dfId : Nat)
    (hl : FileName.data dfId ∈ ReadDir dir0) (r : Record) (fileId o : Nat)
    (s : KeyDir × KDItem)
    (hs : ∀ k e, s.1.Get k = some e → FileName.data e.fileId ∈ ReadDir dir0) :
    ∀ k e, (restoreRecord dfId r fileId o s).1.1.Get k = some e →
      FileName.data e.fileId ∈ ReadDir dir0 := by
  unfold restoreRecord
  dsimp only
  split
  · intro k e he
    simp only [KeyDir.Get, KeyDir.Set] at he
    rw [alookup_aset] at he
    split at he
    · simp only [Option.some.injEq] at he
      subst he
      exact hl
    · exact hs k e he
  · exact hs

theorem restoreFromHintFile_Good (dir0 : Dir) (bc : Recovery) (fileId : Nat)
    (hg : bc.Good dir0) (hl : FileName.data fileId ∈ ReadDir dir0) :
    (bc.restoreFromHintFile fileId).1.Good dir0 ∧
    (bc.restoreFromHintFile fileId).1.maxDataFileId = bc.maxDataFileId ∧
    (bc.restoreFromHintFile fileId).1.minDataFileId = bc.minDataFileId := by
  obtain ⟨hd, hidle, hall, hkd⟩ := hg
  unfold Recovery.restoreFromHintFile
  split
  · exact ⟨⟨hd, hidle, hall, hkd⟩, rfl, rfl⟩
  · next rhf hrhf =>
    refine ⟨⟨hd, hidle, hall, ?_⟩, rfl, rfl⟩
    exact Hint_forEachLoop_inv rhf (restoreHintItem fileId)
      (fun s => ∀ k e, s.1.Get k = some e → FileName.data e.fileId ∈ ReadDir dir0)
      (fun item s hs => restoreHintItem_inv dir0 fileId hl item s hs) _ _ _ hkd

theorem restoreFromDataFile_Good (dir0 : Dir) (bc : Recovery) (fileId : Nat)
    (hg : bc.Good dir0) (hl : FileName.data fileId ∈ ReadDir dir0)
    (hok : (bc.restoreFromDataFile fileId).2 = none) :
    (bc.restoreFromDataFile fileId).1.Good dir0 ∧
    (bc.restoreFromDataFile fileId).1.maxDataFileId = bc.maxDataFileId ∧
    (bc.restoreFromDataFile fileId).1.minDataFileId = bc.minDataFileId := by
  obtain ⟨hd, hidle, hall, hkd⟩ := hg
  unfold Recovery.restoreFromDataFile at hok ⊢
  have hall2 := Ref_AllDf bc.dataFileCache _ bc.dir fileId hall (fun df hdf => by
    obtain ⟨a, b⟩ := NewDataFile_ok bc.dir fileId df hdf
    exact ⟨a, by rw [← hd]; exact b⟩)
  split
  · next cache1 e heq => rw [heq] at hok; simp at hok
  · next cache1 df heq =>
    have hheld := Ref_Held bc.dataFileCache bc.dir fileId hidle df (by rw [heq])
    rw [heq] at hall2 hheld
    have hdfid : df.fileId = fileId := (hall2.2 df rfl).1
    refine ⟨⟨hd, Unref_Idle _ _ hheld, unref_AllDf _ _ _ hall2.1, ?_⟩, rfl, rfl⟩
    exact DataFile_forEachLoop_inv df (restoreRecord df.fileId)
      (fun s => ∀ k e, s.1.Get k = some e → FileName.data e.fileId ∈ ReadDir dir0)
      (fun r id o s hs => restoreRecord_inv dir0 df.fileId (by rw [hdfid]; exact hl) r id o s hs)
      _ _ _ hkd

theorem restore_Good (dir0 : Dir) (bc : Recovery) (fileId : Nat)
    (hg : bc.Good dir0) (hl : FileName.data fileId ∈ ReadDir dir0)
    (hok : (bc.restore fileId).2 = none) :
    (bc.restore fileId).1.Good dir0 ∧
    (bc.restore fileId).1.maxDataFileId = bc.maxDataFileId ∧
    (bc.restore fileId).1.minDataFileId = bc.minDataFileId := by
  unfold Recovery.restore at hok ⊢
  cases hh : alookup (FileName.hint fileId) bc.dir with
  | none =>
    simp only [hh] at hok ⊢
    exact restoreFromDataFile_Good dir0 bc fileId hg hl hok
  | some c =>
    simp only [hh] at hok ⊢
    obtain ⟨a1, a2, a3⟩ := restoreFromHintFile_Good dir0 bc fileId hg hl
    cases hr : bc.restoreFromHintFile fileId with
    | mk bc1 err =>
      rw [hr] at a1 a2 a3 hok
      cases err with
      | none => exact ⟨a1, a2, a3⟩
      | some e =>
        simp only at hok ⊢
        obtain ⟨b1, b2, b3⟩ := restoreFromDataFile_Good dir0 bc1 fileId a1 hl hok
        exact ⟨b1, by rw [b2, a2], by rw [b3, a3]⟩

theorem scanLoop_Good (dir0 : Dir) (names : List FileName) (bc : Recovery)
    (hg : bc.Good dir0) (hn : ∀ n, n ∈ names → n ∈ ReadDir dir0)
    (hok : (bc.scanLoop names).2 = none) :
    (bc.scanLoop names).1.Good dir0 ∧ bc.maxDataFileId ≤ (bc.scanLoop names).1.maxDataFileId ∧
    ∀ id, FileName.data id ∈ names → id ≤ (bc.scanLoop names).1.maxDataFileId := by
  induction names generalizing bc with
  | nil => exact ⟨hg, le_refl _, fun id h => by simp at h⟩
  | cons n names ih =>
    cases n with
    | hint id =>
      rw [Recovery.scanLoop] at hok ⊢
      obtain ⟨a, b, c⟩ := ih bc hg (fun n h => hn n (List.mem_cons_of_mem _ h)) hok
      refine ⟨a, b, fun id1 h1 => c id1 ?_⟩
      simpa using h1
    | data fileId =>
      rw [Recovery.scanLoop] at hok ⊢
      have hl : FileName.data fileId ∈ ReadDir dir0 := hn _ (List.mem_cons_self _ _)
      cases hr : bc.restore fileId with
      | mk bc1 err =>
        cases err with
        | some e => simp [hr] at hok
        | none =>
          simp only [hr] at hok ⊢
          obtain ⟨g1, m1, _⟩ := restore_Good dir0 bc fileId hg hl (by rw [hr])
          rw [hr] at g1 m1
          simp only at g1 m1
          obtain ⟨gd, gi, ga, gk⟩ := g1
          obtain ⟨a, b, c⟩ := ih
            { bc1 with
              minDataFileId := if bc1.minDataFileId = 0 ∨ bc1.minDataFileId > fileId then fileId
                else bc1.minDataFileId
              maxDataFileId := if bc1.maxDataFileId = 0 ∨ bc1.maxDataFileId < fileId then fileId
                else bc1.maxDataFileId }
            (⟨gd, gi, ga, gk⟩ : Recovery.Good dir0 _)
            (fun n h => hn n (List.mem_cons_of_mem _ h)) hok
          have b1 : (if bc1.maxDataFileId = 0 ∨ bc1.maxDataFileId < fileId then fileId
              else bc1.maxDataFileId) ≤ _ := b
          have key : ∀ m X : Nat, (if m = 0 ∨ m < fileId then fileId else m) ≤ X →
              m ≤ X ∧ fileId ≤ X := by
            intro m X h
            split at h <;> omega
          obtain ⟨k1, k2⟩ := key _ _ b1
          refine ⟨a, by omega, fun id1 h1 => ?_⟩
          rcases List.mem_cons.mp h1 with h2 | h2
          · simp only [FileName.data.injEq] at h2
            subst h2
            exact k2
          · exact c id1 h2

/-- A successful `NewBeecask` yields an engine that satisfies the invariant. -/
theorem NewBeecask_Inv (opts : Options) (dir : Dir) (bc : Beecask)
    (h : NewBeecask opts dir = Except.ok bc) : bc.Inv ∧ bc.options = opts := by
  unfold NewBeecask at h
  dsimp only at h
  have hg0 : Recovery.Good dir
      { dir := dir, minDataFileId := 0, maxDataFileId := 0, keydir := NewKeyDir,
        dataFileCache := NewDataFileCache opts.MaxOpenFiles } :=
    ⟨rfl, NewDataFileCache_Idle _, fun id e he => by simp [NewDataFileCache, alookup] at he,
      fun k e he => by simp [KeyDir.Get, NewKeyDir, alookup] at he⟩
  cases hs : Recovery.scanLoop (ReadDir dir)
      { dir := dir, minDataFileId := 0, maxDataFileId := 0, keydir := NewKeyDir,
        dataFileCache := NewDataFileCache opts.MaxOpenFiles } with
  | mk bc1 err =>
    rw [hs] at h
    cases err with
    | some e => simp at h
    | none =>
      simp only [Except.ok.injEq] at h
      obtain ⟨⟨gd, gi, ga, gk⟩, _, gmax⟩ := scanLoop_Good dir (ReadDir dir) _ hg0
        (fun n hn => hn) (by rw [hs])
      rw [hs] at gd gi ga gk gmax
      simp only at gd gi ga gk gmax
      generalize hb2 : (if bc1.maxDataFileId = 0 then
          ({ bc1 with minDataFileId := bc1.minDataFileId + 1,
                      maxDataFileId := bc1.maxDataFileId + 1 } : Recovery) else bc1) = bc2 at h
      have hb2f : bc2.dir = dir ∧ bc2.keydir = bc1.keydir ∧
          bc2.dataFileCache = bc1.dataFileCache ∧ bc1.maxDataFileId ≤ bc2.maxDataFileId := by
        subst hb2
        split
        · exact ⟨gd, rfl, rfl, by simp⟩
        · exact ⟨gd, rfl, rfl, le_refl _⟩
      obtain ⟨d2, k2, c2, m2⟩ := hb2f
      have hlisted : ∀ id c, alookup (FileName.data id) dir = some c →
          id ≤ bc2.maxDataFileId := fun id c hc =>
        le_trans (gmax id (mem_ReadDir_of_alookup dir _ c hc)) m2
      subst h
      refine ⟨⟨?_, rfl, rfl, ?_, ?_, ?_, ?_⟩, rfl⟩
      · exact NewFileWithBuffer_WF _ _
      · simp only [NewActiveFile, NewFileWithBuffer]
        exact alookup_aset_eq _ _ _
      · intro id hlt
        simp only [NewActiveFile] at hlt ⊢
        rw [alookup_aset_ne _ _ _ _ (by simp; omega), d2]
        cases hc : alookup (FileName.data id) dir with
        | none => rfl
        | some c => have := hlisted id c hc; omega
      · intro id e he
        simp only [c2] at he
        have hne : id ≠ bc2.maxDataFileId := by
          intro e1
          have := Evict_absent bc1.dataFileCache bc2.maxDataFileId gi
          rw [e1, this] at he
          simp at he
        obtain ⟨a1, a2⟩ := Evict_AllDf bc1.dataFileCache _ bc2.maxDataFileId ga id e he
        refine ⟨?_, a1, fun c hc => ?_⟩
        · have := hlisted id _ a2
          exact lt_of_le_of_ne this hne
        · simp only [NewActiveFile] at hc
          rw [alookup_aset_ne _ _ _ _ (by simpa using hne), d2, a2] at hc
          exact Option.some.inj hc
      · intro k e he
        simp only [k2] at he
        obtain ⟨c, hc⟩ := alookup_of_mem_ReadDir dir _ (gk k e he)
        exact hlisted _ c hc

/-- Every state reached from a successful `NewBeecask` by `Get`, `Set`,
`SetWithExpiration` and `Delete` calls satisfies the invariant; the directory holds,
for every key, the last valid record the calls wrote for it when `MaxFileSize` fits
32 bits. -/
theorem session_spec (opts : Options) (dir : Dir) (bc : Beecask) (ops : List Op)
    (h : NewBeecask opts dir = Except.ok bc) :
    (bc.run ops).Inv ∧ (bc.run ops).options = opts ∧
    ∀ k r, lastWrite k ops = some r → r.Valid → opts.MaxFileSize ≤ 2 ^ 32 →
      (bc.run ops).Holds k r := by
  obtain ⟨hi, ho⟩ := NewBeecask_Inv opts dir bc h
  obtain ⟨a, b, c⟩ := run_spec ops bc hi
  exact ⟨a, by rw [b, ho], fun k r hl hv hm => (c k).1 r hl hv (by rw [ho]; exact hm)⟩

theorem NewBeecask_empty (opts : Options) :
    NewBeecask opts [] = Except.ok (emptyEngine opts) := by
  unfold NewBeecask emptyEngine
  simp [ReadDir, Recovery.scanLoop, NewActiveFile, alookup, aset, DataFileCache.Evict,
    NewDataFileCache]

theorem emptyEngine_Inv (opts : Options) : (emptyEngine opts).Inv :=
  (NewBeecask_Inv opts [] _ (NewBeecask_empty opts)).1

theorem getLE_lt (bs : List Byte) : getLE bs < 256 ^ bs.length := by
  induction bs with
  | nil => simp [getLE]
  | cons b t ih =>
    simp only [getLE, List.length_cons, pow_succ]
    have := b.isLt
    nlinarith

theorem slice_length_le (s : List Byte) (lo hi : Nat) : (slice s lo hi).length ≤ hi - lo := by
  simp only [slice, List.length_drop, List.length_take]
  omega

theorem getLE_slice4_lt (s : List Byte) (lo : Nat) : getLE (slice s lo (lo + 4)) < 2 ^ 32 := by
  have h1 := getLE_lt (slice s lo (lo + 4))
  have h2 := slice_length_le s lo (lo + 4)
  have h3 : 256 ^ (slice s lo (lo + 4)).length ≤ 256 ^ 4 :=
    Nat.pow_le_pow_right (by norm_num) (by omega)
  have : (256 : Nat) ^ 4 = 2 ^ 32 := by norm_num
  omega

theorem mmap_ReadAt_length (file : MmapFile) (o m : Nat) (d : List Byte)
    (h : file.ReadAt o m = (d, none)) : d.length = m := by
  unfold MmapFile.ReadAt MmapFile.Size at h
  split at h
  · simp at h
  · split at h
    · simp at h
    · simp only [Prod.mk.injEq, and_true] at h
      subst h
      simp only [slice, List.length_drop, List.length_take]
      omega

theorem DataFile_ReadRecordAt_lengths (df : DataFile) (o : Nat) (r : Record)
    (h : df.ReadRecordAt o = Except.ok r) :
    r.key.length < 2 ^ 32 ∧ r.value.length < 2 ^ 32 ∧ r.keySize = r.key.length ∧
      r.valueSize = r.value.length := by
  unfold DataFile.ReadRecordAt at h
  split at h
  · simp at h
  · next buff hb =>
    dsimp only at h
    split at h
    · simp at h
    · next key hk =>
      split at h
      · simp at h
      · next value hv =>
        split at h
        · simp at h
        · simp only [Except.ok.injEq] at h
          subst h
          have l1 := mmap_ReadAt_length _ _ _ _ hk
          have l2 := mmap_ReadAt_length _ _ _ _ hv
          have b1 : (decodeHeader buff).keySize < 2 ^ 32 := getLE_slice4_lt buff 16
          have b2 : (decodeHeader buff).valueSize < 2 ^ 32 := getLE_slice4_lt buff 20
          simp only
          exact ⟨by omega, by omega, l1.symm, l2.symm⟩

theorem checkRecord_ok (k : List Byte) (now : Int) (rd : Except Error Record) (v : List Byte)
    (h : checkRecord k now rd = Except.ok v) : ∃ r, rd = Except.ok r ∧ r.key = k ∧ r.value = v := by
  unfold checkRecord at h
  split at h
  · simp at h
  · next r =>
    split at h
    · simp at h
    · next hk =>
      split at h
      · simp at h
      · simp only [Except.ok.injEq] at h
        exact ⟨r, rfl, by simpa using hk, h⟩

/-- A successful `Get` returns a value shorter than `2^32` bytes for a key shorter
than `2^32` bytes: both are read with lengths taken from 32-bit header fields. -/
theorem Get_ok_length (bc : Beecask) (hw : bc.activeFile.file.WF) (k : List Byte) (now : Int)
    (v : List Byte) (h : (bc.Get k now).2 = Except.ok v) :
    k.length < 2 ^ 32 ∧ v.length < 2 ^ 32 := by
  unfold Beecask.Get at h
  split at h
  · simp at h
  · split at h
    · simp at h
    · split at h
      · obtain ⟨r, hr, hk, hv⟩ := checkRecord_ok _ _ _ _ h
        rw [ActiveFile_ReadRecordAt_eq _ hw] at hr
        obtain ⟨a, b, _⟩ := DataFile_ReadRecordAt_lengths _ _ _ hr
        subst hk; subst hv
        exact ⟨a, b⟩
      · split at h
        · simp at h
        · obtain ⟨r, hr, hk, hv⟩ := checkRecord_ok _ _ _ _ h
          obtain ⟨a, b, _⟩ := DataFile_ReadRecordAt_lengths _ _ _ hr
          subst hk; subst hv
          exact ⟨a, b⟩

theorem Set_eq (bc : Beecask) (k v : List Byte) :
    bc.Set k v = bc.setRecord (mkRecord k v 0 0) := rfl

theorem SetWithExpiration_eq (bc : Beecask) (k v : List Byte) (e : Int) :
    bc.SetWithExpiration k v e = bc.setRecord (mkRecord k v 0 e) := rfl

theorem Delete_eq (bc : Beecask) (k : List Byte) :
    bc.Delete k = bc.setRecord (mkRecord k [] (0 ||| RECORD_FLAG_BIT_DELETE) 0) := rfl

theorem mkRecord_keySize (k v : List Byte) (flag : Nat) (e : Int) :
    (mkRecord k v flag e).keySize = toUint32 (mkRecord k v flag e).key.length := rfl

theorem mkRecord_valueSize (k v : List Byte) (flag : Nat) (e : Int) :
    (mkRecord k v flag e).valueSize = toUint32 (mkRecord k v flag e).value.length := rfl

theorem mkRecord_Valid (k v : List Byte) (e : Int) (flag : Nat) (hk : k.length < 2 ^ 32)
    (hv : v.length < 2 ^ 32) (hf : flag < 2 ^ 32) (he1 : -2 ^ 63 ≤ e) (he2 : e < 2 ^ 63) :
    (mkRecord k v flag e).Valid :=
  ⟨hf, he1, he2, Nat.mod_eq_of_lt hk, Nat.mod_eq_of_lt hv, hk, hv⟩

/-- `Set`, `SetWithExpiration` and `Delete` succeed on a state that satisfies the
invariant, and keep it. -/
theorem set_spec (bc : Beecask) (k v : List Byte) (flag : Nat) (e : Int) (hi : bc.Inv) :
    (bc.setRecord (mkRecord k v flag e)).2 = none ∧ (bc.setRecord (mkRecord k v flag e)).1.Inv ∧
    (bc.setRecord (mkRecord k v flag e)).1.options = bc.options ∧
    (∀ k1 r0, k1 ≠ k → bc.Holds k1 r0 → (bc.setRecord (mkRecord k v flag e)).1.Holds k1 r0) ∧
    ((mkRecord k v flag e).Valid → bc.options.MaxFileSize ≤ 2 ^ 32 →
      (bc.setRecord (mkRecord k v flag e)).1.Holds k (mkRecord k v flag e)) :=
  setRecord_spec bc (mkRecord k v flag e) hi (mkRecord_keySize k v flag e)
    (mkRecord_valueSize k v flag e)

/-- C1, as stated, fails for a value of `2^32` bytes: `Set` returns nil, and the
following `Get` does not return the value (`valueSize` holds `uint32(len(value))`,
which is `0`). -/
theorem C1_counterexample :
    NewBeecask demoOptions [] = Except.ok (emptyEngine demoOptions) ∧
    ((emptyEngine demoOptions).Set keyK bigBytes).2 = none ∧
    (((emptyEngine demoOptions).Set keyK bigBytes).1.Get keyK 0).2 ≠ Except.ok bigBytes := by
  have hs := set_spec (emptyEngine demoOptions) keyK bigBytes 0 0 (emptyEngine_Inv _)
  refine ⟨NewBeecask_empty _, hs.1, fun h => ?_⟩
  have := (Get_ok_length _ hs.2.1.1 keyK 0 bigBytes h).2
  rw [bigBytes_length] at this
  exact absurd this (lt_irrefl _)

/-- C1, amended. For every engine state reached from a successful Open by any
sequence of Get/Set/SetWithExpiration/Delete calls (rotations included), with
`MaxFileSize <= 2^32`, and every key and value shorter than `2^32` bytes: `Set(k, v)`
returns nil and the `Get(k)` that follows returns exactly `v`; so after any sequence
ending with `Set(k, v_n)`, `Get(k)` returns `v_n`. -/
theorem C1_set_then_get (opts : Options) (dir : Dir) (bc : Beecask) (ops : List Op)
    (k v : List Byte) (now : Int) (h : NewBeecask opts dir = Except.ok bc)
    (hm : opts.MaxFileSize ≤ 2 ^ 32) (hk : k.length < 2 ^ 32) (hv : v.length < 2 ^ 32) :
    ((bc.run ops).Set k v).2 = none ∧
    (((bc.run ops).Set k v).1.Get k now).2 = Except.ok v := by
  obtain ⟨hi, ho, _⟩ := session_spec opts dir bc ops h
  rw [Set_eq]
  obtain ⟨a, b, _, _, d⟩ := set_spec (bc.run ops) k v 0 0 hi
  refine ⟨a, ?_⟩
  have hval := mkRecord_Valid k v 0 0 hk hv (by norm_num) (by norm_num) (by norm_num)
  rw [Get_spec _ k now _ b (d hval (by rw [ho]; exact hm))]
  simp [expected, RECORD_FLAG_BIT_DELETE, mkRecord]

/-- Witness of C1: on the empty directory, after `Set(a, "1")`, `Set(k, "v")` returns
nil and `Get(k)` returns `"v"`. -/
theorem C1_set_then_get_witness :
    NewBeecask demoOptions [] = Except.ok (emptyEngine demoOptions) ∧
    demoOptions.MaxFileSize ≤ 2 ^ 32 ∧ keyK.length < 2 ^ 32 ∧ [(0x76 : Byte)].length < 2 ^ 32 ∧
    (((emptyEngine demoOptions).run [Op.set keyA [0x31]]).Set keyK [0x76]).2 = none ∧
    ((((emptyEngine demoOptions).run [Op.set keyA [0x31]]).Set keyK [0x76]).1.Get keyK 0).2
      = Except.ok [0x76] :=
  ⟨NewBeecask_empty _, by decide, by decide, by decide,
    C1_set_then_get demoOptions [] (emptyEngine demoOptions) [Op.set keyA [0x31]] keyK [0x76] 0
      (NewBeecask_empty _) (by decide) (by decide) (by decide)⟩

/-- C3, as stated, fails for a key of `2^32` bytes with no expiration: the `Get`
after `SetWithExpiration` does not return the value. -/
theorem C3_counterexample :
    NewBeecask demoOptions [] = Except.ok (emptyEngine demoOptions) ∧
    ((emptyEngine demoOptions).SetWithExpiration bigBytes [0x76] 0).2 = none ∧
    (((emptyEngine demoOptions).SetWithExpiration bigBytes [0x76] 0).1.Get bigBytes 5).2
      ≠ Except.ok [0x76] := by
  have hs := set_spec (emptyEngine demoOptions) bigBytes [0x76] 0 0 (emptyEngine_Inv _)
  refine ⟨NewBeecask_empty _, hs.1, fun h => ?_⟩
  have := (Get_ok_length _ hs.2.1.1 bigBytes 5 [0x76] h).1
  rw [bigBytes_length] at this
  exact absurd this (lt_irrefl _)

/-- C3, amended. For every reachable engine state with `MaxFileSize <= 2^32`, every
key and value shorter than `2^32` bytes and every `int64` expiration `e`: after
`SetWithExpiration(k, v, e)`, a `Get(k)` at clock time `now` fails with 'not found'
(`ErrDataNotExist`, the error of an absent key: no other error marks expiry) if and
only if `e > 0` and `e <= now`; otherwise it returns `v`. -/
theorem C3_expiration (opts : Options) (dir : Dir) (bc : Beecask) (ops : List Op)
    (k v : List Byte) (e now : Int) (h : NewBeecask opts dir = Except.ok bc)
    (hm : opts.MaxFileSize ≤ 2 ^ 32) (hk : k.length < 2 ^ 32) (hv : v.length < 2 ^ 32)
    (he1 : -2 ^ 63 ≤ e) (he2 : e < 2 ^ 63) :
    ((bc.run ops).SetWithExpiration k v e).2 = none ∧
    ((((bc.run ops).SetWithExpiration k v e).1.Get k now).2
        = Except.error Error.ErrDataNotExist ↔ (e > 0 ∧ e ≤ now)) ∧
    (¬ (e > 0 ∧ e ≤ now) →
      (((bc.run ops).SetWithExpiration k v e).1.Get k now).2 = Except.ok v) := by
  obtain ⟨hi, ho, _⟩ := session_spec opts dir bc ops h
  rw [SetWithExpiration_eq]
  obtain ⟨a, b, _, _, d⟩ := set_spec (bc.run ops) k v 0 e hi
  refine ⟨a, ?_⟩
  have hval := mkRecord_Valid k v e 0 hk hv (by norm_num) he1 he2
  rw [Get_spec _ k now _ b (d hval (by rw [ho]; exact hm))]
  by_cases hc : e > 0 ∧ e ≤ now
  · simp [expected, RECORD_FLAG_BIT_DELETE, mkRecord, hc]
  · simp only [expected, RECORD_FLAG_BIT_DELETE, mkRecord, hc]
    simp

/-- Witness of C3: a record set with expiration 50 is found at time 49 and not
found at time 50. -/
theorem C3_expiration_witness :
    NewBeecask demoOptions [] = Except.ok (emptyEngine demoOptions) ∧
    demoOptions.MaxFileSize ≤ 2 ^ 32 ∧
    ((((emptyEngine demoOptions).run []).SetWithExpiration keyK [0x76] 50).1.Get keyK 50).2
      = Except.error Error.ErrDataNotExist ∧
    ((((emptyEngine demoOptions).run []).SetWithExpiration keyK [0x76] 50).1.Get keyK 49).2
      = Except.ok [0x76] :=
  ⟨NewBeecask_empty _, by decide,
    (C3_expiration demoOptions [] (emptyEngine demoOptions) [] keyK [0x76] 50 50
      (NewBeecask_empty _) (by decide) (by decide) (by decide) (by decide) (by decide)).2.1.mpr
      (by decide),
    (C3_expiration demoOptions [] (emptyEngine demoOptions) [] keyK [0x76] 50 49
      (NewBeecask_empty _) (by decide) (by decide) (by decide) (by decide) (by decide)).2.2
      (by decide)⟩

section assoc2
variable {α β : Type} [DecidableEq α]

theorem aset_keys (k : α) (v : β) (l : List (α × β)) :
    (aset k v l).map Prod.fst = if k ∈ l.map Prod.fst then l.map Prod.fst
      else l.map Prod.fst ++ [k] := by
  induction l with
  | nil => simp [aset]
  | cons hd t ih =>
    obtain ⟨a, b⟩ := hd
    by_cases e : a = k
    · subst e; simp [aset]
    · simp only [aset, e, if_false, List.map_cons, ih, List.mem_cons]
      have e2 : ¬ k = a := fun h => e h.symm
      by_cases hm : k ∈ t.map Prod.fst
      · simp [hm]
      · simp [hm, e2]

theorem aset_nodup (k : α) (v : β) (l : List (α × β)) (h : (l.map Prod.fst).Nodup) :
    ((aset k v l).map Prod.fst).Nodup := by
  rw [aset_keys]
  split
  · exact h
  · next hm =>
    exact List.nodup_append.mpr ⟨h, List.nodup_singleton k, fun a ha hb => by
      simp only [List.mem_singleton] at hb
      subst hb
      exact hm ha⟩

theorem alookup_some_of_mem (l : List (α × β)) (h : (l.map Prod.fst).Nodup) (k : α) (v : β)
    (hm : (k, v) ∈ l) : alookup k l = some v := by
  induction l with
  | nil => simp at hm
  | cons hd t ih =>
    obtain ⟨a, b⟩ := hd
    simp only [List.map_cons, List.nodup_cons] at h
    rcases List.mem_cons.mp hm with h1 | h1
    · simp only [Prod.mk.injEq] at h1
      obtain ⟨h2, h3⟩ := h1
      subst h2; subst h3
      simp [alookup]
    · have hne : a ≠ k := by
        intro e
        subst e
        exact h.1 (List.mem_map.mpr ⟨(a, v), h1, rfl⟩)
      simp only [alookup, hne, if_false]
      exact ih h.2 h1

theorem mem_of_alookup_some (l : List (α × β)) (k : α) (v : β) (h : alookup k l = some v) :
    (k, v) ∈ l := by
  induction l with
  | nil => simp [alookup] at h
  | cons hd t ih =>
    obtain ⟨a, b⟩ := hd
    unfold alookup at h
    split at h
    · next e =>
      simp only [Option.some.injEq] at h
      subst e; subst h
      exact List.mem_cons_self _ _
    · exact List.mem_cons_of_mem _ (ih h)

end assoc2

theorem Keys_mem (kd : KeyDir) (h : kd.Nodup) (k : List Byte) :
    k ∈ kd.Keys ↔ ∃ e, kd.Get k = some e ∧ e.flag &&& RECORD_FLAG_BIT_DELETE = 0 := by
  unfold KeyDir.Keys KeyDir.Get
  constructor
  · intro hm
    obtain ⟨⟨k1, e⟩, hmem, hk⟩ := List.mem_map.mp hm
    simp only at hk
    subst hk
    obtain ⟨h1, h2⟩ := List.mem_filter.mp hmem
    exact ⟨e, alookup_some_of_mem _ h _ _ h1, by simpa using h2⟩
  · rintro ⟨e, he, hf⟩
    exact List.mem_map.mpr ⟨(k, e), List.mem_filter.mpr ⟨mem_of_alookup_some _ _ _ he,
      by simpa using hf⟩, rfl⟩

theorem KeyDir_Set_Nodup (kd : KeyDir) (k : List Byte) (e : KDItem) (h : kd.Nodup) :
    (kd.Set k e).Nodup := aset_nodup k e kd.dict h

theorem rotate_keydir (bc : Beecask) : bc.rotateActiveFile.keydir = bc.keydir := rfl

/-- The key directory after `setRecord`: the entry of the record's key is replaced
by one with the record's flag, when the append succeeded. -/
theorem setRecord_keydir (bc : Beecask) (r : Record) (h : (bc.setRecord r).2 = none) :
    ∃ e, (bc.setRecord r).1.keydir = bc.keydir.Set r.key e ∧ e.flag = r.flag := by
  unfold Beecask.setRecord at h ⊢
  generalize hb : (if ((bc.activeFile.file.Size + r.Size : Nat) : Int) ≥ bc.options.MaxFileSize
    then bc.rotateActiveFile else bc) = bc1 at h ⊢
  have hk : bc1.keydir = bc.keydir := by
    subst hb
    split
    · rfl
    · rfl
  dsimp only at h ⊢
  cases hw : bc1.activeFile.WriteRecord r with
  | mk af res =>
    cases res with
    | error e => simp [hw] at h
    | ok offset =>
      simp only [hw]
      exact ⟨_, by rw [hk], rfl⟩

theorem step_keys_Nodup (bc : Beecask) (op : Op) (hi : bc.Inv) (h : bc.keydir.Nodup) :
    (bc.step op).keydir.Nodup := by
  cases hrec : op.record with
  | none =>
    obtain ⟨k, now, e⟩ := step_read bc op hrec
    obtain ⟨c, hc⟩ := Get_cache_only bc k now
    rw [e, hc]
    exact h
  | some r =>
    obtain ⟨e, hk, hv⟩ := step_write bc op r hrec
    rw [e]
    obtain ⟨a, _⟩ := setRecord_spec bc r hi hk hv
    obtain ⟨e1, he1, _⟩ := setRecord_keydir bc r a
    rw [he1]
    exact KeyDir_Set_Nodup _ _ _ h

theorem run_keys_Nodup (ops : List Op) (bc : Beecask) (hi : bc.Inv) (h : bc.keydir.Nodup) :
    (bc.run ops).keydir.Nodup := by
  induction ops generalizing bc with
  | nil => exact h
  | cons op ops ih =>
    rw [run_cons]
    exact ih _ (step_spec bc op hi).1 (step_keys_Nodup bc op hi h)

theorem restoreHintItem_Nodup (fileId : Nat) (item : HintItem) (s : KeyDir × KDItem)
    (hs : s.1.Nodup) : (restoreHintItem fileId item s).1.1.Nodup := by
  unfold restoreHintItem
  dsimp only
  split
  · exact KeyDir_Set_Nodup _ _ _ hs
  · exact hs

theorem restoreRecord_Nodup (dfId : Nat) (r : Record) (fileId o : Nat) (s : KeyDir × KDItem)
    (hs : s.1.Nodup) : (restoreRecord dfId r fileId o s).1.1.Nodup := by
  unfold restoreRecord
  dsimp only
  split
  · exact KeyDir_Set_Nodup _ _ _ hs
  · exact hs

theorem restore_Nodup (bc : Recovery) (fileId : Nat) (h : bc.keydir.Nodup) :
    (bc.restore fileId).1.keydir.Nodup := by
  have hhint : ∀ b : Recovery, b.keydir.Nodup → (b.restoreFromHintFile fileId).1.keydir.Nodup := by
    intro b hb
    unfold Recovery.restoreFromHintFile
    split
    · exact hb
    · next rhf _ =>
      exact Hint_forEachLoop_inv rhf (restoreHintItem fileId) (fun s => s.1.Nodup)
        (fun item s hs => restoreHintItem_Nodup fileId item s hs) _ _ _ hb
  have hdata : ∀ b : Recovery, b.keydir.Nodup → (b.restoreFromDataFile fileId).1.keydir.Nodup := by
    intro b hb
    unfold Recovery.restoreFromDataFile
    split
    · exact hb
    · next c df _ =>
      exact DataFile_forEachLoop_inv df (restoreRecord df.fileId) (fun s => s.1.Nodup)
        (fun r id o s hs => restoreRecord_Nodup df.fileId r id o s hs) _ _ _ hb
  unfold Recovery.restore
  cases hh : alookup (FileName.hint fileId) bc.dir with
  | none => exact hdata bc h
  | some c =>
    simp only
    have := hhint bc h
    cases hr : bc.restoreFromHintFile fileId with
    | mk bc1 err =>
      rw [hr] at this
      cases err with
      | none => exact this
      | some e => exact hdata bc1 this

theorem scanLoop_Nodup (names : List FileName) (bc : Recovery) (h : bc.keydir.Nodup) :
    (bc.scanLoop names).1.keydir.Nodup := by
  induction names generalizing bc with
  | nil => exact h
  | cons n names ih =>
    cases n with
    | hint id => rw [Recovery.scanLoop]; exact ih bc h
    | data fileId =>
      rw [Recovery.scanLoop]
      have := restore_Nodup bc fileId h
      cases hr : bc.restore fileId with
      | mk bc1 err =>
        rw [hr] at this
        cases err with
        | some e => exact this
        | none => exact ih _ this

theorem NewBeecask_keys_Nodup (opts : Options) (dir : Dir) (bc : Beecask)
    (h : NewBeecask opts dir = Except.ok bc) : bc.keydir.Nodup := by
  unfold NewBeecask at h
  dsimp only at h
  have := scanLoop_Nodup (ReadDir dir)
    { dir := dir, minDataFileId := 0, maxDataFileId := 0, keydir := NewKeyDir,
      dataFileCache := NewDataFileCache opts.MaxOpenFiles }
    (by simp [KeyDir.Nodup, NewKeyDir])
  split at h
  · simp at h
  · next bc1 hs =>
    rw [hs] at this
    simp only [Except.ok.injEq] at h
    subst h
    simp only
    split <;> exact this

theorem Get_tombstone (bc : Beecask) (k : List Byte) (now : Int) (e : KDItem)
    (h : bc.keydir.Get k = some e) (hf : e.flag &&& RECORD_FLAG_BIT_DELETE > 0) :
    (bc.Get k now).2 = Except.error Error.ErrDataNotExist := by
  unfold Beecask.Get
  simp only [h, hf, if_true]

theorem Holds_Keys (bc : Beecask) (hn : bc.keydir.Nodup) (k : List Byte) (r : Record)
    (h : bc.Holds k r) (hf : r.flag &&& RECORD_FLAG_BIT_DELETE = 0) : k ∈ bc.Keys := by
  obtain ⟨e, c, hg, _, _, hfl, _⟩ := h
  exact (Keys_mem bc.keydir hn k).mpr ⟨e, hg, by rw [hfl]; exact hf⟩

/-- C2, as stated, fails in its second half: after `Set(a, v)` with `v` of `2^32`
bytes, `Set(b, "2")` and `Delete(b)`, the key `a` was set and not deleted, but
`Get(a)` does not return its value. -/
theorem C2_counterexample :
    NewBeecask demoOptions [] = Except.ok (emptyEngine demoOptions) ∧
    ((emptyEngine demoOptions).Set keyA bigBytes).2 = none ∧
    (((((emptyEngine demoOptions).Set keyA bigBytes).1.Set keyB [0x32]).1.Delete keyB).1.Get
      keyA 0).2 ≠ Except.ok bigBytes := by
  have h1 := set_spec (emptyEngine demoOptions) keyA bigBytes 0 0 (emptyEngine_Inv _)
  have h2 := set_spec _ keyB [0x32] 0 0 h1.2.1
  have h3 := set_spec _ keyB [] (0 ||| RECORD_FLAG_BIT_DELETE) 0 h2.2.1
  refine ⟨NewBeecask_empty _, h1.1, fun h => ?_⟩
  have := (Get_ok_length _ h3.2.1.1 keyA 0 bigBytes h).2
  rw [bigBytes_length] at this
  exact absurd this (lt_irrefl _)

/-- C2, amended. For every engine state reached from a successful Open by any
sequence of calls and every key `k`: `Delete(k)` returns nil (in particular after
`Set(k, v)`), and afterwards `Get(k)` fails with `ErrDataNotExist` and `k` is not in
`Keys()`; every other key whose last write is a valid record (key and value shorter
than `2^32` bytes), under `MaxFileSize <= 2^32`, still reads as that record
prescribes, and is in `Keys()` when that record was a Set. -/
theorem C2_delete_hides (opts : Options) (dir : Dir) (bc : Beecask) (ops : List Op)
    (k : List Byte) (now : Int) (h : NewBeecask opts dir = Except.ok bc) :
    ((bc.run ops).Delete k).2 = none ∧
    (((bc.run ops).Delete k).1.Get k now).2 = Except.error Error.ErrDataNotExist ∧
    k ∉ ((bc.run ops).Delete k).1.Keys ∧
    ∀ k1 r, k1 ≠ k → lastWrite k1 ops = some r → r.Valid → opts.MaxFileSize ≤ 2 ^ 32 →
      (((bc.run ops).Delete k).1.Get k1 now).2 = expected r now ∧
      (r.flag &&& RECORD_FLAG_BIT_DELETE = 0 → k1 ∈ ((bc.run ops).Delete k).1.Keys) := by
  obtain ⟨hi, ho, hh⟩ := session_spec opts dir bc ops h
  have hn := run_keys_Nodup ops bc (NewBeecask_Inv opts dir bc h).1
    (NewBeecask_keys_Nodup opts dir bc h)
  rw [Delete_eq]
  obtain ⟨a, b, _, c, _⟩ := set_spec (bc.run ops) k [] (0 ||| RECORD_FLAG_BIT_DELETE) 0 hi
  obtain ⟨e, he, hf⟩ := setRecord_keydir (bc.run ops) _ a
  have hn2 : ((bc.run ops).setRecord
      (mkRecord k [] (0 ||| RECORD_FLAG_BIT_DELETE) 0)).1.keydir.Nodup := by
    rw [he]; exact KeyDir_Set_Nodup _ _ _ hn
  have hget : ((bc.run ops).setRecord
      (mkRecord k [] (0 ||| RECORD_FLAG_BIT_DELETE) 0)).1.keydir.Get k = some e := by
    rw [he]; exact alookup_aset_eq _ _ _
  have hflag : e.flag &&& RECORD_FLAG_BIT_DELETE = 1 := by
    rw [hf]; simp [mkRecord, RECORD_FLAG_BIT_DELETE]
  refine ⟨a, Get_tombstone _ k now e hget (by rw [hflag]; norm_num), ?_, ?_⟩
  · intro hm
    obtain ⟨e1, he1, hf1⟩ := (Keys_mem _ hn2 k).mp hm
    rw [hget] at he1
    simp only [Option.some.injEq] at he1
    subst he1
    rw [hflag] at hf1
    simp at hf1
  · intro k1 r hne hl hv hmax
    have hold := c k1 r hne (hh k1 r hl hv hmax)
    exact ⟨Get_spec _ k1 now r b hold, fun hfl => Holds_Keys _ hn2 k1 r hold hfl⟩

set_option maxRecDepth 1000000 in
/-- Witness of C2, the scenario S1: after `Set(a, "1")`, `Set(b, "2")`, `Delete(a)`,
`Get(a)` is not found, `Get(b)` returns `"2"` and `Keys()` is `[b]`. -/
theorem C2_delete_hides_witness :
    NewBeecask demoOptions [] = Except.ok (emptyEngine demoOptions) ∧
    ((((emptyEngine demoOptions).run [Op.set keyA [0x31], Op.set keyB [0x32]]).Delete keyA).1.Get
      keyA 0).2 = Except.error Error.ErrDataNotExist ∧
    ((((emptyEngine demoOptions).run [Op.set keyA [0x31], Op.set keyB [0x32]]).Delete keyA).1.Get
      keyB 0).2 = Except.ok [0x32] ∧
    (((emptyEngine demoOptions).run [Op.set keyA [0x31], Op.set keyB [0x32]]).Delete keyA).1.Keys
      = [keyB] :=
  ⟨NewBeecask_empty _,
    (C2_delete_hides demoOptions [] (emptyEngine demoOptions)
      [Op.set keyA [0x31], Op.set keyB [0x32]] keyA 0 (NewBeecask_empty _)).2.1,
    by decide!, by decide!⟩

set_option maxRecDepth 1000000 in
/-- C4 fails on the code. A session sets `a`, deletes `a`, sets `b` (which rotates,
so that segment 1 gets a hint file) and closes; the reopened engine returns the
empty value with no error for `Get(a)` and lists `a` in `Keys()`, because recovery
from the hint file does not install the tombstone flag. -/
theorem C4_hint_recovery_loses_tombstone :
    tombstoneDir.map Prod.fst = [FileName.data 1, FileName.hint 1, FileName.data 2] ∧
    openAndGet demoOptions (Except.ok tombstoneDir) keyA 0
      = Except.ok (Except.ok [], [keyA, keyB]) := by
  decide!

set_option maxRecDepth 1000000 in
/-- A second way recovery loses data: the hint file of a segment written in two
sessions lists only the keys of the session that sealed it.  After `Set(a)` in a
first session and `Set(b)`, `Set(c)` in a second one, a third session does not find
`a`, which was never deleted. -/
theorem hint_of_reopened_segment_is_incomplete :
    openAndGet demoOptions secondSessionDir keyA 0
      = Except.ok (Except.error Error.ErrDataNotExist, [keyB, keyC]) := by
  decide!

theorem dataIds_aset_hint (id : Nat) (c : List Byte) (dir : Dir) :
    dataIds (aset (FileName.hint id) c dir) = dataIds dir := by
  induction dir with
  | nil => simp [aset, dataIds]
  | cons hd t ih =>
    obtain ⟨a, b⟩ := hd
    by_cases e : a = FileName.hint id
    · subst e; simp [aset, dataIds]
    · simp only [aset, e, if_false]
      simp only [dataIds, List.filterMap_cons] at ih ⊢
      rw [ih]

theorem dataIds_aset_data (id : Nat) (c : List Byte) (dir : Dir) :
    dataIds (aset (FileName.data id) c dir) =
      if (alookup (FileName.data id) dir).isSome then dataIds dir else dataIds dir ++ [id] := by
  induction dir with
  | nil => simp [aset, dataIds, alookup]
  | cons hd t ih =>
    obtain ⟨a, b⟩ := hd
    by_cases e : a = FileName.data id
    · subst e; simp [aset, dataIds, alookup]
    · simp only [aset, e, if_false, alookup]
      simp only [dataIds, List.filterMap_cons] at ih ⊢
      rw [ih]
      split <;> split <;> simp_all

theorem generateHintFile_dataIds (dir : Dir) (kd : KeyDir) (fileId : Nat) :
    dataIds (generateHintFile dir kd fileId) = dataIds dir := by
  unfold generateHintFile WritableHintFile.Close
  exact dataIds_aset_hint _ _ _

theorem rotate_dataIds (bc : Beecask) (hi : bc.Inv) :
    dataIds bc.rotateActiveFile.dir = dataIds bc.dir ++ [bc.maxDataFileId + 1] := by
  obtain ⟨hw, hr, hid, hm, hab, hc, hkd⟩ := hi
  have h1 : (alookup (FileName.data bc.activeFile.fileId)
      (generateHintFile bc.dir bc.activeKeydir bc.activeFile.FileId)).isSome = true := by
    rw [generateHintFile_data, hid, hm]; rfl
  have h2 : (alookup (FileName.data (bc.maxDataFileId + 1))
      (aset (FileName.data bc.activeFile.fileId) bc.activeFile.file.Close.f.bytes
        (generateHintFile bc.dir bc.activeKeydir bc.activeFile.FileId))).isSome = false := by
    rw [alookup_aset_ne _ _ _ _ (by simp [hid]), generateHintFile_data, hab _ (by omega)]
    rfl
  simp only [Beecask.rotateActiveFile, NewActiveFile]
  rw [dataIds_aset_data, h2, dataIds_aset_data, h1, generateHintFile_dataIds]
  simp

/-- The files after `setRecord`: one more `.data` file, with the next id, exactly
when the rotation test holds. -/
theorem setRecord_files (bc : Beecask) (r : Record) (hi : bc.Inv)
    (hk : r.keySize = toUint32 r.key.length) (hv : r.valueSize = toUint32 r.value.length) :
    (bc.setRecord r).1.maxDataFileId = bc.maxDataFileId +
      (if ((bc.activeFile.file.Size + r.Size : Nat) : Int) ≥ bc.options.MaxFileSize then 1
       else 0) ∧
    dataIds (bc.setRecord r).1.dir = dataIds bc.dir ++
      (if ((bc.activeFile.file.Size + r.Size : Nat) : Int) ≥ bc.options.MaxFileSize
       then [bc.maxDataFileId + 1] else []) := by
  unfold Beecask.setRecord
  generalize hb : (if ((bc.activeFile.file.Size + r.Size : Nat) : Int) ≥ bc.options.MaxFileSize
    then bc.rotateActiveFile else bc) = bc1
  have hfacts : bc1.Inv ∧ bc1.maxDataFileId = bc.maxDataFileId +
      (if ((bc.activeFile.file.Size + r.Size : Nat) : Int) ≥ bc.options.MaxFileSize then 1
       else 0) ∧
      dataIds bc1.dir = dataIds bc.dir ++
      (if ((bc.activeFile.file.Size + r.Size : Nat) : Int) ≥ bc.options.MaxFileSize
       then [bc.maxDataFileId + 1] else []) := by
    by_cases hcnd : ((bc.activeFile.file.Size + r.Size : Nat) : Int) ≥ bc.options.MaxFileSize
    · simp only [hcnd, if_true] at hb ⊢
      subst hb
      exact ⟨(rotate_spec bc hi).1, rfl, rotate_dataIds bc hi⟩
    · simp only [hcnd, if_false] at hb ⊢
      subst hb
      exact ⟨hi, rfl, by simp⟩
  obtain ⟨hi1, hmax, hids⟩ := hfacts
  obtain ⟨hw, hr, hid, hm, hab, hc, hkd⟩ := hi1
  obtain ⟨af1, e, c, w, ro, fid, wl, sz, t, b⟩ := WriteRecord_spec bc1.activeFile hw hr r hk hv
  simp only [e]
  refine ⟨hmax, ?_⟩
  rw [dataIds_aset_data, fid, hid, hm]
  simpa using hids

theorem step_files (bc : Beecask) (op : Op) (hi : bc.Inv) :
    (bc.step op).maxDataFileId = bc.maxDataFileId + (if bc.rotates op then 1 else 0) ∧
    dataIds (bc.step op).dir = dataIds bc.dir ++
      (if bc.rotates op then [bc.maxDataFileId + 1] else []) := by
  cases hrec : op.record with
  | none =>
    obtain ⟨k, now, e⟩ := step_read bc op hrec
    obtain ⟨c, hc⟩ := Get_cache_only bc k now
    rw [e, hc]
    simp [Beecask.rotates, hrec]
  | some r =>
    obtain ⟨e, hk, hv⟩ := step_write bc op r hrec
    rw [e]
    have := setRecord_files bc r hi hk hv
    simpa [Beecask.rotates, hrec] using this

/-- After a sequence of calls that triggers `N` rotations the largest file id has
grown by `N` and the `.data` files are the former ones followed by the `N` new ids. -/
theorem run_files (ops : List Op) (bc : Beecask) (hi : bc.Inv) :
    (bc.run ops).maxDataFileId = bc.maxDataFileId + rotationCount bc ops ∧
    dataIds (bc.run ops).dir = dataIds bc.dir ++
      List.range' (bc.maxDataFileId + 1) (rotationCount bc ops) := by
  induction ops generalizing bc with
  | nil => simp [Beecask.run, rotationCount]
  | cons op ops ih =>
    obtain ⟨s1, s2⟩ := step_files bc op hi
    obtain ⟨i1, i2⟩ := ih (bc.step op) (step_spec bc op hi).1
    rw [run_cons, rotationCount, i1, i2, s1, s2]
    by_cases hrot : bc.rotates op
    · simp only [hrot, if_true]
      refine ⟨by omega, ?_⟩
      rw [List.append_assoc, List.singleton_append, ← List.range'_succ, Nat.add_comm 1]
    · simp only [hrot]
      simp

theorem run_two (bc : Beecask) (o1 o2 : Op) : bc.run [o1, o2] = (bc.step o1).step o2 := rfl

theorem step_set (bc : Beecask) (k v : List Byte) :
    bc.step (Op.set k v) = (bc.setRecord (mkRecord k v 0 0)).1 := rfl

/-- C6, as stated, fails in its second half for a value of `2^32` bytes: after the
writes `Set(a, "1")`, `Set(x, v)`, `Get(x)` does not return `v`. -/
theorem C6_counterexample :
    NewBeecask demoOptions [] = Except.ok (emptyEngine demoOptions) ∧
    (((emptyEngine demoOptions).run [Op.set keyA [0x31], Op.set keyX bigBytes]).Get keyX 0).2
      ≠ Except.ok bigBytes := by
  have h0 := set_spec (emptyEngine demoOptions) keyA [0x31] 0 0 (emptyEngine_Inv _)
  have h1 := set_spec _ keyX bigBytes 0 0 h0.2.1
  refine ⟨NewBeecask_empty _, fun h => ?_⟩
  rw [run_two, step_set, step_set] at h
  have := (Get_ok_length _ h1.2.1.1 keyX 0 bigBytes h).2
  rw [bigBytes_length] at this
  exact absurd this (lt_irrefl _)

/-- C6, amended. Starting from the empty directory and with no Merge, after any
sequence of calls that triggers exactly `N` rotations the directory contains exactly
`N + 1` `.data` files, with file ids `1..N+1`, the largest being the active segment;
and `Get` of every key whose last write is a valid record (key and value shorter
than `2^32` bytes), under `MaxFileSize <= 2^32`, returns what that record
prescribes: its value for a Set, not found for a Delete or a passed expiration. -/
theorem C6_rotation_preserves_data (opts : Options) (ops : List Op) (N : Nat)
    (hN : rotationCount (emptyEngine opts) ops = N) :
    NewBeecask opts [] = Except.ok (emptyEngine opts) ∧
    dataIds ((emptyEngine opts).run ops).dir = List.range' 1 (N + 1) ∧
    ((emptyEngine opts).run ops).activeFile.fileId = N + 1 ∧
    ∀ k r now, lastWrite k ops = some r → r.Valid → opts.MaxFileSize ≤ 2 ^ 32 →
      (((emptyEngine opts).run ops).Get k now).2 = expected r now := by
  have hopen := NewBeecask_empty opts
  obtain ⟨hi, _, hh⟩ := session_spec opts [] _ ops hopen
  obtain ⟨f1, f2⟩ := run_files ops (emptyEngine opts) (emptyEngine_Inv opts)
  rw [hN] at f1 f2
  refine ⟨hopen, ?_, ?_, fun k r now hl hv hm => Get_spec _ k now r hi (hh k r hl hv hm)⟩
  · rw [f2]
    rfl
  · rw [hi.2.2.1, f1]
    show 1 + N = N + 1
    omega

set_option maxRecDepth 1000000 in
/-- Witness of C6: five 26-byte writes with `MaxFileSize = 64` rotate twice; three
`.data` files exist and every key reads its last value. -/
theorem C6_rotation_preserves_data_witness :
    rotationCount (emptyEngine demoOptions) demoWrites = 2 ∧
    dataIds ((emptyEngine demoOptions).run demoWrites).dir = [1, 2, 3] ∧
    ((emptyEngine demoOptions).run demoWrites).activeFile.fileId = 3 ∧
    (((emptyEngine demoOptions).run demoWrites).Get keyA 0).2 = Except.ok [0x33] :=
  ⟨by decide!,
    (C6_rotation_preserves_data demoOptions demoWrites 2 (by decide!)).2.1,
    (C6_rotation_preserves_data demoOptions demoWrites 2 (by decide!)).2.2.1,
    (C6_rotation_preserves_data demoOptions demoWrites 2 (by decide!)).2.2.2 keyA
      (mkRecord keyA [0x33] 0 0) 0 (by decide!)
      (mkRecord_Valid keyA [0x33] 0 0 (by decide) (by decide) (by decide) (by decide)
        (by decide)) (by decide)⟩

theorem decodeHeader_stored (r : Record) (c : Nat) (hc : c < 2 ^ 32) (h : r.Valid) :
    decodeHeader (putLE 4 c ++ headerTail r) =
      { crc := c, flag := r.flag, expiration := r.expiration, keySize := r.keySize,
        valueSize := r.valueSize, key := [], value := [] } := by
  obtain ⟨hf, he1, he2, hk, hv, hkl, hvl⟩ := h
  have e0 : slice (putLE 4 c ++ headerTail r) 0 4 = putLE 4 c := by
    have := slice_mid [] (putLE 4 c) (headerTail r)
    simpa [putLE_length] using this
  have e1 : slice (putLE 4 c ++ headerTail r) 4 8 = putLE 4 r.flag := by
    have := slice_mid (putLE 4 c) (putLE 4 r.flag)
      (putLE 8 (int64ToUint64 r.expiration) ++ putLE 4 r.keySize ++ putLE 4 r.valueSize)
    simpa [putLE_length, headerTail, List.append_assoc] using this
  have e2 : slice (putLE 4 c ++ headerTail r) 8 16
      = putLE 8 (int64ToUint64 r.expiration) := by
    have := slice_mid (putLE 4 c ++ putLE 4 r.flag)
      (putLE 8 (int64ToUint64 r.expiration)) (putLE 4 r.keySize ++ putLE 4 r.valueSize)
    simpa [putLE_length, headerTail, List.append_assoc] using this
  have e3 : slice (putLE 4 c ++ headerTail r) 16 20 = putLE 4 r.keySize := by
    have := slice_mid (putLE 4 c ++ putLE 4 r.flag ++
      putLE 8 (int64ToUint64 r.expiration)) (putLE 4 r.keySize) (putLE 4 r.valueSize)
    simpa [putLE_length, headerTail, List.append_assoc] using this
  have e4 : slice (putLE 4 c ++ headerTail r) 20 24 = putLE 4 r.valueSize := by
    have := slice_mid (putLE 4 c ++ putLE 4 r.flag ++
      putLE 8 (int64ToUint64 r.expiration) ++ putLE 4 r.keySize) (putLE 4 r.valueSize) []
    simpa [putLE_length, headerTail, List.append_assoc] using this
  unfold decodeHeader
  rw [e0, e1, e2, e3, e4, getLE_putLE4 _ hc, getLE_putLE4 _ hf,
    getLE_putLE8 _ (int64ToUint64_lt _), getLE_putLE4 _ (by omega), getLE_putLE4 _ (by omega),
    uint64_int64_roundtrip _ he1 he2]

/-- Reading a record whose header carries the checksum `c`: corruption unless `c` is
the checksum of the bytes read. -/
theorem DataFile_ReadRecordAt_stored (fileId : Nat) (pre post : List Byte) (r : Record)
    (c : Nat) (hc : c < 2 ^ 32) (h : r.Valid) :
    DataFile.ReadRecordAt
        { file := { mmapedRegion := pre ++ (putLE 4 c ++ headerTail r ++ r.key ++ r.value) ++ post },
          fileId := fileId } pre.length
      = if recordCrc r ≠ c then Except.error Error.ErrDataCorruption
        else Except.ok { r with crc := c } := by
  have hv := h
  obtain ⟨hf, he1, he2, hk, hvs, hkl, hvl⟩ := h
  unfold DataFile.ReadRecordAt
  have r1 : MmapFile.ReadAt
      { mmapedRegion := pre ++ (putLE 4 c ++ headerTail r ++ r.key ++ r.value) ++ post }
      pre.length DATA_ITEM_HEADER_SIZE = (putLE 4 c ++ headerTail r, none) := by
    have := mmap_ReadAt_mid pre (putLE 4 c ++ headerTail r) (r.key ++ r.value ++ post)
    simpa [putLE_length, headerTail_length, DATA_ITEM_HEADER_SIZE, List.append_assoc]
      using this
  have r2 : MmapFile.ReadAt
      { mmapedRegion := pre ++ (putLE 4 c ++ headerTail r ++ r.key ++ r.value) ++ post }
      (pre.length + DATA_ITEM_HEADER_SIZE) r.keySize = (r.key, none) := by
    have := mmap_ReadAt_mid (pre ++ (putLE 4 c ++ headerTail r)) r.key (r.value ++ post)
    simpa [putLE_length, headerTail_length, DATA_ITEM_HEADER_SIZE, List.append_assoc, hk]
      using this
  have r3 : MmapFile.ReadAt
      { mmapedRegion := pre ++ (putLE 4 c ++ headerTail r ++ r.key ++ r.value) ++ post }
      (pre.length + DATA_ITEM_HEADER_SIZE + r.keySize) r.valueSize = (r.value, none) := by
    have := mmap_ReadAt_mid (pre ++ (putLE 4 c ++ headerTail r) ++ r.key) r.value post
    have e : pre.length + DATA_ITEM_HEADER_SIZE + r.keySize
        = (pre ++ (putLE 4 c ++ headerTail r) ++ r.key).length := by
      simp [putLE_length, headerTail_length, DATA_ITEM_HEADER_SIZE, hk]; omega
    rw [e, hvs]
    simpa [List.append_assoc] using this
  simp only [r1, decodeHeader_stored r c hc hv, r2, r3]
  have hd : (putLE 4 c ++ headerTail r).drop 4 = headerTail r := by
    have := List.drop_left (putLE 4 c) (headerTail r)
    rwa [putLE_length] at this
  have hcrc : crc32Update (crc32Update (ChecksumIEEE (headerTail r)) r.key) r.value
      = recordCrc r := rfl
  simp only [hd, hcrc]

theorem encodeAll_length_ge (rs : List Record) : rs.length ≤ (encodeAll rs).length := by
  induction rs with
  | nil => simp [encodeAll]
  | cons r rs ih =>
    simp only [encodeAll, List.length_cons, List.length_append, encodeRecord_length]
    omega

theorem Sized_Size (r : Record) (h : r.Sized) (c : Nat) :
    ({ r with crc := c } : Record).Size = 24 + r.key.length + r.value.length := by
  obtain ⟨⟨hf, he1, he2, hk, hvs, hkl, hvl⟩, hs⟩ := h
  simp only [Record.Size, DATA_ITEM_HEADER_SIZE, toUint32, hk, hvs]
  exact Nat.mod_eq_of_lt hs

/-- `ForEachRecord` on a segment that holds the records `rs` from `pre.length` on:
the callback is folded over `rs`, and the iteration goes on behind them. -/
theorem forEachLoop_encoded {σ : Type} (fn : Record → Nat → Nat → σ → σ × Option Error)
    (fileId : Nat) (rs : List Record) (pre post : List Byte) (fuel : Nat) (s : σ)
    (hs : ∀ r, r ∈ rs → r.Sized) (hf : rs.length ≤ fuel) :
    DataFile.forEachLoop
        { file := { mmapedRegion := pre ++ encodeAll rs ++ post }, fileId := fileId } fn fuel
        pre.length s =
      match foldRecords fn fileId pre.length rs s with
      | (s1, some e) => (s1, some e)
      | (s1, none) =>
        DataFile.forEachLoop
          { file := { mmapedRegion := pre ++ encodeAll rs ++ post }, fileId := fileId } fn
          (fuel - rs.length) (pre.length + (encodeAll rs).length) s1 := by
  induction rs generalizing pre fuel s with
  | nil => simp [foldRecords, encodeAll]
  | cons r rs ih =>
    have hr := hs r (List.mem_cons_self _ _)
    cases fuel with
    | zero => simp at hf
    | succ fuel =>
      rw [DataFile.forEachLoop]
      have hread : DataFile.ReadRecordAt
          { file := { mmapedRegion := pre ++ encodeAll (r :: rs) ++ post }, fileId := fileId }
          pre.length = Except.ok { r with crc := recordCrc r } := by
        have := DataFile_ReadRecordAt_encoded fileId pre (encodeAll rs ++ post) r hr.1
        simpa [encodeAll, List.append_assoc] using this
      simp only [hread, foldRecords]
      cases hfn : fn { r with crc := recordCrc r } fileId pre.length s with
      | mk s1 err =>
        cases err with
        | some e => rfl
        | none =>
          simp only
          have hih := ih (pre ++ encodeRecord r) fuel s1
            (fun r1 h1 => hs r1 (List.mem_cons_of_mem _ h1)) (by simpa using hf)
          have e1 : pre ++ encodeRecord r ++ encodeAll rs ++ post
              = pre ++ encodeAll (r :: rs) ++ post := by
            simp [encodeAll, List.append_assoc]
          have hsz := Sized_Size r hr (recordCrc r)
          have hlen : (pre ++ encodeRecord r).length
              = pre.length + (24 + r.key.length + r.value.length) := by
            rw [List.length_append, encodeRecord_length]
          have e4 : pre.length + (encodeAll (r :: rs)).length
              = pre.length + (24 + r.key.length + r.value.length) + (encodeAll rs).length := by
            simp only [encodeAll, List.length_append, encodeRecord_length]; omega
          have e5 : fuel + 1 - (r :: rs).length = fuel - rs.length := by simp
          rw [e1, hlen] at hih
          rw [hsz, e4, e5]
          exact hih

theorem xorPoly_ge (x : Nat) (h : x < 2 ^ 31) : 2 ^ 31 ≤ x ^^^ 0xEDB88320 := by
  apply Nat.testBit_implies_ge
  rw [Nat.testBit_xor, Nat.testBit_lt_two_pow h]
  decide

theorem crcBit_inj (c1 c2 : Nat) (h1 : c1 < 2 ^ 32) (h2 : c2 < 2 ^ 32)
    (h : crcBit c1 = crcBit c2) : c1 = c2 := by
  unfold crcBit at h
  have a1 : c1 / 2 < 2 ^ 31 := by omega
  have a2 : c2 / 2 < 2 ^ 31 := by omega
  have g1 := xorPoly_ge _ a1
  have g2 := xorPoly_ge _ a2
  split at h <;> split at h
  · have : c1 / 2 = c2 / 2 := by
      have := congrArg (fun z => z ^^^ 0xEDB88320) h
      simpa [Nat.xor_assoc] using this
    omega
  · omega
  · omega
  · omega

theorem crcByte_inj_state (c1 c2 : Nat) (b : Byte) (h1 : c1 < 2 ^ 32) (h2 : c2 < 2 ^ 32)
    (h : crcByte c1 b = crcByte c2 b) : c1 = c2 := by
  unfold crcByte at h
  have hb : b.val < 2 ^ 32 := lt_of_lt_of_le b.isLt (by norm_num)
  have x1 : c1 ^^^ b.val < 2 ^ 32 := Nat.xor_lt_two_pow h1 hb
  have x2 : c2 ^^^ b.val < 2 ^ 32 := Nat.xor_lt_two_pow h2 hb
  have l := fun c (hc : c < 2 ^ 32) => crcBit_lt c hc
  have e := crcBit_inj _ _ x1 x2 (crcBit_inj _ _ (l _ x1) (l _ x2)
    (crcBit_inj _ _ (l _ (l _ x1)) (l _ (l _ x2))
    (crcBit_inj _ _ (l _ (l _ (l _ x1))) (l _ (l _ (l _ x2)))
    (crcBit_inj _ _ (l _ (l _ (l _ (l _ x1)))) (l _ (l _ (l _ (l _ x2))))
    (crcBit_inj _ _ (l _ (l _ (l _ (l _ (l _ x1))))) (l _ (l _ (l _ (l _ (l _ x2)))))
    (crcBit_inj _ _ (l _ (l _ (l _ (l _ (l _ (l _ x1)))))) (l _ (l _ (l _ (l _ (l _ (l _ x2))))))
    (crcBit_inj _ _ (l _ (l _ (l _ (l _ (l _ (l _ (l _ x1)))))))
      (l _ (l _ (l _ (l _ (l _ (l _ (l _ x2))))))) h)))))))
  have := congrArg (fun z => z ^^^ b.val) e
  simpa [Nat.xor_assoc] using this

theorem crcByte_inj_byte (c : Nat) (b1 b2 : Byte) (hc : c < 2 ^ 32)
    (h : crcByte c b1 = crcByte c b2) : b1 = b2 := by
  unfold crcByte at h
  have hb1 : b1.val < 2 ^ 32 := lt_of_lt_of_le b1.isLt (by norm_num)
  have hb2 : b2.val < 2 ^ 32 := lt_of_lt_of_le b2.isLt (by norm_num)
  have x1 : c ^^^ b1.val < 2 ^ 32 := Nat.xor_lt_two_pow hc hb1
  have x2 : c ^^^ b2.val < 2 ^ 32 := Nat.xor_lt_two_pow hc hb2
  have l := fun c (hc : c < 2 ^ 32) => crcBit_lt c hc
  have e := crcBit_inj _ _ x1 x2 (crcBit_inj _ _ (l _ x1) (l _ x2)
    (crcBit_inj _ _ (l _ (l _ x1)) (l _ (l _ x2))
    (crcBit_inj _ _ (l _ (l _ (l _ x1))) (l _ (l _ (l _ x2)))
    (crcBit_inj _ _ (l _ (l _ (l _ (l _ x1)))) (l _ (l _ (l _ (l _ x2))))
    (crcBit_inj _ _ (l _ (l _ (l _ (l _ (l _ x1))))) (l _ (l _ (l _ (l _ (l _ x2)))))
    (crcBit_inj _ _ (l _ (l _ (l _ (l _ (l _ (l _ x1)))))) (l _ (l _ (l _ (l _ (l _ (l _ x2))))))
    (crcBit_inj _ _ (l _ (l _ (l _ (l _ (l _ (l _ (l _ x1)))))))
      (l _ (l _ (l _ (l _ (l _ (l _ (l _ x2))))))) h)))))))
  have := congrArg (fun z => c ^^^ z) e
  simp only [← Nat.xor_assoc, Nat.xor_self, Nat.zero_xor] at this
  exact Fin.ext this

theorem foldl_crcByte_inj (t : List Byte) (c1 c2 : Nat) (h1 : c1 < 2 ^ 32) (h2 : c2 < 2 ^ 32)
    (h : t.foldl crcByte c1 = t.foldl crcByte c2) : c1 = c2 := by
  induction t generalizing c1 c2 with
  | nil => simpa using h
  | cons b t ih =>
    simp only [List.foldl_cons] at h
    exact crcByte_inj_state c1 c2 b h1 h2 (ih _ _ (crcByte_lt _ _ h1) (crcByte_lt _ _ h2) h)

/-- The CRC-32 detects the change of a single byte. -/
theorem crc32Update_byte (c : Nat) (hc : c < 2 ^ 32) (va vb : List Byte) (b1 b2 : Byte)
    (h : crc32Update c (va ++ b1 :: vb) = crc32Update c (va ++ b2 :: vb)) : b1 = b2 := by
  unfold crc32Update at h
  have h0 := congrArg (fun z => z ^^^ 0xFFFFFFFF) h
  simp only [Nat.xor_assoc, Nat.xor_self, Nat.xor_zero] at h0
  simp only [List.foldl_append, List.foldl_cons] at h0
  have hs : va.foldl crcByte (c ^^^ 0xFFFFFFFF) < 2 ^ 32 :=
    foldl_crcByte_lt va _ (Nat.xor_lt_two_pow hc (by norm_num))
  exact crcByte_inj_byte _ b1 b2 hs
    (foldl_crcByte_inj vb _ _ (crcByte_lt _ _ hs) (crcByte_lt _ _ hs) h0)

theorem foldRecords_restoreRecord (dfId fileId : Nat) (rs : List Record) (o : Nat)
    (s : KeyDir × KDItem) : (foldRecords (restoreRecord dfId) fileId o rs s).2 = none := by
  induction rs generalizing o s with
  | nil => rfl
  | cons r rs ih =>
    simp only [foldRecords]
    have hnone : ∀ r1 f1 o1 s1, (restoreRecord dfId r1 f1 o1 s1).2 = none := by
      intro r1 f1 o1 s1
      unfold restoreRecord
      dsimp only
      split <;> rfl
    cases hfn : restoreRecord dfId { r with crc := recordCrc r } fileId o s with
    | mk s1 err =>
      have := hnone { r with crc := recordCrc r } fileId o s
      rw [hfn] at this
      simp only at this
      subst this
      exact ih _ _

theorem Ref_fresh (cache : DataFileCache) (dir : Dir) (fileId : Nat) (c : List Byte)
    (h0 : alookup fileId cache.hash = none)
    (h : alookup (FileName.data fileId) dir = some c) :
    (cache.Ref dir fileId).2 = Except.ok { file := { mmapedRegion := c }, fileId := fileId } := by
  unfold DataFileCache.Ref
  simp only [h0, NewDataFile, h]
  rfl

/-- Recovery from a data file stops with 'data corruption' at a record whose stored
checksum is the one of a value that differs in one byte from the value on disk. -/
theorem ForEachRecord_corrupted (fileId : Nat) (rs1 : List Record) (r : Record)
    (va vb post : List Byte) (b b1 : Byte) (s : KeyDir × KDItem)
    (hs : ∀ r0, r0 ∈ rs1 → r0.Sized) (hr : r.Valid) (hval : r.value = va ++ b :: vb)
    (hb : b ≠ b1) :
    (DataFile.ForEachRecord
      { file := { mmapedRegion := encodeAll rs1 ++
          (putLE 4 (recordCrc r) ++ headerTail r ++ r.key ++ (va ++ b1 :: vb)) ++ post },
        fileId := fileId } (restoreRecord fileId) s).2 = some Error.ErrDataCorruption := by
  unfold DataFile.ForEachRecord
  simp only [MmapFile.Size]
  have hlen := encodeAll_length_ge rs1
  generalize hfuel : (encodeAll rs1 ++
      (putLE 4 (recordCrc r) ++ headerTail r ++ r.key ++ (va ++ b1 :: vb)) ++ post).length + 2
      = fuel
  have hfl : rs1.length + 1 ≤ fuel := by
    rw [← hfuel]; simp only [List.length_append]; omega
  have := forEachLoop_encoded (restoreRecord fileId) fileId rs1 []
    ((putLE 4 (recordCrc r) ++ headerTail r ++ r.key ++ (va ++ b1 :: vb)) ++ post) fuel s hs
    (by omega)
  simp only [List.nil_append, List.length_nil, Nat.zero_add, ← List.append_assoc] at this
  simp only [← List.append_assoc]
  rw [this]
  have hnone := foldRecords_restoreRecord fileId fileId rs1 0 s
  cases hfold : foldRecords (restoreRecord fileId) fileId 0 rs1 s with
  | mk s1 err =>
    rw [hfold] at hnone
    simp only at hnone
    subst hnone
    simp only
    obtain ⟨m, hm⟩ : ∃ m, fuel - rs1.length = m + 1 := ⟨fuel - rs1.length - 1, by omega⟩
    rw [hm, DataFile.forEachLoop]
    obtain ⟨hf, he1, he2, hk, hvs, hkl, hvl⟩ := hr
    have hlenv : (va ++ b1 :: vb).length = r.value.length := by
      rw [hval]; simp
    have hr1 : Record.Valid { r with value := va ++ b1 :: vb } :=
      ⟨hf, he1, he2, hk, by simp only [hlenv]; exact hvs, hkl, by simp only [hlenv]; exact hvl⟩
    have hread := DataFile_ReadRecordAt_stored fileId (encodeAll rs1) post
      { r with value := va ++ b1 :: vb } (recordCrc r) (recordCrc_lt r) hr1
    have hne : recordCrc { r with value := va ++ b1 :: vb } ≠ recordCrc r := by
      intro e
      unfold recordCrc at e
      simp only [hval] at e
      have hx : crc32Update (ChecksumIEEE (headerTail r)) r.key < 2 ^ 32 :=
        crc32Update_lt _ _ (ChecksumIEEE_lt _)
      have ht : headerTail { r with value := va ++ b1 :: vb } = headerTail r := rfl
      rw [ht] at e
      exact hb (crc32Update_byte _ hx va vb b b1 e.symm)
    simp only [hne, ne_eq, not_false_eq_true, if_true] at hread
    have ht : headerTail { r with value := va ++ b1 :: vb } = headerTail r := rfl
    simp only [ht, ← List.append_assoc] at hread
    rw [hread]
    simp

/-- An error of `restoreFromDataFile` on a directory with no hint file ends
`NewBeecask` with that error. -/
theorem NewBeecask_single_error (opts : Options) (fileId : Nat) (c : List Byte) (e : Error)
    (h : ∀ s, (DataFile.ForEachRecord { file := { mmapedRegion := c }, fileId := fileId }
      (restoreRecord fileId) s).2 = some e) :
    NewBeecask opts [(FileName.data fileId, c)] = Except.error e := by
  unfold NewBeecask
  dsimp only
  have hlook : alookup (FileName.data fileId) [(FileName.data fileId, c)] = some c := by
    simp [alookup]
  have hhint : alookup (FileName.hint fileId) [(FileName.data fileId, c)] = none := by
    simp [alookup]
  have href := Ref_fresh (NewDataFileCache opts.MaxOpenFiles) [(FileName.data fileId, c)] fileId c
    (by simp [NewDataFileCache, alookup]) hlook
  have hrestore : (Recovery.restore
      { dir := [(FileName.data fileId, c)], minDataFileId := 0, maxDataFileId := 0,
        keydir := NewKeyDir, dataFileCache := NewDataFileCache opts.MaxOpenFiles } fileId).2
      = some e := by
    unfold Recovery.restore
    simp only [hhint]
    unfold Recovery.restoreFromDataFile
    cases hr : (NewDataFileCache opts.MaxOpenFiles).Ref [(FileName.data fileId, c)] fileId with
    | mk cache1 res =>
      rw [hr] at href
      simp only at href
      subst href
      simp only
      exact h _
  simp only [ReadDir, List.map_cons, List.map_nil, Recovery.scanLoop]
  cases hr : Recovery.restore
      { dir := [(FileName.data fileId, c)], minDataFileId := 0, maxDataFileId := 0,
        keydir := NewKeyDir, dataFileCache := NewDataFileCache opts.MaxOpenFiles } fileId with
  | mk bc1 err =>
    rw [hr] at hrestore
    simp only at hrestore
    subst hrestore
    rfl


set_option maxRecDepth 1000000 in
/-- C5, counterexample: scenario S1 after close holds the records of `a`, `b` and the
tombstone of `a` in data file 1, and reopening it reads `b` as "2"; with the value
byte of the record of `b` (offset 51) changed from 0x32 to 0x33, reopening the
directory fails with 'data corruption', so there is no engine on which to call
`Get`. -/
theorem C5_counterexample :
    alookup (FileName.data 1) s1Dir =
        some (encodeAll [mkRecord keyA [0x31] 0 0, mkRecord keyB [0x32] 0 0,
          mkRecord keyA [] 1 0]) ∧
      (openAndGet wideOptions (Except.ok s1Dir) keyB 0).map Prod.fst =
        Except.ok (Except.ok [0x32]) ∧
      NewBeecask wideOptions (corruptAt s1Dir 1 51 0x33) =
        Except.error Error.ErrDataCorruption := by
  decide!

theorem mmap_ReadAt_readSpec (c : List Byte) (o m : Nat) :
    MmapFile.ReadAt { mmapedRegion := c } o m = readSpec c o m := by
  unfold MmapFile.ReadAt readSpec MmapFile.Size
  simp only
  by_cases h1 : o > c.length
  · simp [h1]
  · simp only [h1, if_false]
    by_cases h2 : o + m > c.length
    · have h3 : c.length < o + m := h2
      simp only [h2, h3, if_true]
      unfold slice
      rw [List.take_length]
    · have h3 : ¬ c.length < o + m := by omega
      simp only [h2, h3, if_false]

theorem apply_spec (file : FileWithBuffer) (hw : file.WF) (hr : file.f.room = none)
    (op : FileOp) :
    ∃ file1, file.apply op = (file1, none) ∧ file1.content = file.content ++ op.data ∧
      file1.WF ∧ file1.f.room = none := by
  cases op with
  | write d =>
    obtain ⟨file1, h1, h2, h3, h4, _⟩ := Write_spec file hw hr d
    refine ⟨file1, ?_, h2, h3, h4⟩
    simp only [FileWithBuffer.apply, h1]
  | flush =>
    refine ⟨_, Flush_spec file hr, ?_, ?_, rfl⟩
    · simp [FileWithBuffer.content, FileOp.data, slice]
    · constructor
      · exact Nat.zero_le _
      · simp only [Nat.add_zero]
        rw [content_length file hw]

theorem applyAll_spec (ops : List FileOp) (file : FileWithBuffer) (hw : file.WF)
    (hr : file.f.room = none) (errs : List Error) :
    ∃ file1, ops.foldl FileWithBuffer.applyStep (file, errs) = (file1, errs) ∧
      file1.content = file.content ++ appended ops ∧ file1.WF ∧ file1.f.room = none := by
  induction ops generalizing file with
  | nil => exact ⟨file, rfl, by simp [appended], hw, hr⟩
  | cons op ops ih =>
    obtain ⟨file1, h1, h2, h3, h4⟩ := apply_spec file hw hr op
    obtain ⟨file2, g1, g2, g3, g4⟩ := ih file1 h3 h4
    refine ⟨file2, ?_, ?_, g3, g4⟩
    · rw [List.foldl_cons]
      have : FileWithBuffer.applyStep (file, errs) op = (file1, errs) := by
        simp only [FileWithBuffer.applyStep, h1]
      rw [this]
      exact g1
    · rw [g2, h2]
      simp [appended]

theorem wrapInt64_id (x : Int) (h0 : 0 ≤ x) (h1 : x < 2 ^ 63) : wrapInt64 x = x := by
  unfold wrapInt64
  rw [Int.emod_eq_of_lt (by omega) (by omega)]
  omega

theorem ReadAtInt64_eq (file : MmapFile) (o n : Nat) (h : o + n < 2 ^ 63) :
    file.ReadAtInt64 o n = some (file.ReadAt o n) := by
  unfold MmapFile.ReadAtInt64 MmapFile.ReadAt
  have hw : wrapInt64 ((o : Int) + (n : Int)) = ((o + n : Nat) : Int) := by
    rw [wrapInt64_id _ (by omega) (by push_cast at h ⊢; exact_mod_cast h)]
    push_cast
    rfl
  rw [hw]
  by_cases h1 : o > file.Size
  · have : (o : Int) > (file.Size : Int) := by exact_mod_cast h1
    simp only [h1, this, if_true]
  · have : ¬ (o : Int) > (file.Size : Int) := by
      intro hc
      exact h1 (by exact_mod_cast hc)
    simp only [h1, this, if_false]
    by_cases h2 : o + n > file.Size
    · have h3 : ((o + n : Nat) : Int) > (file.Size : Int) := by exact_mod_cast h2
      have h4 : ¬ ((o : Int) < 0) := by omega
      simp only [h2, h3, h4, if_true, if_false, Int.toNat_ofNat]
    · have h3 : ¬ ((o + n : Nat) : Int) > (file.Size : Int) := by
        intro hc
        exact h2 (by exact_mod_cast hc)
      have h4 : (0 : Int) ≤ (o : Int) ∧ (o : Int) ≤ ((o + n : Nat) : Int) := by
        constructor <;> omega
      simp only [h2, h3, h4, if_false, Int.toNat_ofNat]
      simp


theorem mmap_ReadAt_min (file : MmapFile) (o n : Nat) :
    file.ReadAt o n =
        (if o > file.Size then ([], some Error.ErrInvalid)
         else (slice file.mmapedRegion o (o + min n (file.Size - o)),
               if o + n > file.Size then some Error.EOF else none)) ∧
      (file.ReadAt o n).1.length = if o > file.Size then 0 else min n (file.Size - o) := by
  unfold MmapFile.ReadAt MmapFile.Size
  by_cases h1 : o > file.mmapedRegion.length
  · simp [h1]
  · simp only [h1, if_false]
    by_cases h2 : o + n > file.mmapedRegion.length
    · simp only [h2, if_true]
      have hm : min n (file.mmapedRegion.length - o) = file.mmapedRegion.length - o := by omega
      rw [hm]
      have hs : o + (file.mmapedRegion.length - o) = file.mmapedRegion.length := by omega
      rw [hs]
      unfold slice
      rw [List.take_length]
      simp
    · simp only [h2, if_false]
      have hm : min n (file.mmapedRegion.length - o) = n := by omega
      rw [hm]
      refine ⟨rfl, ?_⟩
      unfold slice
      simp only [List.length_drop, List.length_take]
      omega

/-- C15, counterexample: on a mapped file of one byte, `ReadAt(1, 2^63 - 1)` has
`offset <= size`, the sum `offset+len` wraps to `-2^63`, which is not above the
size, and the slice expression `mmapedRegion[1:-2^63]` panics: no slice and no
end-of-data is returned. -/
theorem C15_counterexample :
    MmapFile.ReadAtInt64 { mmapedRegion := [0] } 1 (2 ^ 63 - 1) = none := by
  decide

/-- C15, amended: `MmapFile.ReadAt` on a mapped file of size `S`, for an offset `o`
and a length `n` that are not negative and whose sum fits an `int64`: 'invalid' when
`o > S`; otherwise the bytes from `o` to `o + min(n, S - o)`, exactly `min(n, S - o)`
of them, with end-of-data exactly when `o + n > S`. -/
theorem C15_mmap_read_at (file : MmapFile) (o n : Nat) (h : o + n < 2 ^ 63) :
    file.ReadAtInt64 o n =
        some (if o > file.Size then ([], some Error.ErrInvalid)
         else (slice file.mmapedRegion o (o + min n (file.Size - o)),
               if o + n > file.Size then some Error.EOF else none)) ∧
      (file.ReadAt o n).1.length = if o > file.Size then 0 else min n (file.Size - o) := by
  rw [ReadAtInt64_eq file o n h, (mmap_ReadAt_min file o n).1]
  refine ⟨rfl, ?_⟩
  rw [← (mmap_ReadAt_min file o n).1]
  exact (mmap_ReadAt_min file o n).2

/-- C15, witness: three bytes asked at offset 1 of a two-byte file. -/
theorem C15_mmap_read_at_witness :
    MmapFile.ReadAtInt64 { mmapedRegion := [7, 8] } (1 : Nat) (3 : Nat) =
        some ([8], some Error.EOF) ∧
      (MmapFile.ReadAt { mmapedRegion := [7, 8] } 1 3).1.length = 1 :=
  C15_mmap_read_at { mmapedRegion := [7, 8] } 1 3 (by norm_num)

theorem OsFile_Write_cases (f : OsFile) (d : List Byte) :
    (f.Write d).1.bytes = f.bytes ++ d.take (f.Write d).2.1 ∧ (f.Write d).2.1 ≤ d.length ∧
      ((f.Write d).2.2 = none → (f.Write d).2.1 = d.length) ∧
      ((f.Write d).2.2 ≠ none → (f.Write d).2.1 < d.length) := by
  unfold OsFile.Write
  cases hr : f.room with
  | none => simp
  | some m =>
    simp only
    by_cases h : d.length ≤ m
    · simp [h]
    · simp only [h, if_false]
      refine ⟨by first | rfl | trivial, by omega, by simp, fun _ => by omega⟩

theorem copySlice_length (buf : List Byte) (lo hi : Nat) (src : List Byte)
    (h : hi ≤ buf.length) :
    (copySlice buf lo hi src).1.length = buf.length ∧
      (copySlice buf lo hi src).2 = min (hi - lo) src.length := by
  unfold copySlice
  refine ⟨?_, rfl⟩
  simp only [List.length_append, List.length_take, List.length_drop]
  omega

/-- `Flush` keeps the number of bytes on disk and in the buffer together, the
apparent size and the buffer capacity, whatever the device accepts. -/
theorem Flush_count (file : FileWithBuffer) (h1 : file.n ≤ file.wbuf.length) :
    file.Flush.1.n ≤ file.Flush.1.wbuf.length ∧
      file.Flush.1.f.bytes.length + file.Flush.1.n = file.f.bytes.length + file.n ∧
      file.Flush.1.size = file.size ∧
      file.Flush.1.wbuf.length = file.wbuf.length ∧
      (file.Flush.2 = none → file.Flush.1.n = 0) := by
  unfold FileWithBuffer.Flush
  by_cases hn : file.n = 0
  · simp only [hn, if_true]
    exact ⟨by omega, by first | rfl | trivial, by first | rfl | trivial,
      by first | rfl | trivial, fun _ => by first | exact hn | trivial⟩
  · simp only [hn, if_false]
    obtain ⟨hb, hle, hok, herr⟩ := OsFile_Write_cases file.f (slice file.wbuf 0 file.n)
    have hlen : (slice file.wbuf 0 file.n).length = file.n := by
      unfold slice
      simp only [List.drop_zero, List.length_take]
      omega
    rw [hlen] at hle hok herr
    cases hw : file.f.Write (slice file.wbuf 0 file.n) with
    | mk f1 rest =>
      cases rest with
      | mk w err =>
        rw [hw] at hb hle hok herr
        simp only at hb hle hok herr
        cases err with
        | none =>
          simp only
          have := hok rfl
          refine ⟨Nat.zero_le _, ?_, by first | rfl | trivial, by first | rfl | trivial,
            fun _ => by first | rfl | trivial⟩
          simp only [hb, List.length_append, List.length_take, hlen]
          omega
        | some e =>
          simp only
          have hlt := herr (by simp)
          have hcl : (if 0 < w ∧ w < file.n then
              (copySlice file.wbuf 0 (file.n - w) (slice file.wbuf w file.n)).1
              else file.wbuf).length = file.wbuf.length := by
            split
            · exact (copySlice_length _ _ _ _ (by omega)).1
            · rfl
          refine ⟨?_, ?_, by first | rfl | trivial, hcl, fun hc => by simp at hc⟩
          · rw [hcl]
            omega
          · simp only [hb, List.length_append, List.length_take, hlen]
            omega

theorem Flush_WF (file : FileWithBuffer) (h : file.WF) :
    file.Flush.1.WF ∧ file.Flush.1.wbuf.length = file.wbuf.length := by
  obtain ⟨h1, h2⟩ := h
  obtain ⟨g1, g2, g3, g4, _⟩ := Flush_count file h1
  exact ⟨⟨g1, by rw [g3, g2]; exact h2⟩, g4⟩

/-- The loop of `Write` keeps the count of the bytes on disk and in the buffer in
step with the apparent size and the bytes taken from the data so far. -/
theorem writeLoop_count (fuel : Nat) (file : FileWithBuffer) (d : List Byte) (nn : Nat)
    (h1 : file.n ≤ file.wbuf.length)
    (h2 : file.size + nn = file.f.bytes.length + file.n) :
    (file.writeLoop fuel d nn).1.n ≤ (file.writeLoop fuel d nn).1.wbuf.length ∧
      (file.writeLoop fuel d nn).1.size + (file.writeLoop fuel d nn).2.2.1 =
        (file.writeLoop fuel d nn).1.f.bytes.length + (file.writeLoop fuel d nn).1.n ∧
      (file.writeLoop fuel d nn).1.wbuf.length = file.wbuf.length := by
  induction fuel generalizing file d nn with
  | zero => exact ⟨h1, h2, rfl⟩
  | succ fuel ih =>
    rw [FileWithBuffer.writeLoop]
    split
    · split
      · rename_i hn
        obtain ⟨hb, hle, hok, herr⟩ := OsFile_Write_cases file.f d
        cases hw : file.f.Write d with
        | mk f1 rest =>
          cases rest with
          | mk w err =>
            rw [hw] at hb hle
            simp only at hb hle
            have hbl : f1.bytes.length = file.f.bytes.length + w := by
              rw [hb, List.length_append, List.length_take]
              omega
            cases err with
            | none =>
              simp only
              have := ih { file with f := f1 } (d.drop w) (nn + w) h1
                (by simp only [hbl]; omega)
              exact this
            | some e =>
              simp only
              exact ⟨h1, by simp only [hbl]; omega, by first | rfl | trivial⟩
      · have hc := copySlice_length file.wbuf file.n file.wbuf.length d (Nat.le_refl _)
        dsimp only
        generalize copySlice file.wbuf file.n file.wbuf.length d = c at hc ⊢
        obtain ⟨g1, g2, g3, g4, _⟩ := Flush_count { file with wbuf := c.1, n := file.n + c.2 }
          (by simp only [hc.1, hc.2]; omega)
        simp only at g1 g2 g3 g4
        cases hf : ({ file with wbuf := c.1, n := file.n + c.2 } : FileWithBuffer).Flush with
        | mk file1 err =>
          rw [hf] at g1 g2 g3 g4
          simp only at g1 g2 g3 g4
          cases err with
          | none =>
            simp only
            have := ih file1 (d.drop c.2) (nn + c.2) g1 (by omega)
            refine ⟨this.1, this.2.1, ?_⟩
            rw [this.2.2, g4, hc.1]
          | some e =>
            simp only
            exact ⟨g1, by omega, by rw [g4, hc.1]⟩
    · exact ⟨h1, h2, rfl⟩

/-- `Write` keeps the consistency, whatever the device accepts. -/
theorem Write_WF (file : FileWithBuffer) (h : file.WF) (d : List Byte) :
    (file.Write d).1.WF ∧ (file.Write d).1.wbuf.length = file.wbuf.length := by
  obtain ⟨h1, h2⟩ := h
  obtain ⟨g1, g2, g3⟩ := writeLoop_count 3 file d 0 h1 (by omega)
  unfold FileWithBuffer.Write
  cases hl : file.writeLoop 3 d 0 with
  | mk file1 rest =>
    cases rest with
    | mk d1 rest2 =>
      cases rest2 with
      | mk nn err =>
        rw [hl] at g1 g2 g3
        simp only at g1 g2 g3
        cases err with
        | some e =>
          simp only
          exact ⟨⟨g1, by dsimp only; omega⟩, g3⟩
        | none =>
          simp only
          have hc := copySlice_length file1.wbuf file1.n file1.wbuf.length d1 (Nat.le_refl _)
          refine ⟨⟨?_, ?_⟩, ?_⟩
          · dsimp only
            rw [hc.1, hc.2]
            omega
          · dsimp only
            omega
          · dsimp only
            rw [hc.1, g3]

/-- A short flush leaves the unwritten bytes, in order, at the front of the
buffer. -/
theorem Flush_short (file : FileWithBuffer) (h : file.WF) (f1 : OsFile) (w : Nat) (e : Error)
    (hw : file.f.Write (slice file.wbuf 0 file.n) = (f1, w, some e)) (hn : file.n ≠ 0) :
    file.Flush.2 = some e ∧ file.Flush.1.f = f1 ∧ file.Flush.1.n = file.n - w ∧
      slice file.Flush.1.wbuf 0 (file.n - w) = slice file.wbuf w file.n := by
  obtain ⟨h1, h2⟩ := h
  unfold FileWithBuffer.Flush
  simp only [hn, if_false, hw]
  refine ⟨by first | rfl | trivial, by first | rfl | trivial, by first | rfl | trivial, ?_⟩
  obtain ⟨hb, hle, hok, herr⟩ := OsFile_Write_cases file.f (slice file.wbuf 0 file.n)
  rw [hw] at hle herr
  simp only at hle herr
  have hlen : (slice file.wbuf 0 file.n).length = file.n := by
    unfold slice
    simp only [List.drop_zero, List.length_take]
    omega
  have hlt : w < file.n := by
    have := herr (by simp)
    omega
  by_cases hw0 : 0 < w
  · have hc : 0 < w ∧ w < file.n := ⟨hw0, hlt⟩
    simp only [hc, and_self, if_true]
    unfold copySlice slice
    simp only [List.take_zero, List.nil_append, Nat.sub_zero, List.drop_zero]
    have hl2 : ((List.take file.n file.wbuf).drop w).length = file.n - w := by
      simp only [List.length_drop, List.length_take]
      omega
    rw [hl2, Nat.min_self, Nat.zero_add]
    rw [List.take_append_of_le_length (by simp only [List.length_take, hl2]; omega)]
    rw [List.take_take, Nat.min_self]
    rw [List.take_of_length_le (by omega)]
  · have hw1 : w = 0 := by omega
    subst hw1
    simp [slice]


theorem apply_WF (file : FileWithBuffer) (h : file.WF) (op : FileOp) :
    (file.apply op).1.WF ∧ (file.apply op).1.wbuf.length = file.wbuf.length := by
  cases op with
  | write d => exact Write_WF file h d
  | flush => exact Flush_WF file h

theorem applyAll_WF (ops : List FileOp) (st : FileWithBuffer × List Error) (h : st.1.WF) :
    (ops.foldl FileWithBuffer.applyStep st).1.WF ∧
      (ops.foldl FileWithBuffer.applyStep st).1.wbuf.length = st.1.wbuf.length := by
  induction ops generalizing st with
  | nil => exact ⟨h, rfl⟩
  | cons op ops ih =>
    rw [List.foldl_cons]
    have h1 := apply_WF st.1 h op
    have hs : (FileWithBuffer.applyStep st op).1 = (st.1.apply op).1 := by
      unfold FileWithBuffer.applyStep
      cases st.1.apply op with
      | mk file1 err => cases err <;> rfl
    have := ih (FileWithBuffer.applyStep st op) (by rw [hs]; exact h1.1)
    refine ⟨this.1, ?_⟩
    rw [this.2, hs, h1.2]

theorem NewFileWithBuffer_WF_room (f : OsFile) (w : Nat) :
    (NewFileWithBuffer f f.bytes.length w).WF ∧
      (NewFileWithBuffer f f.bytes.length w).wbuf.length = w := by
  unfold NewFileWithBuffer FileWithBuffer.WF
  simp

/-- A write longer than the buffer, on an empty buffer, goes to the underlying file
and leaves the buffer as it was. -/
theorem Write_direct (file : FileWithBuffer) (d : List Byte) (hn : file.n = 0)
    (hd : d.length > file.wbuf.length) :
    file.Write d =
      ({ file with f := (file.f.Write d).1, size := file.size + (file.f.Write d).2.1 },
        (file.f.Write d).2.1, (file.f.Write d).2.2) := by
  obtain ⟨f, size, wbuf, n⟩ := file
  simp only at hn hd
  subst hn
  obtain ⟨hb, hle, hok, herr⟩ := OsFile_Write_cases f d
  have hd1 : wbuf.length < d.length := hd
  unfold FileWithBuffer.Write
  rw [FileWithBuffer.writeLoop]
  cases hw : f.Write d with
  | mk f1 rest =>
    cases rest with
    | mk w err =>
      rw [hw] at hok
      simp only at hok
      cases err with
      | some e => simp [hd1, hw]
      | none =>
        have hwl := hok rfl
        subst hwl
        simp [hd1, hw, FileWithBuffer.writeLoop, copySlice]

/-- A write longer than the buffer, on a buffer that holds bytes: the head of the
data fills the buffer, which is flushed, and the rest is written to the underlying
file if it is still longer than the buffer and is buffered otherwise. -/
theorem Write_through_buffer (file : FileWithBuffer) (d : List Byte) (hw : file.WF)
    (hr : file.f.room = none) (hn : file.n ≠ 0) (hd : d.length > file.wbuf.length) :
    (file.Write d).1.f.bytes =
        file.content ++ d.take (file.wbuf.length - file.n) ++
          (if (d.drop (file.wbuf.length - file.n)).length > file.wbuf.length then
            d.drop (file.wbuf.length - file.n) else []) ∧
      (file.Write d).1.n =
        (if (d.drop (file.wbuf.length - file.n)).length > file.wbuf.length then 0
         else (d.drop (file.wbuf.length - file.n)).length) ∧
      slice (file.Write d).1.wbuf 0 (file.Write d).1.n =
        (if (d.drop (file.wbuf.length - file.n)).length > file.wbuf.length then []
         else d.drop (file.wbuf.length - file.n)) := by
  obtain ⟨h1, h2⟩ := hw
  have hgt : d.length > file.wbuf.length - file.n := by omega
  have hc := copySlice_length file.wbuf file.n file.wbuf.length d (Nat.le_refl _)
  have hk : (copySlice file.wbuf file.n file.wbuf.length d).2 = file.wbuf.length - file.n := by
    rw [hc.2]; omega
  have hc1 : (copySlice file.wbuf file.n file.wbuf.length d).1 =
      file.wbuf.take file.n ++ d.take (file.wbuf.length - file.n) := by
    unfold copySlice
    have : min (file.wbuf.length - file.n) d.length = file.wbuf.length - file.n := by omega
    simp only [this]
    rw [List.drop_of_length_le (by omega)]
    simp
  unfold FileWithBuffer.Write
  rw [FileWithBuffer.writeLoop]
  simp only [hgt, hn, if_true, if_false]
  simp only [hk, hc1]
  rw [Flush_spec ⟨file.f, file.size,
    List.take file.n file.wbuf ++ List.take (file.wbuf.length - file.n) d,
    file.n + (file.wbuf.length - file.n)⟩ hr]
  simp only
  rw [writeLoop_empty 0 _ rfl rfl]
  have hlen : (file.wbuf.take file.n ++ d.take (file.wbuf.length - file.n)).length =
      file.wbuf.length := by
    simp only [List.length_append, List.length_take]
    omega
  simp only [hlen]
  have hcont : FileWithBuffer.content
      { f := file.f, size := file.size,
        wbuf := file.wbuf.take file.n ++ d.take (file.wbuf.length - file.n),
        n := file.n + (file.wbuf.length - file.n) } =
      file.content ++ d.take (file.wbuf.length - file.n) := by
    unfold FileWithBuffer.content slice
    simp only [List.drop_zero]
    rw [List.take_of_length_le (by rw [hlen]; omega)]
    simp [List.append_assoc]
  by_cases hbig : (d.drop (file.wbuf.length - file.n)).length > file.wbuf.length
  · simp only [hbig, if_true]
    simp only [hcont]
    refine ⟨by first | rfl | trivial, by simp [copySlice], ?_⟩
    simp [copySlice, slice]
  · simp only [hbig, if_false]
    simp only [hcont]
    refine ⟨by simp, ?_, ?_⟩
    · simp only [copySlice, hlen]
      simp only [List.length_drop] at hbig ⊢
      omega
    · simp only [copySlice, hlen, slice, List.take_zero, List.nil_append, Nat.sub_zero,
        Nat.zero_add, List.drop_zero]
      have hm : min file.wbuf.length (d.drop (file.wbuf.length - file.n)).length =
          (d.drop (file.wbuf.length - file.n)).length := by
        simp only [List.length_drop] at hbig ⊢
        omega
      rw [hm, List.take_length]
      rw [List.take_append_of_le_length (by simp)]
      simp

/-- C14, counterexample: with four bytes in an eight-byte buffer, a write of nine
bytes copies its first four bytes into the buffer, flushes the buffer, and leaves
its last five bytes in the buffer, which is not empty afterwards. -/
theorem C14_counterexample :
    halfFullFile.n = 4 ∧ halfFullFile.wbuf.length = 8 ∧ nineBytes.length = 9 ∧
      halfFullFile.Write nineBytes =
        ({ f := { bytes := [1, 2, 3, 4, 11, 12, 13, 14], room := none }, size := 13,
           wbuf := [15, 16, 17, 18, 19, 12, 13, 14], n := 5 }, 9, none) := by
  decide

/-- C14, amended: a write longer than the buffer capacity bypasses the buffer when
the buffer is empty: the data goes to the underlying file and the buffer is
untouched and empty afterwards.  When the buffer holds bytes (on a consistent file
whose device accepts the writes), the head of the data fills the buffer, the buffer
is flushed with it, and the rest is written directly only if it is still longer than
the buffer and stays in the buffer otherwise. -/
theorem C14_large_write (file : FileWithBuffer) (d : List Byte)
    (hd : d.length > file.wbuf.length) :
    (file.n = 0 →
        file.Write d =
          ({ file with f := (file.f.Write d).1, size := file.size + (file.f.Write d).2.1 },
            (file.f.Write d).2.1, (file.f.Write d).2.2)) ∧
      (file.n ≠ 0 → file.WF → file.f.room = none →
        (file.Write d).1.f.bytes =
            file.content ++ d.take (file.wbuf.length - file.n) ++
              (if (d.drop (file.wbuf.length - file.n)).length > file.wbuf.length then
                d.drop (file.wbuf.length - file.n) else []) ∧
          (file.Write d).1.n =
            (if (d.drop (file.wbuf.length - file.n)).length > file.wbuf.length then 0
             else (d.drop (file.wbuf.length - file.n)).length) ∧
          slice (file.Write d).1.wbuf 0 (file.Write d).1.n =
            (if (d.drop (file.wbuf.length - file.n)).length > file.wbuf.length then []
             else d.drop (file.wbuf.length - file.n))) :=
  ⟨fun hn => Write_direct file d hn hd,
   fun hn hw hr => Write_through_buffer file d hw hr hn hd⟩

/-- C14, witness: nine bytes written to a file with an empty eight-byte buffer. -/
theorem C14_large_write_witness :
    (NewFileWithBuffer { bytes := [], room := none } 0 8).Write nineBytes =
      ({ f := { bytes := nineBytes, room := none }, size := 9,
         wbuf := List.replicate 8 0, n := 0 }, 9, none) :=
  (C14_large_write (NewFileWithBuffer { bytes := [], room := none } 0 8) nineBytes
    (by decide)).1 rfl

/-- C24: a buffered append file opened on any device, after any sequence of `Write`
and `Flush` calls, failed or short ones included: the apparent size is the number of
bytes on disk plus the number `n` of buffered bytes, and `n` is at most the buffer
capacity; and a flush whose underlying write took `w` of the `n` buffered bytes
and failed returns the error and leaves the `n - w` unwritten bytes, in order, at
the front of the buffer. -/
theorem C24_apparent_size_invariant (f : OsFile) (cap : Nat) (ops : List FileOp) :
    ((NewFileWithBuffer f f.bytes.length cap).applyAll ops).1.Size =
        ((NewFileWithBuffer f f.bytes.length cap).applyAll ops).1.f.bytes.length +
          ((NewFileWithBuffer f f.bytes.length cap).applyAll ops).1.n ∧
      ((NewFileWithBuffer f f.bytes.length cap).applyAll ops).1.n ≤ cap ∧
      ((NewFileWithBuffer f f.bytes.length cap).applyAll ops).1.wbuf.length = cap ∧
      ∀ f1 w e,
        ((NewFileWithBuffer f f.bytes.length cap).applyAll ops).1.n ≠ 0 →
        ((NewFileWithBuffer f f.bytes.length cap).applyAll ops).1.f.Write
            (slice ((NewFileWithBuffer f f.bytes.length cap).applyAll ops).1.wbuf 0
              ((NewFileWithBuffer f f.bytes.length cap).applyAll ops).1.n) = (f1, w, some e) →
        ((NewFileWithBuffer f f.bytes.length cap).applyAll ops).1.Flush.2 = some e ∧
          ((NewFileWithBuffer f f.bytes.length cap).applyAll ops).1.Flush.1.f = f1 ∧
          ((NewFileWithBuffer f f.bytes.length cap).applyAll ops).1.Flush.1.n =
            ((NewFileWithBuffer f f.bytes.length cap).applyAll ops).1.n - w ∧
          slice ((NewFileWithBuffer f f.bytes.length cap).applyAll ops).1.Flush.1.wbuf 0
              (((NewFileWithBuffer f f.bytes.length cap).applyAll ops).1.n - w) =
            slice ((NewFileWithBuffer f f.bytes.length cap).applyAll ops).1.wbuf w
              ((NewFileWithBuffer f f.bytes.length cap).applyAll ops).1.n := by
  have h0 := NewFileWithBuffer_WF_room f cap
  have h := applyAll_WF ops (NewFileWithBuffer f f.bytes.length cap, []) h0.1
  unfold FileWithBuffer.applyAll
  generalize (ops.foldl FileWithBuffer.applyStep
    (NewFileWithBuffer f f.bytes.length cap, [])).1 = file at h
  simp only at h
  rw [h0.2] at h
  refine ⟨h.1.2, ?_, h.2, ?_⟩
  · rw [← h.2]
    exact h.1.1
  · intro f1 w e hn hw
    exact Flush_short file h.1 f1 w e hw hn

set_option maxRecDepth 100000 in
/-- C24, witness: four bytes written through an eight-byte buffer to a device with
room for two bytes; the flush writes two bytes, fails, and leaves the other two at
the front of the buffer. -/
theorem C24_apparent_size_invariant_witness :
    ((NewFileWithBuffer { bytes := [], room := some 2 } 0 8).applyAll
        [FileOp.write [1, 2, 3, 4]]).1.Flush =
      ({ f := { bytes := [1, 2], room := some 0 }, size := 4,
         wbuf := [3, 4, 3, 4, 0, 0, 0, 0], n := 2 }, some Error.ENOSPC) ∧
      ((NewFileWithBuffer { bytes := [], room := some 2 } 0 8).applyAll
        [FileOp.write [1, 2, 3, 4]]).1.Flush.1.n = 4 - 2 :=
  ⟨by decide,
   ((C24_apparent_size_invariant { bytes := [], room := some 2 } 8
      [FileOp.write [1, 2, 3, 4]]).2.2.2 { bytes := [1, 2], room := some 0 } 2 Error.ENOSPC
      (by decide) (by decide)).2.2.1⟩

theorem slice_slice (c : List Byte) (a b x y : Nat) (h : a + y ≤ b) :
    slice (slice c a b) x y = slice c (a + x) (a + y) := by
  unfold slice
  rw [List.take_drop, List.drop_drop, List.take_take]
  have : min (a + y) b = a + y := by omega
  rw [this]

theorem slice_append_slice (c : List Byte) (a b d : Nat) (h1 : a ≤ b) (h2 : b ≤ d) :
    slice c a b ++ slice c b d = slice c a d := by
  unfold slice
  have e1 : List.take b c = List.take b (List.take d c) := by
    rw [List.take_take, Nat.min_eq_left h2]
  have e2 : List.drop b (List.take d c) = List.drop (b - a) (List.drop a (List.take d c)) := by
    rw [List.drop_drop]
    congr 1
    omega
  have e3 : List.drop a (List.take b (List.take d c)) =
      List.take (b - a) (List.drop a (List.take d c)) := by
    rw [List.take_drop]
    congr 2
    omega
  rw [e1, e3, e2, List.take_append_drop]

theorem slice_drop (c : List Byte) (a b k : Nat) :
    (slice c a b).drop k = slice c (a + k) b := by
  unfold slice
  rw [List.drop_drop, Nat.add_comm]

theorem mmap_ReadAt_in (c : List Byte) (o m : Nat) (h : o + m ≤ c.length) :
    MmapFile.ReadAt { mmapedRegion := c } o m = (slice c o (o + m), none) := by
  unfold MmapFile.ReadAt MmapFile.Size
  have h1 : ¬ o > c.length := by omega
  have h2 : ¬ o + m > c.length := by omega
  simp only [h1, h2, if_false]

theorem mmap_ReadAt_eof (c : List Byte) (o m : Nat) (h0 : o ≤ c.length)
    (h : c.length < o + m) :
    (MmapFile.ReadAt { mmapedRegion := c } o m).2 = some Error.EOF := by
  unfold MmapFile.ReadAt MmapFile.Size
  have h1 : ¬ o > c.length := by omega
  have h2 : o + m > c.length := by omega
  simp only [h1, h2, if_false, if_true]

/-- `DataFile.ReadRecordAt` meets the contract `readRecordSpec` at every offset
within the segment. -/
theorem DataFile_ReadRecordAt_spec (c : List Byte) (fileId o : Nat) (h : o ≤ c.length) :
    DataFile.ReadRecordAt { file := { mmapedRegion := c }, fileId := fileId } o =
      readRecordSpec c o := by
  unfold DataFile.ReadRecordAt readRecordSpec DATA_ITEM_HEADER_SIZE
  simp only
  by_cases h1 : c.length < o + 24
  · have := mmap_ReadAt_eof c o 24 h h1
    cases hr : MmapFile.ReadAt { mmapedRegion := c } o 24 with
    | mk buff err =>
      rw [hr] at this
      simp only at this
      subst this
      simp [h1]
  · simp only [h1, if_false]
    rw [mmap_ReadAt_in c o 24 (by omega)]
    simp only
    generalize hks : (decodeHeader (slice c o (o + 24))).keySize = ks
    generalize hvs : (decodeHeader (slice c o (o + 24))).valueSize = vs
    by_cases h2 : c.length < o + 24 + ks
    · have := mmap_ReadAt_eof c (o + 24) ks (by omega) h2
      cases hr : MmapFile.ReadAt { mmapedRegion := c } (o + 24) ks with
      | mk key err =>
        rw [hr] at this
        simp only at this
        subst this
        have h3 : c.length < o + 24 + ks + vs := by omega
        simp [h3]
    · rw [mmap_ReadAt_in c (o + 24) ks (by omega)]
      simp only
      by_cases h3 : c.length < o + 24 + ks + vs
      · have := mmap_ReadAt_eof c (o + 24 + ks) vs (by omega) h3
        cases hr : MmapFile.ReadAt { mmapedRegion := c } (o + 24 + ks) vs with
        | mk value err =>
          rw [hr] at this
          simp only at this
          subst this
          simp [h3]
      · rw [mmap_ReadAt_in c (o + 24 + ks) vs (by omega)]
        simp only [h3, if_false]
        have hcrc : (decodeHeader (slice c o (o + 24))).crc = getLE (slice c o (o + 4)) := by
          unfold decodeHeader
          simp only
          rw [slice_slice c o (o + 24) 0 4 (by omega)]
          rfl
        have hsum : crc32Update (crc32Update (ChecksumIEEE ((slice c o (o + 24)).drop 4))
              (slice c (o + 24) (o + 24 + ks))) (slice c (o + 24 + ks) (o + 24 + ks + vs)) =
            ChecksumIEEE (slice c (o + 4) (o + 24 + ks + vs)) := by
          unfold ChecksumIEEE
          rw [crc32Update_append, crc32Update_append, slice_drop,
            slice_append_slice c (o + 24) (o + 24 + ks) (o + 24 + ks + vs) (by omega) (by omega),
            slice_append_slice c (o + 4) (o + 24) (o + 24 + ks + vs) (by omega) (by omega)]
        rw [hsum, hcrc]
        by_cases h4 : getLE (slice c o (o + 4)) = ChecksumIEEE (slice c (o + 4) (o + 24 + ks + vs))
        · simp [h4]
        · have h5 : ChecksumIEEE (slice c (o + 4) (o + 24 + ks + vs)) ≠
              getLE (slice c o (o + 4)) := fun e => h4 e.symm
          simp [h4, h5]

/-- A strict initial part of the encoding of a record reads as end-of-data. -/
theorem DataFile_ReadRecordAt_truncated (fileId : Nat) (pre t rest : List Byte) (r : Record)
    (hr : r.Valid) (ht : t ++ rest = encodeRecord r) (hne : rest ≠ []) :
    DataFile.ReadRecordAt { file := { mmapedRegion := pre ++ t }, fileId := fileId } pre.length =
      Except.error Error.EOF := by
  rw [DataFile_ReadRecordAt_spec _ _ _ (by simp)]
  unfold readRecordSpec
  have hlen : t.length + rest.length = 24 + r.key.length + r.value.length := by
    rw [← List.length_append, ht, encodeRecord_length]
  have hrest : 0 < rest.length := List.length_pos.mpr hne
  by_cases h1 : (pre ++ t).length < pre.length + 24
  · simp only [h1, if_true]
  · simp only [h1, if_false]
    rw [List.length_append] at h1
    have hslice : slice (pre ++ t) pre.length (pre.length + 24) =
        putLE 4 (recordCrc r) ++ headerTail r := by
      have ht24 : t = (putLE 4 (recordCrc r) ++ headerTail r) ++ t.drop 24 := by
        have e1 : t.take 24 = (encodeRecord r).take 24 := by
          rw [← ht, List.take_append_of_le_length (by omega)]
        have e2 : (encodeRecord r).take 24 = putLE 4 (recordCrc r) ++ headerTail r := by
          unfold encodeRecord
          rw [List.append_assoc, List.append_assoc, ← List.append_assoc (putLE 4 (recordCrc r))]
          rw [List.take_append_of_le_length (by simp [putLE_length, headerTail_length])]
          rw [List.take_of_length_le (by simp [putLE_length, headerTail_length])]
        rw [← e2, ← e1, List.take_append_drop]
      have hl : (putLE 4 (recordCrc r) ++ headerTail r).length = 24 := by
        simp [putLE_length, headerTail_length]
      rw [ht24, ← List.append_assoc, ← hl]
      exact slice_mid pre _ _
    rw [hslice, decodeHeader_header r hr]
    obtain ⟨_, _, _, hk, hv, _, _⟩ := hr
    simp only [hk, hv]
    have h2 : (pre ++ t).length < pre.length + 24 + r.key.length + r.value.length := by
      rw [List.length_append]
      omega
    simp only [h2, if_true]

/-- `ForEachRecord` on complete records followed by a strict initial part of one
more record visits the complete records and ends without error of its own. -/
theorem ForEachRecord_truncated {σ : Type} (fn : Record → Nat → Nat → σ → σ × Option Error)
    (fileId : Nat) (rs : List Record) (s : σ) (hs : ∀ r, r ∈ rs → r.Sized)
    (r : Record) (t rest : List Byte) (hr : r.Valid) (ht : t ++ rest = encodeRecord r)
    (hne : rest ≠ []) :
    DataFile.ForEachRecord { file := { mmapedRegion := encodeAll rs ++ t }, fileId := fileId }
      fn s = foldRecords fn fileId 0 rs s := by
  unfold DataFile.ForEachRecord
  simp only [MmapFile.Size]
  have hlen := encodeAll_length_ge rs
  generalize hfuel : (encodeAll rs ++ t).length + 2 = fuel
  have hfl : rs.length + 1 ≤ fuel := by
    rw [← hfuel]; simp only [List.length_append]; omega
  have := forEachLoop_encoded fn fileId rs [] t fuel s hs (by omega)
  simp only [List.nil_append, List.length_nil, Nat.zero_add] at this
  rw [this]
  cases hfold : foldRecords fn fileId 0 rs s with
  | mk s1 err =>
    cases err with
    | some e => rfl
    | none =>
      simp only
      obtain ⟨m, hm⟩ : ∃ m, fuel - rs.length = m + 1 := ⟨fuel - rs.length - 1, by omega⟩
      rw [hm, DataFile.forEachLoop]
      rw [DataFile_ReadRecordAt_truncated fileId (encodeAll rs) t rest r hr ht hne]
      simp

/-- `ForEachRecord` stops with 'data corruption' at a complete record whose stored
checksum is not the one of its bytes, after the records before it. -/
theorem ForEachRecord_bad_crc {σ : Type} (fn : Record → Nat → Nat → σ → σ × Option Error)
    (fileId : Nat) (rs : List Record) (s : σ) (hs : ∀ r, r ∈ rs → r.Sized)
    (r : Record) (c : Nat) (post : List Byte) (hr : r.Valid) (hc : c < 2 ^ 32)
    (hne : c ≠ recordCrc r) :
    DataFile.ForEachRecord
        { file := { mmapedRegion := encodeAll rs ++
            (putLE 4 c ++ headerTail r ++ r.key ++ r.value) ++ post }, fileId := fileId } fn s =
      ((foldRecords fn fileId 0 rs s).1,
        some ((foldRecords fn fileId 0 rs s).2.getD Error.ErrDataCorruption)) := by
  unfold DataFile.ForEachRecord
  simp only [MmapFile.Size]
  have hlen := encodeAll_length_ge rs
  generalize hfuel : (encodeAll rs ++
      (putLE 4 c ++ headerTail r ++ r.key ++ r.value) ++ post).length + 2 = fuel
  have hfl : rs.length + 1 ≤ fuel := by
    rw [← hfuel]; simp only [List.length_append]; omega
  have := forEachLoop_encoded fn fileId rs []
    ((putLE 4 c ++ headerTail r ++ r.key ++ r.value) ++ post) fuel s hs (by omega)
  simp only [List.nil_append, List.length_nil, Nat.zero_add, ← List.append_assoc] at this
  simp only [← List.append_assoc]
  rw [this]
  cases hfold : foldRecords fn fileId 0 rs s with
  | mk s1 err =>
    cases err with
    | some e => rfl
    | none =>
      simp only
      obtain ⟨m, hm⟩ : ∃ m, fuel - rs.length = m + 1 := ⟨fuel - rs.length - 1, by omega⟩
      rw [hm, DataFile.forEachLoop]
      have hread := DataFile_ReadRecordAt_stored fileId (encodeAll rs) post r c hc hr
      have hne1 : recordCrc r ≠ c := fun e => hne e.symm
      simp only [hne1, ne_eq, not_false_eq_true, if_true, ← List.append_assoc] at hread
      rw [hread]
      simp

/-- A segment that holds one record whose size wraps to zero is iterated without
end: every pass reads the same record. -/
theorem forEachLoop_stuck (fileId : Nat) (r : Record) (hr : r.Valid)
    (hz : toUint32 (24 + r.keySize + r.valueSize) = 0) (fuel s : Nat) :
    DataFile.forEachLoop { file := { mmapedRegion := encodeRecord r }, fileId := fileId }
      countRecord fuel 0 s = (s + fuel, some Error.hang) := by
  have hread : DataFile.ReadRecordAt
      { file := { mmapedRegion := encodeRecord r }, fileId := fileId } 0 =
      Except.ok { r with crc := recordCrc r } := by
    have := DataFile_ReadRecordAt_encoded fileId [] [] r hr
    simp only [List.nil_append, List.append_nil, List.length_nil] at this
    exact this
  induction fuel generalizing s with
  | zero => rfl
  | succ fuel ih =>
    rw [DataFile.forEachLoop, hread]
    simp only [countRecord]
    have hsz : ({ r with crc := recordCrc r } : Record).Size = 0 := hz
    rw [hsz]
    have := ih (s + 1)
    simp only [countRecord, Nat.add_zero] at this ⊢
    rw [this]
    have e : s + 1 + fuel = s + (fuel + 1) := by omega
    rw [e]

theorem hugeRecord_Valid : hugeRecord.Valid := by
  have hv : hugeRecord.value.length = 2 ^ 32 - 24 := List.length_replicate _ _
  unfold Record.Valid
  rw [hv]
  refine ⟨by decide, by decide, by decide, rfl, rfl, by decide, by norm_num⟩

theorem hugeRecord_Size : toUint32 (24 + hugeRecord.keySize + hugeRecord.valueSize) = 0 := by
  have h1 : hugeRecord.keySize = 0 := rfl
  have h2 : hugeRecord.valueSize = 2 ^ 32 - 24 := rfl
  rw [h1, h2]
  unfold toUint32
  norm_num

theorem ForEachRecord_stuck (fileId : Nat) (r : Record) (hr : r.Valid)
    (hz : toUint32 (24 + r.keySize + r.valueSize) = 0) (s : Nat) :
    DataFile.ForEachRecord { file := { mmapedRegion := encodeRecord r }, fileId := fileId }
      countRecord s = (s + ((encodeRecord r).length + 2), some Error.hang) := by
  unfold DataFile.ForEachRecord
  simp only [MmapFile.Size]
  exact forEachLoop_stuck fileId r hr hz _ s

/-- C12, counterexample: a segment that holds the one record `hugeRecord` (as
`WriteRecord` writes it: sizes equal to the lengths, `2^32` bytes in all).
`Record.Size` adds in `uint32` and gives `0`, so the iteration reads the same record
at offset `0` again and again and does not return. -/
theorem C12_counterexample :
    hugeRecord.keySize = hugeRecord.key.length ∧
      hugeRecord.valueSize = hugeRecord.value.length ∧
      (DataFile.ForEachRecord
        { file := { mmapedRegion := encodeRecord hugeRecord }, fileId := 1 }
          countRecord 0).2 = some Error.hang := by
  refine ⟨hugeRecord_Valid.2.2.2.1, hugeRecord_Valid.2.2.2.2.1, ?_⟩
  rw [ForEachRecord_stuck 1 hugeRecord hugeRecord_Valid hugeRecord_Size 0]

/-- C12, amended: for a segment that holds the encodings of records `rs`, each with
`24 + keySize + valueSize < 2^32`, `ForEachRecord(fn)` applies `fn` to the records in
order, each with the file id and its offset (`0`, then the previous offset plus
`24 + keySize + valueSize`), until `fn` fails: when the records are followed by a
strict, possibly empty, initial part of one more record, the result is that of the
calls of `fn` (no error of its own); when they are followed by a complete record
whose stored checksum is wrong, the result is 'data corruption' after the calls for
the records before it. -/
theorem C12_for_each_record {σ : Type} (fn : Record → Nat → Nat → σ → σ × Option Error)
    (fileId : Nat) (rs : List Record) (s : σ) (hs : ∀ r, r ∈ rs → r.Sized) :
    (∀ (r : Record) (t rest : List Byte), r.Valid → t ++ rest = encodeRecord r → rest ≠ [] →
        DataFile.ForEachRecord
          { file := { mmapedRegion := encodeAll rs ++ t }, fileId := fileId } fn s =
          foldRecords fn fileId 0 rs s) ∧
      (∀ (r : Record) (c : Nat) (post : List Byte), r.Valid → c < 2 ^ 32 → c ≠ recordCrc r →
        DataFile.ForEachRecord
          { file := { mmapedRegion := encodeAll rs ++
              (putLE 4 c ++ headerTail r ++ r.key ++ r.value) ++ post }, fileId := fileId } fn s =
          ((foldRecords fn fileId 0 rs s).1,
            some ((foldRecords fn fileId 0 rs s).2.getD Error.ErrDataCorruption))) :=
  ⟨fun r t rest hr ht hne => ForEachRecord_truncated fn fileId rs s hs r t rest hr ht hne,
   fun r c post hr hc hne => ForEachRecord_bad_crc fn fileId rs s hs r c post hr hc hne⟩

set_option maxRecDepth 100000 in
/-- C12, witness: the records of `a` and `b`, followed by the first ten bytes of the
tombstone of `a`, are counted as two. -/
theorem C12_for_each_record_witness :
    DataFile.ForEachRecord
        { file := { mmapedRegion :=
            encodeAll [mkRecord keyA [0x31] 0 0, mkRecord keyB [0x32] 0 0] ++
              (encodeRecord (mkRecord keyA [] 1 0)).take 10 }, fileId := 1 } countRecord 0 =
      (2, none) :=
  (C12_for_each_record countRecord 1 [mkRecord keyA [0x31] 0 0, mkRecord keyB [0x32] 0 0] 0
    (by
      intro r0 h0
      simp only [List.mem_cons, List.mem_singleton, List.not_mem_nil, or_false] at h0
      rcases h0 with h0 | h0 <;> subst h0 <;> unfold Record.Sized Record.Valid <;> decide)).1
    (mkRecord keyA [] 1 0) ((encodeRecord (mkRecord keyA [] 1 0)).take 10)
    ((encodeRecord (mkRecord keyA [] 1 0)).drop 10)
    (by unfold Record.Valid; decide) (List.take_append_drop _ _) (by decide)

/-- C11: `ReadRecordAt` on a sealed segment with bytes `c` and on an active segment
with apparent content `c` (consistent buffer) gives the same result at every offset
`o <= len(c)`: end-of-data when the header, the key or the value extends past the
end; otherwise 'data corruption' exactly when the 32-bit little-endian number at
`c[o..o+4]` differs from the CRC-32 of `c[o+4 .. o+24+keySize+valueSize]`, and the
decoded record when they are equal. -/
theorem C11_read_record_at (fileId : Nat) (af : ActiveFile) (hw : af.file.WF) (o : Nat)
    (ho : o ≤ af.file.content.length) :
    DataFile.ReadRecordAt
        { file := { mmapedRegion := af.file.content }, fileId := fileId } o =
        readRecordSpec af.file.content o ∧
      af.ReadRecordAt o = readRecordSpec af.file.content o := by
  refine ⟨DataFile_ReadRecordAt_spec _ fileId o ho, ?_⟩
  rw [ActiveFile_ReadRecordAt_eq af hw o]
  exact DataFile_ReadRecordAt_spec _ af.fileId o ho

set_option maxRecDepth 100000 in
/-- C11, witness: the record at offset 0 of an active segment that holds the record
of `a`, still in the buffer. -/
theorem C11_read_record_at_witness :
    DataFile.ReadRecordAt
        { file := { mmapedRegion :=
            ((emptyEngine wideOptions).run [Op.set keyA [0x31]]).activeFile.file.content },
          fileId := 1 } 0 =
        readRecordSpec
          ((emptyEngine wideOptions).run [Op.set keyA [0x31]]).activeFile.file.content 0 ∧
      ((emptyEngine wideOptions).run [Op.set keyA [0x31]]).activeFile.ReadRecordAt 0 =
        readRecordSpec
          ((emptyEngine wideOptions).run [Op.set keyA [0x31]]).activeFile.file.content 0 :=
  C11_read_record_at 1 ((emptyEngine wideOptions).run [Op.set keyA [0x31]]).activeFile
    (by unfold FileWithBuffer.WF; decide!) 0 (by decide!)

theorem aerase_keys_sublist {α β : Type} [DecidableEq α] (k : α) (l : List (α × β)) :
    ((aerase k l).map Prod.fst).Sublist (l.map Prod.fst) := by
  induction l with
  | nil => exact List.Sublist.refl _
  | cons p t ih =>
    obtain ⟨a, b⟩ := p
    unfold aerase
    split
    · exact List.Sublist.cons _ ih
    · exact List.Sublist.cons₂ _ ih

theorem aerase_nodup {α β : Type} [DecidableEq α] (k : α) (l : List (α × β))
    (h : (l.map Prod.fst).Nodup) : ((aerase k l).map Prod.fst).Nodup :=
  List.Nodup.sublist (aerase_keys_sublist k l) h

/-- The index after an entry that is in the list leaves the list: the entry stays,
out of the list and with one reference less, when it has outstanding references,
and is closed otherwise. -/
theorem evictEntry_lookup (c : DataFileCache) (id x : Nat) (e : CacheEntry)
    (he : alookup id c.hash = some e) :
    alookup x ((c.markOut id).unref id).hash =
      if x = id then
        (if e.refCount - 1 = 0 then none
         else some { e with inList := false, refCount := e.refCount - 1 })
      else alookup x c.hash := by
  unfold DataFileCache.markOut
  simp only [he, DataFileCache.unref, alookup_aset_eq]
  by_cases h0 : e.refCount - 1 = 0
  · simp only [h0, and_self, if_true]
    rw [alookup_aerase, alookup_aset]
    split <;> rfl
  · simp only [h0, false_and, if_false]
    rw [alookup_aset, alookup_aset]
    split <;> rfl

theorem evictEntry_keys (c : DataFileCache) (id : Nat)
    (h : (c.hash.map Prod.fst).Nodup) :
    (((c.markOut id).unref id).hash.map Prod.fst).Nodup := by
  have h1 : ((c.markOut id).hash.map Prod.fst).Nodup := by
    unfold DataFileCache.markOut
    split
    · exact h
    · exact aset_nodup _ _ _ h
  unfold DataFileCache.unref
  split
  · exact h1
  · dsimp only
    split
    · exact aerase_nodup _ _ h1
    · exact aset_nodup _ _ _ h1

/-- Taking a listed entry out of the list keeps the accounting. -/
theorem evictEntry_Counted (cache : DataFileCache) (ext : Nat → Nat) (id : Nat)
    (l1 : List Nat) (h : cache.Counted ext) (hmem : id ∈ cache.l) (hl1 : l1.Nodup)
    (hsub : ∀ x, x ∈ l1 ↔ (x ∈ cache.l ∧ x ≠ id)) :
    ((({ cache with l := l1 } : DataFileCache).markOut id).unref id).Counted ext := by
  obtain ⟨hnd, hcap, hkeys, hlist, hent, hnone⟩ := h
  obtain ⟨e, he, hin⟩ := hlist id hmem
  have hrc := (hent id e he).1
  simp only [hin, if_true] at hrc
  have hlook := fun x => evictEntry_lookup ({ cache with l := l1 } : DataFileCache) id x e he
  refine ⟨by simpa using hl1, by simpa using hcap, evictEntry_keys _ id hkeys, ?_, ?_, ?_⟩
  · intro x hx
    simp only [unref_l, markOut_l] at hx
    have hx2 := (hsub x).mp hx
    rw [hlook x]
    simp only [hx2.2, if_false]
    exact hlist x hx2.1
  · intro x e1 he1
    rw [hlook x] at he1
    simp only [unref_l, markOut_l]
    by_cases hx : x = id
    · subst hx
      simp only [if_true] at he1
      split at he1
      · simp at he1
      · next h0 =>
        simp only [Option.some.injEq] at he1
        subst he1
        simp only [Bool.false_eq_true, if_false, false_implies, true_and, forall_true_left,
          add_zero]
        constructor
        · omega
        · omega
    · simp only [hx, if_false] at he1
      obtain ⟨a, b, c⟩ := hent x e1 he1
      exact ⟨a, fun hi => (hsub x).mpr ⟨b hi, hx⟩, c⟩
  · intro x hx
    rw [hlook x] at hx
    by_cases hxi : x = id
    · subst hxi
      simp only [if_true] at hx
      split at hx
      · next h0 => omega
      · simp at hx
    · simp only [hxi, if_false] at hx
      exact hnone x hx


theorem dropLast_facts (l : List Nat) (back : Nat) (hnd : l.Nodup)
    (hback : l.getLast? = some back) :
    back ∈ l ∧ l.dropLast.Nodup ∧ (∀ x, x ∈ l.dropLast ↔ (x ∈ l ∧ x ≠ back)) ∧
      l.dropLast.length + 1 = l.length := by
  have hl : l.dropLast ++ [back] = l := List.dropLast_append_getLast? back hback
  have hnd2 : (l.dropLast ++ [back]).Nodup := by rw [hl]; exact hnd
  have hbnot : back ∉ l.dropLast := by
    intro hmem
    exact (List.nodup_append.mp hnd2).2.2 hmem (List.mem_singleton_self back)
  refine ⟨by rw [← hl]; simp, (List.nodup_append.mp hnd2).1, ?_, ?_⟩
  · intro x
    constructor
    · intro hx
      exact ⟨by rw [← hl]; exact List.mem_append_left _ hx, fun e => hbnot (e ▸ hx)⟩
    · intro hx
      have := hx.1
      rw [← hl] at this
      rcases List.mem_append.mp this with hb | hb
      · exact hb
      · exact absurd (List.mem_singleton.mp hb) hx.2
  · have := congrArg List.length hl
    simpa using this

/-- The capacity loop of `Ref` keeps the accounting, ends with the list within the
capacity, and keeps the front of the list. -/
theorem shrink_Counted (fuel : Nat) (cache : DataFileCache) (ext : Nat → Nat)
    (h : cache.Counted ext) :
    (cache.shrink fuel).Counted ext ∧
      (cache.l.length ≤ fuel → ((cache.shrink fuel).l.length : Int) ≤ cache.capacity) ∧
      (cache.shrink fuel).capacity = cache.capacity ∧
      (∀ f, cache.l.head? = some f → (cache.shrink fuel).l.head? = some f) := by
  induction fuel generalizing cache with
  | zero =>
    refine ⟨h, ?_, rfl, fun f hf => hf⟩
    intro hl
    have : cache.l.length = 0 := by omega
    simp only [DataFileCache.shrink, this]
    have := h.2.1
    simp only [Nat.cast_zero]
    omega
  | succ fuel ih =>
    rw [DataFileCache.shrink]
    split
    · next hlen =>
      split
      · next hnone =>
        refine ⟨h, ?_, rfl, fun f hf => hf⟩
        intro _
        have : cache.l = [] := List.getLast?_eq_none_iff.mp hnone
        rw [this] at hlen
        have := h.2.1
        simp at hlen
        omega
      · next back hback =>
        obtain ⟨hbm, hnd1, hsub, hlen1⟩ := dropLast_facts cache.l back h.1 hback
        have hc := evictEntry_Counted cache ext back cache.l.dropLast h hbm hnd1 hsub
        obtain ⟨g1, g2, g3, g4⟩ := ih _ hc
        simp only [unref_l, markOut_l, unref_capacity, markOut_capacity] at g2 g3 g4
        refine ⟨g1, fun hl => g2 (by omega), g3, ?_⟩
        intro f hf
        apply g4
        have hcap := h.2.1
        have hlen2 : 2 ≤ cache.l.length := by omega
        have hl : cache.l.dropLast ++ [back] = cache.l :=
          List.dropLast_append_getLast? back hback
        cases hd : cache.l.dropLast with
        | nil =>
          rw [hd] at hlen1
          simp at hlen1
          omega
        | cons a t =>
          rw [← hl, hd] at hf
          simpa using hf
    · next hlen =>
      refine ⟨h, fun _ => by omega, rfl, fun f hf => hf⟩

/-- The loop of `Close` keeps the accounting and empties the list. -/
theorem drain_Counted (fuel : Nat) (cache : DataFileCache) (ext : Nat → Nat)
    (h : cache.Counted ext) :
    (cache.drain fuel).Counted ext ∧ (cache.l.length ≤ fuel → (cache.drain fuel).l = []) ∧
      (cache.drain fuel).capacity = cache.capacity := by
  induction fuel generalizing cache with
  | zero =>
    refine ⟨h, ?_, rfl⟩
    intro hl
    exact List.length_eq_zero.mp (by simp only [DataFileCache.drain]; omega)
  | succ fuel ih =>
    rw [DataFileCache.drain]
    split
    · next hnone =>
      exact ⟨h, fun _ => List.getLast?_eq_none_iff.mp hnone, rfl⟩
    · next back hback =>
      obtain ⟨hbm, hnd1, hsub, hlen1⟩ := dropLast_facts cache.l back h.1 hback
      have hc := evictEntry_Counted cache ext back cache.l.dropLast h hbm hnd1 hsub
      obtain ⟨g1, g2, g3⟩ := ih _ hc
      simp only [unref_l, markOut_l, unref_capacity, markOut_capacity] at g2 g3
      exact ⟨g1, fun hl => g2 (by omega), g3⟩

/-- `Unref` of an outstanding reference keeps the accounting. -/
theorem Unref_Counted (cache : DataFileCache) (ext : Nat → Nat) (id : Nat)
    (h : cache.Counted ext) (hid : 1 ≤ ext id) :
    (cache.Unref id).Counted (Function.update ext id (ext id - 1)) ∧
      (cache.Unref id).l = cache.l ∧ (cache.Unref id).capacity = cache.capacity := by
  obtain ⟨hnd, hcap, hkeys, hlist, hent, hnone⟩ := h
  unfold DataFileCache.Unref
  refine ⟨?_, unref_l _ _, unref_capacity _ _⟩
  cases he : alookup id cache.hash with
  | none =>
    have := hnone id he
    omega
  | some e =>
    obtain ⟨hrc, hil, hol⟩ := hent id e he
    have hlook : ∀ x, alookup x (cache.unref id).hash =
        if x = id then
          (if e.refCount - 1 = 0 ∧ e.inList = false then none
           else some { e with refCount := e.refCount - 1 })
        else alookup x cache.hash := by
      intro x
      simp only [DataFileCache.unref, he]
      split
      · rw [alookup_aerase]
      · rw [alookup_aset]
    have hk : ((cache.unref id).hash.map Prod.fst).Nodup := by
      simp only [DataFileCache.unref, he]
      split
      · exact aerase_nodup _ _ hkeys
      · exact aset_nodup _ _ _ hkeys
    refine ⟨by simpa using hnd, by simpa using hcap, hk, ?_, ?_, ?_⟩
    · intro x hx
      simp only [unref_l] at hx
      rw [hlook x]
      by_cases hxi : x = id
      · subst hxi
        obtain ⟨e1, he1, hin1⟩ := hlist x hx
        rw [he] at he1
        simp only [Option.some.injEq] at he1
        subst he1
        simp only [if_true, hin1, Bool.true_eq_false, and_false, if_false]
        exact ⟨_, rfl, rfl⟩
      · simp only [hxi, if_false]
        exact hlist x hx
    · intro x e1 he1
      rw [hlook x] at he1
      simp only [unref_l]
      by_cases hxi : x = id
      · subst hxi
        simp only [if_true] at he1
        split at he1
        · simp at he1
        · next h0 =>
          simp only [Option.some.injEq] at he1
          subst he1
          simp only [Function.update_same]
          refine ⟨?_, hil, ?_⟩
          · rw [hrc]
            push_cast [Nat.cast_sub hid]
            ring
          · intro hf
            simp only [hf, and_true] at h0
            simp only [hf, Bool.false_eq_true, if_false, add_zero] at hrc
            have := hol hf
            omega
      · simp only [hxi, if_false] at he1
        rw [Function.update_noteq hxi]
        exact hent x e1 he1
    · intro x hx
      rw [hlook x] at hx
      by_cases hxi : x = id
      · subst hxi
        simp only [if_true] at hx
        split at hx
        · next h0 =>
          simp only [Function.update_same]
          have := h0.2
          simp only [this, Bool.false_eq_true, if_false, add_zero] at hrc
          have := h0.1
          omega
        · simp at hx
      · simp only [hxi, if_false] at hx
        rw [Function.update_noteq hxi]
        exact hnone x hx

/-- The cache with one more reference to an indexed entry, before the capacity loop
of `Ref` runs, keeps the accounting. -/
theorem refEntry_pre_Counted (cache : DataFileCache) (ext : Nat → Nat) (id : Nat)
    (entry : CacheEntry) (h : cache.Counted ext) (he : alookup id cache.hash = some entry) :
    DataFileCache.Counted
      { cache with
        hash := aset id { entry with refCount := entry.refCount + 1 } cache.hash
        l := if entry.inList = true then id :: cache.l.erase id else cache.l }
      (Function.update ext id (ext id + 1)) := by
  obtain ⟨hnd, hcap, hkeys, hlist, hent, hnone⟩ := h
  obtain ⟨hrc, hil, hol⟩ := hent id entry he
  refine ⟨?_, hcap, aset_nodup _ _ _ hkeys, ?_, ?_, ?_⟩
  · dsimp only
    split
    · exact List.nodup_cons.mpr ⟨fun hm => by
        have := (List.Nodup.mem_erase_iff hnd).mp hm
        exact this.1 rfl, hnd.erase id⟩
    · exact hnd
  · intro x hx
    dsimp only at hx ⊢
    rw [alookup_aset]
    by_cases hxi : x = id
    · subst hxi
      simp only [if_true]
      refine ⟨_, rfl, ?_⟩
      dsimp only
      by_cases hin : entry.inList = true
      · exact hin
      · simp only [hin, if_false] at hx
        obtain ⟨e1, he1, hin1⟩ := hlist x hx
        rw [he] at he1
        simp only [Option.some.injEq] at he1
        subst he1
        exact absurd hin1 hin
    · simp only [hxi, if_false]
      apply hlist
      split at hx
      · rcases List.mem_cons.mp hx with hx | hx
        · exact absurd hx hxi
        · exact List.mem_of_mem_erase hx
      · exact hx
  · intro x e1 he1
    dsimp only at he1 ⊢
    rw [alookup_aset] at he1
    by_cases hxi : x = id
    · subst hxi
      simp only [if_true, Option.some.injEq] at he1
      subst he1
      simp only [Function.update_same]
      refine ⟨?_, ?_, ?_⟩
      · rw [hrc]
        push_cast
        ring
      · intro hin
        simp only [hin, if_true]
        exact List.mem_cons_self _ _
      · intro _
        omega
    · simp only [hxi, if_false] at he1
      rw [Function.update_noteq hxi]
      obtain ⟨a, b, c⟩ := hent x e1 he1
      refine ⟨a, ?_, c⟩
      intro hin
      have hm := b hin
      split
      · exact List.mem_cons_of_mem _ ((List.Nodup.mem_erase_iff hnd).mpr ⟨hxi, hm⟩)
      · exact hm
  · intro x hx
    dsimp only at hx
    rw [alookup_aset] at hx
    by_cases hxi : x = id
    · subst hxi
      simp at hx
    · simp only [hxi, if_false] at hx
      rw [Function.update_noteq hxi]
      exact hnone x hx

/-- Counting a reference on an indexed entry keeps the accounting, with one more
outstanding reference; the list ends within the capacity, and an entry that is in
the list is at its front. -/
theorem refEntry_Counted (cache : DataFileCache) (ext : Nat → Nat) (id : Nat)
    (entry : CacheEntry) (h : cache.Counted ext) (he : alookup id cache.hash = some entry) :
    (cache.refEntry id entry).1.Counted (Function.update ext id (ext id + 1)) ∧
      (((cache.refEntry id entry).1.l.length : Int) ≤ cache.capacity) ∧
      (cache.refEntry id entry).1.capacity = cache.capacity ∧
      (cache.refEntry id entry).2 = Except.ok entry.df ∧
      (entry.inList = true → (cache.refEntry id entry).1.l.head? = some id) := by
  obtain ⟨hnd, hcap, hkeys, hlist, hent, hnone⟩ := h
  obtain ⟨hrc, hil, hol⟩ := hent id entry he
  have hc1 := refEntry_pre_Counted cache ext id entry
    ⟨hnd, hcap, hkeys, hlist, hent, hnone⟩ he
  obtain ⟨g1, g2, g3, g4⟩ := shrink_Counted
    (if entry.inList = true then id :: cache.l.erase id else cache.l).length _ _ hc1
  unfold DataFileCache.refEntry
  dsimp only at g1 g2 g3 g4 ⊢
  refine ⟨g1, g2 (Nat.le_refl _), g3, rfl, ?_⟩
  intro hin
  apply g4
  simp only [hin, if_true, List.head?_cons]

/-- The cache with a new entry for a file id that was not indexed, before the
reference of the caller is counted, keeps the accounting. -/
theorem Ref_new_Counted (cache : DataFileCache) (ext : Nat → Nat) (id : Nat) (df : DataFile)
    (h : cache.Counted ext) (he : alookup id cache.hash = none) :
    DataFileCache.Counted
      { cache with l := id :: cache.l,
                   hash := aset id { df := df, refCount := 1, inList := true } cache.hash }
      ext := by
  obtain ⟨hnd, hcap, hkeys, hlist, hent, hnone⟩ := h
  have hnotin : id ∉ cache.l := by
    intro hm
    obtain ⟨e1, he1, _⟩ := hlist id hm
    rw [he] at he1
    simp at he1
  have h0 := hnone id he
  refine ⟨List.nodup_cons.mpr ⟨hnotin, hnd⟩, hcap, aset_nodup _ _ _ hkeys, ?_, ?_, ?_⟩
  · intro x hx
    dsimp only at hx ⊢
    rw [alookup_aset]
    by_cases hxi : x = id
    · subst hxi
      simp only [if_true]
      exact ⟨_, rfl, rfl⟩
    · simp only [hxi, if_false]
      rcases List.mem_cons.mp hx with hx | hx
      · exact absurd hx hxi
      · exact hlist x hx
  · intro x e1 he1
    dsimp only at he1 ⊢
    rw [alookup_aset] at he1
    by_cases hxi : x = id
    · subst hxi
      simp only [if_true, Option.some.injEq] at he1
      subst he1
      simp only [h0, if_true, Nat.cast_zero, zero_add, true_and]
      exact ⟨fun _ => List.mem_cons_self _ _, fun hc => by simp at hc⟩
    · simp only [hxi, if_false] at he1
      obtain ⟨a, b, c⟩ := hent x e1 he1
      exact ⟨a, fun hin => List.mem_cons_of_mem _ (b hin), c⟩
  · intro x hx
    dsimp only at hx
    rw [alookup_aset] at hx
    by_cases hxi : x = id
    · subst hxi
      simp at hx
    · simp only [hxi, if_false] at hx
      exact hnone x hx

/-- `Ref` keeps the accounting: a successful call adds one outstanding reference to
the file id, a failed call changes nothing. -/
theorem Ref_Counted (cache : DataFileCache) (dir : Dir) (ext : Nat → Nat) (id : Nat)
    (h : cache.Counted ext) (hb : (cache.l.length : Int) ≤ cache.capacity) :
    (cache.Ref dir id).1.capacity = cache.capacity ∧
      (((cache.Ref dir id).1.l.length : Int) ≤ cache.capacity) ∧
      ((∃ df, (cache.Ref dir id).2 = Except.ok df ∧
          (cache.Ref dir id).1.Counted (Function.update ext id (ext id + 1)) ∧
          (alookup id cache.hash = none → (cache.Ref dir id).1.l.head? = some id)) ∨
       (∃ e, (cache.Ref dir id).2 = Except.error e ∧ (cache.Ref dir id).1 = cache)) := by
  unfold DataFileCache.Ref
  cases he : alookup id cache.hash with
  | some entry =>
    obtain ⟨g1, g2, g3, g4, g5⟩ := refEntry_Counted cache ext id entry h he
    simp only
    exact ⟨g3, g2, Or.inl ⟨_, g4, g1, fun hc => by simp at hc⟩⟩
  | none =>
    simp only
    cases hdf : NewDataFile dir id with
    | error e =>
      simp only
      exact ⟨by first | rfl | trivial, hb,
        Or.inr ⟨e, by first | rfl | trivial, by first | rfl | trivial⟩⟩
    | ok df =>
      simp only
      obtain ⟨hnd, hcap, hkeys, hlist, hent, hnone⟩ := h
      have hnotin : id ∉ cache.l := by
        intro hm
        obtain ⟨e1, he1, _⟩ := hlist id hm
        rw [he] at he1
        simp at he1
      have h0 := hnone id he
      have hc0 := Ref_new_Counted cache ext id df ⟨hnd, hcap, hkeys, hlist, hent, hnone⟩ he
      obtain ⟨g1, g2, g3, g4, g5⟩ := refEntry_Counted _ ext id
        { df := df, refCount := 1, inList := true } hc0 (alookup_aset_eq _ _ _)
      dsimp only at g2 g3
      exact ⟨g3, g2, Or.inl ⟨_, g4, g1, fun _ => g5 rfl⟩⟩

/-- `Evict` keeps the accounting. -/
theorem Evict_Counted (cache : DataFileCache) (ext : Nat → Nat) (id : Nat)
    (h : cache.Counted ext) (hb : (cache.l.length : Int) ≤ cache.capacity) :
    (cache.Evict id).Counted ext ∧ (cache.Evict id).capacity = cache.capacity ∧
      (((cache.Evict id).l.length : Int) ≤ cache.capacity) := by
  unfold DataFileCache.Evict
  cases he : alookup id cache.hash with
  | none => exact ⟨h, rfl, hb⟩
  | some entry =>
    simp only
    by_cases hin : entry.inList = true
    · simp only [hin, if_true]
      have hm := (h.2.2.2.2.1 id entry he).2.1 hin
      refine ⟨evictEntry_Counted cache ext id (cache.l.erase id) h hm (h.1.erase id) ?_, ?_, ?_⟩
      · intro x
        rw [List.Nodup.mem_erase_iff h.1]
        exact ⟨fun hx => ⟨hx.2, hx.1⟩, fun hx => ⟨hx.2, hx.1⟩⟩
      · simp only [unref_capacity, markOut_capacity]
      · simp only [unref_l, markOut_l, unref_capacity, markOut_capacity]
        have := List.length_erase_le id cache.l
        omega
    · simp only [hin]
      exact ⟨h, rfl, hb⟩

theorem Close_Counted (cache : DataFileCache) (ext : Nat → Nat) (h : cache.Counted ext) :
    cache.Close.Counted ext ∧ cache.Close.capacity = cache.capacity ∧ cache.Close.l = [] := by
  obtain ⟨g1, g2, g3⟩ := drain_Counted cache.l.length cache ext h
  exact ⟨g1, g3, g2 (Nat.le_refl _)⟩

theorem NewDataFileCache_Counted (capacity : Int) :
    (NewDataFileCache capacity).Counted (fun _ => 0) ∧
      (((NewDataFileCache capacity).l.length : Int) ≤ (NewDataFileCache capacity).capacity) ∧
      (NewDataFileCache capacity).capacity = (if capacity ≤ 0 then 512 else capacity) := by
  unfold NewDataFileCache
  have hc : (1 : Int) ≤ (if capacity ≤ 0 then defaultCacheCapacity else capacity) := by
    unfold defaultCacheCapacity
    split <;> omega
  refine ⟨⟨List.nodup_nil, hc, List.nodup_nil, ?_, ?_, ?_⟩, ?_, rfl⟩
  · intro x hx
    simp at hx
  · intro x e hx
    simp [alookup] at hx
  · intro x _
    rfl
  · simp only [List.length_nil, Nat.cast_zero]
    omega

/-- One allowed call keeps the accounting, the capacity and the bound on the list. -/
theorem cacheStep_Counted (dir : Dir) (st : DataFileCache × (Nat → Nat)) (op : CacheOp)
    (h : st.1.Counted st.2) (hb : (st.1.l.length : Int) ≤ st.1.capacity)
    (ha : op.allowed st.2) :
    (cacheStep dir st op).1.Counted (cacheStep dir st op).2 ∧
      (((cacheStep dir st op).1.l.length : Int) ≤ (cacheStep dir st op).1.capacity) ∧
      (cacheStep dir st op).1.capacity = st.1.capacity := by
  cases op with
  | ref id =>
    obtain ⟨g1, g2, g3⟩ := Ref_Counted st.1 dir st.2 id h hb
    unfold cacheStep
    rcases g3 with ⟨df, hok, hc, _⟩ | ⟨e, herr, hsame⟩
    · cases hr : st.1.Ref dir id with
      | mk c res =>
        rw [hr] at g1 g2 hok hc
        simp only at g1 g2 hok hc
        subst hok
        simp only [hr]
        exact ⟨hc, by rw [g1]; exact g2, g1⟩
    · cases hr : st.1.Ref dir id with
      | mk c res =>
        rw [hr] at g1 g2 herr hsame
        simp only at g1 g2 herr hsame
        subst herr
        subst hsame
        simp only [hr]
        exact ⟨h, hb, by first | rfl | trivial⟩
  | unref id =>
    obtain ⟨g1, g2, g3⟩ := Unref_Counted st.1 st.2 id h ha
    unfold cacheStep
    simp only
    exact ⟨g1, by rw [g2, g3]; exact hb, g3⟩
  | evict id =>
    obtain ⟨g1, g2, g3⟩ := Evict_Counted st.1 st.2 id h hb
    unfold cacheStep
    simp only
    exact ⟨g1, by rw [g2]; exact g3, g2⟩
  | close =>
    obtain ⟨g1, g2, g3⟩ := Close_Counted st.1 st.2 h
    unfold cacheStep
    simp only
    refine ⟨g1, ?_, g2⟩
    rw [g3, g2]
    have := h.2.1
    simp only [List.length_nil, Nat.cast_zero]
    omega

/-- Every sequence of allowed calls keeps the accounting. -/
theorem cacheRun_Counted (dir : Dir) (ops : List CacheOp) (st : DataFileCache × (Nat → Nat))
    (h : st.1.Counted st.2) (hb : (st.1.l.length : Int) ≤ st.1.capacity)
    (ha : cacheTraceOK dir st ops) :
    (cacheRun dir st ops).1.Counted (cacheRun dir st ops).2 ∧
      (((cacheRun dir st ops).1.l.length : Int) ≤ (cacheRun dir st ops).1.capacity) ∧
      (cacheRun dir st ops).1.capacity = st.1.capacity := by
  induction ops generalizing st with
  | nil => exact ⟨h, hb, rfl⟩
  | cons op ops ih =>
    obtain ⟨g1, g2, g3⟩ := cacheStep_Counted dir st op h hb ha.1
    obtain ⟨k1, k2, k3⟩ := ih (cacheStep dir st op) g1 g2 ha.2
    unfold cacheRun at k1 k2 k3 ⊢
    rw [List.foldl_cons]
    exact ⟨k1, k2, by rw [k3, g3]⟩

/-- The indexed entries are at most the listed ones plus those out of the list. -/
theorem Counted_size (cache : DataFileCache) (ext : Nat → Nat) (h : cache.Counted ext) :
    cache.hash.length ≤ cache.l.length + cache.outOfList := by
  obtain ⟨hnd, hcap, hkeys, hlist, hent, hnone⟩ := h
  unfold DataFileCache.outOfList
  have hsplit : ∀ l : List (Nat × CacheEntry), l.length =
      (l.filter (fun p => p.2.inList)).length + (l.filter (fun p => !p.2.inList)).length := by
    intro l
    induction l with
    | nil => rfl
    | cons p t ih =>
      simp only [List.filter_cons, List.length_cons]
      cases p.2.inList <;> simp <;> omega
  have hsplit := hsplit cache.hash
  have hsub : ((cache.hash.filter (fun p => p.2.inList)).map Prod.fst) ⊆ cache.l := by
    intro x hx
    obtain ⟨p, hp, hpx⟩ := List.mem_map.mp hx
    obtain ⟨hp1, hp2⟩ := List.mem_filter.mp hp
    obtain ⟨a, e⟩ := p
    simp only at hpx hp2
    subst hpx
    exact (hent a e (alookup_some_of_mem _ hkeys a e hp1)).2.1 hp2
  have hnd2 : ((cache.hash.filter (fun p => p.2.inList)).map Prod.fst).Nodup :=
    List.Nodup.sublist (List.Sublist.map _ (List.filter_sublist _)) hkeys
  have hle := (List.subperm_of_subset hnd2 hsub).length_le
  rw [List.length_map] at hle
  omega

/-- C16: for a cache built with capacity `C` (`512` when the requested capacity is
not positive), after every sequence of `Ref`, `Unref`, `Evict` and `Close` calls in
which each `Unref` releases an outstanding reference: the list holds at most `C`
entries, the index holds at most `C` entries plus those that are out of the list, and
each entry out of the list has an outstanding reference. -/
theorem C16_cache_capacity (dir : Dir) (capacity : Int) (ops : List CacheOp)
    (ha : cacheTraceOK dir (NewDataFileCache capacity, fun _ => 0) ops) :
    (cacheRun dir (NewDataFileCache capacity, fun _ => 0) ops).1.capacity =
        (if capacity ≤ 0 then 512 else capacity) ∧
      ((cacheRun dir (NewDataFileCache capacity, fun _ => 0) ops).1.l.length : Int) ≤
        (cacheRun dir (NewDataFileCache capacity, fun _ => 0) ops).1.capacity ∧
      ((cacheRun dir (NewDataFileCache capacity, fun _ => 0) ops).1.hash.length : Int) ≤
        (cacheRun dir (NewDataFileCache capacity, fun _ => 0) ops).1.capacity +
          (cacheRun dir (NewDataFileCache capacity, fun _ => 0) ops).1.outOfList ∧
      ∀ id e,
        alookup id (cacheRun dir (NewDataFileCache capacity, fun _ => 0) ops).1.hash = some e →
        e.inList = false →
        1 ≤ (cacheRun dir (NewDataFileCache capacity, fun _ => 0) ops).2 id := by
  obtain ⟨h0, hb0, hc0⟩ := NewDataFileCache_Counted capacity
  obtain ⟨g1, g2, g3⟩ := cacheRun_Counted dir ops (NewDataFileCache capacity, fun _ => 0) h0 hb0 ha
  have hsz := Counted_size _ _ g1
  refine ⟨by rw [g3]; exact hc0, g2, ?_, ?_⟩
  · have : ((cacheRun dir (NewDataFileCache capacity, fun _ => 0) ops).1.hash.length : Int) ≤
        ((cacheRun dir (NewDataFileCache capacity, fun _ => 0) ops).1.l.length : Int) +
          (cacheRun dir (NewDataFileCache capacity, fun _ => 0) ops).1.outOfList := by
      exact_mod_cast hsz
    omega
  · intro id e he hin
    exact (g1.2.2.2.2.1 id e he).2.2 hin

set_option maxRecDepth 1000000 in
/-- C16, witness: capacity 2 and three segments held at once; the third `Ref`
pushes segment 1 out of the list, where it stays open for its holder. -/
theorem C16_cache_capacity_witness :
    (cacheRun threeFiles (NewDataFileCache 2, fun _ => 0)
        [CacheOp.ref 1, CacheOp.ref 2, CacheOp.ref 3]).1.l = [3, 2] ∧
      ((cacheRun threeFiles (NewDataFileCache 2, fun _ => 0)
        [CacheOp.ref 1, CacheOp.ref 2, CacheOp.ref 3]).1.hash.length : Int) ≤
        (cacheRun threeFiles (NewDataFileCache 2, fun _ => 0)
          [CacheOp.ref 1, CacheOp.ref 2, CacheOp.ref 3]).1.capacity +
          (cacheRun threeFiles (NewDataFileCache 2, fun _ => 0)
            [CacheOp.ref 1, CacheOp.ref 2, CacheOp.ref 3]).1.outOfList :=
  ⟨by decide!,
   (C16_cache_capacity threeFiles 2 [CacheOp.ref 1, CacheOp.ref 2, CacheOp.ref 3]
    ⟨trivial, trivial, trivial, trivial⟩).2.2.1⟩

theorem alookup_aset_isSome {α β : Type} [DecidableEq α] (k k1 : α) (v : β)
    (l : List (α × β)) (c : β) (h : alookup k1 l = some c) :
    ∃ c1, alookup k1 (aset k v l) = some c1 := by
  rw [alookup_aset]
  split
  · exact ⟨v, rfl⟩
  · exact ⟨c, h⟩

theorem hintFold_fileId (l : List (List Byte × KDItem)) (whf : WritableHintFile) :
    (l.foldl
      (fun (whf : WritableHintFile) (kv : List Byte × KDItem) =>
        whf.Append (HintItem.Encode
          { flag := kv.2.flag, expiration := 0, keySize := toUint32 kv.1.length,
            valueSize := kv.2.valueSize, valuePos := kv.2.valuePos, key := kv.1 }))
      whf).fileId = whf.fileId := by
  induction l generalizing whf with
  | nil => rfl
  | cons a t ih =>
    rw [List.foldl_cons, ih]
    rfl

/-- `generateHintFile` writes the hint file of `fileId` and nothing else. -/
theorem generateHintFile_frame (dir : Dir) (kd : KeyDir) (fileId : Nat) (name : FileName) :
    (name ≠ FileName.hint fileId →
        alookup name (generateHintFile dir kd fileId) = alookup name dir) ∧
      (∀ c, alookup name dir = some c →
        ∃ c1, alookup name (generateHintFile dir kd fileId) = some c1) := by
  unfold generateHintFile WritableHintFile.Close
  simp only
  rw [hintFold_fileId]
  simp only [NewWritableHintFile]
  constructor
  · intro hne
    exact alookup_aset_ne _ _ _ _ hne
  · intro c hc
    exact alookup_aset_isSome _ _ _ _ c hc

/-- The files `rotateActiveFile` leaves alone, and the counters it keeps. -/
theorem rotate_frame (bc : Beecask) (name : FileName) :
    (name ≠ FileName.hint bc.activeFile.fileId → name ≠ FileName.data bc.activeFile.fileId →
        name ≠ FileName.data (bc.maxDataFileId + 1) →
        alookup name bc.rotateActiveFile.dir = alookup name bc.dir) ∧
      (∀ c, alookup name bc.dir = some c → ∃ c1, alookup name bc.rotateActiveFile.dir = some c1) ∧
      bc.rotateActiveFile.minDataFileId = bc.minDataFileId ∧
      bc.rotateActiveFile.isMerging = bc.isMerging ∧
      bc.rotateActiveFile.maxDataFileId = bc.maxDataFileId + 1 ∧
      bc.rotateActiveFile.activeFile.fileId = bc.maxDataFileId + 1 := by
  unfold Beecask.rotateActiveFile NewActiveFile ActiveFile.FileId
  simp only
  refine ⟨?_, ?_, by first | rfl | trivial, by first | rfl | trivial,
    by first | rfl | trivial, by first | rfl | trivial⟩
  · intro h1 h2 h3
    rw [alookup_aset_ne _ _ _ _ h3, alookup_aset_ne _ _ _ _ h2]
    exact (generateHintFile_frame _ _ _ name).1 h1
  · intro c hc
    obtain ⟨c1, h1⟩ := (generateHintFile_frame bc.dir bc.activeKeydir bc.activeFile.fileId
      name).2 c hc
    obtain ⟨c2, h2⟩ := alookup_aset_isSome (FileName.data bc.activeFile.fileId)
      name bc.activeFile.file.Close.f.bytes _ c1 h1
    exact alookup_aset_isSome _ _ _ _ c2 h2

theorem WriteRecord_fileId (af : ActiveFile) (r : Record) :
    (af.WriteRecord r).1.fileId = af.fileId := by
  unfold ActiveFile.WriteRecord
  split
  · rfl
  · dsimp only
    split
    · rfl
    · split
      · rfl
      · split <;> rfl

/-- The frame of `setRecord`, for an engine whose active segment has the largest
file id: the counters of the merge are kept, the active file id does not decrease
and stays the largest, files of smaller ids are untouched and no file is removed. -/
theorem setRecord_frame (bc : Beecask) (r : Record)
    (ha : bc.activeFile.fileId = bc.maxDataFileId) :
    (bc.setRecord r).1.minDataFileId = bc.minDataFileId ∧
      (bc.setRecord r).1.isMerging = bc.isMerging ∧
      (bc.setRecord r).1.activeFile.fileId = (bc.setRecord r).1.maxDataFileId ∧
      bc.activeFile.fileId ≤ (bc.setRecord r).1.activeFile.fileId ∧
      (∀ id, id < bc.activeFile.fileId →
        alookup (FileName.data id) (bc.setRecord r).1.dir = alookup (FileName.data id) bc.dir ∧
        alookup (FileName.hint id) (bc.setRecord r).1.dir = alookup (FileName.hint id) bc.dir) ∧
      (∀ name c, alookup name bc.dir = some c →
        ∃ c1, alookup name (bc.setRecord r).1.dir = some c1) := by
  have hbc1 : ∀ bc1 : Beecask, bc1 = bc.rotateActiveFile ∨ bc1 = bc →
      bc1.minDataFileId = bc.minDataFileId ∧ bc1.isMerging = bc.isMerging ∧
      bc1.activeFile.fileId = bc1.maxDataFileId ∧
      bc.activeFile.fileId ≤ bc1.activeFile.fileId ∧
      (∀ id, id < bc.activeFile.fileId →
        alookup (FileName.data id) bc1.dir = alookup (FileName.data id) bc.dir ∧
        alookup (FileName.hint id) bc1.dir = alookup (FileName.hint id) bc.dir) ∧
      (∀ name c, alookup name bc.dir = some c → ∃ c1, alookup name bc1.dir = some c1) := by
    intro bc1 h
    rcases h with h | h
    · subst h
      have hf := fun name => rotate_frame bc name
      obtain ⟨_, _, h3, h4, h5, h6⟩ := hf (FileName.data 0)
      refine ⟨h3, h4, by rw [h5, h6], by rw [h6]; omega, ?_, fun name c hc => (hf name).2.1 c hc⟩
      intro id hid
      constructor
      · exact (hf (FileName.data id)).1 (by simp) (by simp; omega) (by simp; omega)
      · exact (hf (FileName.hint id)).1 (by simp; omega) (by simp) (by simp)
    · subst h
      exact ⟨rfl, rfl, ha, Nat.le_refl _, fun id _ => ⟨rfl, rfl⟩, fun name c hc => ⟨c, hc⟩⟩
  unfold Beecask.setRecord
  dsimp only
  have hor : (if ((bc.activeFile.file.Size + r.Size : Nat) : Int) ≥ bc.options.MaxFileSize then
      bc.rotateActiveFile else bc) = bc.rotateActiveFile ∨
      (if ((bc.activeFile.file.Size + r.Size : Nat) : Int) ≥ bc.options.MaxFileSize then
      bc.rotateActiveFile else bc) = bc := by
    split
    · exact Or.inl rfl
    · exact Or.inr rfl
  generalize (if ((bc.activeFile.file.Size + r.Size : Nat) : Int) ≥ bc.options.MaxFileSize then
      bc.rotateActiveFile else bc) = bc1 at hor ⊢
  obtain ⟨h1, h2, h3, h4, h5, h6⟩ := hbc1 bc1 hor
  have hfid := WriteRecord_fileId bc1.activeFile r
  have hdir : ∀ (af : ActiveFile), af.fileId = bc1.activeFile.fileId →
      (∀ id, id < bc.activeFile.fileId →
        alookup (FileName.data id) (aset (FileName.data af.fileId) af.file.f.bytes bc1.dir) =
          alookup (FileName.data id) bc.dir ∧
        alookup (FileName.hint id) (aset (FileName.data af.fileId) af.file.f.bytes bc1.dir) =
          alookup (FileName.hint id) bc.dir) ∧
      (∀ name c, alookup name bc.dir = some c →
        ∃ c1, alookup name (aset (FileName.data af.fileId) af.file.f.bytes bc1.dir) =
          some c1) := by
    intro af haf
    constructor
    · intro id hid
      rw [alookup_aset_ne _ _ _ _ (by simp; omega), alookup_aset_ne _ _ _ _ (by simp)]
      exact h5 id hid
    · intro name c hc
      obtain ⟨c1, hc1⟩ := h6 name c hc
      exact alookup_aset_isSome _ _ _ _ c1 hc1
  cases hw : bc1.activeFile.WriteRecord r with
  | mk af res =>
    rw [hw] at hfid
    simp only at hfid
    obtain ⟨d1, d2⟩ := hdir af hfid
    cases res with
    | error e =>
      simp only
      exact ⟨h1, h2, by rw [hfid]; exact h3, by rw [hfid]; exact h4, d1, d2⟩
    | ok offset =>
      simp only
      exact ⟨h1, h2, by rw [hfid]; exact h3, by rw [hfid]; exact h4, d1, d2⟩

theorem MergeFrame_refl (stop : Nat) (bc : Beecask)
    (ha : bc.activeFile.fileId = bc.maxDataFileId) (hs : stop ≤ bc.activeFile.fileId) :
    MergeFrame stop bc bc :=
  ⟨rfl, rfl, ha, hs, fun _ _ => ⟨rfl, rfl⟩, fun _ c hc => ⟨c, hc⟩⟩

theorem MergeFrame_setRecord (stop : Nat) (bc0 bc : Beecask) (r : Record)
    (h : MergeFrame stop bc0 bc) : MergeFrame stop bc0 (bc.setRecord r).1 := by
  obtain ⟨h1, h2, h3, h4, h5, h6⟩ := h
  obtain ⟨g1, g2, g3, g4, g5, g6⟩ := setRecord_frame bc r h3
  refine ⟨by rw [g1, h1], by rw [g2, h2], g3, by omega, ?_, ?_⟩
  · intro id hid
    obtain ⟨a, b⟩ := g5 id (by omega)
    obtain ⟨c, d⟩ := h5 id hid
    exact ⟨by rw [a, c], by rw [b, d]⟩
  · intro name c hc
    obtain ⟨c1, hc1⟩ := h6 name c hc
    exact g6 name c1 hc1

theorem MergeFrame_mergeRecord (stop : Nat) (bc0 bc : Beecask) (begin : Int) (r : Record)
    (fileId offset : Nat) (h : MergeFrame stop bc0 bc) :
    MergeFrame stop bc0 (mergeRecord begin r fileId offset bc).1 := by
  unfold mergeRecord
  dsimp only
  split
  · exact h
  · split
    · split
      · exact h
      · exact MergeFrame_setRecord stop bc0 bc r h
    · exact h

theorem MergeFrame_cache (stop : Nat) (bc0 bc : Beecask) (c : DataFileCache)
    (h : MergeFrame stop bc0 bc) : MergeFrame stop bc0 { bc with dataFileCache := c } := h

/-- What one call of `mergeDataFile` does to the files: on success the data and hint
files of the segment are removed; in both cases the counters are kept, files of other
segments below the bound are untouched and no other file is removed. -/
theorem mergeDataFile_frame (stop : Nat) (bc : Beecask) (f : Nat) (begin : Int)
    (ha : bc.activeFile.fileId = bc.maxDataFileId) (hs : stop ≤ bc.activeFile.fileId)
    (hf : f < stop) :
    (bc.mergeDataFile f begin).1.minDataFileId = bc.minDataFileId ∧
      (bc.mergeDataFile f begin).1.isMerging = bc.isMerging ∧
      (bc.mergeDataFile f begin).1.activeFile.fileId =
        (bc.mergeDataFile f begin).1.maxDataFileId ∧
      stop ≤ (bc.mergeDataFile f begin).1.activeFile.fileId ∧
      (∀ id, id < stop → id ≠ f →
        alookup (FileName.data id) (bc.mergeDataFile f begin).1.dir =
          alookup (FileName.data id) bc.dir ∧
        alookup (FileName.hint id) (bc.mergeDataFile f begin).1.dir =
          alookup (FileName.hint id) bc.dir) ∧
      (∀ name c, name ≠ FileName.data f → name ≠ FileName.hint f →
        alookup name bc.dir = some c →
        ∃ c1, alookup name (bc.mergeDataFile f begin).1.dir = some c1) ∧
      ((bc.mergeDataFile f begin).2 = none →
        alookup (FileName.data f) (bc.mergeDataFile f begin).1.dir = none ∧
        alookup (FileName.hint f) (bc.mergeDataFile f begin).1.dir = none) ∧
      ((bc.mergeDataFile f begin).2 ≠ none →
        ∀ name c, alookup name bc.dir = some c →
          ∃ c1, alookup name (bc.mergeDataFile f begin).1.dir = some c1) := by
  have h0 := MergeFrame_refl stop bc ha hs
  unfold Beecask.mergeDataFile
  cases hr : bc.dataFileCache.Ref bc.dir f with
  | mk cache1 res =>
    cases res with
    | error e =>
      simp only
      obtain ⟨h1, h2, h3, h4, h5, h6⟩ := h0
      refine ⟨by trivial, by trivial, h3, h4, fun id hid _ => ⟨by trivial, by trivial⟩,
        fun name c _ _ hc => h6 name c hc,
        fun hc => by simp at hc, fun _ name c hc => h6 name c hc⟩
    | ok df =>
      simp only
      have hloop : MergeFrame stop bc
          (df.ForEachRecord (mergeRecord begin) { bc with dataFileCache := cache1 }).1 := by
        unfold DataFile.ForEachRecord
        exact DataFile_forEachLoop_inv df (mergeRecord begin) (MergeFrame stop bc)
          (fun r id o s hs => MergeFrame_mergeRecord stop bc s begin r id o hs) _ _ _
          (MergeFrame_cache stop bc bc cache1 h0)
      cases hfe : df.ForEachRecord (mergeRecord begin) { bc with dataFileCache := cache1 } with
      | mk bc2 err =>
        rw [hfe] at hloop
        obtain ⟨h1, h2, h3, h4, h5, h6⟩ := hloop
        simp only at h1 h2 h3 h4 h5 h6
        cases err with
        | some e =>
          simp only
          exact ⟨h1, h2, h3, h4, fun id hid _ => h5 id hid, fun name c _ _ hc => h6 name c hc,
            fun hc => by simp at hc, fun _ name c hc => h6 name c hc⟩
        | none =>
          simp only
          refine ⟨h1, h2, h3, h4, ?_, ?_, fun _ => ?_, fun hc => by simp at hc⟩
          · intro id hid hne
            rw [alookup_aerase_ne _ _ _ (by simp), alookup_aerase_ne _ _ _ (by simp [hne]),
              alookup_aerase_ne _ _ _ (by simp [hne]), alookup_aerase_ne _ _ _ (by simp)]
            exact h5 id hid
          · intro name c hn1 hn2 hc
            rw [alookup_aerase_ne _ _ _ hn2, alookup_aerase_ne _ _ _ hn1]
            exact h6 name c hc
          · constructor
            · rw [alookup_aerase_ne _ _ _ (by simp)]
              exact alookup_aerase_eq _ _
            · exact alookup_aerase_eq _ _

/-- The loop of `merge`, with the list of its calls of `mergeDataFile`: the calls
merge consecutive file ids from `minDataFileId`, all below the bound; an error ends
the loop; `minDataFileId` ends at the first segment that failed, or past the last
one merged; the data and hint files of the merged segments are gone, files of
smaller ids are untouched and no file of another segment is removed. -/
theorem mergeLoop_spec (clock : Nat → Int) (stop : Nat) (fuel : Nat) (bc : Beecask)
    (ha : bc.activeFile.fileId = bc.maxDataFileId) (hs : stop ≤ bc.activeFile.fileId) :
    (bc.mergeTrace clock stop fuel).map Prod.fst =
        List.range' bc.minDataFileId (bc.mergeTrace clock stop fuel).length ∧
      bc.minDataFileId + (bc.mergeTrace clock stop fuel).length ≤ max stop bc.minDataFileId ∧
      (bc.mergeLoop clock stop fuel).isMerging = bc.isMerging ∧
      bc.minDataFileId ≤ (bc.mergeLoop clock stop fuel).minDataFileId ∧
      ((∀ p, p ∈ bc.mergeTrace clock stop fuel → p.2 = none) →
        (bc.mergeLoop clock stop fuel).minDataFileId =
            bc.minDataFileId + (bc.mergeTrace clock stop fuel).length ∧
          (bc.mergeTrace clock stop fuel).length = min fuel (stop - bc.minDataFileId)) ∧
      (∀ f e, (f, some e) ∈ bc.mergeTrace clock stop fuel →
        (bc.mergeLoop clock stop fuel).minDataFileId = f) ∧
      (∀ id, bc.minDataFileId ≤ id → id < (bc.mergeLoop clock stop fuel).minDataFileId →
        alookup (FileName.data id) (bc.mergeLoop clock stop fuel).dir = none ∧
        alookup (FileName.hint id) (bc.mergeLoop clock stop fuel).dir = none) ∧
      (∀ id, id < bc.minDataFileId → id < stop →
        alookup (FileName.data id) (bc.mergeLoop clock stop fuel).dir =
          alookup (FileName.data id) bc.dir ∧
        alookup (FileName.hint id) (bc.mergeLoop clock stop fuel).dir =
          alookup (FileName.hint id) bc.dir) ∧
      (∀ name c,
        (∀ id, name = FileName.data id ∨ name = FileName.hint id →
          id < bc.minDataFileId ∨ (bc.mergeLoop clock stop fuel).minDataFileId ≤ id) →
        alookup name bc.dir = some c →
        ∃ c1, alookup name (bc.mergeLoop clock stop fuel).dir = some c1) := by
  induction fuel generalizing bc with
  | zero =>
    simp only [Beecask.mergeTrace, Beecask.mergeLoop, List.map_nil, List.length_nil,
      List.range'_zero, Nat.add_zero, List.not_mem_nil, false_implies, implies_true,
      Nat.zero_min, true_and, and_true, Nat.le_refl]
    refine ⟨by omega, ?_, ?_⟩
    · intro id h1 h2
      omega
    · intro name c _ hc
      exact ⟨c, hc⟩
  | succ fuel ih =>
    rw [Beecask.mergeTrace, Beecask.mergeLoop]
    by_cases hlt : bc.minDataFileId < stop
    · simp only [hlt, if_true]
      obtain ⟨g1, g2, g3, g4, g5, g6, g7, g8⟩ :=
        mergeDataFile_frame stop bc bc.minDataFileId (clock bc.minDataFileId) ha hs hlt
      cases hm : bc.mergeDataFile bc.minDataFileId (clock bc.minDataFileId) with
      | mk bc1 err =>
        rw [hm] at g1 g2 g3 g4 g5 g6 g7 g8
        simp only at g1 g2 g3 g4 g5 g6 g7 g8
        cases err with
        | some e =>
          simp only [List.map_cons, List.map_nil, List.length_singleton, List.range'_one,
            List.mem_singleton, true_and]
          refine ⟨by omega, g2, by omega, ?_, ?_, ?_, ?_, ?_⟩
          · intro hall
            have := hall (bc.minDataFileId, some e) rfl
            simp at this
          · intro f e1 hfe
            simp only [Prod.mk.injEq] at hfe
            rw [g1, hfe.1]
          · intro id h1 h2
            omega
          · intro id h1 h2
            exact g5 id h2 (by omega)
          · intro name c _ hc
            exact g8 (by simp) name c hc
        | none =>
          simp only
          have hbc1 : ({ bc1 with minDataFileId := bc1.minDataFileId + 1 } : Beecask).minDataFileId
              = bc.minDataFileId + 1 := by
            simp only [g1]
          obtain ⟨k1, k2, k3, k4, k5, k6, k7, k8, k9⟩ :=
            ih { bc1 with minDataFileId := bc1.minDataFileId + 1 } g3 g4
          rw [hbc1] at k1 k2 k4 k5 k7 k8 k9
          simp only at k3
          obtain ⟨d1, d2⟩ := g7 rfl
          refine ⟨?_, ?_, by rw [k3]; exact g2, by omega, ?_, ?_, ?_, ?_, ?_⟩
          · simp only [List.map_cons, List.length_cons, k1]
            rw [List.range'_succ]
          · simp only [List.length_cons]
            omega
          · intro hall
            obtain ⟨a, b⟩ := k5 (fun p hp => hall p (List.mem_cons_of_mem _ hp))
            simp only [List.length_cons]
            constructor
            · rw [a]; omega
            · rw [b]; omega
          · intro f e hfe
            rcases List.mem_cons.mp hfe with h | h
            · simp at h
            · exact k6 f e h
          · intro id h1 h2
            by_cases hid : id = bc.minDataFileId
            · subst hid
              obtain ⟨a, b⟩ := k8 bc.minDataFileId (by omega) hlt
              exact ⟨by rw [a]; exact d1, by rw [b]; exact d2⟩
            · exact k7 id (by omega) h2
          · intro id h1 h2
            obtain ⟨a, b⟩ := k8 id (by omega) h2
            obtain ⟨c, d⟩ := g5 id h2 (by omega)
            exact ⟨by rw [a, c], by rw [b, d]⟩
          · intro name c hn hc
            have hn1 : name ≠ FileName.data bc.minDataFileId := by
              intro e
              rcases hn bc.minDataFileId (Or.inl e) with h | h <;> omega
            have hn2 : name ≠ FileName.hint bc.minDataFileId := by
              intro e
              rcases hn bc.minDataFileId (Or.inr e) with h | h <;> omega
            obtain ⟨c1, hc1⟩ := g6 name c hn1 hn2 hc
            apply k9 name c1 _ hc1
            intro id hid
            rcases hn id hid with h | h
            · left; omega
            · right; exact h
    · simp only [hlt, if_false, List.map_nil, List.length_nil, List.range'_zero, Nat.add_zero,
        List.not_mem_nil, false_implies, implies_true, true_and, and_true, Nat.le_refl]
      refine ⟨by omega, by omega, ?_, ?_⟩
      · intro id h1 h2
        omega
      · intro name c _ hc
        exact ⟨c, hc⟩

/-- `Merge` with the flag clear is the loop on the engine with the flag set; the
flag is clear again afterwards. -/
theorem Merge_unfold (bc : Beecask) (clock : Nat → Int) (h0 : bc.isMerging = 0) :
    (bc.Merge clock).dir =
        (({ bc with isMerging := 1 } : Beecask).mergeLoop clock bc.activeFile.fileId
          (bc.activeFile.fileId - bc.minDataFileId)).dir ∧
      (bc.Merge clock).minDataFileId =
        (({ bc with isMerging := 1 } : Beecask).mergeLoop clock bc.activeFile.fileId
          (bc.activeFile.fileId - bc.minDataFileId)).minDataFileId ∧
      bc.MergeCalls clock =
        ({ bc with isMerging := 1 } : Beecask).mergeTrace clock bc.activeFile.fileId
          (bc.activeFile.fileId - bc.minDataFileId) := by
  unfold Beecask.Merge Beecask.merge Beecask.MergeCalls
  simp only [h0, ne_eq, not_true_eq_false, if_false]
  exact ⟨trivial, trivial, trivial⟩

/-- The minimum file id after the loop of `merge` is at most the bound, when it was
so before. -/
theorem mergeLoop_min_le (clock : Nat → Int) (stop : Nat) (fuel : Nat) (bc : Beecask)
    (ha : bc.activeFile.fileId = bc.maxDataFileId) (hs : stop ≤ bc.activeFile.fileId)
    (hm : bc.minDataFileId ≤ stop) :
    (bc.mergeLoop clock stop fuel).minDataFileId ≤ stop := by
  obtain ⟨k1, k2, _, _, k5, k6, _⟩ := mergeLoop_spec clock stop fuel bc ha hs
  by_cases hall : ∀ p, p ∈ bc.mergeTrace clock stop fuel → p.2 = none
  · rw [(k5 hall).1]
    have : max stop bc.minDataFileId = stop := by omega
    omega
  · push_neg at hall
    obtain ⟨p, hp, hne⟩ := hall
    obtain ⟨f, oe⟩ := p
    cases oe with
    | none => exact absurd rfl hne
    | some e =>
      rw [k6 f e hp]
      have hmem : f ∈ (bc.mergeTrace clock stop fuel).map Prod.fst :=
        List.mem_map.mpr ⟨(f, some e), hp, rfl⟩
      rw [k1] at hmem
      have := (List.mem_range'_1.mp hmem).2
      have : max stop bc.minDataFileId = stop := by omega
      omega

/-- C8: for an engine that is not merging, whose active segment has the largest file
id `end`, with `minDataFileId <= end`: `Merge` calls `mergeDataFile` on consecutive
file ids from `minDataFileId`, all below `end`; when every call succeeds it has
merged every id from `minDataFileId` to `end - 1`, their data and hint files are
gone and `minDataFileId = end`; when the call for segment `f` fails, `minDataFileId
= f` and the data files of `f` and of later segments are still there; and in any
case no data or hint file of segment `end` or of a later one is removed. -/
theorem C8_merge_range (bc : Beecask) (clock : Nat → Int) (h0 : bc.isMerging = 0)
    (ha : bc.activeFile.fileId = bc.maxDataFileId)
    (hm : bc.minDataFileId ≤ bc.activeFile.fileId) :
    ((bc.MergeCalls clock).map Prod.fst =
        List.range' bc.minDataFileId (bc.MergeCalls clock).length ∧
      ∀ p, p ∈ bc.MergeCalls clock → p.1 < bc.activeFile.fileId) ∧
    ((∀ p, p ∈ bc.MergeCalls clock → p.2 = none) →
      (bc.MergeCalls clock).length = bc.activeFile.fileId - bc.minDataFileId ∧
      (bc.Merge clock).minDataFileId = bc.activeFile.fileId ∧
      ∀ id, bc.minDataFileId ≤ id → id < bc.activeFile.fileId →
        alookup (FileName.data id) (bc.Merge clock).dir = none ∧
        alookup (FileName.hint id) (bc.Merge clock).dir = none) ∧
    (∀ f e, (f, some e) ∈ bc.MergeCalls clock →
      (bc.Merge clock).minDataFileId = f ∧
      ∀ id c, f ≤ id → alookup (FileName.data id) bc.dir = some c →
        ∃ c1, alookup (FileName.data id) (bc.Merge clock).dir = some c1) ∧
    (∀ id name c, bc.activeFile.fileId ≤ id →
      name = FileName.data id ∨ name = FileName.hint id →
      alookup name bc.dir = some c → ∃ c1, alookup name (bc.Merge clock).dir = some c1) := by
  obtain ⟨e1, e2, e3⟩ := Merge_unfold bc clock h0
  have hle := mergeLoop_min_le clock bc.activeFile.fileId
    (bc.activeFile.fileId - bc.minDataFileId) { bc with isMerging := 1 } ha (Nat.le_refl _) hm
  obtain ⟨k1, k2, k3, k4, k5, k6, k7, k8, k9⟩ := mergeLoop_spec clock bc.activeFile.fileId
    (bc.activeFile.fileId - bc.minDataFileId) { bc with isMerging := 1 } ha (Nat.le_refl _)
  rw [← e3] at k1 k2 k5 k6
  rw [← e2] at k4 k5 k6 k7 k9 hle
  rw [← e1] at k7 k8 k9
  simp only at k1 k2 k4 k5 k6 k7 k8 k9 hle
  have hmax : max bc.activeFile.fileId bc.minDataFileId = bc.activeFile.fileId := by omega
  rw [hmax] at k2
  refine ⟨⟨k1, ?_⟩, ?_, ?_, ?_⟩
  · intro p hp
    have hmem : p.1 ∈ (bc.MergeCalls clock).map Prod.fst := List.mem_map.mpr ⟨p, hp, rfl⟩
    rw [k1] at hmem
    have := (List.mem_range'_1.mp hmem).2
    omega
  · intro hall
    obtain ⟨a, b⟩ := k5 hall
    have hb : (bc.MergeCalls clock).length = bc.activeFile.fileId - bc.minDataFileId := by
      rw [b]; exact Nat.min_self _
    have ha2 : (bc.Merge clock).minDataFileId = bc.activeFile.fileId := by
      rw [a, hb]; omega
    refine ⟨hb, ha2, ?_⟩
    intro id h1 h2
    exact k7 id h1 (by rw [ha2]; exact h2)
  · intro f e hfe
    have hf := k6 f e hfe
    refine ⟨hf, ?_⟩
    intro id c hid hc
    apply k9 (FileName.data id) c _ hc
    intro id1 h1
    rcases h1 with h1 | h1
    · simp only [FileName.data.injEq] at h1
      subst h1
      right
      rw [hf]
      exact hid
    · simp at h1
  · intro id name c hid hname hc
    apply k9 name c _ hc
    intro id1 h1
    right
    rcases hname with h | h
    · rcases h1 with h1 | h1
      · have : id = id1 := by rw [h] at h1; exact FileName.data.inj h1
        omega
      · rw [h] at h1
        exact absurd h1 (by simp)
    · rcases h1 with h1 | h1
      · rw [h] at h1
        exact absurd h1 (by simp)
      · have : id = id1 := by rw [h] at h1; exact FileName.hint.inj h1
        omega

theorem setRecord_isMerging (bc : Beecask) (r : Record) :
    (bc.setRecord r).1.isMerging = bc.isMerging := by
  unfold Beecask.setRecord
  dsimp only
  have hor : (if ((bc.activeFile.file.Size + r.Size : Nat) : Int) ≥ bc.options.MaxFileSize then
      bc.rotateActiveFile else bc).isMerging = bc.isMerging := by
    split <;> rfl
  generalize (if ((bc.activeFile.file.Size + r.Size : Nat) : Int) ≥ bc.options.MaxFileSize then
      bc.rotateActiveFile else bc) = bc1 at hor ⊢
  cases hw : bc1.activeFile.WriteRecord r with
  | mk af res => cases res <;> exact hor

theorem mergeRecord_isMerging (begin : Int) (r : Record) (fileId offset : Nat) (bc : Beecask) :
    (mergeRecord begin r fileId offset bc).1.isMerging = bc.isMerging := by
  unfold mergeRecord
  dsimp only
  split
  · rfl
  · split
    · split
      · rfl
      · exact setRecord_isMerging bc r
    · rfl

theorem mergeDataFile_isMerging (bc : Beecask) (f : Nat) (begin : Int) :
    (bc.mergeDataFile f begin).1.isMerging = bc.isMerging := by
  unfold Beecask.mergeDataFile
  cases hr : bc.dataFileCache.Ref bc.dir f with
  | mk cache1 res =>
    cases res with
    | error e => rfl
    | ok df =>
      simp only
      have hloop : (df.ForEachRecord (mergeRecord begin)
          { bc with dataFileCache := cache1 }).1.isMerging = bc.isMerging := by
        unfold DataFile.ForEachRecord
        exact DataFile_forEachLoop_inv df (mergeRecord begin)
          (fun s => s.isMerging = bc.isMerging)
          (fun r id o s hs => (mergeRecord_isMerging begin r id o s).trans hs) _ _ _ rfl
      cases hfe : df.ForEachRecord (mergeRecord begin) { bc with dataFileCache := cache1 } with
      | mk bc2 err =>
        rw [hfe] at hloop
        cases err <;> exact hloop

set_option maxRecDepth 1000000 in
/-- C8, witness: five writes that rotate twice, then `Merge`: segments 1 and 2 are
merged, in this order. -/
theorem C8_merge_range_witness :
    (((emptyEngine demoOptions).run demoWrites).MergeCalls (fun _ => 0)).map Prod.fst =
        List.range' ((emptyEngine demoOptions).run demoWrites).minDataFileId
          (((emptyEngine demoOptions).run demoWrites).MergeCalls (fun _ => 0)).length ∧
      ((emptyEngine demoOptions).run demoWrites).MergeCalls (fun _ => 0) =
        [(1, none), (2, none)] :=
  ⟨(C8_merge_range ((emptyEngine demoOptions).run demoWrites) (fun _ => 0)
      (by decide!) (by decide!) (by decide!)).1.1, by decide!⟩


theorem encodeRecord_crc (r : Record) (c : Nat) :
    encodeRecord ({ r with crc := c } : Record) = encodeRecord r := rfl

theorem FileWithBuffer_ReadAtInt64_invalid (file : FileWithBuffer) (o : Nat) (m : Int)
    (h : o > file.size) :
    file.ReadAtInt64 o m = some ([], some Error.ErrInvalid) := by
  unfold FileWithBuffer.ReadAtInt64
  have : (o : Int) > (file.size : Int) := by exact_mod_cast h
  simp only [this, if_true]

theorem FileWithBuffer_ReadAtInt64_eq (file : FileWithBuffer) (hw : file.WF) (o m : Nat)
    (hm : (m : Int) ≤ maxAlloc) (h : o + m < 2 ^ 63) :
    file.ReadAtInt64 o m = some (file.ReadAt o m) := by
  obtain ⟨hn, hs⟩ := hw
  unfold FileWithBuffer.ReadAtInt64 FileWithBuffer.ReadAt
  by_cases h1 : o > file.size
  · have : (o : Int) > (file.size : Int) := by exact_mod_cast h1
    simp only [h1, this, if_true]
  · have h1i : ¬ (o : Int) > (file.size : Int) := by
      intro hc
      exact h1 (by exact_mod_cast hc)
    have hmk : ¬ ((m : Int) < 0 ∨ (m : Int) > maxAlloc) := by
      intro hc
      rcases hc with hc | hc <;> omega
    simp only [h1, h1i, hmk, if_false]
    have hfs : (file.size : Int) - (file.n : Int) = ((file.size - file.n : Nat) : Int) := by
      omega
    rw [hfs]
    have hwrap : wrapInt64 ((o : Int) + (m : Int)) = ((o + m : Nat) : Int) := by
      rw [wrapInt64_id _ (by omega) (by push_cast at h ⊢; exact_mod_cast h)]
      push_cast
      rfl
    rw [hwrap]
    by_cases h2 : o ≥ file.size - file.n
    · have h2i : (o : Int) ≥ ((file.size - file.n : Nat) : Int) := by exact_mod_cast h2
      have e1 : ((o : Int) - ((file.size - file.n : Nat) : Int)).toNat =
          o - (file.size - file.n) := by omega
      simp only [h2, h2i, hn, if_true, e1, Int.toNat_ofNat, Nat.cast_lt]
    · have h2i : ¬ (o : Int) ≥ ((file.size - file.n : Nat) : Int) := by
        intro hc
        exact h2 (by exact_mod_cast hc)
      simp only [h2, h2i, if_false]
      have hneg : ¬ ((o : Int) < 0) := by omega
      by_cases h3 : o + m ≤ file.size - file.n
      · have h3i : ((o + m : Nat) : Int) ≤ ((file.size - file.n : Nat) : Int) := by
          exact_mod_cast h3
        simp only [h3, h3i, hneg, if_true, if_false, Int.toNat_ofNat]
      · have h3i : ¬ ((o + m : Nat) : Int) ≤ ((file.size - file.n : Nat) : Int) := by
          intro hc
          exact h3 (by exact_mod_cast hc)
        have h4 : ¬ (((file.size - file.n : Nat) : Int) - (o : Int) > (m : Int)) := by omega
        have e2 : (((file.size - file.n : Nat) : Int) - (o : Int)).toNat =
            file.size - file.n - o := by omega
        have e3 : ((m : Int) - (((file.size - file.n : Nat) : Int) - (o : Int))).toNat =
            m - (file.size - file.n - o) := by omega
        simp only [h3, h3i, h4, hneg, if_false, e2, e3, Int.toNat_ofNat]
        cases hr : file.f.ReadAt (file.size - file.n - o) o with
        | mk d err =>
          cases err with
          | some e => rfl
          | none => simp only [hn, if_true, Nat.cast_lt]

/-- C13, counterexample: on a file of five bytes, `ReadAt(1, 2^62)` has an offset
within the file and a range that passes the end, so the claim promises the four
available bytes with end-of-data; `make([]byte, 2^62)` panics instead. -/
theorem C13_counterexample :
    fiveByteFile.WF ∧ fiveByteFile.Size = 5 ∧ fiveByteFile.ReadAtInt64 1 (2 ^ 62) = none ∧
      readSpec fiveByteFile.content 1 (2 ^ 62) = ([2, 3, 4, 5], some Error.EOF) := by
  refine ⟨by unfold FileWithBuffer.WF; decide, by decide, by decide, ?_⟩
  unfold readSpec
  have hc : fiveByteFile.content = [1, 2, 3, 4, 5] := by decide
  rw [hc]
  simp only [List.length_cons, List.length_nil]
  norm_num
  decide

/-- C13, amended: a buffered append file opened on the content `C`, with any buffer
size, after any sequence of `Write` and `Flush` calls: every call succeeded, `Size`
is the length of `C` followed by the data written, and `ReadAt(o, m)` reads that
byte string (the requested bytes; the available ones with end-of-data when the range
passes the end; 'invalid' when the offset does) for every offset beyond the end and,
within the file, for every length `m` of at most `2^48` with `o + m < 2^63`. -/
theorem C13_buffered_file_refines_bytes (C : List Byte) (cap : Nat) (ops : List FileOp) :
    ((NewFileWithBuffer { bytes := C, room := none } C.length cap).applyAll ops).2 = [] ∧
      ((NewFileWithBuffer { bytes := C, room := none } C.length cap).applyAll ops).1.Size =
        (C ++ appended ops).length ∧
      ∀ o m : Nat, (o > (C ++ appended ops).length ∨ ((m : Int) ≤ maxAlloc ∧ o + m < 2 ^ 63)) →
        ((NewFileWithBuffer { bytes := C, room := none } C.length cap).applyAll
          ops).1.ReadAtInt64 o m = some (readSpec (C ++ appended ops) o m) := by
  obtain ⟨file1, h1, h2, h3, h4⟩ := applyAll_spec ops
    (NewFileWithBuffer { bytes := C, room := none } C.length cap)
    (NewFileWithBuffer_WF C cap) rfl []
  rw [NewFileWithBuffer_content] at h2
  unfold FileWithBuffer.applyAll
  rw [h1]
  have hsz : file1.size = (C ++ appended ops).length := by
    rw [← h2]
    exact (content_length file1 h3).symm
  refine ⟨rfl, hsz, ?_⟩
  intro o m hom
  rcases hom with hbig | ⟨hm, hsum⟩
  · rw [FileWithBuffer_ReadAtInt64_invalid file1 o m (by rw [hsz]; exact hbig)]
    unfold readSpec
    simp only [hbig, if_true]
  · rw [FileWithBuffer_ReadAtInt64_eq file1 h3 o m hm hsum, ReadAt_eq_mmap file1 h3, h2]
    rw [mmap_ReadAt_readSpec]

set_option maxRecDepth 1000000 in
/-- C13, witness: a file opened on two bytes with a buffer of four, after a write of
three bytes, a flush and a write of two bytes: a read of three bytes at offset 1 spans
the disk and the buffer. -/
theorem C13_buffered_file_refines_bytes_witness :
    ((NewFileWithBuffer { bytes := [1, 2], room := none } 2 4).applyAll
        [FileOp.write [3, 4, 5], FileOp.flush, FileOp.write [6, 7]]).1.ReadAtInt64
          (4 : Nat) (3 : Nat) = some ([5, 6, 7], none) :=
  (C13_buffered_file_refines_bytes [1, 2] 4
    [FileOp.write [3, 4, 5], FileOp.flush, FileOp.write [6, 7]]).2.2 4 3
    (Or.inr ⟨by unfold maxAlloc; norm_num, by norm_num⟩)

theorem setRecord_minDataFileId (bc : Beecask) (r : Record) :
    (bc.setRecord r).1.minDataFileId = bc.minDataFileId := by
  unfold Beecask.setRecord
  dsimp only
  have hor : (if ((bc.activeFile.file.Size + r.Size : Nat) : Int) ≥ bc.options.MaxFileSize then
      bc.rotateActiveFile else bc).minDataFileId = bc.minDataFileId := by
    split <;> rfl
  generalize (if ((bc.activeFile.file.Size + r.Size : Nat) : Int) ≥ bc.options.MaxFileSize then
      bc.rotateActiveFile else bc) = bc1 at hor ⊢
  cases hw : bc1.activeFile.WriteRecord r with
  | mk af res => cases res <;> exact hor

theorem mergeRecord_minDataFileId (begin : Int) (r : Record) (fileId offset : Nat)
    (bc : Beecask) :
    (mergeRecord begin r fileId offset bc).1.minDataFileId = bc.minDataFileId := by
  unfold mergeRecord
  dsimp only
  split
  · rfl
  · split
    · split
      · rfl
      · exact setRecord_minDataFileId bc r
    · rfl

theorem mergeDataFile_minDataFileId (bc : Beecask) (f : Nat) (begin : Int) :
    (bc.mergeDataFile f begin).1.minDataFileId = bc.minDataFileId := by
  unfold Beecask.mergeDataFile
  cases hr : bc.dataFileCache.Ref bc.dir f with
  | mk cache1 res =>
    cases res with
    | error e => rfl
    | ok df =>
      simp only
      have hloop : (df.ForEachRecord (mergeRecord begin)
          { bc with dataFileCache := cache1 }).1.minDataFileId = bc.minDataFileId := by
        unfold DataFile.ForEachRecord
        exact DataFile_forEachLoop_inv df (mergeRecord begin)
          (fun s => s.minDataFileId = bc.minDataFileId)
          (fun r id o s hs => (mergeRecord_minDataFileId begin r id o s).trans hs) _ _ _ rfl
      cases hfe : df.ForEachRecord (mergeRecord begin) { bc with dataFileCache := cache1 } with
      | mk bc2 err =>
        rw [hfe] at hloop
        cases err <;> exact hloop

/-- `merge` on an engine whose flag is clear: take the flag, run the loop up to the
id of the active segment, give the flag back. -/
theorem Merge_endMerge (bc : Beecask) (clock : Nat → Int) (h0 : bc.isMerging = 0) :
    bc.Merge clock =
      (({ bc with isMerging := 1 } : Beecask).mergeLoop clock bc.activeFile.fileId
        (bc.activeFile.fileId - bc.minDataFileId)).endMerge := by
  unfold Beecask.Merge Beecask.merge Beecask.endMerge
  simp only [h0, ne_eq, not_true_eq_false, if_false]

theorem countP_set (p : MergePc → Bool) (l : List MergePc) (i : Nat) (a b : MergePc)
    (h : l.get? i = some a) :
    (l.set i b).countP p + (if p a then 1 else 0) = l.countP p + (if p b then 1 else 0) := by
  induction l generalizing i with
  | nil => simp at h
  | cons x t ih =>
    cases i with
    | zero =>
      simp only [List.get?_cons_zero, Option.some.injEq] at h
      subst h
      simp only [List.set_cons_zero, List.countP_cons]
      omega
    | succ i =>
      simp only [List.get?_cons_succ] at h
      have := ih i h
      simp only [List.set_cons_succ, List.countP_cons]
      omega

theorem get?_set_other (l : List MergePc) (i j : Nat) (b : MergePc) (h : j ≠ i) :
    (l.set i b).get? j = l.get? j := by
  induction l generalizing i j with
  | nil => rfl
  | cons x t ih =>
    cases i with
    | zero =>
      cases j with
      | zero => exact absurd rfl h
      | succ j => rfl
    | succ i =>
      cases j with
      | zero => rfl
      | succ j =>
        simp only [List.set_cons_succ, List.get?_cons_succ]
        exact ih i j (fun hc => h (by rw [hc]))

theorem get?_set_self (l : List MergePc) (i : Nat) (a b : MergePc) (h : l.get? i = some a) :
    (l.set i b).get? i = some b := by
  induction l generalizing i with
  | nil => simp at h
  | cons x t ih =>
    cases i with
    | zero => rfl
    | succ i =>
      simp only [List.get?_cons_succ] at h
      simp only [List.set_cons_succ, List.get?_cons_succ]
      exact ih i h

theorem inside_two (l : List MergePc) (i j : Nat) (a b : MergePc)
    (hi : l.get? i = some a) (hj : l.get? j = some b) (hne : i ≠ j) (ha : a.inside = true)
    (hb : b.inside = true) : 2 ≤ l.countP MergePc.inside := by
  have h1 := countP_set MergePc.inside l i a MergePc.returned hi
  have hj1 : (l.set i MergePc.returned).get? j = some b := by
    rw [get?_set_other l i j _ (Ne.symm hne)]
    exact hj
  have h2 := countP_set MergePc.inside (l.set i MergePc.returned) j b MergePc.returned hj1
  have hr : MergePc.inside MergePc.returned = false := rfl
  rw [ha, hr] at h1
  rw [hb, hr] at h2
  simp only [if_true, Bool.false_eq_true, if_false] at h1 h2
  omega

theorem get?_set_cases (l : List MergePc) (i j : Nat) (a b pc : MergePc)
    (hi : l.get? i = some a) (h : (l.set i b).get? j = some pc) :
    (j = i ∧ pc = b) ∨ (j ≠ i ∧ l.get? j = some pc) := by
  by_cases hji : j = i
  · subst hji
    left
    refine ⟨rfl, ?_⟩
    rw [get?_set_self l j a b hi] at h
    exact (Option.some.inj h).symm
  · right
    refine ⟨hji, ?_⟩
    rw [get?_set_other l i j b hji] at h
    exact h

theorem inside_one (l : List MergePc) (i : Nat) (a : MergePc) (hi : l.get? i = some a)
    (ha : a.inside = true) : 1 ≤ l.countP MergePc.inside := by
  have h1 := countP_set MergePc.inside l i a MergePc.returned hi
  have hr : MergePc.inside MergePc.returned = false := rfl
  rw [ha, hr] at h1
  simp only [if_true, Bool.false_eq_true, if_false] at h1
  omega

theorem owes_outside (clock : Nat → Int) (bc t : Beecask) (pc : MergePc)
    (h : pc.inside = false) : pc.owes clock bc t := by
  cases pc <;> trivial

theorem mergeLoop_succ_err (clock : Nat → Int) (stop fuel : Nat) (bc bc1 : Beecask)
    (e : Error) (h : bc.minDataFileId < stop)
    (hm : bc.mergeDataFile bc.minDataFileId (clock bc.minDataFileId) = (bc1, some e)) :
    bc.mergeLoop clock stop (fuel + 1) = bc1 := by
  rw [Beecask.mergeLoop]
  simp only [h, if_true, hm]

theorem mergeLoop_succ_ok (clock : Nat → Int) (stop fuel : Nat) (bc bc1 : Beecask)
    (h : bc.minDataFileId < stop)
    (hm : bc.mergeDataFile bc.minDataFileId (clock bc.minDataFileId) = (bc1, none)) :
    bc.mergeLoop clock stop (fuel + 1) =
      Beecask.mergeLoop clock stop fuel { bc1 with minDataFileId := bc1.minDataFileId + 1 } := by
  rw [Beecask.mergeLoop]
  simp only [h, if_true, hm]

theorem mergeLoop_done (clock : Nat → Int) (stop fuel : Nat) (bc : Beecask)
    (h : ¬ bc.minDataFileId < stop) : bc.mergeLoop clock stop fuel = bc := by
  cases fuel with
  | zero => rfl
  | succ fuel =>
    rw [Beecask.mergeLoop]
    simp only [h, if_false]

/-- A step of a caller of `merge` keeps the invariant of the callers. -/
theorem MergeGuard_step_Inv (clock : Nat → Int) (bc0 : Beecask) (g : MergeGuard) (i : Nat)
    (h : g.Inv clock bc0) : (g.step clock i).Inv clock bc0 := by
  obtain ⟨hflag, hone, hidle, howes⟩ := h
  -- the other callers are outside when caller `i` is inside or nobody is
  have hothers : ∀ (l1 : List MergePc) (b : MergePc) (a : MergePc),
      g.callers.get? i = some a → (a.inside = true ∨ g.active = 0) →
      ∀ (bc1 t : Beecask) j pc, (g.callers.set i b).get? j = some pc → j ≠ i →
        pc.owes clock bc1 t := by
    intro _ b a hga hcase bc1 t j pc hj hji
    rw [get?_set_other _ _ _ _ hji] at hj
    apply owes_outside
    cases hin : pc.inside with
    | false => rfl
    | true =>
      exfalso
      rcases hcase with ha | h0
      · have := inside_two g.callers i j a pc hga hj (Ne.symm hji) ha hin
        unfold MergeGuard.active at hone
        omega
      · have := inside_one g.callers j pc hj hin
        unfold MergeGuard.active at h0
        omega
  unfold MergeGuard.step
  cases hg : g.callers.get? i with
  | none => exact ⟨hflag, hone, hidle, howes⟩
  | some pc0 =>
    cases pc0 with
    | calling =>
      simp only
      by_cases h0 : g.bc.isMerging = 0
      · simp only [h0, if_true]
        have hact : g.active = 0 := by rw [hflag, h0]
        have hc := countP_set MergePc.inside g.callers i MergePc.calling MergePc.entered hg
        have e1 : MergePc.inside MergePc.calling = false := rfl
        have e2 : MergePc.inside MergePc.entered = true := rfl
        rw [e1, e2] at hc
        simp only [Bool.false_eq_true, if_false, if_true] at hc
        unfold MergeGuard.active at hact
        refine ⟨?_, ?_, ?_, ?_⟩
        · simp only [MergeGuard.active]
          omega
        · simp only [MergeGuard.active]
          omega
        · intro hz
          simp only [MergeGuard.active] at hz
          omega
        · intro j pc hj
          by_cases hji : j = i
          · subst hji
            rw [get?_set_self _ _ _ _ hg] at hj
            have : pc = MergePc.entered := (Option.some.inj hj).symm
            subst this
            simp only [MergePc.owes]
            rw [Function.iterate_succ_apply', ← hidle (by unfold MergeGuard.active; exact hact)]
            exact (Merge_endMerge g.bc clock h0).symm
          · exact hothers [] _ _ hg (Or.inr (by unfold MergeGuard.active; exact hact)) _ _ j pc
              hj hji
      · simp only [h0, if_false]
        have hc := countP_set MergePc.inside g.callers i MergePc.calling MergePc.returned hg
        have e1 : MergePc.inside MergePc.calling = false := rfl
        have e2 : MergePc.inside MergePc.returned = false := rfl
        rw [e1, e2] at hc
        simp only [Bool.false_eq_true, if_false] at hc
        have hact : (g.callers.set i MergePc.returned).countP MergePc.inside = g.active := by
          unfold MergeGuard.active
          omega
        refine ⟨?_, ?_, ?_, ?_⟩
        · simp only [MergeGuard.active]
          rw [hact]
          exact hflag
        · simp only [MergeGuard.active]
          rw [hact]
          exact hone
        · intro hz
          simp only [MergeGuard.active] at hz
          rw [hact] at hz
          exact hidle hz
        · intro j pc hj
          rcases get?_set_cases _ _ _ _ _ _ hg hj with ⟨_, hpc⟩ | ⟨_, hold⟩
          · subst hpc
            trivial
          · exact howes j pc hold
    | entered =>
      simp only
      have hc := countP_set MergePc.inside g.callers i MergePc.entered
        (MergePc.merging g.bc.activeFile.fileId) hg
      have e1 : MergePc.inside MergePc.entered = true := rfl
      have e2 : MergePc.inside (MergePc.merging g.bc.activeFile.fileId) = true := rfl
      rw [e1, e2] at hc
      simp only [if_true] at hc
      have hact : (g.callers.set i (MergePc.merging g.bc.activeFile.fileId)).countP
          MergePc.inside = g.active := by
        unfold MergeGuard.active
        omega
      refine ⟨?_, ?_, ?_, ?_⟩
      · simp only [MergeGuard.active]
        rw [hact]
        exact hflag
      · simp only [MergeGuard.active]
        rw [hact]
        exact hone
      · intro hz
        simp only [MergeGuard.active] at hz
        rw [hact] at hz
        exact hidle hz
      · intro j pc hj
        rcases get?_set_cases _ _ _ _ _ _ hg hj with ⟨_, hpc⟩ | ⟨_, hold⟩
        · subst hpc
          exact howes i MergePc.entered hg
        · exact howes j pc hold
    | merging stop =>
      simp only
      have hin : 1 ≤ g.active := inside_one g.callers i _ hg rfl
      have howe := howes i _ hg
      simp only [MergePc.owes] at howe
      have hc := countP_set MergePc.inside g.callers i (MergePc.merging stop)
        MergePc.leaving hg
      have e1 : MergePc.inside (MergePc.merging stop) = true := rfl
      have e2 : MergePc.inside MergePc.leaving = true := rfl
      rw [e1, e2] at hc
      simp only [if_true] at hc
      have hact : (g.callers.set i MergePc.leaving).countP MergePc.inside = g.active := by
        unfold MergeGuard.active
        omega
      by_cases hlt : g.bc.minDataFileId < stop
      · simp only [hlt, if_true]
        have hfuel : stop - g.bc.minDataFileId = (stop - g.bc.minDataFileId - 1) + 1 := by omega
        rw [hfuel] at howe
        have hmin := mergeDataFile_minDataFileId g.bc g.bc.minDataFileId
          (clock g.bc.minDataFileId)
        have hfl := mergeDataFile_isMerging g.bc g.bc.minDataFileId (clock g.bc.minDataFileId)
        cases hm : g.bc.mergeDataFile g.bc.minDataFileId (clock g.bc.minDataFileId) with
        | mk bc1 err =>
          rw [hm] at hmin hfl
          simp only at hmin hfl
          cases err with
          | some e =>
            rw [mergeLoop_succ_err clock stop _ g.bc bc1 e hlt hm] at howe
            simp only
            refine ⟨?_, ?_, ?_, ?_⟩
            · simp only [MergeGuard.active]
              rw [hact, hfl]
              exact hflag
            · simp only [MergeGuard.active]
              rw [hact]
              exact hone
            · intro hz
              simp only [MergeGuard.active] at hz
              omega
            · intro j pc hj
              by_cases hji : j = i
              · subst hji
                rw [get?_set_self _ _ _ _ hg] at hj
                have : pc = MergePc.leaving := (Option.some.inj hj).symm
                subst this
                exact howe
              · exact hothers [] _ _ hg (Or.inl rfl) _ _ j pc hj hji
          | none =>
            rw [mergeLoop_succ_ok clock stop _ g.bc bc1 hlt hm] at howe
            simp only
            refine ⟨?_, hone, ?_, ?_⟩
            · simp only [MergeGuard.active] at hflag ⊢
              rw [hfl]
              exact hflag
            · intro hz
              simp only [MergeGuard.active] at hz hin
              omega
            · intro j pc hj
              by_cases hji : j = i
              · subst hji
                rw [hg] at hj
                have : pc = MergePc.merging stop := (Option.some.inj hj).symm
                subst this
                simp only [MergePc.owes]
                have e : stop - (bc1.minDataFileId + 1) = stop - g.bc.minDataFileId - 1 := by
                  rw [hmin]
                  omega
                rw [e]
                exact howe
              · apply owes_outside
                cases hpin : pc.inside with
                | false => rfl
                | true =>
                  exfalso
                  have := inside_two g.callers i j _ pc hg hj (Ne.symm hji) rfl hpin
                  unfold MergeGuard.active at hone
                  omega
      · simp only [hlt, if_false]
        rw [mergeLoop_done clock stop _ g.bc hlt] at howe
        refine ⟨?_, ?_, ?_, ?_⟩
        · simp only [MergeGuard.active]
          rw [hact]
          exact hflag
        · simp only [MergeGuard.active]
          rw [hact]
          exact hone
        · intro hz
          simp only [MergeGuard.active] at hz
          omega
        · intro j pc hj
          by_cases hji : j = i
          · subst hji
            rw [get?_set_self _ _ _ _ hg] at hj
            have : pc = MergePc.leaving := (Option.some.inj hj).symm
            subst this
            exact howe
          · exact hothers [] _ _ hg (Or.inl rfl) _ _ j pc hj hji
    | leaving =>
      simp only
      have hin : 1 ≤ g.active := inside_one g.callers i _ hg rfl
      have howe := howes i _ hg
      simp only [MergePc.owes] at howe
      have hc := countP_set MergePc.inside g.callers i MergePc.leaving MergePc.returned hg
      have e1 : MergePc.inside MergePc.leaving = true := rfl
      have e2 : MergePc.inside MergePc.returned = false := rfl
      rw [e1, e2] at hc
      simp only [if_true, Bool.false_eq_true, if_false] at hc
      have hact : (g.callers.set i MergePc.returned).countP MergePc.inside = 0 := by
        unfold MergeGuard.active at hin hone
        omega
      have hf1 : g.bc.isMerging = 1 := by omega
      refine ⟨?_, ?_, ?_, ?_⟩
      · simp only [MergeGuard.active, Beecask.endMerge]
        rw [hact, hf1]
        rfl
      · simp only [MergeGuard.active]
        omega
      · intro _
        exact howe
      · intro j pc hj
        by_cases hji : j = i
        · subst hji
          rw [get?_set_self _ _ _ _ hg] at hj
          have : pc = MergePc.returned := (Option.some.inj hj).symm
          subst this
          trivial
        · exact hothers [] _ _ hg (Or.inl rfl) _ _ j pc hj hji
    | returned => exact ⟨hflag, hone, hidle, howes⟩

theorem MergeGuard_run_Inv (clock : Nat → Int) (bc0 : Beecask) (schedule : List Nat)
    (g : MergeGuard) (h : g.Inv clock bc0) : (g.run clock schedule).Inv clock bc0 := by
  induction schedule generalizing g with
  | nil => exact h
  | cons i t ih =>
    unfold MergeGuard.run
    rw [List.foldl_cons]
    exact ih (g.step clock i) (MergeGuard_step_Inv clock bc0 g i h)

theorem replicate_get? (n j : Nat) (a pc : MergePc)
    (h : (List.replicate n a).get? j = some pc) : pc = a := by
  induction n generalizing j with
  | zero => simp at h
  | succ n ih =>
    cases j with
    | zero =>
      simp only [List.replicate_succ, List.get?_cons_zero, Option.some.injEq] at h
      exact h.symm
    | succ j =>
      simp only [List.replicate_succ, List.get?_cons_succ] at h
      exact ih j h

theorem MergeGuard_init_Inv (clock : Nat → Int) (bc : Beecask) (h0 : bc.isMerging = 0)
    (n : Nat) :
    MergeGuard.Inv clock bc
      { bc := bc, callers := List.replicate n MergePc.calling, merges := 0 } := by
  have hz : (List.replicate n MergePc.calling).countP MergePc.inside = 0 := by
    rw [List.countP_eq_zero]
    intro a ha
    rw [List.eq_of_mem_replicate ha]
    decide
  refine ⟨?_, ?_, ?_, ?_⟩
  · simp only [MergeGuard.active]
    rw [hz, h0]
  · simp only [MergeGuard.active]
    omega
  · intro _
    rfl
  · intro j pc hj
    have := replicate_get? n j _ pc hj
    subst this
    trivial

/-- C18: any number of callers of `merge` on an engine whose flag is clear, their
steps (the compare-and-swap on entry, the read of `end`, each call of `mergeDataFile`,
the deferred swap) interleaved by any schedule.  At every moment at most one caller is
inside the merge, and exactly when the flag is set; when none is inside, the engine is
the one that as many sequential `Merge` calls as have returned produce; a caller that
arrives while the flag is set returns in one step, which changes nothing of the
engine and counts as no merge, as `Merge` does on that engine, without a call of
`mergeDataFile`; and the step in which the running merge returns clears the flag and
leaves the engine of one more sequential `Merge`. -/
theorem C18_merge_single_flight (bc : Beecask) (clock : Nat → Int) (h0 : bc.isMerging = 0)
    (n : Nat) (schedule : List Nat) (g : MergeGuard)
    (hg : g = MergeGuard.run clock
      { bc := bc, callers := List.replicate n MergePc.calling, merges := 0 } schedule) :
    g.active ≤ 1 ∧ g.active = g.bc.isMerging ∧
      (g.active = 0 → g.bc = (fun b : Beecask => b.Merge clock)^[g.merges] bc) ∧
      (∀ i, g.callers.get? i = some MergePc.calling → g.bc.isMerging ≠ 0 →
        (g.step clock i).bc = g.bc ∧ (g.step clock i).merges = g.merges ∧
        (g.step clock i).callers = g.callers.set i MergePc.returned ∧
        g.bc.Merge clock = g.bc ∧ g.bc.MergeCalls clock = []) ∧
      (∀ i, g.callers.get? i = some MergePc.leaving →
        (g.step clock i).bc.isMerging = 0 ∧ (g.step clock i).active = 0 ∧
        (g.step clock i).bc = (fun b : Beecask => b.Merge clock)^[g.merges + 1] bc) := by
  have hinv := MergeGuard_run_Inv clock bc schedule _ (MergeGuard_init_Inv clock bc h0 n)
  rw [← hg] at hinv
  have hstep := fun i => MergeGuard_step_Inv clock bc g i hinv
  obtain ⟨hflag, hone, hidle, howes⟩ := hinv
  refine ⟨hone, hflag, hidle, ?_, ?_⟩
  · intro i hi hbusy
    refine ⟨?_, ?_, ?_, ?_, ?_⟩
    · unfold MergeGuard.step
      simp only [hi, hbusy, if_false]
    · unfold MergeGuard.step
      simp only [hi, hbusy, if_false]
    · unfold MergeGuard.step
      simp only [hi, hbusy, if_false]
    · unfold Beecask.Merge Beecask.merge
      simp only [hbusy, ne_eq, not_false_eq_true, if_true]
    · unfold Beecask.MergeCalls
      simp only [hbusy, ne_eq, not_false_eq_true, if_true]
  · intro i hi
    obtain ⟨k1, k2, k3, _⟩ := hstep i
    have hm : (g.step clock i).merges = g.merges + 1 := by
      unfold MergeGuard.step
      simp only [hi]
    have hb : (g.step clock i).bc = g.bc.endMerge := by
      unfold MergeGuard.step
      simp only [hi]
    have hin : 1 ≤ g.active := inside_one g.callers i _ hi rfl
    have hf : (g.step clock i).bc.isMerging = 0 := by
      rw [hb]
      unfold Beecask.endMerge
      have : g.bc.isMerging = 1 := by omega
      simp only [this, if_true]
    have ha : (g.step clock i).active = 0 := by rw [k1, hf]
    refine ⟨hf, ha, ?_⟩
    rw [← hm]
    exact k3 ha

set_option maxRecDepth 1000000 in
/-- C18, witness: two callers on the engine with two sealed segments.  Caller 0 takes
the flag, caller 1 arrives and returns at once, caller 0 merges segments 1 and 2 and
returns: one merge has run, and the engine is the one of a single `Merge`. -/
theorem C18_merge_single_flight_witness :
    (MergeGuard.run (fun _ => 0)
        { bc := (emptyEngine demoOptions).run demoWrites,
          callers := List.replicate 2 MergePc.calling, merges := 0 }
        [0, 1, 0, 0, 0, 0, 0]).callers = [MergePc.returned, MergePc.returned] ∧
      (MergeGuard.run (fun _ => 0)
        { bc := (emptyEngine demoOptions).run demoWrites,
          callers := List.replicate 2 MergePc.calling, merges := 0 }
        [0, 1, 0, 0, 0, 0, 0]).merges = 1 ∧
      (MergeGuard.run (fun _ => 0)
        { bc := (emptyEngine demoOptions).run demoWrites,
          callers := List.replicate 2 MergePc.calling, merges := 0 }
        [0, 1, 0, 0, 0, 0, 0]).bc =
        (fun b : Beecask => b.Merge (fun _ => 0))^[(MergeGuard.run (fun _ => 0)
          { bc := (emptyEngine demoOptions).run demoWrites,
            callers := List.replicate 2 MergePc.calling, merges := 0 }
          [0, 1, 0, 0, 0, 0, 0]).merges] ((emptyEngine demoOptions).run demoWrites) ∧
      (busyEngine.Merge (fun _ => 0) = busyEngine ∧
        ((emptyEngine demoOptions).run demoWrites).MergeCalls (fun _ => 0) =
          [(1, none), (2, none)]) :=
  ⟨by decide!, by decide!,
    (C18_merge_single_flight ((emptyEngine demoOptions).run demoWrites) (fun _ => 0)
      (by decide!) 2 [0, 1, 0, 0, 0, 0, 0] _ rfl).2.2.1 (by decide!),
    by decide!, by decide!⟩

/-- Reading a record whose stored value differs in one byte from the value its
checksum was computed for gives 'data corruption'. -/
theorem DataFile_ReadRecordAt_corrupted (fileId : Nat) (pre post : List Byte) (r : Record)
    (va vb : List Byte) (b b1 : Byte) (hr : r.Valid) (hval : r.value = va ++ b :: vb)
    (hb : b ≠ b1) :
    DataFile.ReadRecordAt
        { file := { mmapedRegion := pre ++
            (putLE 4 (recordCrc r) ++ headerTail r ++ r.key ++ (va ++ b1 :: vb)) ++ post },
          fileId := fileId } pre.length = Except.error Error.ErrDataCorruption := by
  obtain ⟨hf, he1, he2, hk, hvs, hkl, hvl⟩ := hr
  have hlenv : (va ++ b1 :: vb).length = r.value.length := by
    rw [hval]; simp
  have hr1 : Record.Valid { r with value := va ++ b1 :: vb } :=
    ⟨hf, he1, he2, hk, by simp only [hlenv]; exact hvs, hkl, by simp only [hlenv]; exact hvl⟩
  have hread := DataFile_ReadRecordAt_stored fileId pre post
    { r with value := va ++ b1 :: vb } (recordCrc r) (recordCrc_lt r) hr1
  have hne : recordCrc { r with value := va ++ b1 :: vb } ≠ recordCrc r := by
    intro e
    unfold recordCrc at e
    simp only [hval] at e
    have hx : crc32Update (ChecksumIEEE (headerTail r)) r.key < 2 ^ 32 :=
      crc32Update_lt _ _ (ChecksumIEEE_lt _)
    have ht : headerTail { r with value := va ++ b1 :: vb } = headerTail r := rfl
    rw [ht] at e
    exact hb (crc32Update_byte _ hx va vb b b1 e.symm)
  simp only [hne, ne_eq, not_false_eq_true, if_true] at hread
  have ht : headerTail { r with value := va ++ b1 :: vb } = headerTail r := rfl
  simp only [ht] at hread
  exact hread

/-- `Get` of a key whose directory entry is not a tombstone returns the error of the
read at the entry's offset in the entry's segment. -/
theorem Get_read_error (bc : Beecask) (k : List Byte) (now : Int) (e : KDItem) (hi : bc.Inv)
    (hg : bc.keydir.Get k = some e) (hf : e.flag &&& RECORD_FLAG_BIT_DELETE = 0)
    (c : List Byte) (err : Error) (hs : bc.segment e.fileId = some c)
    (hread : ∀ fileId, DataFile.ReadRecordAt { file := { mmapedRegion := c }, fileId := fileId }
      e.valuePos = Except.error err) :
    (bc.Get k now).2 = Except.error err := by
  obtain ⟨hw, hroom, hid, hm, hab, hc, hkd⟩ := hi
  unfold Beecask.Get
  simp only [hg]
  have hf0 : ¬ (e.flag &&& RECORD_FLAG_BIT_DELETE > 0) := by omega
  simp only [hf0, if_false]
  by_cases ha : e.fileId = bc.activeFile.fileId
  · simp only [ha, if_true]
    unfold Beecask.segment at hs
    simp only [ha, if_true, Option.some.injEq] at hs
    rw [ActiveFile_ReadRecordAt_eq _ hw, hs, hread]
    rfl
  · simp only [ha, if_false]
    unfold Beecask.segment at hs
    simp only [ha, if_false] at hs
    have hlt : e.fileId < bc.maxDataFileId := by
      have := hkd k e hg
      rw [hid] at ha
      omega
    obtain ⟨df, hdf⟩ := Ref_ok bc.dataFileCache bc.dir e.fileId _ hs
    obtain ⟨_, h2⟩ := CacheOK_Ref bc.dir bc.maxDataFileId bc.dataFileCache e.fileId hc hlt
    obtain ⟨hfid, hco⟩ := h2 df hdf
    have hreg := hco _ hs
    have hdfeq : df = { file := { mmapedRegion := c }, fileId := e.fileId } := by
      cases df with
      | mk file fileId =>
        cases file with
        | mk region =>
          simp only at hfid hreg
          subst hfid; subst hreg
          rfl
    split
    · next cache1 err heq => rw [heq] at hdf; simp at hdf
    · next cache1 df1 heq =>
      rw [heq] at hdf
      simp only [Except.ok.injEq] at hdf
      subst hdf
      simp only
      rw [hdfeq, hread]
      rfl

/-- The engine `NewBeecask` returns reads every data file of the directory as it is
on disk. -/
theorem NewBeecask_segment (opts : Options) (dir : Dir) (bc : Beecask)
    (h : NewBeecask opts dir = Except.ok bc) (id : Nat) (c : List Byte)
    (hc : alookup (FileName.data id) dir = some c) : bc.segment id = some c := by
  unfold NewBeecask at h
  dsimp only at h
  have hg0 : Recovery.Good dir
      { dir := dir, minDataFileId := 0, maxDataFileId := 0, keydir := NewKeyDir,
        dataFileCache := NewDataFileCache opts.MaxOpenFiles } :=
    ⟨rfl, NewDataFileCache_Idle _, fun id e he => by simp [NewDataFileCache, alookup] at he,
      fun k e he => by simp [KeyDir.Get, NewKeyDir, alookup] at he⟩
  cases hs : Recovery.scanLoop (ReadDir dir)
      { dir := dir, minDataFileId := 0, maxDataFileId := 0, keydir := NewKeyDir,
        dataFileCache := NewDataFileCache opts.MaxOpenFiles } with
  | mk bc1 err =>
    rw [hs] at h
    cases err with
    | some e => simp at h
    | none =>
      simp only [Except.ok.injEq] at h
      obtain ⟨⟨gd, gi, ga, gk⟩, _, gmax⟩ := scanLoop_Good dir (ReadDir dir) _ hg0
        (fun n hn => hn) (by rw [hs])
      rw [hs] at gd
      simp only at gd
      generalize hb2 : (if bc1.maxDataFileId = 0 then
          ({ bc1 with minDataFileId := bc1.minDataFileId + 1,
                      maxDataFileId := bc1.maxDataFileId + 1 } : Recovery) else bc1) = bc2 at h
      have d2 : bc2.dir = dir := by
        subst hb2
        split
        · exact gd
        · exact gd
      subst h
      unfold Beecask.segment
      simp only [NewActiveFile]
      by_cases hid : id = bc2.maxDataFileId
      · simp only [hid, if_true]
        rw [hid, ← d2] at hc
        simp only [FileWithBuffer.content, NewFileWithBuffer, hc, Option.getD_some, slice,
          List.take_zero, List.drop_nil, List.append_nil]
      · simp only [hid, if_false]
        rw [alookup_aset_ne _ _ _ _ (by simpa using hid), d2]
        exact hc

/-- The error of a pass over a hint file does not depend on a callback that never
fails. -/
theorem Hint_forEachLoop_err {σ τ : Type} (rhf : ReadableHintFile)
    (fn : HintItem → σ → σ × Option Error) (gn : HintItem → τ → τ × Option Error)
    (hf : ∀ i s, (fn i s).2 = none) (hgn : ∀ i t, (gn i t).2 = none) (fuel o : Nat) (s : σ)
    (t : τ) : (rhf.forEachLoop fn fuel o s).2 = (rhf.forEachLoop gn fuel o t).2 := by
  induction fuel generalizing o s t with
  | zero => rfl
  | succ fuel ih =>
    rw [ReadableHintFile.forEachLoop, ReadableHintFile.forEachLoop]
    cases hr : rhf.readItemAt o with
    | error e =>
      simp only
      split <;> rfl
    | ok item =>
      simp only
      have h1 := hf item s
      have h2 := hgn item t
      cases hfn : fn item s with
      | mk s1 e1 =>
        cases hg : gn item t with
        | mk t1 e2 =>
          rw [hfn] at h1
          rw [hg] at h2
          simp only at h1 h2
          subst h1
          subst h2
          exact ih _ s1 t1

theorem restoreHintItem_none (fileId : Nat) (i : HintItem) (s : KeyDir × KDItem) :
    (restoreHintItem fileId i s).2 = none := by
  unfold restoreHintItem
  simp only
  split <;> rfl

/-- Recovery from a readable hint file succeeds. -/
theorem restoreFromHintFile_readable (bc : Recovery) (fileId : Nat) (h : List Byte)
    (hl : alookup (FileName.hint fileId) bc.dir = some h) (hr : HintReadable h) :
    (bc.restoreFromHintFile fileId).2 = none := by
  unfold Recovery.restoreFromHintFile NewReadableHintFile
  simp only [hl]
  unfold HintReadable ReadableHintFile.ForEachItem at hr
  unfold ReadableHintFile.ForEachItem
  rw [← hr]
  exact Hint_forEachLoop_err _ _ _ (restoreHintItem_none fileId) (fun _ _ => rfl) _ _ _ _

theorem Ref_congr (cache : DataFileCache) (d d1 : Dir) (id : Nat)
    (h : alookup (FileName.data id) d = alookup (FileName.data id) d1) :
    cache.Ref d id = cache.Ref d1 id := by
  unfold DataFileCache.Ref NewDataFile
  rw [h]

theorem restoreFromHintFile_sim (s : Recovery) (d : Dir) (id : Nat)
    (hh : alookup (FileName.hint id) d = alookup (FileName.hint id) s.dir) :
    ({ s with dir := d } : Recovery).restoreFromHintFile id =
      ({ (s.restoreFromHintFile id).1 with dir := d }, (s.restoreFromHintFile id).2) := by
  unfold Recovery.restoreFromHintFile NewReadableHintFile
  simp only [hh]
  cases alookup (FileName.hint id) s.dir with
  | none => rfl
  | some c => rfl

theorem restoreFromDataFile_sim (s : Recovery) (d : Dir) (id : Nat)
    (hd : alookup (FileName.data id) d = alookup (FileName.data id) s.dir) :
    ({ s with dir := d } : Recovery).restoreFromDataFile id =
      ({ (s.restoreFromDataFile id).1 with dir := d }, (s.restoreFromDataFile id).2) := by
  unfold Recovery.restoreFromDataFile
  simp only [Ref_congr s.dataFileCache d s.dir id hd]
  cases hr : s.dataFileCache.Ref s.dir id with
  | mk cache1 res =>
    cases res with
    | error e => rfl
    | ok df => rfl

theorem restoreFromHintFile_dir (s : Recovery) (id : Nat) :
    (s.restoreFromHintFile id).1.dir = s.dir := by
  unfold Recovery.restoreFromHintFile
  split
  · rfl
  · rfl

theorem restoreFromDataFile_dir (s : Recovery) (id : Nat) :
    (s.restoreFromDataFile id).1.dir = s.dir := by
  unfold Recovery.restoreFromDataFile
  split
  · rfl
  · rfl

theorem restore_dir (s : Recovery) (id : Nat) : (s.restore id).1.dir = s.dir := by
  unfold Recovery.restore
  cases hh : alookup (FileName.hint id) s.dir with
  | none => exact restoreFromDataFile_dir s id
  | some c =>
    simp only
    have h1 := restoreFromHintFile_dir s id
    cases hr : s.restoreFromHintFile id with
    | mk bc1 err =>
      rw [hr] at h1
      cases err with
      | none => exact h1
      | some e =>
        simp only
        rw [restoreFromDataFile_dir]
        exact h1

/-- The recovery of a segment reads the hint file of the segment and, unless the
hint file is there and readable, its data file; nothing else of the directory. -/
theorem restore_sim (s : Recovery) (d : Dir) (id : Nat)
    (hh : alookup (FileName.hint id) d = alookup (FileName.hint id) s.dir)
    (hd : alookup (FileName.data id) d = alookup (FileName.data id) s.dir ∨
      ∃ h, alookup (FileName.hint id) s.dir = some h ∧ HintReadable h) :
    ({ s with dir := d } : Recovery).restore id =
      ({ (s.restore id).1 with dir := d }, (s.restore id).2) := by
  unfold Recovery.restore
  simp only [hh]
  cases hl : alookup (FileName.hint id) s.dir with
  | none =>
    simp only
    rcases hd with hd | ⟨h, h1, _⟩
    · exact restoreFromDataFile_sim s d id hd
    · rw [hl] at h1
      simp at h1
  | some c =>
    simp only
    rw [restoreFromHintFile_sim s d id hh]
    have hdir := restoreFromHintFile_dir s id
    cases hr : s.restoreFromHintFile id with
    | mk bc1 err =>
      rw [hr] at hdir
      simp only at hdir
      cases err with
      | none => rfl
      | some e =>
        simp only
        rcases hd with hd | ⟨h, h1, h2⟩
        · exact restoreFromDataFile_sim bc1 d id (by rw [hdir]; exact hd)
        · have := restoreFromHintFile_readable s id h h1 h2
          rw [hr] at this
          simp at this

/-- Two directories with the same listing that differ only in data files whose hint
file is readable are scanned alike. -/
theorem scanLoop_sim (d0 d : Dir) (names : List FileName) (s : Recovery) (hs : s.dir = d0)
    (hh : ∀ id, FileName.data id ∈ names →
      alookup (FileName.hint id) d = alookup (FileName.hint id) d0 ∧
      (alookup (FileName.data id) d = alookup (FileName.data id) d0 ∨
        ∃ h, alookup (FileName.hint id) d0 = some h ∧ HintReadable h)) :
    ({ s with dir := d } : Recovery).scanLoop names =
      ({ (s.scanLoop names).1 with dir := d }, (s.scanLoop names).2) := by
  induction names generalizing s with
  | nil => rfl
  | cons n names ih =>
    cases n with
    | hint id =>
      rw [Recovery.scanLoop, Recovery.scanLoop]
      exact ih s hs (fun id1 h1 => hh id1 (List.mem_cons_of_mem _ h1))
    | data id =>
      rw [Recovery.scanLoop, Recovery.scanLoop]
      obtain ⟨a, b⟩ := hh id (List.mem_cons_self _ _)
      rw [restore_sim s d id (by rw [hs]; exact a) (by rw [hs]; exact b)]
      have hdir := restore_dir s id
      cases hr : s.restore id with
      | mk bc1 err =>
        rw [hr] at hdir
        simp only at hdir
        cases err with
        | some e => rfl
        | none =>
          simp only
          exact ih
            { bc1 with
              minDataFileId := if bc1.minDataFileId = 0 ∨ bc1.minDataFileId > id then id
                else bc1.minDataFileId
              maxDataFileId := if bc1.maxDataFileId = 0 ∨ bc1.maxDataFileId < id then id
                else bc1.maxDataFileId }
            (by show bc1.dir = d0; rw [hdir, hs])
            (fun id1 h1 => hh id1 (List.mem_cons_of_mem _ h1))

/-- The recovery of a segment without hint file fails with the error of the pass over
its data file. -/
theorem restore_data_error (dir : Dir) (s : Recovery) (hg : s.Good dir) (f : Nat)
    (c : List Byte) (err : Error) (hc : alookup (FileName.data f) dir = some c)
    (hh : alookup (FileName.hint f) dir = none)
    (hfe : ∀ st, (DataFile.ForEachRecord { file := { mmapedRegion := c }, fileId := f }
      (restoreRecord f) st).2 = some err) :
    (s.restore f).2 = some err := by
  obtain ⟨hd, hidle, hall, hkd⟩ := hg
  unfold Recovery.restore
  rw [hd]
  simp only [hh]
  unfold Recovery.restoreFromDataFile
  have hall2 := Ref_AllDf s.dataFileCache _ s.dir f hall (fun df hdf => by
    obtain ⟨a, b⟩ := NewDataFile_ok s.dir f df hdf
    exact ⟨a, by rw [← hd]; exact b⟩)
  obtain ⟨df, hdf⟩ := Ref_ok s.dataFileCache s.dir f c (by rw [hd]; exact hc)
  cases hr : s.dataFileCache.Ref s.dir f with
  | mk cache1 res =>
    rw [hr] at hdf hall2
    simp only at hdf
    subst hdf
    obtain ⟨hfid, hco⟩ := hall2.2 df rfl
    rw [hc] at hco
    have hdfeq : df = { file := { mmapedRegion := c }, fileId := f } := by
      cases df with
      | mk file fileId =>
        cases file with
        | mk region =>
          simp only at hfid hco
          subst hfid
          simp only [Option.some.injEq] at hco
          subst hco
          rfl
    simp only
    rw [hdfeq]
    exact hfe _

/-- The scan of a directory that holds a segment without hint file whose data file
cannot be read to the end fails. -/
theorem scanLoop_fails (dir : Dir) (f : Nat) (c : List Byte) (err : Error)
    (hc : alookup (FileName.data f) dir = some c)
    (hh : alookup (FileName.hint f) dir = none)
    (hfe : ∀ st, (DataFile.ForEachRecord { file := { mmapedRegion := c }, fileId := f }
      (restoreRecord f) st).2 = some err)
    (names : List FileName) (s : Recovery) (hg : s.Good dir)
    (hn : ∀ n, n ∈ names → n ∈ ReadDir dir) (hf : FileName.data f ∈ names) :
    (s.scanLoop names).2 ≠ none := by
  induction names generalizing s with
  | nil => simp at hf
  | cons n names ih =>
    cases n with
    | hint id =>
      rw [Recovery.scanLoop]
      refine ih s hg (fun n h => hn n (List.mem_cons_of_mem _ h)) ?_
      simpa using hf
    | data id =>
      rw [Recovery.scanLoop]
      cases hr : s.restore id with
      | mk bc1 e1 =>
        cases e1 with
        | some e => simp
        | none =>
          simp only
          have hne : id ≠ f := by
            intro e
            subst e
            have := restore_data_error dir s hg id c err hc hh hfe
            rw [hr] at this
            simp at this
          obtain ⟨g1, _, _⟩ := restore_Good dir s id hg (hn _ (List.mem_cons_self _ _))
            (by rw [hr])
          rw [hr] at g1
          obtain ⟨gd, gi, ga, gk⟩ := g1
          refine ih
            { bc1 with
              minDataFileId := if bc1.minDataFileId = 0 ∨ bc1.minDataFileId > id then id
                else bc1.minDataFileId
              maxDataFileId := if bc1.maxDataFileId = 0 ∨ bc1.maxDataFileId < id then id
                else bc1.maxDataFileId }
            (⟨gd, gi, ga, gk⟩ : Recovery.Good dir _)
            (fun n h => hn n (List.mem_cons_of_mem _ h)) ?_
          rcases List.mem_cons.mp hf with h2 | h2
          · simp only [FileName.data.injEq] at h2
            exact absurd h2.symm hne
          · exact h2

/-- When the scan of the directory succeeds with another data file in place of the
one that cannot be read, the scan fails with the error of that data file. -/
theorem scanLoop_fails_with (dir d0 : Dir) (f : Nat) (c : List Byte) (err : Error)
    (hc : alookup (FileName.data f) dir = some c)
    (hh : alookup (FileName.hint f) dir = none)
    (hfe : ∀ st, (DataFile.ForEachRecord { file := { mmapedRegion := c }, fileId := f }
      (restoreRecord f) st).2 = some err)
    (hsame : ∀ id, alookup (FileName.hint id) d0 = alookup (FileName.hint id) dir ∧
      (id ≠ f → alookup (FileName.data id) d0 = alookup (FileName.data id) dir))
    (names : List FileName) (s : Recovery) (hg : s.Good dir)
    (hn : ∀ n, n ∈ names → n ∈ ReadDir dir) (hf : FileName.data f ∈ names)
    (hok : (({ s with dir := d0 } : Recovery).scanLoop names).2 = none) :
    (s.scanLoop names).2 = some err := by
  induction names generalizing s with
  | nil => simp at hf
  | cons n names ih =>
    cases n with
    | hint id =>
      rw [Recovery.scanLoop] at hok ⊢
      refine ih s hg (fun n h => hn n (List.mem_cons_of_mem _ h)) ?_ hok
      simpa using hf
    | data id =>
      rw [Recovery.scanLoop] at hok ⊢
      by_cases hid : id = f
      · subst hid
        have := restore_data_error dir s hg id c err hc hh hfe
        cases hr : s.restore id with
        | mk bc1 e1 =>
          rw [hr] at this
          simp only at this
          subst this
          rfl
      · have hsim := restore_sim s d0 id (by rw [hg.1]; exact (hsame id).1)
          (Or.inl (by rw [hg.1]; exact (hsame id).2 hid))
        rw [hsim] at hok
        cases hr : s.restore id with
        | mk bc1 e1 =>
          rw [hr] at hok
          cases e1 with
          | some e => simp at hok
          | none =>
            simp only at hok ⊢
            obtain ⟨g1, _, _⟩ := restore_Good dir s id hg (hn _ (List.mem_cons_self _ _))
              (by rw [hr])
            rw [hr] at g1
            obtain ⟨gd, gi, ga, gk⟩ := g1
            refine ih
              { bc1 with
                minDataFileId := if bc1.minDataFileId = 0 ∨ bc1.minDataFileId > id then id
                  else bc1.minDataFileId
                maxDataFileId := if bc1.maxDataFileId = 0 ∨ bc1.maxDataFileId < id then id
                  else bc1.maxDataFileId }
              (⟨gd, gi, ga, gk⟩ : Recovery.Good dir _)
              (fun n h => hn n (List.mem_cons_of_mem _ h)) ?_ hok
            rcases List.mem_cons.mp hf with h2 | h2
            · simp only [FileName.data.injEq] at h2
              exact absurd h2.symm hid
            · exact h2

theorem ReadDir_aset (dir : Dir) (k : FileName) (v c : List Byte)
    (h : alookup k dir = some c) : ReadDir (aset k v dir) = ReadDir dir := by
  unfold ReadDir
  rw [aset_keys]
  have := mem_ReadDir_of_alookup dir k c h
  unfold ReadDir at this
  simp only [this, if_true]

theorem initial_Good (opts : Options) (dir : Dir) :
    Recovery.Good dir
      { dir := dir, minDataFileId := 0, maxDataFileId := 0, keydir := NewKeyDir,
        dataFileCache := NewDataFileCache opts.MaxOpenFiles } :=
  ⟨rfl, NewDataFileCache_Idle _, fun id e he => by simp [NewDataFileCache, alookup] at he,
    fun k e he => by simp [KeyDir.Get, NewKeyDir, alookup] at he⟩

/-- `NewBeecask` fails on a directory that holds a segment without hint file whose
data file cannot be read to the end; it fails with the error of that data file when
it succeeds with another data file in its place. -/
theorem NewBeecask_data_error (opts : Options) (dir : Dir) (f : Nat) (c : List Byte)
    (err : Error) (hc : alookup (FileName.data f) dir = some c)
    (hh : alookup (FileName.hint f) dir = none)
    (hfe : ∀ st, (DataFile.ForEachRecord { file := { mmapedRegion := c }, fileId := f }
      (restoreRecord f) st).2 = some err) :
    (∃ e, NewBeecask opts dir = Except.error e) ∧
      ∀ c0 bc0, NewBeecask opts (aset (FileName.data f) c0 dir) = Except.ok bc0 →
        NewBeecask opts dir = Except.error err := by
  have hmem := mem_ReadDir_of_alookup dir _ c hc
  constructor
  · have := scanLoop_fails dir f c err hc hh hfe (ReadDir dir) _ (initial_Good opts dir)
      (fun n h => h) hmem
    unfold NewBeecask
    dsimp only
    cases hs : Recovery.scanLoop (ReadDir dir)
        { dir := dir, minDataFileId := 0, maxDataFileId := 0, keydir := NewKeyDir,
          dataFileCache := NewDataFileCache opts.MaxOpenFiles } with
    | mk bc1 e1 =>
      rw [hs] at this
      cases e1 with
      | none => exact absurd rfl this
      | some e => exact ⟨e, rfl⟩
  · intro c0 bc0 h0
    have hok : (Recovery.scanLoop (ReadDir dir)
        { dir := aset (FileName.data f) c0 dir, minDataFileId := 0, maxDataFileId := 0,
          keydir := NewKeyDir, dataFileCache := NewDataFileCache opts.MaxOpenFiles }).2
        = none := by
      unfold NewBeecask at h0
      dsimp only at h0
      rw [ReadDir_aset dir _ c0 c hc] at h0
      cases hs : Recovery.scanLoop (ReadDir dir)
          { dir := aset (FileName.data f) c0 dir, minDataFileId := 0, maxDataFileId := 0,
            keydir := NewKeyDir, dataFileCache := NewDataFileCache opts.MaxOpenFiles } with
      | mk bc1 e1 =>
        rw [hs] at h0
        cases e1 with
        | none => rfl
        | some e => simp at h0
    have := scanLoop_fails_with dir (aset (FileName.data f) c0 dir) f c err hc hh hfe
      (fun id => ⟨alookup_aset_ne _ _ _ _ (by simp), fun hne =>
        alookup_aset_ne _ _ _ _ (by simpa using hne)⟩)
      (ReadDir dir) _ (initial_Good opts dir) (fun n h => h) hmem hok
    unfold NewBeecask
    dsimp only
    cases hs : Recovery.scanLoop (ReadDir dir)
        { dir := dir, minDataFileId := 0, maxDataFileId := 0, keydir := NewKeyDir,
          dataFileCache := NewDataFileCache opts.MaxOpenFiles } with
    | mk bc1 e1 =>
      rw [hs] at this
      simp only at this
      subst this
      rfl

/-- `NewBeecask` on a directory in which the data file of a segment with a readable
hint file has been replaced: the engine opens as before, with the same key
directory. -/
theorem NewBeecask_hinted (opts : Options) (dir : Dir) (f : Nat) (c h : List Byte)
    (hc : alookup (FileName.data f) dir = some c)
    (hh : alookup (FileName.hint f) dir = some h) (hr : HintReadable h)
    (c0 : List Byte) (bc0 : Beecask)
    (h0 : NewBeecask opts (aset (FileName.data f) c0 dir) = Except.ok bc0) :
    ∃ bc, NewBeecask opts dir = Except.ok bc ∧ bc.keydir = bc0.keydir ∧
      bc.minDataFileId = bc0.minDataFileId ∧ bc.maxDataFileId = bc0.maxDataFileId := by
  have hsim := scanLoop_sim (aset (FileName.data f) c0 dir) dir (ReadDir dir)
    { dir := aset (FileName.data f) c0 dir, minDataFileId := 0, maxDataFileId := 0,
      keydir := NewKeyDir, dataFileCache := NewDataFileCache opts.MaxOpenFiles } rfl
    (fun id _ => by
      refine ⟨(alookup_aset_ne _ _ _ _ (by simp)).symm, ?_⟩
      by_cases hid : id = f
      · subst hid
        right
        refine ⟨h, ?_, hr⟩
        rw [alookup_aset_ne _ _ _ _ (by simp)]
        exact hh
      · left
        exact (alookup_aset_ne _ _ _ _ (by simpa using hid)).symm)
  unfold NewBeecask at h0 ⊢
  dsimp only at h0 ⊢
  rw [ReadDir_aset dir _ c0 c hc] at h0
  simp only at hsim
  rw [hsim]
  cases hs : Recovery.scanLoop (ReadDir dir)
      { dir := aset (FileName.data f) c0 dir, minDataFileId := 0, maxDataFileId := 0,
        keydir := NewKeyDir, dataFileCache := NewDataFileCache opts.MaxOpenFiles } with
  | mk bc1 e1 =>
    rw [hs] at h0
    cases e1 with
    | some e => simp at h0
    | none =>
      simp only [Except.ok.injEq] at h0 ⊢
      subst h0
      refine ⟨_, rfl, ?_, ?_, ?_⟩
      · simp only
        split <;> rfl
      · simp only
        split <;> rfl
      · simp only
        split <;> rfl

/-- C5, amended: a directory in which the data file of segment `f` holds complete
records, then a record one byte of whose value region differs from the value its
checksum was computed for, then any bytes.  On every engine opened on the directory,
`Get` of a key whose directory entry (not a tombstone) points at that record returns
'data corruption'.  When segment `f` has a readable hint file, the directory opens
whenever it opened before the byte was changed (with any data file `c0` in place of the
changed one), with the same key directory.  When segment `f` has no hint file,
opening the directory fails, with 'data corruption' if it opened before the change. -/
theorem C5_corruption_after_reopen (opts : Options) (dir : Dir) (f : Nat)
    (rs1 : List Record) (r : Record) (va vb post : List Byte) (b b1 : Byte)
    (hs : ∀ r0, r0 ∈ rs1 → r0.Sized) (hr : r.Valid) (hval : r.value = va ++ b :: vb)
    (hb : b ≠ b1)
    (hfile : alookup (FileName.data f) dir = some (encodeAll rs1 ++
      (putLE 4 (recordCrc r) ++ headerTail r ++ r.key ++ (va ++ b1 :: vb)) ++ post)) :
    (∀ (bc : Beecask) (k : List Byte) (e : KDItem) (now : Int),
        NewBeecask opts dir = Except.ok bc → bc.keydir.Get k = some e → e.fileId = f →
        e.valuePos = (encodeAll rs1).length → e.flag &&& RECORD_FLAG_BIT_DELETE = 0 →
        (bc.Get k now).2 = Except.error Error.ErrDataCorruption) ∧
      (∀ (h c0 : List Byte) (bc0 : Beecask),
        alookup (FileName.hint f) dir = some h → HintReadable h →
        NewBeecask opts (aset (FileName.data f) c0 dir) = Except.ok bc0 →
        ∃ bc, NewBeecask opts dir = Except.ok bc ∧ bc.keydir = bc0.keydir ∧
          bc.minDataFileId = bc0.minDataFileId ∧ bc.maxDataFileId = bc0.maxDataFileId) ∧
      (alookup (FileName.hint f) dir = none →
        (∃ e, NewBeecask opts dir = Except.error e) ∧
        ∀ (c0 : List Byte) (bc0 : Beecask),
          NewBeecask opts (aset (FileName.data f) c0 dir) = Except.ok bc0 →
          NewBeecask opts dir = Except.error Error.ErrDataCorruption) := by
  refine ⟨?_, ?_, ?_⟩
  · intro bc k e now hopen hg hf hpos hflag
    have hseg := NewBeecask_segment opts dir bc hopen f _ hfile
    rw [← hf] at hseg
    refine Get_read_error bc k now e (NewBeecask_Inv opts dir bc hopen).1 hg hflag _
      Error.ErrDataCorruption hseg ?_
    intro fileId
    rw [hpos]
    exact DataFile_ReadRecordAt_corrupted fileId (encodeAll rs1) post r va vb b b1 hr hval hb
  · intro h c0 bc0 hh hread h0
    exact NewBeecask_hinted opts dir f _ h hfile hh hread c0 bc0 h0
  · intro hh
    exact NewBeecask_data_error opts dir f _ Error.ErrDataCorruption hfile hh
      (fun s => ForEachRecord_corrupted f rs1 r va vb post b b1 s hs hr hval hb)

set_option maxRecDepth 1000000 in
/-- C5, witness: the store with `a` and `b` in the hinted segment 1, the value byte of
the record of `b` (offset 51) changed from 0x32 to 0x33: the directory opens and
`Get(b)` returns 'data corruption'. -/
theorem C5_corruption_after_reopen_witness :
    NewBeecask demoOptions (corruptAt hintedDir 1 51 0x33) =
        Except.ok (openOr demoOptions (corruptAt hintedDir 1 51 0x33)) ∧
      ((openOr demoOptions (corruptAt hintedDir 1 51 0x33)).Get keyB 0).2 =
        Except.error Error.ErrDataCorruption :=
  ⟨by decide!,
    (C5_corruption_after_reopen demoOptions (corruptAt hintedDir 1 51 0x33) 1
      [mkRecord keyA [0x31] 0 0] (mkRecord keyB [0x32] 0 0) [] [] [] 0x32 0x33
      (by
        intro r0 h0
        rw [List.mem_singleton] at h0
        subst h0
        unfold Record.Sized Record.Valid
        decide)
      (by unfold Record.Valid; decide) (by decide) (by decide) (by decide!)).1
      (openOr demoOptions (corruptAt hintedDir 1 51 0x33)) keyB
      { fileId := 1, valuePos := 26, valueSize := 1, flag := 0 } 0
      (by decide!) (by decide!) rfl (by decide!) (by decide)⟩

theorem wrapInt32_id (x : Int) (h0 : -2 ^ 31 ≤ x) (h1 : x < 2 ^ 31) : wrapInt32 x = x := by
  unfold wrapInt32
  rw [Int.emod_eq_of_lt (by omega) (by omega)]
  omega

/-- The `int32` decrement is the exact one on a count in `[0, 2^31)`. -/
theorem unrefInt32_eq (c : DataFileCache) (id : Nat)
    (h : ∀ e, alookup id c.hash = some e → 0 ≤ e.refCount ∧ e.refCount < 2 ^ 31) :
    c.unrefInt32 id = c.unref id := by
  unfold DataFileCache.unrefInt32 DataFileCache.unref
  cases he : alookup id c.hash with
  | none => rfl
  | some e =>
    obtain ⟨a, b⟩ := h e he
    simp only
    rw [wrapInt32_id _ (by omega) (by omega)]

/-- The counts of a cache whose accounting holds, with bounded outstanding
references, are in `[0, 2^31)`. -/
theorem Counted_range (c : DataFileCache) (ext : Nat → Nat) (h : c.Counted ext)
    (hb : RefsBounded ext) (id : Nat) (e : CacheEntry) (he : alookup id c.hash = some e) :
    0 ≤ e.refCount ∧ e.refCount < 2 ^ 31 := by
  obtain ⟨hrc, _, _⟩ := h.2.2.2.2.1 id e he
  have := hb id
  rw [hrc]
  split <;> constructor <;> omega

theorem markOut_range (c : DataFileCache) (l1 : List Nat) (back id : Nat)
    (h : ∀ e, alookup id c.hash = some e → 0 ≤ e.refCount ∧ e.refCount < 2 ^ 31)
    (e : CacheEntry)
    (he : alookup id (({ c with l := l1 } : DataFileCache).markOut back).hash = some e) :
    0 ≤ e.refCount ∧ e.refCount < 2 ^ 31 := by
  unfold DataFileCache.markOut at he
  dsimp only at he
  cases hb : alookup back c.hash with
  | none =>
    rw [hb] at he
    exact h e he
  | some eb =>
    rw [hb] at he
    dsimp only at he
    rw [alookup_aset] at he
    split at he
    · next hid =>
      subst hid
      simp only [Option.some.injEq] at he
      subst he
      exact h eb hb
    · exact h e he

theorem shrinkInt32_eq (fuel : Nat) (c : DataFileCache) (ext : Nat → Nat) (h : c.Counted ext)
    (hb : RefsBounded ext) : c.shrinkInt32 fuel = c.shrink fuel := by
  induction fuel generalizing c with
  | zero => rfl
  | succ fuel ih =>
    rw [DataFileCache.shrinkInt32, DataFileCache.shrink]
    split
    · cases hback : c.l.getLast? with
      | none => rfl
      | some back =>
        simp only
        obtain ⟨hbm, hnd1, hsub, hlen1⟩ := dropLast_facts c.l back h.1 hback
        have hc := evictEntry_Counted c ext back c.l.dropLast h hbm hnd1 hsub
        rw [unrefInt32_eq _ back (fun e he =>
          markOut_range c c.l.dropLast back back (Counted_range c ext h hb back) e he)]
        exact ih _ hc
    · rfl

theorem drainInt32_eq (fuel : Nat) (c : DataFileCache) (ext : Nat → Nat) (h : c.Counted ext)
    (hb : RefsBounded ext) : c.drainInt32 fuel = c.drain fuel := by
  induction fuel generalizing c with
  | zero => rfl
  | succ fuel ih =>
    rw [DataFileCache.drainInt32, DataFileCache.drain]
    cases hback : c.l.getLast? with
    | none => rfl
    | some back =>
      simp only
      obtain ⟨hbm, hnd1, hsub, hlen1⟩ := dropLast_facts c.l back h.1 hback
      have hc := evictEntry_Counted c ext back c.l.dropLast h hbm hnd1 hsub
      rw [unrefInt32_eq _ back (fun e he =>
        markOut_range c c.l.dropLast back back (Counted_range c ext h hb back) e he)]
      exact ih _ hc

theorem refEntryInt32_eq (c : DataFileCache) (ext : Nat → Nat) (id : Nat) (entry : CacheEntry)
    (h : c.Counted ext) (he : alookup id c.hash = some entry)
    (hb : RefsBounded (Function.update ext id (ext id + 1))) :
    c.refEntryInt32 id entry = c.refEntry id entry := by
  have hpre := refEntry_pre_Counted c ext id entry h he
  obtain ⟨hrc, _, _⟩ := h.2.2.2.2.1 id entry he
  have hbi := hb id
  simp only [Function.update_same] at hbi
  have hw : wrapInt32 (entry.refCount + 1) = entry.refCount + 1 := by
    apply wrapInt32_id
    · rw [hrc]; split <;> omega
    · rw [hrc]; split <;> omega
  unfold DataFileCache.refEntryInt32 DataFileCache.refEntry
  simp only [hw]
  rw [shrinkInt32_eq _ _ _ hpre hb]

theorem RefInt32_eq (c : DataFileCache) (dir : Dir) (ext : Nat → Nat) (id : Nat)
    (h : c.Counted ext) (hb : RefsBounded (Function.update ext id (ext id + 1))) :
    c.RefInt32 dir id = c.Ref dir id := by
  unfold DataFileCache.RefInt32 DataFileCache.Ref
  cases he : alookup id c.hash with
  | some entry =>
    simp only
    exact refEntryInt32_eq c ext id entry h he hb
  | none =>
    simp only
    cases hdf : NewDataFile dir id with
    | error e => rfl
    | ok df =>
      simp only
      exact refEntryInt32_eq _ ext id _ (Ref_new_Counted c ext id df h he)
        (alookup_aset_eq _ _ _) hb

theorem EvictInt32_eq (c : DataFileCache) (ext : Nat → Nat) (id : Nat) (h : c.Counted ext)
    (hb : RefsBounded ext) : c.EvictInt32 id = c.Evict id := by
  unfold DataFileCache.EvictInt32 DataFileCache.Evict
  cases he : alookup id c.hash with
  | none => rfl
  | some entry =>
    simp only
    split
    · exact unrefInt32_eq _ id (fun e he1 =>
        markOut_range c (c.l.erase id) id id (Counted_range c ext h hb id) e he1)
    · rfl

theorem RefsBounded_update (ext : Nat → Nat) (id v : Nat) (h : RefsBounded ext)
    (hv : v + 1 < 2 ^ 31) : RefsBounded (Function.update ext id v) := by
  intro x
  by_cases hx : x = id
  · subst hx
    rw [Function.update_same]
    exact hv
  · rw [Function.update_noteq hx]
    exact h x

/-- An allowed call with bounded outstanding references computes the same in `int32`
and in exact integers, and leaves the outstanding references bounded. -/
theorem cacheStepInt32_eq (dir : Dir) (st : DataFileCache × (Nat → Nat)) (op : CacheOp)
    (h : st.1.Counted st.2) (hb : RefsBounded st.2) (ha : op.allowedInt32 st.2) :
    cacheStepInt32 dir st op = cacheStep dir st op ∧ op.allowed st.2 ∧
      RefsBounded (cacheStep dir st op).2 := by
  cases op with
  | ref id =>
    have hb1 : RefsBounded (Function.update st.2 id (st.2 id + 1)) :=
      RefsBounded_update _ _ _ hb (by
        have : st.2 id + 2 < 2 ^ 31 := ha
        omega)
    refine ⟨?_, trivial, ?_⟩
    · simp only [cacheStepInt32, cacheStep]
      rw [RefInt32_eq st.1 dir st.2 id h hb1]
    · simp only [cacheStep]
      cases hr : st.1.Ref dir id with
      | mk c res =>
        cases res with
        | ok df => exact hb1
        | error e => exact hb
  | unref id =>
    refine ⟨?_, ha, ?_⟩
    · simp only [cacheStepInt32, cacheStep, DataFileCache.UnrefInt32, DataFileCache.Unref]
      rw [unrefInt32_eq _ id (Counted_range st.1 st.2 h hb id)]
    · simp only [cacheStep]
      exact RefsBounded_update _ _ _ hb (by have := hb id; omega)
  | evict id =>
    refine ⟨?_, trivial, hb⟩
    simp only [cacheStepInt32, cacheStep]
    rw [EvictInt32_eq st.1 st.2 id h hb]
  | close =>
    refine ⟨?_, trivial, hb⟩
    simp only [cacheStepInt32, cacheStep, DataFileCache.CloseInt32, DataFileCache.Close]
    rw [drainInt32_eq _ st.1 st.2 h hb]

theorem cacheTraceInt32_cons (dir : Dir) (st : DataFileCache × (Nat → Nat)) (op : CacheOp)
    (ops : List CacheOp) (h : cacheTraceInt32 dir st (op :: ops)) :
    op.allowedInt32 st.2 ∧ cacheTraceInt32 dir (cacheStepInt32 dir st op) ops := by
  rw [cacheTraceInt32] at h
  exact h

/-- A sequence of allowed calls with bounded outstanding references computes the same
in `int32` and in exact integers. -/
theorem cacheRunInt32_eq (dir : Dir) (ops : List CacheOp) (st : DataFileCache × (Nat → Nat))
    (h : st.1.Counted st.2) (hl : (st.1.l.length : Int) ≤ st.1.capacity)
    (hb : RefsBounded st.2) (ha : cacheTraceInt32 dir st ops) :
    cacheRunInt32 dir st ops = cacheRun dir st ops ∧ cacheTraceOK dir st ops ∧
      RefsBounded (cacheRun dir st ops).2 := by
  induction ops generalizing st with
  | nil =>
    refine ⟨?_, trivial, hb⟩
    simp only [cacheRunInt32, cacheRun, List.foldl_nil]
  | cons op ops ih =>
    obtain ⟨ha1, ha2⟩ := cacheTraceInt32_cons dir st op ops ha
    obtain ⟨e1, a1, b1⟩ := cacheStepInt32_eq dir st op h hb ha1
    obtain ⟨g1, g2, _⟩ := cacheStep_Counted dir st op h hl a1
    rw [e1] at ha2
    obtain ⟨k1, k2, k3⟩ := ih (cacheStep dir st op) g1 g2 b1 ha2
    have hrun : cacheRunInt32 dir st (op :: ops) = cacheRun dir st (op :: ops) := by
      unfold cacheRunInt32 cacheRun at k1 ⊢
      rw [List.foldl_cons, List.foldl_cons, e1]
      exact k1
    have hb3 : RefsBounded (cacheRun dir st (op :: ops)).2 := by
      unfold cacheRun at k3 ⊢
      rw [List.foldl_cons]
      exact k3
    have htr : cacheTraceOK dir st (op :: ops) := by
      rw [cacheTraceOK]
      exact ⟨a1, k2⟩
    exact ⟨hrun, htr, hb3⟩

/-- What one allowed call does to the index of a cache whose accounting holds: a held
entry stays indexed; an entry leaves the index only from a count of `1`, with no
reference outstanding afterwards; every indexed entry has a positive count; and a file
id is out of the index exactly when it has no outstanding reference and is not in the
list. -/
theorem cacheStep_closes (dir : Dir) (st : DataFileCache × (Nat → Nat)) (op : CacheOp)
    (g1 : st.1.Counted st.2) (g2 : (st.1.l.length : Int) ≤ st.1.capacity)
    (ha2 : op.allowed st.2) :
    (∀ id, 1 ≤ (cacheStep dir st op).2 id →
        ∃ e, alookup id (cacheStep dir st op).1.hash = some e) ∧
      (∀ id e, alookup id st.1.hash = some e →
        alookup id (cacheStep dir st op).1.hash = none →
        e.refCount = 1 ∧ (cacheStep dir st op).2 id = 0) ∧
      (∀ id e, alookup id (cacheStep dir st op).1.hash = some e → 1 ≤ e.refCount) ∧
      (∀ id, alookup id (cacheStep dir st op).1.hash = none ↔
        ((cacheStep dir st op).2 id = 0 ∧ id ∉ (cacheStep dir st op).1.l)) := by
  obtain ⟨k1, k2, k3⟩ := cacheStep_Counted dir st op g1 g2 ha2
  obtain ⟨hnd, hcap, hkeys, hlist, hent, hnone⟩ := k1
  have hopen : ∀ id, 1 ≤ (cacheStep dir st op).2 id →
      ∃ e, alookup id (cacheStep dir st op).1.hash = some e := by
    intro id hid
    cases he : alookup id (cacheStep dir st op).1.hash with
    | none =>
      have := hnone id he
      omega
    | some e => exact ⟨e, rfl⟩
  refine ⟨hopen, ?_, ?_, ?_⟩
  · intro id e he hgone
    have hz := hnone id hgone
    refine ⟨?_, hz⟩
    obtain ⟨hrc, hil, hol⟩ := g1.2.2.2.2.1 id e he
    -- the outstanding references before the call
    have hext : st.2 id = 0 ∨ (op = CacheOp.unref id ∧ st.2 id = 1) := by
      cases op with
      | ref x =>
        left
        unfold cacheStep at hz
        cases hr : st.1.Ref dir x with
        | mk c res =>
          cases res with
          | error e1 => simpa [hr] using hz
          | ok df =>
            simp only [hr] at hz
            by_cases hx : id = x
            · subst hx
              simp at hz
            · rw [Function.update_noteq hx] at hz
              exact hz
      | unref x =>
        by_cases hx : id = x
        · subst hx
          right
          refine ⟨rfl, ?_⟩
          simp only [cacheStep, Function.update_same] at hz
          have : 1 ≤ st.2 id := ha2
          omega
        · left
          simp only [cacheStep] at hz
          rw [Function.update_noteq hx] at hz
          exact hz
      | evict x => left; exact hz
      | close => left; exact hz
    rcases hext with h1 | ⟨hop, h1⟩
    · cases hin : e.inList with
      | true => simp only [hin, if_true, h1] at hrc; simpa using hrc
      | false =>
        have := hol hin
        omega
    · subst hop
      cases hin : e.inList with
      | false => simp only [hin, h1] at hrc; simpa using hrc
      | true =>
        exfalso
        have hm := hil hin
        have hl : (cacheStep dir st (CacheOp.unref id)).1.l = st.1.l := by
          simp only [cacheStep, DataFileCache.Unref, unref_l]
        obtain ⟨e2, he2, _⟩ := hlist id (by rw [hl]; exact hm)
        rw [hgone] at he2
        simp at he2
  · intro id e he
    obtain ⟨hrc, hil, hol⟩ := hent id e he
    cases hin : e.inList with
    | true =>
      simp only [hin, if_true] at hrc
      omega
    | false =>
      have := hol hin
      simp only [hin, Bool.false_eq_true, if_false, add_zero] at hrc
      omega
  · intro id
    constructor
    · intro hgone
      refine ⟨hnone id hgone, ?_⟩
      intro hm
      obtain ⟨e2, he2, _⟩ := hlist id hm
      rw [hgone] at he2
      simp at he2
    · intro ⟨hz, hnl⟩
      cases he : alookup id (cacheStep dir st op).1.hash with
      | none => rfl
      | some e =>
        exfalso
        obtain ⟨hrc, hil, hol⟩ := hent id e he
        cases hin : e.inList with
        | true => exact hnl (hil hin)
        | false =>
          have := hol hin
          omega

theorem cacheTraceInt32_append (dir : Dir) (op : CacheOp) (l : List CacheOp)
    (st : DataFileCache × (Nat → Nat)) (h : cacheTraceInt32 dir st (l ++ [op])) :
    cacheTraceInt32 dir st l ∧ op.allowedInt32 (cacheRunInt32 dir st l).2 := by
  induction l generalizing st with
  | nil =>
    obtain ⟨h1, _⟩ := cacheTraceInt32_cons dir st op [] h
    refine ⟨trivial, ?_⟩
    simp only [cacheRunInt32, List.foldl_nil]
    exact h1
  | cons a t ih =>
    obtain ⟨h1, h2⟩ := cacheTraceInt32_cons dir st a (t ++ [op]) h
    obtain ⟨k1, k2⟩ := ih (cacheStepInt32 dir st a) h2
    refine ⟨?_, ?_⟩
    · rw [cacheTraceInt32]
      exact ⟨h1, k1⟩
    · simp only [cacheRunInt32, List.foldl_cons] at k2 ⊢
      exact k2

theorem RefsBounded_zero : RefsBounded (fun _ => 0) := by
  intro id
  norm_num

/-- C17, amended: after every sequence of `Ref`, `Unref`, `Evict` and `Close` calls in
which each `Unref` releases an outstanding reference and no entry ever has `2^31 - 1`
or more references outstanding, and one more such call, with the counts computed in
`int32`: an entry with an outstanding reference is still in the index (no call closes
a held entry, the one a `Ref` returns included); an entry leaves the index (is closed)
only when its count was `1` and nobody holds it afterwards, so that nothing can
release it again; every entry in the index has a positive count; and a file id is out
of the index exactly when it has no outstanding reference and is not in the list: an
entry is closed as soon as it is out of the list and unheld. -/
theorem C17_held_entries_stay_open (dir : Dir) (capacity : Int) (ops : List CacheOp)
    (op : CacheOp)
    (ha : cacheTraceInt32 dir (NewDataFileCache capacity, fun _ => 0) (ops ++ [op])) :
    (∀ id, 1 ≤ (cacheRunInt32 dir (NewDataFileCache capacity, fun _ => 0) (ops ++ [op])).2 id →
        ∃ e, alookup id
          (cacheRunInt32 dir (NewDataFileCache capacity, fun _ => 0) (ops ++ [op])).1.hash
            = some e) ∧
      (∀ id e,
        alookup id (cacheRunInt32 dir (NewDataFileCache capacity, fun _ => 0) ops).1.hash
          = some e →
        alookup id
          (cacheRunInt32 dir (NewDataFileCache capacity, fun _ => 0) (ops ++ [op])).1.hash
          = none →
        e.refCount = 1 ∧
          (cacheRunInt32 dir (NewDataFileCache capacity, fun _ => 0) (ops ++ [op])).2 id = 0) ∧
      (∀ id e,
        alookup id
          (cacheRunInt32 dir (NewDataFileCache capacity, fun _ => 0) (ops ++ [op])).1.hash
          = some e → 1 ≤ e.refCount) ∧
      (∀ id,
        alookup id
          (cacheRunInt32 dir (NewDataFileCache capacity, fun _ => 0) (ops ++ [op])).1.hash
          = none ↔
        ((cacheRunInt32 dir (NewDataFileCache capacity, fun _ => 0) (ops ++ [op])).2 id = 0 ∧
          id ∉ (cacheRunInt32 dir (NewDataFileCache capacity, fun _ => 0) (ops ++ [op])).1.l))
    := by
  obtain ⟨h0, hb0, hc0⟩ := NewDataFileCache_Counted capacity
  obtain ⟨ha1, ha2⟩ := cacheTraceInt32_append dir op ops _ ha
  obtain ⟨e1, t1, b1⟩ := cacheRunInt32_eq dir ops (NewDataFileCache capacity, fun _ => 0) h0 hb0
    RefsBounded_zero ha1
  obtain ⟨g1, g2, g3⟩ := cacheRun_Counted dir ops (NewDataFileCache capacity, fun _ => 0) h0 hb0 t1
  have hrun : cacheRunInt32 dir (NewDataFileCache capacity, fun _ => 0) (ops ++ [op]) =
      cacheStepInt32 dir (cacheRunInt32 dir (NewDataFileCache capacity, fun _ => 0) ops) op := by
    simp only [cacheRunInt32, List.foldl_append, List.foldl_cons, List.foldl_nil]
  rw [hrun, e1]
  rw [e1] at ha2
  obtain ⟨e2, a2, _⟩ := cacheStepInt32_eq dir _ op g1 b1 ha2
  rw [e2]
  exact cacheStep_closes dir _ op g1 g2 a2

/-- C23, amended: after every sequence of `Ref`, `Unref`, `Evict` and `Close` calls in
which each `Unref` releases an outstanding reference and no entry ever has `2^31 - 1`
or more references outstanding, with the counts computed in `int32`, every entry in
the index has `refCount` = outstanding references + (1 if it is in the list, else 0),
hence at least 1 when it is in the list; a `Ref` of a file id that is not indexed,
whose data file exists, makes an entry with `refCount = 2` in the list, and the
`Unref` that follows leaves it indexed, in the list, with `refCount = 1`. -/
theorem C23_reference_accounting (dir : Dir) (capacity : Int) (ops : List CacheOp)
    (ha : cacheTraceInt32 dir (NewDataFileCache capacity, fun _ => 0) ops) :
    (∀ id e,
        alookup id (cacheRunInt32 dir (NewDataFileCache capacity, fun _ => 0) ops).1.hash
          = some e →
        e.refCount =
            ((cacheRunInt32 dir (NewDataFileCache capacity, fun _ => 0) ops).2 id : Int) +
              (if e.inList = true then 1 else 0) ∧
          (e.inList = true → 1 ≤ e.refCount)) ∧
      (∀ id c,
        alookup id (cacheRunInt32 dir (NewDataFileCache capacity, fun _ => 0) ops).1.hash
          = none →
        alookup (FileName.data id) dir = some c →
        (∃ e, alookup id
            ((cacheRunInt32 dir (NewDataFileCache capacity, fun _ => 0) ops).1.RefInt32 dir
              id).1.hash = some e ∧ e.refCount = 2 ∧ e.inList = true) ∧
          (∃ e, alookup id
            (((cacheRunInt32 dir (NewDataFileCache capacity, fun _ => 0) ops).1.RefInt32 dir
              id).1.UnrefInt32 id).hash = some e ∧ e.refCount = 1 ∧ e.inList = true ∧
            id ∈ (((cacheRunInt32 dir (NewDataFileCache capacity, fun _ => 0) ops).1.RefInt32
              dir id).1.UnrefInt32 id).l)) := by
  obtain ⟨h0, hb0, hc0⟩ := NewDataFileCache_Counted capacity
  obtain ⟨e1, t1, b1⟩ := cacheRunInt32_eq dir ops (NewDataFileCache capacity, fun _ => 0) h0 hb0
    RefsBounded_zero ha
  obtain ⟨g1, g2, g3⟩ := cacheRun_Counted dir ops (NewDataFileCache capacity, fun _ => 0) h0 hb0 t1
  rw [e1]
  generalize cacheRun dir (NewDataFileCache capacity, fun _ => 0) ops = st at g1 g2 g3 b1 ⊢
  refine ⟨?_, ?_⟩
  · intro id e he
    obtain ⟨hrc, _, _⟩ := g1.2.2.2.2.1 id e he
    refine ⟨hrc, ?_⟩
    intro hin
    simp only [hin, if_true] at hrc
    omega
  · intro id c hnone hfile
    have hz := g1.2.2.2.2.2 id hnone
    have hb1 : RefsBounded (Function.update st.2 id (st.2 id + 1)) :=
      RefsBounded_update _ _ _ b1 (by rw [hz]; norm_num)
    rw [RefInt32_eq st.1 dir st.2 id g1 hb1]
    have hok := Ref_fresh st.1 dir id c hnone hfile
    obtain ⟨_, hb2, hcase⟩ := Ref_Counted st.1 dir st.2 id g1 g2
    rcases hcase with ⟨df, _, hc, hhead⟩ | ⟨e, herr, _⟩
    · have hmem : id ∈ (st.1.Ref dir id).1.l := List.mem_of_mem_head? (hhead hnone)
      obtain ⟨e, he, hin⟩ := hc.2.2.2.1 id hmem
      have hrc := (hc.2.2.2.2.1 id e he).1
      simp only [Function.update_same, hz, hin, if_true] at hrc
      refine ⟨⟨e, he, by rw [hrc]; norm_num, hin⟩, ?_⟩
      have hun : (st.1.Ref dir id).1.UnrefInt32 id = (st.1.Ref dir id).1.Unref id := by
        unfold DataFileCache.UnrefInt32 DataFileCache.Unref
        exact unrefInt32_eq _ id (Counted_range _ _ hc hb1 id)
      rw [hun]
      obtain ⟨k1, k2, _⟩ := Unref_Counted (st.1.Ref dir id).1 _ id hc
        (by simp only [Function.update_same]; omega)
      have hmem2 : id ∈ ((st.1.Ref dir id).1.Unref id).l := by rw [k2]; exact hmem
      obtain ⟨e1, he1, hin1⟩ := k1.2.2.2.1 id hmem2
      have hrc1 := (k1.2.2.2.2.1 id e1 he1).1
      simp only [Function.update_same, hz, hin1, if_true] at hrc1
      exact ⟨e1, he1, by rw [hrc1]; norm_num, hin1, hmem2⟩
    · rw [hok] at herr
      simp at herr

theorem wrapInt32_range (x : Int) : -2 ^ 31 ≤ wrapInt32 x ∧ wrapInt32 x < 2 ^ 31 := by
  unfold wrapInt32
  have h1 := Int.emod_nonneg (x + 2 ^ 31) (by norm_num : (2 : Int) ^ 32 ≠ 0)
  have h2 := Int.emod_lt_of_pos (x + 2 ^ 31) (by norm_num : (0 : Int) < 2 ^ 32)
  constructor <;> omega

theorem wrapInt32_add (x y : Int) : wrapInt32 (wrapInt32 x + y) = wrapInt32 (x + y) := by
  unfold wrapInt32
  omega

set_option maxRecDepth 100000 in
theorem oneEntry_ref (r : Int) (ext : Nat → Nat) :
    cacheStepInt32 threeFiles (oneEntryCache r, ext) (CacheOp.ref 1) =
      (oneEntryCache (wrapInt32 (r + 1)), Function.update ext 1 (ext 1 + 1)) := by
  rfl

/-- The cache after `n` more `Ref` calls on the entry it holds. -/
theorem oneEntry_refs (n : Nat) (r : Int) (ext : Nat → Nat) :
    cacheRunInt32 threeFiles (oneEntryCache r, ext) (List.replicate n (CacheOp.ref 1)) =
      (oneEntryCache (if n = 0 then r else wrapInt32 (r + n)),
        Function.update ext 1 (ext 1 + n)) := by
  induction n generalizing r ext with
  | zero =>
    simp only [List.replicate_zero, cacheRunInt32, List.foldl_nil, if_true, Nat.add_zero,
      Function.update_eq_self]
  | succ n ih =>
    rw [List.replicate_succ]
    have hc : cacheRunInt32 threeFiles (oneEntryCache r, ext)
        (CacheOp.ref 1 :: List.replicate n (CacheOp.ref 1)) =
        cacheRunInt32 threeFiles
          (cacheStepInt32 threeFiles (oneEntryCache r, ext) (CacheOp.ref 1))
          (List.replicate n (CacheOp.ref 1)) := by
      simp only [cacheRunInt32, List.foldl_cons]
    rw [hc, oneEntry_ref, ih]
    have hr : (if n = 0 then wrapInt32 (r + 1) else wrapInt32 (wrapInt32 (r + 1) + (n : Int))) =
        wrapInt32 (r + ((n + 1 : Nat) : Int)) := by
      split
      · next h0 => subst h0; rfl
      · rw [wrapInt32_add]
        congr 1
        push_cast
        ring
    rw [hr]
    simp only [Nat.succ_ne_zero, if_false, Function.update_same, Function.update_idem]
    have : ext 1 + 1 + n = ext 1 + (n + 1) := by omega
    rw [this]

set_option maxRecDepth 100000 in
theorem newCache_ref (ext : Nat → Nat) :
    cacheStepInt32 threeFiles (NewDataFileCache 2, ext) (CacheOp.ref 1) =
      (oneEntryCache 2, Function.update ext 1 (ext 1 + 1)) := by
  rfl

/-- The new cache after `n + 1` calls `Ref(1)`. -/
theorem newCache_refs (n : Nat) :
    cacheRunInt32 threeFiles (NewDataFileCache 2, fun _ => 0)
        (List.replicate (n + 1) (CacheOp.ref 1)) =
      (oneEntryCache (if n = 0 then 2 else wrapInt32 (2 + n)),
        Function.update (fun _ => 0) 1 (n + 1)) := by
  rw [List.replicate_succ]
  have hc : cacheRunInt32 threeFiles (NewDataFileCache 2, fun _ => 0)
      (CacheOp.ref 1 :: List.replicate n (CacheOp.ref 1)) =
      cacheRunInt32 threeFiles
        (cacheStepInt32 threeFiles (NewDataFileCache 2, fun _ => 0) (CacheOp.ref 1))
        (List.replicate n (CacheOp.ref 1)) := by
    simp only [cacheRunInt32, List.foldl_cons]
  rw [hc, newCache_ref, oneEntry_refs]
  simp only [Function.update_same, Function.update_idem]
  have : 0 + 1 + n = n + 1 := by omega
  rw [this]

set_option maxRecDepth 100000 in
theorem oneEntry_evict (ext : Nat → Nat) :
    cacheStepInt32 threeFiles (oneEntryCache 1, ext) (CacheOp.evict 1) =
      ({ l := [], hash := [], capacity := 2 }, ext) := by
  rfl

theorem cacheRunInt32_snoc (dir : Dir) (st : DataFileCache × (Nat → Nat)) (l : List CacheOp)
    (op : CacheOp) :
    cacheRunInt32 dir st (l ++ [op]) = cacheStepInt32 dir (cacheRunInt32 dir st l) op := by
  simp only [cacheRunInt32, List.foldl_append, List.foldl_cons, List.foldl_nil]

/-- C23, counterexample: `2^31 - 1` calls `Ref(1)` and no `Unref`.  The entry of
segment 1 is in the list with `2^31 - 1` references outstanding; its `int32` count has
wrapped to `-2^31`, which is neither the outstanding references plus one nor at least
`1`. -/
theorem C23_counterexample :
    ∃ e, alookup 1 (cacheRunInt32 threeFiles (NewDataFileCache 2, fun _ => 0)
        (List.replicate (2 ^ 31 - 1) (CacheOp.ref 1))).1.hash = some e ∧
      e.inList = true ∧ e.refCount = -2 ^ 31 ∧
      (cacheRunInt32 threeFiles (NewDataFileCache 2, fun _ => 0)
        (List.replicate (2 ^ 31 - 1) (CacheOp.ref 1))).2 1 = 2 ^ 31 - 1 := by
  have e : 2 ^ 31 - 1 = (2 ^ 31 - 2) + 1 := by norm_num
  have hX : (if 2 ^ 31 - 2 = 0 then (2 : Int) else wrapInt32 (2 + ((2 ^ 31 - 2 : Nat) : Int)))
      = -2 ^ 31 := by
    norm_num [wrapInt32]
  rw [e, newCache_refs, hX]
  refine ⟨_, rfl, rfl, rfl, ?_⟩
  simp only [Function.update_same]

/-- The new cache after `n + 1` calls `Ref(1)` that bring the `int32` count to `1`,
and `Evict(1)`: the entry is closed. -/
theorem newCache_refs_evict (n : Nat)
    (hX : (if n = 0 then (2 : Int) else wrapInt32 (2 + (n : Int))) = 1) :
    cacheRunInt32 threeFiles (NewDataFileCache 2, fun _ => 0)
        (List.replicate (n + 1) (CacheOp.ref 1) ++ [CacheOp.evict 1]) =
      ({ l := [], hash := [], capacity := 2 }, Function.update (fun _ => 0) 1 (n + 1)) := by
  rw [cacheRunInt32_snoc, newCache_refs, hX, oneEntry_evict]

/-- C17, counterexample: `2^32` calls `Ref(1)` and no `Unref`, then `Evict(1)`.  The
`int32` count of the entry, `2^32 + 1` exactly, has wrapped to `1`; `Evict` takes the
entry out of the list, brings the count to `0` and closes the segment, although `2^32`
references to it are outstanding. -/
theorem C17_counterexample :
    alookup 1 (cacheRunInt32 threeFiles (NewDataFileCache 2, fun _ => 0)
        (List.replicate (2 ^ 32) (CacheOp.ref 1) ++ [CacheOp.evict 1])).1.hash = none ∧
      (cacheRunInt32 threeFiles (NewDataFileCache 2, fun _ => 0)
        (List.replicate (2 ^ 32) (CacheOp.ref 1) ++ [CacheOp.evict 1])).2 1 = 2 ^ 32 := by
  have h := newCache_refs_evict (2 ^ 32 - 1) (by norm_num [wrapInt32])
  rw [show 2 ^ 32 - 1 + 1 = 2 ^ 32 from by norm_num] at h
  rw [h]
  refine ⟨rfl, ?_⟩
  simp only [Function.update_same]

set_option maxRecDepth 1000000 in
/-- C17, witness: with capacity 1, segment 1 is held while `Ref(2)` pushes it out of
the list; the `Unref` of its holder then closes it: it is out of the index. -/
theorem C17_held_entries_stay_open_witness :
    (∃ e, alookup 1 (cacheRunInt32 threeFiles (NewDataFileCache 1, fun _ => 0)
        [CacheOp.ref 1, CacheOp.ref 2]).1.hash = some e ∧ e.inList = false) ∧
      alookup 1 (cacheRunInt32 threeFiles (NewDataFileCache 1, fun _ => 0)
        ([CacheOp.ref 1, CacheOp.ref 2] ++ [CacheOp.unref 1])).1.hash = none :=
  ⟨by decide!,
   ((C17_held_entries_stay_open threeFiles 1 [CacheOp.ref 1, CacheOp.ref 2] (CacheOp.unref 1)
      ⟨by decide!, by decide!, by decide!, trivial⟩).2.2.2 1).mpr ⟨by decide!, by decide!⟩⟩

set_option maxRecDepth 1000000 in
/-- C23, witness: after `Ref(1)`, `Ref(2)`, `Unref(1)`, a `Ref(3)` makes an entry with a
count of 2, in the list. -/
theorem C23_reference_accounting_witness :
    ∃ e, alookup 3
        ((cacheRunInt32 threeFiles (NewDataFileCache 2, fun _ => 0)
          [CacheOp.ref 1, CacheOp.ref 2, CacheOp.unref 1]).1.RefInt32 threeFiles 3).1.hash =
          some e ∧ e.refCount = 2 ∧ e.inList = true :=
  ((C23_reference_accounting threeFiles 2 [CacheOp.ref 1, CacheOp.ref 2, CacheOp.unref 1]
    ⟨by decide!, by decide!, by decide!, trivial⟩).2 3 [3] (by decide!) (by decide!)).1

theorem foldRecords_nil {σ : Type} (fn : Record → Nat → Nat → σ → σ × Option Error)
    (f o : Nat) (s : σ) : foldRecords fn f o [] s = (s, none) := rfl

section flags

variable {F : Nat → Nat → Prop} [IsRefl Nat F]

end flags

end beecask
